import Mathlib

/-!
# DEFLATE / INFLATE cores (`deflate.cpp`, `inflate.cpp`): embedding and proofs

The C++ cores are embedded as pure Lean functions.

Conventions of the embedding
* `uint8_t`, `uint16_t`, `uint32_t` and `unsigned` values are natural numbers; every
  assignment that can truncate is written with an explicit `% 2 ^ w`.
* A C array is a function `Nat → Nat` (index to byte) or, where the source only ever
  appends at a running position, a `List Nat`.  The fixed capacities (`3000`) are not
  part of the embedding.
* Locals that the source never initialises (the arrays `dict`, `dict_string_start_pos`,
  `comp_window`, `compare_window_string_start_pos`, `output_buffer`, `output_array`, the
  lookup tables, and scalars such as `proc_bits_num`) start zero-filled.  The emptiness test `dict_string_start_pos[t][hash_value] != '\0'`
  of `LZ77` presupposes exactly this, and it is what a synthesised memory holds.
* An `hls::stream<uint32_t>` is the list of words still to be read.  `read` on an empty
  stream yields the word `0` (what the C simulation library returns); `empty()` is
  `isEmpty`.
* `while` loops carry a fuel argument that the callers set high enough for the loop to
  finish; where the source can spin forever the result is `none`.
-/

namespace HlsDeflate

/-! ## Constants of `deflate.h` -/

/-- Bytes handled per iteration (`#define VEC 4`). -/
def VEC : Nat := 4

/-- Longest match (`#define LEN 32`). -/
def LEN : Nat := 32

/-- Number of dictionaries (`#define NUM_DICT 4`). -/
def NUM_DICT : Nat := 4

/-- Slots of each dictionary (`#define HASH_TABLE_SIZE 2048`). -/
def HASH_TABLE_SIZE : Nat := 2048

/-! ## Streams and arrays -/

/-- Blocking `input.read(word)`: the word read and the rest of the stream.  An empty
stream yields `0`. -/
def stream_read (input : List Nat) : Nat × List Nat :=
  match input with
  | [] => (0, [])
  | w :: rest => (w, rest)

/-- Array store `a[i] = v` on an array seen as a function. -/
def upd (a : Nat → Nat) (i v : Nat) : Nat → Nat :=
  fun j => if j = i then v else a j

/-- Bytes of one 32-bit word, most significant first (the unpacking written out in
`LZ77` and in the test bench). -/
def word_bytes (w : Nat) : List Nat :=
  [(w &&& 0xFF000000) >>> 24, (w &&& 0x00FF0000) >>> 16, (w &&& 0x0000FF00) >>> 8,
   w &&& 0x000000FF]

/-- Big-endian word built from four bytes (the packing written out in `LZ77_decoder`,
`huffman` and the test bench). -/
def pack_word (b0 b1 b2 b3 : Nat) : Nat :=
  ((b0 <<< 24) ||| (b1 <<< 16) ||| (b2 <<< 8) ||| b3) % 2 ^ 32

/-- Words `0 .. count-1` of a byte array, four bytes per word, big-endian. -/
def pack_words (a : Nat → Nat) (count : Nat) : List Nat :=
  (List.range count).map
    (fun i => pack_word (a (i * 4)) (a (i * 4 + 1)) (a (i * 4 + 2)) (a (i * 4 + 3)))

/-- All bytes of a word stream, big-endian. -/
def unpack_words (ws : List Nat) : List Nat :=
  ws.flatMap word_bytes

/-- Big-endian packing of a byte sequence into whole words, the last word padded with
zero bytes. -/
def pack_bytes (bs : List Nat) : List Nat :=
  pack_words (fun i => bs.getD i 0) ((bs.length + 3) / 4)

/-! ## `reverse` and `changeToLittleEndian` -/

/-- Loop `REVERSE_BITS` of `reverse<T>`; `W` is the bit width of `T`. -/
def REVERSE_BITS (W : Nat) : Nat → Nat → Nat → Nat
  | 0, _, rv => rv
  | k + 1, n, rv => REVERSE_BITS W k (n >>> 1) ((rv <<< 1) % 2 ^ W ||| (n &&& 0x01))

/-- Template `T reverse(T n, unsigned bits_num)` at a type `T` of `W` bits. -/
def reverse (W : Nat) (n bits_num : Nat) : Nat :=
  REVERSE_BITS W bits_num n 0

/-- Function `changeToLittleEndian`: every byte of the word bit-reversed in place
(`reverse` is instantiated at `uint32_t`, the results are stored in `uint8_t`). -/
def changeToLittleEndian (next_word : Nat) : Nat :=
  let byte1 := reverse 32 ((next_word &&& 0xFF000000) >>> 24) 8 % 2 ^ 8
  let byte2 := reverse 32 ((next_word &&& 0x00FF0000) >>> 16) 8 % 2 ^ 8
  let byte3 := reverse 32 ((next_word &&& 0x0000FF00) >>> 8) 8 % 2 ^ 8
  let byte4 := reverse 32 (next_word &&& 0x000000FF) 8 % 2 ^ 8
  ((byte1 <<< 24) ||| (byte2 <<< 16) ||| (byte3 <<< 8) ||| byte4) % 2 ^ 32

/-! ## `huffman` (static mode, `mode == 1`) -/

/-- Variables of `huffman` that live across iterations of `STATIC_HUFFMAN`. -/
structure HuffState where
  output_buffer : Nat → Nat
  output_pos : Nat
  output_char_remaining_bits : Nat
  length_code : Nat
  length_valid_bits_num : Nat
  offset_code : Nat
  offset_valid_bits_num : Nat

/-- State before `STATIC_HUFFMAN`: `output_buffer[0] = 0xC0`, five free bits. -/
def huffman_init : HuffState :=
  { output_buffer := upd (fun _ => 0) 0 0xC0
    output_pos := 0
    output_char_remaining_bits := 5
    length_code := 0
    length_valid_bits_num := 0
    offset_code := 0
    offset_valid_bits_num := 0 }

/-- The `if`/`else if` chain on `length`: the new `(length_code, length_valid_bits_num)`;
the two error branches leave the old pair `old`. -/
def huffman_length_code (length : Nat) (old : Nat × Nat) : Nat × Nat :=
  if length ≥ 115 ∨ length < 3 then old
  else if length ≥ 3 ∧ length ≤ 10 then (length - 2, 7)
  else if length = 11 ∨ length = 12 then (0b00010010 + (length - 11), 8)
  else if length = 13 ∨ length = 14 then (0b00010100 + (length - 13), 8)
  else if length = 15 ∨ length = 16 then (0b00010110 + (length - 15), 8)
  else if length = 17 ∨ length = 18 then (0b00011000 + (length - 17), 8)
  else if length ≥ 19 ∧ length ≤ 22 then (0b000110100 + (length - 19), 9)
  else if length ≥ 23 ∧ length ≤ 26 then (0b000111000 + (length - 23), 9)
  else if length ≥ 27 ∧ length ≤ 30 then (0b000111100 + (length - 27), 9)
  else if length ≥ 31 ∧ length ≤ 34 then (0b001000000 + (length - 31), 9)
  else if length ≥ 35 ∧ length ≤ 42 then (0b0010001000 + (length - 35), 10)
  else if length ≥ 43 ∧ length ≤ 50 then (0b0010010000 + (length - 43), 10)
  else if length ≥ 51 ∧ length ≤ 58 then (0b0010011000 + (length - 51), 10)
  else if length ≥ 59 ∧ length ≤ 66 then (0b0010100000 + (length - 59), 10)
  else if length ≥ 67 ∧ length ≤ 82 then (0b00101010000 + (length - 67), 11)
  else if length ≥ 83 ∧ length ≤ 98 then (0b00101100000 + (length - 83), 11)
  else if length ≥ 99 ∧ length ≤ 114 then (0b00101110000 + (length - 99), 11)
  else old

/-- The `if`/`else if` chain on `offset`: the new `(offset_code, offset_valid_bits_num)`;
the error branch leaves the old pair `old`. -/
def huffman_offset_code (offset : Nat) (old : Nat × Nat) : Nat × Nat :=
  if offset ≥ 1 ∧ offset ≤ 4 then (offset - 1, 5)
  else if offset ≥ 5 ∧ offset ≤ 6 then (0b001000 + (offset - 5), 6)
  else if offset ≥ 7 ∧ offset ≤ 8 then (0b001010 + (offset - 7), 6)
  else if offset ≥ 9 ∧ offset ≤ 12 then (0b0011000 + (offset - 9), 7)
  else if offset ≥ 13 ∧ offset ≤ 16 then (0b0011100 + (offset - 13), 7)
  else if offset ≥ 17 ∧ offset ≤ 24 then (0b01000000 + (offset - 17), 8)
  else if offset ≥ 25 ∧ offset ≤ 32 then (0b01001000 + (offset - 25), 8)
  else if offset ≥ 33 ∧ offset ≤ 48 then (0b010100000 + (offset - 33), 9)
  else if offset ≥ 49 ∧ offset ≤ 64 then (0b010110000 + (offset - 49), 9)
  else if offset ≥ 65 ∧ offset ≤ 96 then (0b0110000000 + (offset - 65), 10)
  else if offset ≥ 97 ∧ offset ≤ 128 then (0b0110100000 + (offset - 97), 10)
  else if offset ≥ 129 ∧ offset ≤ 192 then (0b01110000000 + (offset - 129), 11)
  else if offset ≥ 193 ∧ offset ≤ 256 then (0b01111000000 + (offset - 193), 11)
  else if offset ≥ 257 ∧ offset ≤ 384 then (0b100000000000 + (offset - 257), 12)
  else if offset ≥ 385 ∧ offset ≤ 512 then (0b100010000000 + (offset - 385), 12)
  else if offset ≥ 513 ∧ offset ≤ 768 then (0b1001000000000 + (offset - 513), 13)
  else if offset ≥ 769 ∧ offset ≤ 1024 then (0b1001100000000 + (offset - 769), 13)
  else if offset ≥ 1025 ∧ offset ≤ 1536 then (0b10100000000000 + (offset - 1025), 14)
  else if offset ≥ 1537 ∧ offset ≤ 2048 then (0b10101000000000 + (offset - 1537), 14)
  else if offset ≥ 2049 ∧ offset ≤ 3072 then (0b101100000000000 + (offset - 2049), 15)
  else if offset ≥ 3073 ∧ offset ≤ 4096 then (0b101110000000000 + (offset - 3073), 15)
  else old

/-- Loop `STATIC_HUFFMAN_WRITE_OUTPUT`: whole bytes of `length_and_offset` while
`remaining_bits_to_output >= 8`.  Result: buffer, position, `length_and_offset`,
`remaining_bits_to_output`. -/
def STATIC_HUFFMAN_WRITE_OUTPUT :
    Nat → (Nat → Nat) → Nat → Nat → Nat → (Nat → Nat) × Nat × Nat × Nat
  | 0, buf, pos, lao, remaining => (buf, pos, lao, remaining)
  | fuel + 1, buf, pos, lao, remaining =>
    if remaining ≥ 8 then
      STATIC_HUFFMAN_WRITE_OUTPUT fuel (upd buf pos ((lao &&& 0xFF000000) >>> 24)) (pos + 1)
        ((lao <<< 8) % 2 ^ 32) (remaining - 8)
    else (buf, pos, lao, remaining)

/-- Match branch of `STATIC_HUFFMAN` from `STATIC_HUFFMAN_WRITE_OUTPUT` to its end, with
the byte under construction on a byte boundary: the whole bytes, then the
follow-up bits (fewer than 8).  Result: buffer, `output_pos`,
`output_char_remaining_bits`. -/
def huffman_write_tail (output_buffer : Nat → Nat)
    (output_pos output_char_remaining_bits length_and_offset remaining_bits_to_output : Nat) :
    (Nat → Nat) × Nat × Nat :=
  match STATIC_HUFFMAN_WRITE_OUTPUT remaining_bits_to_output output_buffer output_pos
      length_and_offset remaining_bits_to_output with
  | (buf, pos, lao, remaining) =>
    if remaining = 0 then (buf, pos, output_char_remaining_bits)
    else (upd buf pos ((lao >>> 24) % 2 ^ 8), pos, 8 - remaining)

/-- Match branch of `STATIC_HUFFMAN` after `length_and_offset` is combined: the
`remaining_bits_to_output` upper bits of `length_and_offset` go to the output buffer.
Result: buffer, `output_pos`, `output_char_remaining_bits`. -/
def huffman_write_code (output_buffer : Nat → Nat)
    (output_pos output_char_remaining_bits length_and_offset remaining_bits_to_output : Nat) :
    (Nat → Nat) × Nat × Nat :=
  if output_char_remaining_bits ≠ 8 then
    -- not a 8-bit boundary to start, move the 8-bit boundary
    let output_char_buffer := (length_and_offset >>> (32 - output_char_remaining_bits)) % 2 ^ 8
    huffman_write_tail
      (upd output_buffer output_pos (output_buffer output_pos ||| output_char_buffer))
      (output_pos + 1) 8
      ((length_and_offset <<< output_char_remaining_bits) % 2 ^ 32)
      ((remaining_bits_to_output + 2 ^ 32 - output_char_remaining_bits) % 2 ^ 32)
  else
    huffman_write_tail output_buffer output_pos output_char_remaining_bits length_and_offset
      remaining_bits_to_output

/-- Branch `input_char == '@'` of `STATIC_HUFFMAN` for the record whose bytes after the
marker are `b1 b2 b3` (`input[input_pos + 1 .. 3]`). -/
def huffman_match (st : HuffState) (b1 b2 b3 : Nat) : HuffState :=
  let length := b3
  let lc := huffman_length_code length (st.length_code, st.length_valid_bits_num)
  let offset := b1 * 128 + b2
  let oc := huffman_offset_code offset (st.offset_code, st.offset_valid_bits_num)
  let remaining_bits_to_output := lc.2 + oc.2
  let length_and_offset :=
    ((lc.1 <<< (32 - lc.2)) ||| (oc.1 <<< (32 - remaining_bits_to_output))) % 2 ^ 32
  let w := huffman_write_code st.output_buffer st.output_pos st.output_char_remaining_bits
    length_and_offset remaining_bits_to_output
  { output_buffer := w.1, output_pos := w.2.1, output_char_remaining_bits := w.2.2
    length_code := lc.1, length_valid_bits_num := lc.2
    offset_code := oc.1, offset_valid_bits_num := oc.2 }

/-- Branch `input_char <= 143` of `STATIC_HUFFMAN` (edoc 0-143, 8-bit code). -/
def huffman_literal_8 (st : HuffState) (input_char : Nat) : HuffState :=
  let code_8_bits := (input_char + 0x30) % 2 ^ 8
  let r := st.output_char_remaining_bits
  if r = 8 then
    { st with output_buffer := upd st.output_buffer st.output_pos code_8_bits
              output_pos := st.output_pos + 1 }
  else
    let output_char_buffer := (code_8_bits >>> (8 - r)) % 2 ^ 8
    let buf := upd st.output_buffer st.output_pos
      (st.output_buffer st.output_pos ||| output_char_buffer)
    { st with output_buffer := upd buf (st.output_pos + 1) ((code_8_bits <<< r) % 2 ^ 8)
              output_pos := st.output_pos + 1 }

/-- Branch `input_char > 143` of `STATIC_HUFFMAN` (edoc 144-255, 9-bit code). -/
def huffman_literal_9 (st : HuffState) (input_char : Nat) : HuffState :=
  let code_9_bits := (input_char - 144 + 0x190) % 2 ^ 16
  let r := st.output_char_remaining_bits
  let output_char_buffer := (code_9_bits >>> (9 - r)) % 2 ^ 8
  let buf := upd st.output_buffer st.output_pos
    (st.output_buffer st.output_pos ||| output_char_buffer)
  let output_char_buffer := (code_9_bits <<< r) % 2 ^ 8
  let buf := upd buf (st.output_pos + 1) output_char_buffer
  let r := r - 1
  if r = 0 then
    { st with output_buffer := buf, output_pos := st.output_pos + 2
              output_char_remaining_bits := 8 }
  else
    { st with output_buffer := buf, output_pos := st.output_pos + 1
              output_char_remaining_bits := r }

/-- Normal literals: the `else` branch of `if (input_char == '@')`. -/
def huffman_literal (st : HuffState) (input_char : Nat) : HuffState :=
  if input_char ≤ 143 then huffman_literal_8 st input_char
  else huffman_literal_9 st input_char

/-- Loop `STATIC_HUFFMAN`: `while (input[input_pos] != '\0')`.  Reads past the end of
the list see `0`. -/
def STATIC_HUFFMAN (input : List Nat) : Nat → Nat → HuffState → HuffState
  | 0, _, st => st
  | fuel + 1, input_pos, st =>
    let input_char := input.getD input_pos 0
    if input_char = 0 then st
    else if input_char = 0x40 then
      STATIC_HUFFMAN input fuel (input_pos + 4)
        (huffman_match st (input.getD (input_pos + 1) 0) (input.getD (input_pos + 2) 0)
          (input.getD (input_pos + 3) 0))
    else
      STATIC_HUFFMAN input fuel (input_pos + 1) (huffman_literal st input_char)

/-- End of `huffman`: the zero byte that carries edoc 256, then the buffer written to
the stream, every byte bit-reversed (`reverse` at `uint8_t`). -/
def huffman_finish (st : HuffState) : List Nat :=
  let buf :=
    if st.output_char_remaining_bits = 8 then upd st.output_buffer st.output_pos 0
    else upd st.output_buffer (st.output_pos + 1) 0
  let output_pos := st.output_pos + 1
  let copy_count := (output_pos + 1) / 4 + 1
  pack_words (fun i => reverse 8 (buf i) 8) copy_count

/-- Function `huffman`: the words written to `output` for the token array `input`. -/
def huffman (input : List Nat) : List Nat :=
  huffman_finish (STATIC_HUFFMAN input (input.length + 1) 0 huffman_init)

/-! ## `LZ77` -/

/-- Variables of `LZ77` that live across iterations of `CONTROL_LOOP`.  `output` holds
`output[0 .. output_position-1]`. -/
structure LZ77State where
  input : List Nat
  curr_window : Nat → Nat
  dict : Nat → Nat → Nat → Nat
  dict_string_start_pos : Nat → Nat → Nat
  comp_window : Nat → Nat → Nat → Nat
  compare_window_string_start_pos : Nat → Nat → Nat
  start_match_position : Nat
  offset : Int
  first_valid_position : Nat
  current_index : Nat
  output : List Nat

/-- The four byte stores that unpack `input_word` into `curr_window[base .. base+3]`. -/
def store_word (curr_window : Nat → Nat) (base input_word : Nat) : Nat → Nat :=
  upd (upd (upd (upd curr_window base ((input_word &&& 0xFF000000) >>> 24))
    (base + 1) ((input_word &&& 0x00FF0000) >>> 16))
    (base + 2) ((input_word &&& 0x0000FF00) >>> 8))
    (base + 3) (input_word &&& 0x000000FF)

/-- First filling of the processing buffer: `for (char i = 1; i < 9; i++)`, here from
`i` for `n` rounds. -/
def LZ77_fill : Nat → Nat → List Nat → (Nat → Nat) → List Nat × (Nat → Nat)
  | 0, _, input, curr_window => (input, curr_window)
  | n + 1, i, input, curr_window =>
    let r := stream_read input
    LZ77_fill n (i + 1) r.2 (store_word curr_window (i * 4) r.1)

/-- State at the head of `CONTROL_LOOP`. -/
def LZ77_init (input : List Nat) : LZ77State :=
  let f := LZ77_fill 8 1 input (fun _ => 0)
  { input := f.1
    curr_window := f.2
    dict := fun _ _ _ => 0
    dict_string_start_pos := fun _ _ => 0
    comp_window := fun _ _ _ => 0
    compare_window_string_start_pos := fun _ _ => 0
    start_match_position := 0
    offset := 0
    first_valid_position := 4
    current_index := 0
    output := [] }

/-- The hash of the four bytes at `curr_window[i ..]` (used for lookup and update). -/
def hash_value (curr_window : Nat → Nat) (i : Nat) : Nat :=
  (curr_window i <<< 3) ^^^ (curr_window (i + 1) <<< 2) ^^^ (curr_window (i + 2) <<< 1)
    ^^^ (curr_window (i + 3))

/-- Loop `COMPARE_EACH_CHAR` for substring `j` against one compare window `comp`:
the number of equal leading bytes, counted from `k` for at most `fuel` bytes. -/
def COMPARE_EACH_CHAR (curr_window comp : Nat → Nat) (j : Nat) : Nat → Nat → Nat
  | 0, _ => 0
  | fuel + 1, k =>
    if curr_window (j + k) = comp k then 1 + COMPARE_EACH_CHAR curr_window comp j fuel (k + 1)
    else 0

/-- Loops `FIND_MATCHING_LENGTH` / `UPDATE_BESTLENGTH` seen from lane `m`:
`bestlength[m]` as `(string_start_pos, length)` after the dictionaries in `ts`. -/
def UPDATE_BESTLENGTH (curr_window : Nat → Nat) (comp_window : Nat → Nat → Nat → Nat)
    (compare_window_string_start_pos : Nat → Nat → Nat) (m : Nat) :
    List Nat → Nat × Nat → Nat × Nat
  | [], best => best
  | i :: ts, best =>
    let length := COMPARE_EACH_CHAR curr_window (comp_window i m) m LEN 0
    UPDATE_BESTLENGTH curr_window comp_window compare_window_string_start_pos m ts
      (if length > best.2 then (compare_window_string_start_pos i m, length) else best)

/-- Result of `CLEAN_BESTLENGTH` and `FIND_MATCHING_LENGTH`: `bestlength[m]` as
`(string_start_pos, length)`. -/
def bestlength (curr_window : Nat → Nat) (comp_window : Nat → Nat → Nat → Nat)
    (compare_window_string_start_pos : Nat → Nat → Nat) (m : Nat) : Nat × Nat :=
  UPDATE_BESTLENGTH curr_window comp_window compare_window_string_start_pos m
    (List.range NUM_DICT) (0, 0)

/-- Variables written by `CHOOSE_MATCHING_STRING`. -/
structure Choice where
  temp_valid_position : Nat
  match_length : Nat
  start_match_position : Nat
  offset : Int

/-- Loop `CHOOSE_MATCHING_STRING` over the lanes `is`. -/
def CHOOSE_MATCHING_STRING (best : Nat → Nat × Nat) (current_index : Nat) :
    List Nat → Choice → Choice
  | [], c => c
  | i :: is, c =>
    CHOOSE_MATCHING_STRING best current_index is
      (if (best i).2 ≥ 3 ∧ i + (best i).2 > c.temp_valid_position then
        { temp_valid_position := i + (best i).2
          match_length := (best i).2
          start_match_position := i
          offset := ((current_index + i : Nat) : Int) - ((best i).1 : Int) }
       else c)

/-- The literal loops `while (first_valid_position < bound)` (`FILL_LOOP_LITERAL`,
`FILL_LOOP_UNTIL_NEXT_BUFFER`, `FILL_LOOP_NO_COMPRESSION`): new output and new
`first_valid_position`. -/
def FILL_LOOP (curr_window : Nat → Nat) (bound : Nat) (output : List Nat)
    (first_valid_position : Nat) : List Nat × Nat :=
  (output ++ (List.range' first_valid_position (bound - first_valid_position)).map curr_window,
   max first_valid_position bound)

/-- Start of an iteration of `CONTROL_LOOP`: `curr_window` after "Shift current window"
and "Load in new data". -/
def shift_and_load (curr_window : Nat → Nat) (input : List Nat) : Nat → Nat :=
  let cw := fun i => if i < LEN then curr_window (VEC + i) else curr_window i
  if input.isEmpty then cw else store_word cw LEN (stream_read input).1

/-- Loops `SUBSTRING_MATCHING` / `DICT_MATCHING`: whether lane `i` finds slot
`hash_value` of dictionary `t` populated (`dict_string_start_pos[t][hash_value] != '\0'`). -/
def found (dict_string_start_pos : Nat → Nat → Nat) (cw : Nat → Nat) (t i : Nat) : Prop :=
  t < NUM_DICT ∧ i < VEC ∧ dict_string_start_pos t (hash_value cw i) ≠ 0

instance (dict_string_start_pos : Nat → Nat → Nat) (cw : Nat → Nat) (t i : Nat) :
    Decidable (found dict_string_start_pos cw t i) := by
  unfold found; exact inferInstance

/-- Loops `SUBSTRING_MATCHING` / `DICT_MATCHING`: the new `compare_window_string_start_pos`. -/
def matching_start_pos (st : LZ77State) (cw : Nat → Nat) : Nat → Nat → Nat :=
  fun t i =>
    if found st.dict_string_start_pos cw t i then st.dict_string_start_pos t (hash_value cw i)
    else st.compare_window_string_start_pos t i

/-- Loop `COPY_LOOP_MATCHING` inside `DICT_MATCHING`: the new `comp_window`. -/
def COPY_LOOP_MATCHING (st : LZ77State) (cw : Nat → Nat) : Nat → Nat → Nat → Nat :=
  fun t i j =>
    if found st.dict_string_start_pos cw t i ∧ j < LEN then st.dict t (hash_value cw i) j
    else st.comp_window t i j

/-- Step "4. Fill In the Output Array" of an iteration: new output and new
`first_valid_position`.  `offset >> 7` and `offset & 0x07F` on the `int` offset are the
quotient and the remainder by 128; the stores into `uint8_t` cut to 8 bits. -/
def fill_output (cw : Nat → Nat) (output : List Nat) (first_valid_position : Nat) (c : Choice) :
    List Nat × Nat :=
  if c.match_length > 0 ∧ c.offset < 4096 then
    let l := FILL_LOOP cw c.start_match_position output first_valid_position
    let output := l.1 ++ [0x40, ((c.offset / 128) % 256).toNat, ((c.offset % 128) % 256).toNat,
      c.match_length % 256]
    FILL_LOOP cw VEC output c.temp_valid_position
  else FILL_LOOP cw VEC output first_valid_position

/-- Loops `UPDATE_DICT` / `UPDATE_COPY_STRING`: the new `dict`. -/
def UPDATE_COPY_STRING (dict : Nat → Nat → Nat → Nat) (cw : Nat → Nat) :
    Nat → Nat → Nat → Nat :=
  fun t h j => if t < VEC ∧ h = hash_value cw t ∧ j < LEN then cw (t + j) else dict t h j

/-- Loop `UPDATE_DICT`: the new `dict_string_start_pos`. -/
def UPDATE_DICT (dict_string_start_pos : Nat → Nat → Nat) (cw : Nat → Nat)
    (current_index : Nat) : Nat → Nat → Nat :=
  fun t h => if t < VEC ∧ h = hash_value cw t then current_index + t
    else dict_string_start_pos t h

/-- The choice made by "3. Match Filtering" in an iteration whose window is `cw`. -/
def match_filtering (st : LZ77State) (cw : Nat → Nat) : Choice :=
  let first_valid_position := st.first_valid_position - VEC
  let best := bestlength cw (COPY_LOOP_MATCHING st cw) (matching_start_pos st cw)
  CHOOSE_MATCHING_STRING best st.current_index
    (List.range' first_valid_position (VEC - first_valid_position))
    { temp_valid_position := first_valid_position, match_length := 0
      start_match_position := st.start_match_position, offset := st.offset }

/-- One iteration of `CONTROL_LOOP`. -/
def CONTROL_LOOP_body (st : LZ77State) : LZ77State :=
  let cw := shift_and_load st.curr_window st.input
  let input := if st.input.isEmpty then st.input else (stream_read st.input).2
  -- minus VEC since the buffer will be shifted to left
  let first_valid_position := st.first_valid_position - VEC
  let c := match_filtering st cw
  let out := fill_output cw st.output first_valid_position c
  { input := input
    curr_window := cw
    dict := UPDATE_COPY_STRING st.dict cw
    dict_string_start_pos := UPDATE_DICT st.dict_string_start_pos cw st.current_index
    comp_window := COPY_LOOP_MATCHING st cw
    compare_window_string_start_pos := matching_start_pos st cw
    start_match_position := c.start_match_position
    offset := c.offset
    first_valid_position := out.2
    current_index := st.current_index + VEC
    output := out.1 }

/-- Loop `CONTROL_LOOP` run `iteration_count` times. -/
def CONTROL_LOOP : Nat → LZ77State → LZ77State
  | 0, st => st
  | n + 1, st => CONTROL_LOOP n (CONTROL_LOOP_body st)

/-- Loop `FILL_LOOP_REMAINING_BYTES`: `while (curr_window[first_valid_position] != '\0')`.
The fuel is the distance to the end of `curr_window`; what lies behind the array reads
as `0`. -/
def FILL_LOOP_REMAINING_BYTES (curr_window : Nat → Nat) :
    Nat → Nat → List Nat → List Nat
  | 0, _, output => output
  | fuel + 1, first_valid_position, output =>
    if curr_window first_valid_position ≠ 0 then
      FILL_LOOP_REMAINING_BYTES curr_window fuel (first_valid_position + 1)
        (output ++ [curr_window first_valid_position])
    else output

/-- Function `LZ77`: the bytes `output[0 .. output_position]` written for the word
stream `input`, the final `'\0'` included. -/
def LZ77 (input : List Nat) (size : Nat) : List Nat :=
  let iteration_count := size / VEC
  let st := CONTROL_LOOP iteration_count (LZ77_init input)
  FILL_LOOP_REMAINING_BYTES st.curr_window (VEC + LEN - st.first_valid_position)
    st.first_valid_position st.output ++ [0]

/-- Function `Deflate`: `LZ77(input, 2250, LZ77_output); huffman(LZ77_output, output)`. -/
def Deflate (input : List Nat) : List Nat :=
  huffman (LZ77 input 2250)

/-! ## `LZ77_decoder` -/

/-- Loop `COPY_MATCHED_CHAR`: `output_array[output_pos++] = output_array[matching_start_pos++]`,
`n` times.  `output_array` is the list of the `output_pos` bytes written so far; a
position not yet written reads as `0`. -/
def COPY_MATCHED_CHAR : Nat → List Nat → Nat → List Nat
  | 0, output_array, _ => output_array
  | n + 1, output_array, matching_start_pos =>
    COPY_MATCHED_CHAR n (output_array ++ [output_array.getD matching_start_pos 0])
      (matching_start_pos + 1)

/-- Loop `LZ77_MAIN_LOOP`: `while (input[curr] != '\0')`; `input` is the array from
`curr` on. -/
def LZ77_MAIN_LOOP : Nat → List Nat → List Nat → List Nat
  | 0, _, output_array => output_array
  | fuel + 1, input, output_array =>
    if input.getD 0 0 = 0 then output_array
    else if input.getD 0 0 = 0x40 then
      let offset := input.getD 1 0 * 128 + input.getD 2 0
      let matching_start_pos := output_array.length - offset
      LZ77_MAIN_LOOP fuel (input.drop 4)
        (COPY_MATCHED_CHAR (input.getD 3 0) output_array matching_start_pos)
    else
      LZ77_MAIN_LOOP fuel (input.drop 1) (output_array ++ [input.getD 0 0])

/-- Function `LZ77_decoder`: the words written to `output`. -/
def LZ77_decoder (input : List Nat) : List Nat :=
  let output_array := LZ77_MAIN_LOOP (input.length + 1) input []
  let output_pos := output_array.length
  let copy_count := (output_pos + 1) / 4 + 1
  pack_words (fun i => (output_array ++ [0]).getD i 0) copy_count

/-! ## `huffman_decoder`, static branch -/

/-- Function `decoder_get_offset`: the offset and the new `proc_bits_num`.  In the
error branch the source returns its unset local `offset`, here `0`, and leaves
`proc_bits_num` as it is. -/
def decoder_get_offset (proc_bits_num proc_buffer : Nat) : Nat × Nat :=
  let offset_5_bits := ((proc_buffer >>> (27 - proc_bits_num)) &&& 0x0000001F) % 2 ^ 8
  if offset_5_bits ≥ 0 ∧ offset_5_bits ≤ 3 then
    (offset_5_bits + 1, proc_bits_num + 5)
  else if offset_5_bits = 4 ∨ offset_5_bits = 5 then
    (offset_5_bits * 2 - 3 + ((proc_buffer >>> (26 - proc_bits_num)) &&& 0x1), proc_bits_num + 6)
  else if offset_5_bits = 6 ∨ offset_5_bits = 7 then
    (offset_5_bits * 4 - 15 + ((proc_buffer >>> (25 - proc_bits_num)) &&& 0x3), proc_bits_num + 7)
  else if offset_5_bits = 8 ∨ offset_5_bits = 9 then
    (offset_5_bits * 8 - 47 + ((proc_buffer >>> (24 - proc_bits_num)) &&& 0x7), proc_bits_num + 8)
  else if offset_5_bits = 10 ∨ offset_5_bits = 11 then
    (offset_5_bits * 16 - 127 + ((proc_buffer >>> (23 - proc_bits_num)) &&& 0x0F),
      proc_bits_num + 9)
  else if offset_5_bits = 12 ∨ offset_5_bits = 13 then
    (offset_5_bits * 32 - 319 + ((proc_buffer >>> (22 - proc_bits_num)) &&& 0x1F),
      proc_bits_num + 10)
  else if offset_5_bits = 14 ∨ offset_5_bits = 15 then
    (offset_5_bits * 64 - 767 + ((proc_buffer >>> (21 - proc_bits_num)) &&& 0x3F),
      proc_bits_num + 11)
  else if offset_5_bits = 16 ∨ offset_5_bits = 17 then
    (offset_5_bits * 128 - 1791 + ((proc_buffer >>> (20 - proc_bits_num)) &&& 0x7F),
      proc_bits_num + 12)
  else if offset_5_bits = 18 ∨ offset_5_bits = 19 then
    (offset_5_bits * 256 - 4095 + ((proc_buffer >>> (19 - proc_bits_num)) &&& 0x0FF),
      proc_bits_num + 13)
  else if offset_5_bits = 20 ∨ offset_5_bits = 21 then
    (offset_5_bits * 512 - 9215 + ((proc_buffer >>> (18 - proc_bits_num)) &&& 0x1FF),
      proc_bits_num + 14)
  else if offset_5_bits = 22 ∨ offset_5_bits = 23 then
    (offset_5_bits * 1024 - 20479 + ((proc_buffer >>> (17 - proc_bits_num)) &&& 0x3FF),
      proc_bits_num + 15)
  else (0, proc_bits_num)

/-- Bit reader of `huffman_decoder` together with the variables that live across
iterations of `STATIC_MAIN_LOOP`.  `output` holds `decoding_output[0 .. output_pos-1]`.
`buffer_bits_num` is an `int` in the source; it is only ever tested with `> 0` and
`< 24` after a subtraction, so the subtraction is cut off at `0` here. -/
structure DecState where
  input : List Nat
  proc_buffer : Nat
  buffer_bits_num : Nat
  next_word : Nat
  next_word_bits : Nat
  done_decoding : Bool
  done_input : Bool
  length : Nat
  output : List Nat

/-- First half of the body of `STATIC_INPUT`: `proc_buffer |= (next_word >> buffer_bits_num)`
and the `if ((32 - buffer_bits_num) <= next_word_bits)` that follows. -/
def STATIC_INPUT_shift (st : DecState) : DecState :=
  let proc_buffer := st.proc_buffer ||| (st.next_word >>> st.buffer_bits_num)
  if 32 - st.buffer_bits_num ≤ st.next_word_bits then
    { st with proc_buffer := proc_buffer
              next_word := (st.next_word <<< (32 - st.buffer_bits_num)) % 2 ^ 32
              next_word_bits := st.next_word_bits - (32 - st.buffer_bits_num)
              buffer_bits_num := 32 }
  else
    { st with proc_buffer := proc_buffer
              buffer_bits_num := st.buffer_bits_num + st.next_word_bits
              next_word_bits := 0 }

/-- Second half of the body of `STATIC_INPUT`: `if (next_word_bits == 0)`, the next word
is read, or `done_input` is set when the stream is empty. -/
def STATIC_INPUT_read (st1 : DecState) : DecState :=
  if st1.next_word_bits = 0 then
    if st1.input.isEmpty then { st1 with done_input := true }
    else
      { st1 with next_word := changeToLittleEndian (stream_read st1.input).1
                 input := (stream_read st1.input).2
                 next_word_bits := 32 }
  else st1

/-- Loop `STATIC_INPUT` (the same text as `DYNAMIC_INPUT`):
`while (buffer_bits_num < 24 && !done_input)`. -/
def STATIC_INPUT : Nat → DecState → DecState
  | 0, st => st
  | fuel + 1, st =>
    if st.buffer_bits_num < 24 ∧ st.done_input = false then
      STATIC_INPUT fuel (STATIC_INPUT_read (STATIC_INPUT_shift st))
    else st

/-- The symbol decoding of one iteration of `STATIC_MAIN_LOOP`, after `STATIC_INPUT`:
the new state and `proc_bits_num`.  `proc_bits_num` is `0` on entry (it is reset at the
end of every iteration) and stays `0` in the branches that only print. -/
def static_decode_symbol (st : DecState) : DecState × Nat :=
  let proc_buffer := st.proc_buffer
  let copy_8_bits := (proc_buffer &&& 0xFF000000) >>> 24
  if copy_8_bits ≥ 0x30 ∧ copy_8_bits ≤ 0x0BF then
    ({ st with output := st.output ++ [copy_8_bits - 0x30] }, 8)
  else if copy_8_bits ≥ 0x0C0 ∧ copy_8_bits ≤ 0x0C7 then
    (st, 0)
  else
    let copy_8_bits := (proc_buffer >>> 25) &&& 0x7F
    if copy_8_bits = 0x0 then
      ({ st with done_decoding := true }, 7)
    else if copy_8_bits > 0x0 ∧ copy_8_bits ≤ 0x17 then
      let lp : Nat × Nat :=
        if copy_8_bits ≥ 0x1 ∧ copy_8_bits ≤ 0x08 then (copy_8_bits + 2, 7)
        else if copy_8_bits ≥ 0x09 ∧ copy_8_bits ≤ 0x0C then
          (copy_8_bits * 2 - 7 + ((proc_buffer &&& 0x01000000) >>> 24), 8)
        else if copy_8_bits ≥ 0x0D ∧ copy_8_bits ≤ 0x10 then
          (copy_8_bits * 4 - 33 + ((proc_buffer &&& 0x01800000) >>> 23), 9)
        else if copy_8_bits ≥ 0x11 ∧ copy_8_bits ≤ 0x14 then
          (copy_8_bits * 8 - 101 + ((proc_buffer &&& 0x01C00000) >>> 22), 10)
        else (st.length, 0)
      let length := lp.1
      let o := decoder_get_offset lp.2 proc_buffer
      let offset := o.1
      ({ st with length := length
                 output := st.output ++
                   [0x40, (offset >>> 7) % 2 ^ 8, (offset &&& 0x07F) % 2 ^ 8, length % 2 ^ 8] },
       o.2)
    else
      let copy_16_bits := (proc_buffer &&& 0xFF800000) >>> 23
      if copy_16_bits ≥ 0x190 ∧ copy_16_bits ≤ 0x1FF then
        ({ st with output := st.output ++ [(copy_16_bits - 0x190 + 144) % 2 ^ 8] }, 9)
      else (st, 0)

/-- Loop `STATIC_MAIN_LOOP`: `while (buffer_bits_num > 0 && !done_decoding)`.  An
iteration that consumes no bit (`proc_bits_num` still `0`) leaves the reader as it was,
so the source repeats it forever: the result is `none`. -/
def STATIC_MAIN_LOOP : Nat → DecState → Option DecState
  | 0, _ => none
  | fuel + 1, st =>
    if st.buffer_bits_num > 0 ∧ st.done_decoding = false then
      let st1 := STATIC_INPUT 3 st
      let d := static_decode_symbol st1
      let proc_bits_num := d.2
      if proc_bits_num = 0 then none
      else
        STATIC_MAIN_LOOP fuel
          { d.1 with proc_buffer := (d.1.proc_buffer <<< proc_bits_num) % 2 ^ 32
                     buffer_bits_num := d.1.buffer_bits_num - proc_bits_num }
    else some st

/-! ## `huffman_decoder`, dynamic branch -/

/-- Function `permute_CCL`: `hTable3[i].length` for every `i`. -/
def permute_CCL (CCL : Nat → Nat) : Nat → Nat :=
  fun i =>
    if i = 0 then CCL 3 else if i = 1 then CCL 17 else if i = 2 then CCL 15
    else if i = 3 then CCL 13 else if i = 4 then CCL 11 else if i = 5 then CCL 9
    else if i = 6 then CCL 7 else if i = 7 then CCL 5 else if i = 8 then CCL 4
    else if i = 9 then CCL 6 else if i = 10 then CCL 8 else if i = 11 then CCL 10
    else if i = 12 then CCL 12 else if i = 13 then CCL 14 else if i = 14 then CCL 16
    else if i = 15 then CCL 18 else if i = 16 then CCL 0 else if i = 17 then CCL 1
    else if i = 18 then CCL 2 else 0

/-- First loop of `get_huffman_table_*`: `bl_count[len]` after the symbols `0 .. n-1`. -/
def bl_count (lengths : Nat → Nat) (n len : Nat) : Nat :=
  ((List.range n).filter (fun i => lengths i = len)).length

/-- Second loop of `get_huffman_table_*`: `next_code[bits]` (with `bl_count[0] = 0`). -/
def next_code (lengths : Nat → Nat) (n : Nat) : Nat → Nat
  | 0 => 0
  | bits + 1 =>
    (next_code lengths n bits + (if bits = 0 then 0 else bl_count lengths n bits)) <<< 1

/-- Third loop of `get_huffman_table_*` over the symbols `0 .. k-1`: the array
`next_code` and the codes assigned so far.  `maxbits` is the size of `next_code`
(`16` or `8`), `cw` the width of the `code` field. -/
def assign_codes (lengths : Nat → Nat) (n maxbits cw : Nat) (code0 : Nat → Nat) :
    Nat → (Nat → Nat) × (Nat → Nat)
  | 0 => (fun bits => if bits = 0 ∨ bits ≥ maxbits then 0 else next_code lengths n bits % 2 ^ 32,
          code0)
  | k + 1 =>
    let r := assign_codes lengths n maxbits cw code0 k
    let len := lengths k
    if len ≠ 0 then (upd r.1 len ((r.1 len + 1) % 2 ^ 32), upd r.2 k (r.1 len % 2 ^ cw))
    else r

/-- Function `get_huffman_table_1`: the `code` fields of `hTable1[286]`
(`code` is a `uint16_t`). -/
def get_huffman_table_1 (valid_length code : Nat → Nat) : Nat → Nat :=
  (assign_codes valid_length 286 16 16 code 286).2

/-- Function `get_huffman_table_2`: the `code` fields of `hTable2[30]`. -/
def get_huffman_table_2 (valid_length code : Nat → Nat) : Nat → Nat :=
  (assign_codes valid_length 30 16 16 code 30).2

/-- Function `get_huffman_table_3`: the `code` fields of `hTable3[19]`
(`code` is a `uint8_t`, `next_code` has 8 entries). -/
def get_huffman_table_3 (length code : Nat → Nat) : Nat → Nat :=
  (assign_codes length 19 8 8 code 19).2

/-- Loops `BUILD_LOOKUP_TABLE_1/2/3` with their inner loops, for the symbols
`0 .. k-1` and a first level of `K` bits: entry `idx` as `(symbol, valid_bits)`.
Entries never written read as `(0, 0)`. -/
def BUILD_LOOKUP_TABLE (length code : Nat → Nat) (K : Nat) : Nat → Nat → Nat × Nat
  | 0, _ => (0, 0)
  | k + 1, idx =>
    let len := length k
    let start_pos := (code k <<< (K - len)) % 2 ^ 32
    let repeat_times := (1 <<< (K - len)) % 2 ^ 32
    if len ≠ 0 ∧ len ≤ K ∧ start_pos ≤ idx ∧ idx < start_pos + repeat_times then (k % 2 ^ 9, len)
    else BUILD_LOOKUP_TABLE length code K k idx

/-- Loop `GET_CCL` from `CCL_index` for `n` rounds: reader and the array `CCL`. -/
def GET_CCL : Nat → Nat → DecState → (Nat → Nat) → DecState × (Nat → Nat)
  | 0, _, st, CCL => (st, CCL)
  | n + 1, CCL_index, st, CCL =>
    let st1 : DecState :=
      if st.buffer_bits_num = 2 then
        { st with proc_buffer := st.proc_buffer ||| (st.next_word >>> 2)
                  buffer_bits_num := 32
                  next_word := (st.next_word <<< 30) % 2 ^ 32
                  next_word_bits := 2 }
      else st
    let c := reverse 3 ((st1.proc_buffer &&& 0xE0000000) >>> 29) 3
    let st2 : DecState :=
      { st1 with proc_buffer := (st1.proc_buffer <<< 3) % 2 ^ 32
                 buffer_bits_num := st1.buffer_bits_num - 3 }
    let st3 : DecState :=
      if st2.buffer_bits_num = 0 then
        { st2 with proc_buffer := st2.next_word
                   buffer_bits_num := 32
                   next_word := changeToLittleEndian (stream_read st2.input).1
                   input := (stream_read st2.input).2 }
      else st2
    GET_CCL n (CCL_index + 1) st3 (upd CCL CCL_index c)

/-- Loops `DECODE_CL1_INPUT` / `DECODE_CL2_INPUT`: `while (buffer_bits_num < 16)`.
With the stream empty and no bit left in `next_word` the source prints and tries
again forever: `none`. -/
def DECODE_CL_INPUT : Nat → DecState → Option DecState
  | 0, _ => none
  | fuel + 1, st =>
    if st.buffer_bits_num < 16 then
      let proc_buffer := st.proc_buffer ||| (st.next_word >>> st.buffer_bits_num)
      let st1 : DecState :=
        if 32 - st.buffer_bits_num ≤ st.next_word_bits then
          { st with proc_buffer := proc_buffer
                    next_word := (st.next_word <<< (32 - st.buffer_bits_num)) % 2 ^ 32
                    next_word_bits := st.next_word_bits - (32 - st.buffer_bits_num)
                    buffer_bits_num := 32 }
        else
          { st with proc_buffer := proc_buffer
                    buffer_bits_num := st.buffer_bits_num + st.next_word_bits
                    next_word_bits := 0 }
      let st2 : DecState :=
        if st1.next_word_bits = 0 ∧ ¬ st1.input.isEmpty then
          { st1 with next_word := changeToLittleEndian (stream_read st1.input).1
                     input := (stream_read st1.input).2
                     next_word_bits := 32 }
        else st1
      DECODE_CL_INPUT fuel st2
    else some st

/-- Stores `a[from + i] = v` for `i < n` (`FILL_HTABLE*_SYMBOL16/17/18`). -/
def fill_range (a : Nat → Nat) (start n v : Nat) : Nat → Nat :=
  fun j => if start ≤ j ∧ j < start + n then v else a j

/-- Loops `DECODE_CL1` / `DECODE_CL2` (the same text on `hTable1` and `hTable2`):
`while (CL_count < CL_num)`; result: reader, `valid_length` array, final count. -/
def DECODE_CL (lookup_table_CCL : Nat → Nat × Nat) (CL_num : Nat) :
    Nat → DecState → (Nat → Nat) → Nat → Option (DecState × (Nat → Nat) × Nat)
  | 0, _, _, _ => none
  | fuel + 1, st, valid_length, CL_count =>
    if CL_count < CL_num then
      match DECODE_CL_INPUT 3 st with
      | none => none
      | some st1 =>
        let copy_7_bits := (st1.proc_buffer &&& 0xFE000000) >>> 25
        let symbol := (lookup_table_CCL copy_7_bits).1
        let symbol_valid_bits := (lookup_table_CCL copy_7_bits).2
        let adv := fun (bits : Nat) =>
          { st1 with proc_buffer := (st1.proc_buffer <<< bits) % 2 ^ 32
                     buffer_bits_num := st1.buffer_bits_num - bits }
        if symbol = 16 then
          let extra_2_bits := reverse 2 ((st1.proc_buffer >>> (30 - symbol_valid_bits)) &&& 0x03) 2
          let repeat_count := (extra_2_bits + 3) % 2 ^ 8
          let repeated_length := valid_length (CL_count - 1)
          DECODE_CL lookup_table_CCL CL_num fuel (adv (symbol_valid_bits + 2))
            (fill_range valid_length CL_count repeat_count repeated_length)
            (CL_count + repeat_count)
        else if symbol = 17 then
          let extra_3_bits := reverse 3 ((st1.proc_buffer >>> (29 - symbol_valid_bits)) &&& 0x07) 3
          let repeat_count := (extra_3_bits + 3) % 2 ^ 8
          DECODE_CL lookup_table_CCL CL_num fuel (adv (symbol_valid_bits + 3))
            (fill_range valid_length CL_count repeat_count 0) (CL_count + repeat_count)
        else if symbol = 18 then
          let extra_7_bits := reverse 7 ((st1.proc_buffer >>> (25 - symbol_valid_bits)) &&& 0x07F) 7
          let repeat_count := (extra_7_bits + 11) % 2 ^ 8
          DECODE_CL lookup_table_CCL CL_num fuel (adv (symbol_valid_bits + 7))
            (fill_range valid_length CL_count repeat_count 0) (CL_count + repeat_count)
        else
          DECODE_CL lookup_table_CCL CL_num fuel (adv symbol_valid_bits)
            (upd valid_length CL_count symbol) (CL_count + 1)
    else some (st, valid_length, CL_count)

/-- Function `dynamic_decoder_get_offset`: the offset and the new `proc_bits_num`
(`reverse` is instantiated at `uint32_t`).  In the error branch the source returns its
unset local `offset`, here `0`. -/
def dynamic_decoder_get_offset (proc_bits_num proc_buffer : Nat)
    (lookup_table_DIST_1 : Nat → Nat × Nat) : Nat × Nat :=
  let copy_6_bits := (proc_buffer >>> (26 - proc_bits_num)) &&& 0x0000003F
  let edoc := (lookup_table_DIST_1 copy_6_bits).1
  let edoc_valid_bits := (lookup_table_DIST_1 copy_6_bits).2
  let p := proc_bits_num + edoc_valid_bits
  let x := fun (sh mask n : Nat) => reverse 32 ((proc_buffer >>> (sh - p)) &&& mask) n
  if edoc ≥ 0 ∧ edoc ≤ 3 then (edoc + 1, p)
  else if edoc = 4 ∨ edoc = 5 then
    (edoc * 2 - 3 + ((proc_buffer >>> (31 - p)) &&& 0x1), p + 1)
  else if edoc = 6 ∨ edoc = 7 then (edoc * 4 - 15 + x 30 0x3 2, p + 2)
  else if edoc = 8 ∨ edoc = 9 then (edoc * 8 - 47 + x 29 0x7 3, p + 3)
  else if edoc = 10 ∨ edoc = 11 then (edoc * 16 - 127 + x 28 0x0F 4, p + 4)
  else if edoc = 12 ∨ edoc = 13 then (edoc * 32 - 319 + x 27 0x1F 5, p + 5)
  else if edoc = 14 ∨ edoc = 15 then (edoc * 64 - 767 + x 26 0x3F 6, p + 6)
  else if edoc = 16 ∨ edoc = 17 then (edoc * 128 - 1791 + x 25 0x7F 7, p + 7)
  else if edoc = 18 ∨ edoc = 19 then (edoc * 256 - 4095 + x 24 0x0FF 8, p + 8)
  else if edoc = 20 ∨ edoc = 21 then (edoc * 512 - 9215 + x 23 0x1FF 9, p + 9)
  else if edoc = 22 ∨ edoc = 23 then (edoc * 1024 - 20479 + x 22 0x3FF 10, p + 10)
  else if edoc = 24 ∨ edoc = 25 then (4097 + 2048 * (edoc - 24) + x 21 0x7FF 11, p + 11)
  else if edoc = 26 ∨ edoc = 27 then (8193 + 4096 * (edoc - 26) + x 20 0x0FFF 12, p + 12)
  else if edoc = 28 ∨ edoc = 29 then (16385 + 8192 * (edoc - 28) + x 19 0x1FFF 13, p + 13)
  else (0, p)

/-- The symbol decoding of one iteration of `DYNAMIC_MAIN_LOOP`, after `DYNAMIC_INPUT`:
the new state and `proc_bits_num`. -/
def dynamic_decode_symbol (lookup_table_LIT_1 lookup_table_DIST_1 : Nat → Nat × Nat)
    (st : DecState) : DecState × Nat :=
  let proc_buffer := st.proc_buffer
  let copy_9_bits := (proc_buffer &&& 0xFF800000) >>> 23
  let edoc := (lookup_table_LIT_1 copy_9_bits).1
  let edoc_valid_bits := (lookup_table_LIT_1 copy_9_bits).2
  if edoc ≥ 0 ∧ edoc ≤ 255 then
    ({ st with output := st.output ++ [edoc % 2 ^ 8] }, edoc_valid_bits)
  else if edoc = 256 then
    ({ st with done_decoding := true }, edoc_valid_bits)
  else
    let x := fun (sh mask n : Nat) =>
      reverse 32 ((proc_buffer >>> (sh - edoc_valid_bits)) &&& mask) n
    let lp : Nat × Nat :=
      if edoc ≥ 257 ∧ edoc ≤ 264 then (edoc - 254, edoc_valid_bits)
      else if edoc ≥ 265 ∧ edoc ≤ 268 then
        ((11 + 2 * (edoc - 265)) + ((proc_buffer >>> (31 - edoc_valid_bits)) &&& 0x01),
          edoc_valid_bits + 1)
      else if edoc ≥ 269 ∧ edoc ≤ 272 then
        ((19 + 4 * (edoc - 269)) + x 30 0x03 2, edoc_valid_bits + 2)
      else if edoc ≥ 273 ∧ edoc ≤ 276 then
        ((35 + 8 * (edoc - 273)) + x 29 0x07 3, edoc_valid_bits + 3)
      else if edoc ≥ 277 ∧ edoc ≤ 280 then
        ((67 + 16 * (edoc - 277)) + x 28 0x0F 4, edoc_valid_bits + 4)
      else if edoc ≥ 281 ∧ edoc ≤ 284 then
        ((131 + 32 * (edoc - 281)) + x 27 0x1F 5, edoc_valid_bits + 5)
      else (258, edoc_valid_bits)
    let length := lp.1
    let o := dynamic_decoder_get_offset lp.2 proc_buffer lookup_table_DIST_1
    let offset := o.1
    ({ st with length := length
               output := st.output ++
                 [0x40, (offset >>> 7) % 2 ^ 8, (offset &&& 0x07F) % 2 ^ 8, length % 2 ^ 8] },
     o.2)

/-- Loop `DYNAMIC_MAIN_LOOP`: `while (buffer_bits_num > 0 && !done_decoding)`; `none`
where an iteration consumes no bit and the source repeats it forever. -/
def DYNAMIC_MAIN_LOOP (lookup_table_LIT_1 lookup_table_DIST_1 : Nat → Nat × Nat) :
    Nat → DecState → Option DecState
  | 0, _ => none
  | fuel + 1, st =>
    if st.buffer_bits_num > 0 ∧ st.done_decoding = false then
      let st1 := STATIC_INPUT 3 st
      let d := dynamic_decode_symbol lookup_table_LIT_1 lookup_table_DIST_1 st1
      let proc_bits_num := d.2
      if proc_bits_num = 0 then none
      else
        DYNAMIC_MAIN_LOOP lookup_table_LIT_1 lookup_table_DIST_1 fuel
          { d.1 with proc_buffer := (d.1.proc_buffer <<< proc_bits_num) % 2 ^ 32
                     buffer_bits_num := d.1.buffer_bits_num - proc_bits_num }
    else some st

/-- Branch `block_header == 5` of `huffman_decoder`, on the reader as it stands after
the two first words were read. -/
def dynamic_huffman_decoder (st : DecState) : Option DecState :=
  let proc_buffer := st.proc_buffer
  let HLIT := reverse 5 ((proc_buffer &&& 0x1F000000) >>> 24) 5
  let HDIST := reverse 5 ((proc_buffer &&& 0x00F80000) >>> 19) 5
  let HCLEN := reverse 4 ((proc_buffer &&& 0x00078000) >>> 15) 4
  let st0 : DecState := { st with proc_buffer := (proc_buffer <<< 17) % 2 ^ 32
                                  buffer_bits_num := 15 }
  -- GET_CCL, FILL_REMAINING_CCL
  let g := GET_CCL (HCLEN + 4) 0 st0 (fun _ => 0)
  let CCL := fun i => if i < HCLEN + 4 then g.2 i else 0
  let length3 := permute_CCL CCL
  let code3 := get_huffman_table_3 length3 (fun _ => 0)
  let lookup_table_CCL := BUILD_LOOKUP_TABLE length3 code3 7 19
  -- DECODE_CL1, FILL_HTABLE1_REMAINING
  match DECODE_CL lookup_table_CCL (HLIT + 257) (HLIT + 257 + 1) g.1 (fun _ => 0) 0 with
  | none => none
  | some (st1, vl1, CL1_count) =>
    let valid_length1 := fun i => if CL1_count ≤ i ∧ i < 286 then 0 else vl1 i
    let code1 := get_huffman_table_1 valid_length1 (fun _ => 0)
    -- DECODE_CL2, FILL_HTABLE2_REMAINING
    match DECODE_CL lookup_table_CCL (HDIST + 1) (HDIST + 1 + 1) st1 (fun _ => 0) 0 with
    | none => none
    | some (st2, vl2, CL2_count) =>
      let valid_length2 := fun i => if CL2_count ≤ i ∧ i < 30 then 0 else vl2 i
      let code2 := get_huffman_table_2 valid_length2 (fun _ => 0)
      let lookup_table_LIT_1 := BUILD_LOOKUP_TABLE valid_length1 code1 9 286
      let lookup_table_DIST_1 := BUILD_LOOKUP_TABLE valid_length2 code2 6 30
      DYNAMIC_MAIN_LOOP lookup_table_LIT_1 lookup_table_DIST_1
        (st2.buffer_bits_num + st2.next_word_bits + 32 * st2.input.length + 1) st2

/-! ## `huffman_decoder` and `inflate` -/

/-- Function `huffman_decoder`: the bytes `decoding_output[0 .. output_pos]`, the final
`'\0'` included; `none` where the source does not come back. -/
def huffman_decoder (input : List Nat) : Option (List Nat) :=
  let r1 := stream_read input
  let next_word := changeToLittleEndian r1.1
  let proc_buffer := next_word
  let block_header := (proc_buffer &&& 0xE0000000) >>> 29
  let r2 := stream_read r1.2
  let next_word := changeToLittleEndian r2.1
  let st : DecState :=
    { input := r2.2, proc_buffer := proc_buffer, buffer_bits_num := 0
      next_word := next_word, next_word_bits := 32
      done_decoding := false, done_input := false, length := 0, output := [] }
  if block_header ≥ 0 ∧ block_header ≤ 2 then some [0]
  else if block_header = 4 then some [0]
  else if block_header = 6 then
    match STATIC_MAIN_LOOP (32 * (input.length + 2))
        { st with proc_buffer := (proc_buffer <<< 3) % 2 ^ 32, buffer_bits_num := 29 } with
    | none => none
    | some st1 => some (st1.output ++ [0])
  else if block_header = 5 then
    match dynamic_huffman_decoder st with
    | none => none
    | some st1 => some (st1.output ++ [0])
  else some [0]

/-- Function `inflate`: `huffman_decoder` then `LZ77_decoder`. -/
def inflate (input : List Nat) : Option (List Nat) :=
  (huffman_decoder input).map LZ77_decoder

/-! ## Notions used to state the properties -/

/-- The `n` low bits of `v`, most significant first. -/
def bits_msb (v n : Nat) : List Bool :=
  (List.range n).map (fun i => v.testBit (n - 1 - i))

/-- The bits of the bytes `buf[0 .. pos-1]`, each byte most significant bit first. -/
def buffer_bits (buf : Nat → Nat) (pos : Nat) : List Bool :=
  (List.range pos).flatMap (fun i => bits_msb (buf i) 8)

/-- The bit sequence `huffman` has accumulated: the finished bytes of `output_buffer`
and the used (upper) bits of the byte under construction. -/
def acc_bits (st : HuffState) : List Bool :=
  buffer_bits st.output_buffer st.output_pos ++
    (bits_msb (st.output_buffer st.output_pos) 8).take (8 - st.output_char_remaining_bits)

/-- State of `huffman` between two tokens: one to eight free bits in the byte under
construction, and these free (lower) bits still zero. -/
def HuffInv (st : HuffState) : Prop :=
  1 ≤ st.output_char_remaining_bits ∧ st.output_char_remaining_bits ≤ 8 ∧
    (st.output_char_remaining_bits < 8 →
      st.output_buffer st.output_pos % 2 ^ st.output_char_remaining_bits = 0)

/-- The header byte of `huffman`: bits 7..5 of `output_buffer[0]` are `110`, and as long
as no byte is finished the state is the initial one (five free bits). -/
def HeaderInv (st : HuffState) : Prop :=
  st.output_buffer 0 >>> 5 = 6 ∧ (st.output_pos = 0 → st.output_char_remaining_bits = 5)

/-- A record of the intermediate token stream: a literal byte, or a back-reference with
its three bytes `off_hi`, `off_lo`, `len` as they stand after the marker `0x40`. -/
inductive Token where
  | lit (b : Nat)
  | ref (off_hi off_lo len : Nat)

/-- The bytes of one token in the intermediate stream. -/
def Token.bytes : Token → List Nat
  | Token.lit b => [b]
  | Token.ref off_hi off_lo len => [0x40, off_hi, off_lo, len]

/-- The intermediate stream of a token list (without the final `'\0'`). -/
def token_bytes (ts : List Token) : List Nat :=
  ts.flatMap Token.bytes

/-- The byte that reaches window position `p` (counted from the start of the plaintext)
of `LZ77` for the input words `ws`: the bytes of the words, big-endian; once the stream
is empty the last word read stays in `curr_window[LEN ..]` (the first filling reads
eight words whatever the stream holds). -/
def stream_byte (ws : List Nat) (p : Nat) : Nat :=
  if p / 4 < ws.length then (word_bytes (ws.getD (p / 4) 0)).getD (p % 4) 0
  else if 8 ≤ ws.length then (word_bytes (ws.getD (ws.length - 1) 0)).getD (p % 4) 0
  else 0

/-- Relation `tokens_cover W n q ts c`: the tokens `ts` describe the bytes `W q .. W (c-1)` of a
plaintext of length `n`, in order: a literal is the next byte; a back-reference
`(offset, len)` stands at a position whose next `len` bytes repeat the bytes `offset`
positions earlier, with `1 ≤ offset ≤ 4095`, `3 ≤ len ≤ 32` and `off_hi`, `off_lo` the
split of the offset at bit 7. -/
def tokens_cover (W : Nat → Nat) (n : Nat) : Nat → List Token → Nat → Prop
  | q, [], c => q = c
  | q, Token.lit b :: ts, c => q < n ∧ b = W q ∧ tokens_cover W n (q + 1) ts c
  | q, Token.ref off_hi off_lo len :: ts, c =>
    (1 ≤ off_hi * 128 + off_lo ∧ off_hi * 128 + off_lo ≤ q ∧ off_hi * 128 + off_lo ≤ 4095 ∧
      off_lo ≤ 0x7F ∧ off_hi ≤ 0x1F ∧ 3 ≤ len ∧ len ≤ 32 ∧ q + len ≤ n ∧
      ∀ j, j < len → W (q + j) = W (q + j - (off_hi * 128 + off_lo))) ∧
    tokens_cover W n (q + len) ts c

/-- Loop invariant of `CONTROL_LOOP` after `k` iterations, for the byte stream `W` seen
by the window and a plaintext of length `n`. -/
structure LZ77Inv (W : Nat → Nat) (n : Nat) (ws : List Nat) (k : Nat) (st : LZ77State) : Prop where
  index : st.current_index = 4 * k
  input : st.input = ws.drop (8 + k)
  window : ∀ i, 4 ≤ i → i < 36 → st.curr_window i = W (4 * k + i - 4)
  dict : ∀ t h, st.dict_string_start_pos t h ≠ 0 →
    st.dict_string_start_pos t h < 4 * k ∧
      ∀ j, j < 32 → st.dict t h j = W (st.dict_string_start_pos t h + j)
  comp : ∀ t i, (∀ j, j < 32 → st.comp_window t i j = 0) ∨
    (st.compare_window_string_start_pos t i < 4 * k ∧
      ∀ j, j < 32 → st.comp_window t i j = W (st.compare_window_string_start_pos t i + j))
  valid : 4 ≤ st.first_valid_position
  covered : 4 * k + st.first_valid_position - 4 ≤ n
  tokens : ∃ ts, st.output = token_bytes ts ∧
    tokens_cover W n 0 ts (4 * k + st.first_valid_position - 4)

/-- What `CHOOSE_MATCHING_STRING` leaves in an iteration that starts at
`first_valid_position = fvp` : no match (`match_length = 0`), or the match of one lane
`i0 ≥ fvp` with `bestlength[i0].length ≥ 3`. -/
def Chosen (best : Nat → Nat × Nat) (current_index fvp : Nat) (c : Choice) : Prop :=
  (c.match_length = 0 ∧ c.temp_valid_position = fvp) ∨
  ∃ i0, fvp ≤ i0 ∧ i0 < 4 ∧ 3 ≤ (best i0).2 ∧ c.match_length = (best i0).2 ∧
    c.start_match_position = i0 ∧ c.temp_valid_position = i0 + (best i0).2 ∧
    c.offset = ((current_index + i0 : Nat) : Int) - ((best i0).1 : Int)

/-- Relation `Chosen` for a window inside the plaintext `W`: a chosen match of length `L` at lane
`i0` repeats the `L` bytes that start at an earlier position `s`, and ends inside the
plaintext of length `n`. -/
def RealChosen (W : Nat → Nat) (n current_index fvp : Nat) (c : Choice) : Prop :=
  (c.match_length = 0 ∧ c.temp_valid_position = fvp) ∨
  ∃ i0 s : Nat, fvp ≤ i0 ∧ i0 < 4 ∧ 3 ≤ c.match_length ∧ c.match_length ≤ 32 ∧
    c.start_match_position = i0 ∧ c.temp_valid_position = i0 + c.match_length ∧
    c.offset = ((current_index + i0 : Nat) : Int) - (s : Int) ∧ s < current_index ∧
    current_index + i0 + c.match_length ≤ n ∧
    ∀ j, j < c.match_length → W (current_index + i0 + j) = W (s + j)

/-! ### The bit stream between `huffman` and `huffman_decoder` -/

/-- Bit `i` of a byte buffer: the bytes in order, each byte most significant bit
first. -/
def stream_bit (buf : Nat → Nat) (i : Nat) : Bool :=
  (buf (i / 8)).testBit (7 - i % 8)

/-- Number of bits that `huffman` has accumulated (the length of `acc_bits`). -/
def used_bits (st : HuffState) : Nat :=
  8 * st.output_pos + (8 - st.output_char_remaining_bits)

/-- Relation `Appended st st2 v L`: the step from `st` to `st2` keeps the accumulated bits and
appends the `L` low bits of `v`, most significant first. -/
def Appended (st st2 : HuffState) (v L : Nat) : Prop :=
  used_bits st2 = used_bits st + L ∧
  (∀ i, i < used_bits st →
    stream_bit st2.output_buffer i = stream_bit st.output_buffer i) ∧
  (∀ j, j < L → stream_bit st2.output_buffer (used_bits st + j) = v.testBit (L - 1 - j)) ∧
  HuffInv st2

/-- The code of a token, as `STATIC_HUFFMAN` computes it: value and number of bits.  A
literal has `code_8_bits`; a back-reference has the length code followed by the offset
code (`length_and_offset`). -/
def Token.code : Token → Nat × Nat
  | Token.lit b => ((b + 0x30) % 2 ^ 8, 8)
  | Token.ref off_hi off_lo len =>
    ((huffman_length_code len (0, 0)).1 * 2 ^ (huffman_offset_code (off_hi * 128 + off_lo) (0, 0)).2
        + (huffman_offset_code (off_hi * 128 + off_lo) (0, 0)).1,
      (huffman_length_code len (0, 0)).2 + (huffman_offset_code (off_hi * 128 + off_lo) (0, 0)).2)

/-- Relation `coded S p ts e`: the bit stream `S` holds the codes of the tokens `ts`, one after
the other, from bit `p` up to bit `e`. -/
def coded (S : Nat → Bool) : Nat → List Token → Nat → Prop
  | p, [], e => p = e
  | p, t :: ts, e =>
    (∀ j, j < t.code.2 → S (p + j) = t.code.1.testBit (t.code.2 - 1 - j)) ∧
      coded S (p + t.code.2) ts e

/-- Tokens for which `huffman` followed by `huffman_decoder` is the identity: a literal
with an 8-bit code that is no marker and no terminator; a back-reference as `LZ77`
writes it whose code is shorter than 24 bits (not both a 9-bit length code and a 15-bit
offset code). -/
def Token.encodable : Token → Prop
  | Token.lit b => 1 ≤ b ∧ b ≤ 143 ∧ b ≠ 0x40
  | Token.ref off_hi off_lo len =>
    1 ≤ off_hi * 128 + off_lo ∧ off_hi ≤ 0x1F ∧ off_lo ≤ 0x7F ∧ 3 ≤ len ∧ len ≤ 32 ∧
      (len ≤ 18 ∨ off_hi * 128 + off_lo ≤ 2048)

/-- Bit `i` of the word stream as `huffman_decoder` consumes it: every word after
`changeToLittleEndian`, most significant bit first; past the last word the bits are
zero. -/
def word_bit (ws : List Nat) (i : Nat) : Bool :=
  (changeToLittleEndian (ws.getD (i / 32) 0)).testBit (31 - i % 32)

/-- State of the bit reader of `huffman_decoder` against the bit stream `S` of `N` bits:
`pos` bits are consumed; `proc_buffer` holds the next `buffer_bits_num` bits on top and
zeros below; unless `done_input`, `next_word` holds the `next_word_bits` bits after
these (at least `m` of them) on top and zeros below, and `input` the words after
these. -/
structure DecInv (S : Nat → Bool) (N pos m : Nat) (st : DecState) : Prop where
  pb_lt : st.proc_buffer < 2 ^ 32
  bbn_le : st.buffer_bits_num ≤ 32
  pb_bits : ∀ t, t < 32 →
    st.proc_buffer.testBit (31 - t) = (decide (t < st.buffer_bits_num) && S (pos + t))
  nwb_le : st.done_input = false → m ≤ st.next_word_bits ∧ st.next_word_bits ≤ 32
  nw_lt : st.done_input = false → st.next_word < 2 ^ 32
  nw_bits : st.done_input = false → 1 ≤ st.next_word_bits → ∀ t, t < 32 →
    st.next_word.testBit (31 - t) =
      (decide (t < st.next_word_bits) && S (pos + st.buffer_bits_num + t))
  in_bits : st.done_input = false → ∀ j t, j < st.input.length → t < 32 →
    (changeToLittleEndian (st.input.getD j 0)).testBit (31 - t) =
      S (pos + st.buffer_bits_num + st.next_word_bits + 32 * j + t)
  total : st.done_input = false →
    N = pos + st.buffer_bits_num + st.next_word_bits + 32 * st.input.length
  fin : st.done_input = true → N = pos + st.buffer_bits_num

/-! ### RFC 1951, paragraph 3.2.5 -/

/-- Length codes of RFC 1951, paragraph 3.2.5: the rows `(symbol, extra bits, base
length)`.  A row stands for the lengths `base .. base + 2 ^ extra - 1` (the last length
of row 284 is taken by row 285). -/
def rfc_length_table : List (Nat × Nat × Nat) :=
  [(257, 0, 3), (258, 0, 4), (259, 0, 5), (260, 0, 6), (261, 0, 7), (262, 0, 8), (263, 0, 9),
   (264, 0, 10), (265, 1, 11), (266, 1, 13), (267, 1, 15), (268, 1, 17), (269, 2, 19),
   (270, 2, 23), (271, 2, 27), (272, 2, 31), (273, 3, 35), (274, 3, 43), (275, 3, 51),
   (276, 3, 59), (277, 4, 67), (278, 4, 83), (279, 4, 99), (280, 4, 115), (281, 5, 131),
   (282, 5, 163), (283, 5, 195), (284, 5, 227), (285, 0, 258)]

/-- Distance codes of RFC 1951, paragraph 3.2.5: the rows `(symbol, extra bits, base
distance)`.  A row stands for the distances `base .. base + 2 ^ extra - 1`. -/
def rfc_distance_table : List (Nat × Nat × Nat) :=
  [(0, 0, 1), (1, 0, 2), (2, 0, 3), (3, 0, 4), (4, 1, 5), (5, 1, 7), (6, 2, 9), (7, 2, 13),
   (8, 3, 17), (9, 3, 25), (10, 4, 33), (11, 4, 49), (12, 5, 65), (13, 5, 97), (14, 6, 129),
   (15, 6, 193), (16, 7, 257), (17, 7, 385), (18, 8, 513), (19, 8, 769), (20, 9, 1025),
   (21, 9, 1537), (22, 10, 2049), (23, 10, 3073), (24, 11, 4097), (25, 11, 6145),
   (26, 12, 8193), (27, 12, 12289), (28, 13, 16385), (29, 13, 24577)]

/-! ### Notions for the last bytes of `huffman` and for the code tables -/

/-- Tokens of a well-formed intermediate stream: a literal byte other than the
terminator and the marker, or a record with `3 ≤ len ≤ 32` and `1 ≤ offset ≤ 4096`. -/
def Token.wellformed : Token → Prop
  | Token.lit b => b ≠ 0 ∧ b ≠ 0x40 ∧ b < 256
  | Token.ref off_hi off_lo len =>
    1 ≤ off_hi * 128 + off_lo ∧ off_hi * 128 + off_lo ≤ 4096 ∧ 3 ≤ len ∧ len ≤ 32

/-- The array `output_buffer` at the end of `huffman`, after the zero byte of edoc 256 is
stored (the `if (output_char_remaining_bits == 8)` behind `STATIC_HUFFMAN`). -/
def huffman_last_buffer (st : HuffState) : Nat → Nat :=
  if st.output_char_remaining_bits = 8 then upd st.output_buffer st.output_pos 0
  else upd st.output_buffer (st.output_pos + 1) 0

/-- Sum of Kraft for the code lengths of the symbols `0 .. k-1` on the scale `2 ^ M`: a
symbol of non-zero length `L` weighs `2 ^ (M - L)`; the lengths are those of a prefix
code when the sum is at most `2 ^ M`. -/
def kraft_sum (lengths : Nat → Nat) (M : Nat) : Nat → Nat
  | 0 => 0
  | k + 1 => kraft_sum lengths M k + (if lengths k = 0 then 0 else 2 ^ (M - lengths k))

/-- The nineteen stores of `permute_CCL` in program order: `(i, k)` stands for
`hTable3[i].length = CCL[k]`. -/
def permute_CCL_stores : List (Nat × Nat) :=
  [(0, 3), (1, 17), (2, 15), (3, 13), (4, 11), (5, 9), (6, 7), (7, 5), (8, 4), (9, 6),
   (10, 8), (11, 10), (12, 12), (13, 14), (14, 16), (15, 18), (16, 0), (17, 1), (18, 2)]

/-- Function `permute_CCL` run store by store on the array of the `length` fields of
`hTable3`, `length0` being what the array holds before. -/
def permute_CCL_run (CCL : Nat → Nat) (length0 : Nat → Nat) : Nat → Nat :=
  permute_CCL_stores.foldl (fun t s => upd t s.1 (CCL s.2)) length0

/-- The permutation of the code length codes as the specification gives it (RFC 1951,
paragraph 3.2.7): the `k`-th length read belongs to the symbol `CCL_order[k]`. -/
def CCL_order : List Nat :=
  [16, 17, 18, 0, 8, 7, 9, 6, 10, 5, 11, 4, 12, 3, 13, 2, 14, 1, 15]

/-! ### Notions for the match filtering of `LZ77` -/

/-- What `CHOOSE_MATCHING_STRING` holds after the lanes `fvp .. a-1`: no match when none
of these lanes has `bestlength[i].length ≥ 3`; else the match of the lane `i0` that is the
first one among those where `i + bestlength[i].length` is largest. -/
def Furthest (best : Nat → Nat × Nat) (current_index fvp a : Nat) (c : Choice) : Prop :=
  (c.match_length = 0 ∧ c.temp_valid_position = fvp ∧
    ∀ i, fvp ≤ i → i < a → (best i).2 < 3) ∨
  ∃ i0, fvp ≤ i0 ∧ i0 < a ∧ 3 ≤ (best i0).2 ∧ c.start_match_position = i0 ∧
    c.match_length = (best i0).2 ∧ c.temp_valid_position = i0 + (best i0).2 ∧
    c.offset = ((current_index + i0 : Nat) : Int) - ((best i0).1 : Int) ∧
    (∀ i, fvp ≤ i → i < a → 3 ≤ (best i).2 → i + (best i).2 ≤ i0 + (best i0).2) ∧
    (∀ i, fvp ≤ i → i < i0 → 3 ≤ (best i).2 → i + (best i).2 < i0 + (best i0).2)

/-! ### Notions for the error branches of `huffman` -/

/-- The `if`/`else if` chain on `length` of `huffman`, followed for its printing branches
only: `true` in "The matching length is too long or too short! Wrong!" and in "Wrong!
Cannot find the correct length code!", where `length_code` and `length_valid_bits_num`
are not assigned. -/
def huffman_length_error (length : Nat) : Bool :=
  if length ≥ 115 ∨ length < 3 then true
  else if length ≥ 3 ∧ length ≤ 10 then false
  else if length = 11 ∨ length = 12 then false
  else if length = 13 ∨ length = 14 then false
  else if length = 15 ∨ length = 16 then false
  else if length = 17 ∨ length = 18 then false
  else if length ≥ 19 ∧ length ≤ 22 then false
  else if length ≥ 23 ∧ length ≤ 26 then false
  else if length ≥ 27 ∧ length ≤ 30 then false
  else if length ≥ 31 ∧ length ≤ 34 then false
  else if length ≥ 35 ∧ length ≤ 42 then false
  else if length ≥ 43 ∧ length ≤ 50 then false
  else if length ≥ 51 ∧ length ≤ 58 then false
  else if length ≥ 59 ∧ length ≤ 66 then false
  else if length ≥ 67 ∧ length ≤ 82 then false
  else if length ≥ 83 ∧ length ≤ 98 then false
  else if length ≥ 99 ∧ length ≤ 114 then false
  else true

/-- The `if`/`else if` chain on `offset` of `huffman`, followed for its printing branch
only: `true` in "Wrong! Offset is out of range!", where `offset_code` and
`offset_valid_bits_num` are not assigned. -/
def huffman_offset_error (offset : Nat) : Bool :=
  if offset ≥ 1 ∧ offset ≤ 4 then false
  else if offset ≥ 5 ∧ offset ≤ 6 then false
  else if offset ≥ 7 ∧ offset ≤ 8 then false
  else if offset ≥ 9 ∧ offset ≤ 12 then false
  else if offset ≥ 13 ∧ offset ≤ 16 then false
  else if offset ≥ 17 ∧ offset ≤ 24 then false
  else if offset ≥ 25 ∧ offset ≤ 32 then false
  else if offset ≥ 33 ∧ offset ≤ 48 then false
  else if offset ≥ 49 ∧ offset ≤ 64 then false
  else if offset ≥ 65 ∧ offset ≤ 96 then false
  else if offset ≥ 97 ∧ offset ≤ 128 then false
  else if offset ≥ 129 ∧ offset ≤ 192 then false
  else if offset ≥ 193 ∧ offset ≤ 256 then false
  else if offset ≥ 257 ∧ offset ≤ 384 then false
  else if offset ≥ 385 ∧ offset ≤ 512 then false
  else if offset ≥ 513 ∧ offset ≤ 768 then false
  else if offset ≥ 769 ∧ offset ≤ 1024 then false
  else if offset ≥ 1025 ∧ offset ≤ 1536 then false
  else if offset ≥ 1537 ∧ offset ≤ 2048 then false
  else if offset ≥ 2049 ∧ offset ≤ 3072 then false
  else if offset ≥ 3073 ∧ offset ≤ 4096 then false
  else true

/-- Loop `STATIC_HUFFMAN` followed for its error branches only: `true` when the loop
comes to the terminator and no record on the way enters a printing branch of the chain
on `length` or of the chain on `offset`. -/
def huffman_no_error (input : List Nat) : Nat → Nat → Bool
  | 0, _ => false
  | fuel + 1, input_pos =>
    let input_char := input.getD input_pos 0
    if input_char = 0 then true
    else if input_char = 0x40 then
      let length := input.getD (input_pos + 3) 0
      let offset := input.getD (input_pos + 1) 0 * 128 + input.getD (input_pos + 2) 0
      if huffman_length_error length = true ∨ huffman_offset_error offset = true then false
      else huffman_no_error input fuel (input_pos + 4)
    else huffman_no_error input fuel (input_pos + 1)

/-! ### The stages of the dynamic branch of `huffman_decoder` -/

/-- The reader of `huffman_decoder` where the `if` on `block_header` is met: the first
word in `proc_buffer`, the second one in `next_word`. -/
def decoder_start (input : List Nat) : DecState :=
  { input := (stream_read (stream_read input).2).2
    proc_buffer := changeToLittleEndian (stream_read input).1
    buffer_bits_num := 0
    next_word := changeToLittleEndian (stream_read (stream_read input).2).1
    next_word_bits := 32
    done_decoding := false, done_input := false, length := 0, output := [] }

/-- The value `block_header` of `huffman_decoder`. -/
def block_header (input : List Nat) : Nat :=
  ((decoder_start input).proc_buffer &&& 0xE0000000) >>> 29

/-- The value `HLIT` of the dynamic branch, after `reverse(HLIT, 5)`. -/
def dynamic_HLIT (proc_buffer : Nat) : Nat :=
  reverse 5 ((proc_buffer &&& 0x1F000000) >>> 24) 5

/-- The value `HDIST` of the dynamic branch, after `reverse(HDIST, 5)`. -/
def dynamic_HDIST (proc_buffer : Nat) : Nat :=
  reverse 5 ((proc_buffer &&& 0x00F80000) >>> 19) 5

/-- The value `HCLEN` of the dynamic branch, after `reverse(HCLEN, 4)`. -/
def dynamic_HCLEN (proc_buffer : Nat) : Nat :=
  reverse 4 ((proc_buffer &&& 0x00078000) >>> 15) 4

/-- The dynamic branch up to `FILL_REMAINING_CCL`: the reader behind `GET_CCL` and the
array `CCL`. -/
def dynamic_CCL (st : DecState) : DecState × (Nat → Nat) :=
  let st0 : DecState := { st with proc_buffer := (st.proc_buffer <<< 17) % 2 ^ 32
                                  buffer_bits_num := 15 }
  let g := GET_CCL (dynamic_HCLEN st.proc_buffer + 4) 0 st0 (fun _ => 0)
  (g.1, fun i => if i < dynamic_HCLEN st.proc_buffer + 4 then g.2 i else 0)

/-- The array `lookup_table_CCL` of the dynamic branch, behind `BUILD_LOOKUP_TABLE_3`. -/
def dynamic_lookup_table_CCL (st : DecState) : Nat → Nat × Nat :=
  BUILD_LOOKUP_TABLE (permute_CCL (dynamic_CCL st).2)
    (get_huffman_table_3 (permute_CCL (dynamic_CCL st).2) (fun _ => 0)) 7 19

/-- Loop `DECODE_CL1` of the dynamic branch: reader, the `valid_length` fields of
`hTable1` and `CL1_count` behind the loop. -/
def dynamic_CL1 (st : DecState) : Option (DecState × (Nat → Nat) × Nat) :=
  DECODE_CL (dynamic_lookup_table_CCL st) (dynamic_HLIT st.proc_buffer + 257)
    (dynamic_HLIT st.proc_buffer + 257 + 1) (dynamic_CCL st).1 (fun _ => 0) 0

/-- Loop `DECODE_CL2` of the dynamic branch, from the reader `st1` that `DECODE_CL1`
leaves: reader, the `valid_length` fields of `hTable2` and `CL2_count`. -/
def dynamic_CL2 (st st1 : DecState) : Option (DecState × (Nat → Nat) × Nat) :=
  DECODE_CL (dynamic_lookup_table_CCL st) (dynamic_HDIST st.proc_buffer + 1)
    (dynamic_HDIST st.proc_buffer + 1 + 1) st1 (fun _ => 0) 0

/-- One round of `DECODE_CL1` / `DECODE_CL2` behind the refill loop, from the reader
`st1`: the new reader, the new `valid_length` fields and the new count. -/
def DECODE_CL_step (lookup_table_CCL : Nat → Nat × Nat) (st1 : DecState)
    (valid_length : Nat → Nat) (CL_count : Nat) : DecState × (Nat → Nat) × Nat :=
  let copy_7_bits := (st1.proc_buffer &&& 0xFE000000) >>> 25
  let symbol := (lookup_table_CCL copy_7_bits).1
  let symbol_valid_bits := (lookup_table_CCL copy_7_bits).2
  let adv := fun (bits : Nat) =>
    { st1 with proc_buffer := (st1.proc_buffer <<< bits) % 2 ^ 32
               buffer_bits_num := st1.buffer_bits_num - bits }
  if symbol = 16 then
    let extra_2_bits := reverse 2 ((st1.proc_buffer >>> (30 - symbol_valid_bits)) &&& 0x03) 2
    let repeat_count := (extra_2_bits + 3) % 2 ^ 8
    let repeated_length := valid_length (CL_count - 1)
    (adv (symbol_valid_bits + 2),
      fill_range valid_length CL_count repeat_count repeated_length, CL_count + repeat_count)
  else if symbol = 17 then
    let extra_3_bits := reverse 3 ((st1.proc_buffer >>> (29 - symbol_valid_bits)) &&& 0x07) 3
    let repeat_count := (extra_3_bits + 3) % 2 ^ 8
    (adv (symbol_valid_bits + 3), fill_range valid_length CL_count repeat_count 0,
      CL_count + repeat_count)
  else if symbol = 18 then
    let extra_7_bits := reverse 7 ((st1.proc_buffer >>> (25 - symbol_valid_bits)) &&& 0x07F) 7
    let repeat_count := (extra_7_bits + 11) % 2 ^ 8
    (adv (symbol_valid_bits + 7), fill_range valid_length CL_count repeat_count 0,
      CL_count + repeat_count)
  else
    (adv symbol_valid_bits, upd valid_length CL_count symbol, CL_count + 1)

/-- The refill loop of `DECODE_CL1` / `DECODE_CL2` followed through the iterations of the
loop: `true` when in some iteration `DECODE_CL*_INPUT` stays below 16 buffered bits (the
stream is used up), where the source prints "Wrong! Input stream should not be empty
here." and tries again forever. -/
def DECODE_CL_starves (lookup_table_CCL : Nat → Nat × Nat) (CL_num : Nat) :
    Nat → DecState → (Nat → Nat) → Nat → Bool
  | 0, _, _, _ => false
  | fuel + 1, st, valid_length, CL_count =>
    if CL_count < CL_num then
      match DECODE_CL_INPUT 3 st with
      | none => true
      | some st1 =>
        DECODE_CL_starves lookup_table_CCL CL_num fuel
          (DECODE_CL_step lookup_table_CCL st1 valid_length CL_count).1
          (DECODE_CL_step lookup_table_CCL st1 valid_length CL_count).2.1
          (DECODE_CL_step lookup_table_CCL st1 valid_length CL_count).2.2
    else false

/-- The length branch of `DYNAMIC_MAIN_LOOP` (`edoc ≥ 257`): `length` and `proc_bits_num`
before `dynamic_decoder_get_offset` is called. -/
def dynamic_length (edoc edoc_valid_bits proc_buffer : Nat) : Nat × Nat :=
  if edoc ≥ 257 ∧ edoc ≤ 264 then (edoc - 254, edoc_valid_bits)
  else if edoc ≥ 265 ∧ edoc ≤ 268 then
    ((11 + 2 * (edoc - 265)) + ((proc_buffer >>> (31 - edoc_valid_bits)) &&& 0x01),
      edoc_valid_bits + 1)
  else if edoc ≥ 269 ∧ edoc ≤ 272 then
    ((19 + 4 * (edoc - 269)) +
        reverse 32 ((proc_buffer >>> (30 - edoc_valid_bits)) &&& 0x03) 2,
      edoc_valid_bits + 2)
  else if edoc ≥ 273 ∧ edoc ≤ 276 then
    ((35 + 8 * (edoc - 273)) +
        reverse 32 ((proc_buffer >>> (29 - edoc_valid_bits)) &&& 0x07) 3,
      edoc_valid_bits + 3)
  else if edoc ≥ 277 ∧ edoc ≤ 280 then
    ((67 + 16 * (edoc - 277)) +
        reverse 32 ((proc_buffer >>> (28 - edoc_valid_bits)) &&& 0x0F) 4,
      edoc_valid_bits + 4)
  else if edoc ≥ 281 ∧ edoc ≤ 284 then
    ((131 + 32 * (edoc - 281)) +
        reverse 32 ((proc_buffer >>> (27 - edoc_valid_bits)) &&& 0x1F) 5,
      edoc_valid_bits + 5)
  else (258, edoc_valid_bits)

/-! ### Shift amounts -/

/-- The shift amounts in `decoder_get_offset` are `k - proc_bits_num` for these `k`
(`27` for `offset_5_bits`, `26 .. 17` for the extra bits). -/
def decoder_get_offset_shifts : List Nat :=
  [27, 26, 25, 24, 23, 22, 21, 20, 19, 18, 17]

/-- The shift amounts in the length branch of `DYNAMIC_MAIN_LOOP` are
`k - edoc_valid_bits` for these `k`. -/
def dynamic_length_shifts : List Nat :=
  [31, 30, 29, 28, 27]

/-- The shift amount for the extra bits in `dynamic_decoder_get_offset` is
`k - proc_bits_num` (after `proc_bits_num += edoc_valid_bits`) with this `k` in the
branch of the distance symbol `edoc`; the symbols `0 .. 3` and the error branch shift
nothing (`32`). -/
def dynamic_offset_shift (edoc : Nat) : Nat :=
  if edoc ≥ 0 ∧ edoc ≤ 3 then 32
  else if edoc = 4 ∨ edoc = 5 then 31
  else if edoc = 6 ∨ edoc = 7 then 30
  else if edoc = 8 ∨ edoc = 9 then 29
  else if edoc = 10 ∨ edoc = 11 then 28
  else if edoc = 12 ∨ edoc = 13 then 27
  else if edoc = 14 ∨ edoc = 15 then 26
  else if edoc = 16 ∨ edoc = 17 then 25
  else if edoc = 18 ∨ edoc = 19 then 24
  else if edoc = 20 ∨ edoc = 21 then 23
  else if edoc = 22 ∨ edoc = 23 then 22
  else if edoc = 24 ∨ edoc = 25 then 21
  else if edoc = 26 ∨ edoc = 27 then 20
  else if edoc = 28 ∨ edoc = 29 then 19
  else 32

/-! ### Code tables -/

/-- A code table without a code that begins another one: for two distinct symbols below
`n` with non-zero lengths `L1 ≤ L2`, the top `L1` bits of the `L2`-bit code of the second
differ from the code of the first. -/
def PrefixFree (length code : Nat → Nat) (n : Nat) : Prop :=
  ∀ i, i < n → ∀ j, j < n → i ≠ j → length i ≠ 0 → length j ≠ 0 → length i ≤ length j →
    code j >>> (length j - length i) ≠ code i

/-! ### The reader in `GET_CCL` -/

/-- The value of `buffer_bits_num` before round `k` of `GET_CCL` (`k ≤ 19`): 15 bits of
the first word are left behind the 17 header bits, the second word is taken after round
5, and the third word joins it before round 16. -/
def GET_CCL_bits (k : Nat) : Nat :=
  if k < 5 then 15 - 3 * k else if k ≤ 15 then 32 - 3 * (k - 5) else 32 - 3 * (k - 15)

/-- State of the reader before round `k` of `GET_CCL` for the input words `ws`:
`17 + 3 * k` bits are consumed, `proc_buffer` holds the next `GET_CCL_bits k` bits on
top and zeros below; up to round 15 `next_word` holds the 32 bits after these, and up
to round 4 the stream holds the words from the third on. -/
structure GetCCLInv (ws : List Nat) (k : Nat) (st : DecState) : Prop where
  bbn : st.buffer_bits_num = GET_CCL_bits k
  pb_lt : st.proc_buffer < 2 ^ 32
  pb_bits : ∀ t, t < 32 →
    st.proc_buffer.testBit (31 - t) =
      (decide (t < GET_CCL_bits k) && word_bit ws (17 + 3 * k + t))
  nw_lt : st.next_word < 2 ^ 32
  nw_bits : k ≤ 15 → ∀ t, t < 32 →
    st.next_word.testBit (31 - t) = word_bit ws (17 + 3 * k + GET_CCL_bits k + t)
  input : k ≤ 4 → st.input = ws.drop 2

theorem buffer_bits_succ (buf : Nat → Nat) (pos : Nat) :
    buffer_bits buf (pos + 1) = buffer_bits buf pos ++ bits_msb (buf pos) 8 := by
  simp [buffer_bits, List.range_succ, List.flatMap_append]

theorem buffer_bits_congr (buf buf2 : Nat → Nat) (pos : Nat)
    (h : ∀ i, i < pos → buf2 i = buf i) : buffer_bits buf2 pos = buffer_bits buf pos := by
  induction pos with
  | zero => simp [buffer_bits]
  | succ n ih =>
    rw [buffer_bits_succ, buffer_bits_succ, ih (fun i hi => h i (by omega)), h n (by omega)]

theorem upd_same (a : Nat → Nat) (i v : Nat) : upd a i v i = v := by simp [upd]

theorem upd_other (a : Nat → Nat) (i v j : Nat) (h : j ≠ i) : upd a i v j = a j := by
  simp [upd, h]

theorem testBit_of_mod_eq_zero (x r i : Nat) (h : x % 2 ^ r = 0) (hi : i < r) :
    x.testBit i = false := by
  have := Nat.testBit_mod_two_pow x r i
  rw [h] at this
  simp [hi] at this
  exact this.symm ▸ rfl

theorem testBit_mod_256 (x i : Nat) :
    (x % 256).testBit i = (decide (i < 8) && x.testBit i) := Nat.testBit_mod_two_pow x 8 i

theorem literal_8_bits (x c r : Nat) (hc : c < 256) (hr1 : 1 ≤ r) (hr : r < 8)
    (hx : x % 2 ^ r = 0) :
    bits_msb (x ||| (c >>> (8 - r)) % 2 ^ 8) 8 ++ (bits_msb ((c <<< r) % 2 ^ 8) 8).take (8 - r)
      = (bits_msb x 8).take (8 - r) ++ bits_msb c 8 := by
  have h8 : ∀ i, 8 ≤ i → c.testBit i = false := fun i hi =>
    Nat.testBit_lt_two_pow (lt_of_lt_of_le hc (by
      calc 256 = 2 ^ 8 := by norm_num
        _ ≤ 2 ^ i := Nat.pow_le_pow_right (by norm_num) hi))
  have hz : ∀ i, i < r → x.testBit i = false := fun i hi => testBit_of_mod_eq_zero x r i hx hi
  interval_cases r <;>
    simp [bits_msb, List.range_succ, Nat.testBit_or, Nat.testBit_shiftRight,
      Nat.testBit_shiftLeft, testBit_mod_256, hz, h8, List.take, -Nat.testBit_zero]

theorem buffer_bits_upd (buf : Nat → Nat) (pos j v : Nat) (h : pos ≤ j) :
    buffer_bits (upd buf j v) pos = buffer_bits buf pos :=
  buffer_bits_congr _ _ _ (fun i hi => upd_other _ _ _ _ (by omega))

theorem mod_pow_of_shiftLeft_mod (c r : Nat) (hr : r ≤ 8) : (c <<< r) % 2 ^ 8 % 2 ^ r = 0 := by
  rw [Nat.shiftLeft_eq, Nat.mod_mod_of_dvd _ (Nat.pow_dvd_pow 2 hr)]
  exact Nat.mul_mod_left _ _

theorem acc_bits_literal_8 (st : HuffState) (b : Nat) (hb : b ≤ 143) (hinv : HuffInv st) :
    acc_bits (huffman_literal st b) = acc_bits st ++ bits_msb (b + 48) 8 ∧
      (huffman_literal st b).output_char_remaining_bits = st.output_char_remaining_bits ∧
      HuffInv (huffman_literal st b) := by
  obtain ⟨h1, h8, hz⟩ := hinv
  have hc : (b + 0x30) % 2 ^ 8 = b + 48 := by omega
  unfold huffman_literal
  rw [if_pos hb]
  unfold huffman_literal_8
  by_cases hr : st.output_char_remaining_bits = 8
  · simp only [hr, if_true, acc_bits, buffer_bits_succ, hc]
    refine ⟨?_, trivial, ?_⟩
    · rw [buffer_bits_upd _ _ _ _ (le_refl _)]
      simp [upd_same]
    · simp [HuffInv, hr]
  · have hlt : st.output_char_remaining_bits < 8 := by omega
    simp only [hr, if_false, acc_bits, buffer_bits_succ, hc]
    refine ⟨?_, trivial, ?_⟩
    · rw [buffer_bits_upd _ _ _ _ (Nat.le_succ _), buffer_bits_upd _ _ _ _ (le_refl _),
        upd_same, upd_other _ _ _ _ (by omega), upd_same, List.append_assoc,
        literal_8_bits _ _ _ (by omega) h1 hlt (hz hlt), List.append_assoc]
    · refine ⟨h1, h8, fun _ => ?_⟩
      show upd _ _ _ _ % _ = 0
      rw [upd_same]
      exact mod_pow_of_shiftLeft_mod _ _ h8

/-- C9: a literal byte `1 ≤ b ≤ 143`, `b ≠ 0x40`, met by `STATIC_HUFFMAN` with one to
eight free bits in the current byte, appends exactly the 8 bits of `b + 48`, most
significant first, to the accumulated bit sequence; the earlier bits and the number of
free bits stay as they were. -/
theorem literal_0_143_appends_8_bit_code (input : List Nat) (fuel input_pos : Nat)
    (st : HuffState) (b : Nat) (hread : input.getD input_pos 0 = b)
    (h1 : 1 ≤ b) (h143 : b ≤ 143) (h40 : b ≠ 0x40) (hinv : HuffInv st) :
    ∃ st2 : HuffState,
      STATIC_HUFFMAN input (fuel + 1) input_pos st = STATIC_HUFFMAN input fuel (input_pos + 1) st2 ∧
      acc_bits st2 = acc_bits st ++ bits_msb (b + 48) 8 ∧
      st2.output_char_remaining_bits = st.output_char_remaining_bits := by
  refine ⟨huffman_literal st b, ?_, (acc_bits_literal_8 st b h143 hinv).1,
    (acc_bits_literal_8 st b h143 hinv).2.1⟩
  rw [STATIC_HUFFMAN]
  simp only [hread]
  rw [if_neg (by omega), if_neg h40]

/-- Witness for C9: the byte `a` as first token. -/
theorem literal_0_143_appends_8_bit_code_witness :
    ([0x61, 0] : List Nat).getD 0 0 = 0x61 ∧ 1 ≤ 0x61 ∧ 0x61 ≤ 143 ∧ 0x61 ≠ 0x40 ∧
    HuffInv huffman_init ∧
    ∃ st2 : HuffState,
      STATIC_HUFFMAN [0x61, 0] (2 + 1) 0 huffman_init = STATIC_HUFFMAN [0x61, 0] 2 (0 + 1) st2 ∧
      acc_bits st2 = acc_bits huffman_init ++ bits_msb (0x61 + 48) 8 ∧
      st2.output_char_remaining_bits = huffman_init.output_char_remaining_bits :=
  ⟨by decide, by decide, by decide, by decide, by simp [HuffInv, huffman_init, upd],
   literal_0_143_appends_8_bit_code [0x61, 0] 2 0 huffman_init 0x61 (by decide) (by decide)
    (by decide) (by decide) (by simp [HuffInv, huffman_init, upd])⟩

/-- C10, at the failing input: for the literal byte `145` met with five free bits (the
first token of a stream) `huffman` appends the nine bits `110010010` (the code `0x192` of
byte `146`), not the nine bits `110010001` of `400 + (145 - 144) = 0x191`. -/
theorem literal_145_appends_code_of_146 :
    acc_bits (huffman_literal huffman_init 145) = acc_bits huffman_init ++ bits_msb 0x192 9 ∧
      bits_msb 0x192 9 ≠ bits_msb (400 + (145 - 144)) 9 := by
  decide

/-! ### Header bits (C8) -/

theorem testBit_false_of_lt {y k i : Nat} (hy : y < 2 ^ k) (hk : k ≤ i) :
    y.testBit i = false :=
  Nat.testBit_lt_two_pow (lt_of_lt_of_le hy (Nat.pow_le_pow_right (by norm_num) hk))

theorem or_shiftRight_of_lt (x y k : Nat) (hy : y < 2 ^ k) : (x ||| y) >>> k = x >>> k := by
  apply Nat.eq_of_testBit_eq
  intro i
  simp [testBit_false_of_lt hy (Nat.le_add_right k i)]

theorem write_output_mono (fuel : Nat) (buf : Nat → Nat) (pos lao remaining : Nat) :
    pos ≤ (STATIC_HUFFMAN_WRITE_OUTPUT fuel buf pos lao remaining).2.1 ∧
    ∀ j, j < pos → (STATIC_HUFFMAN_WRITE_OUTPUT fuel buf pos lao remaining).1 j = buf j := by
  induction fuel generalizing buf pos lao remaining with
  | zero => simp [STATIC_HUFFMAN_WRITE_OUTPUT]
  | succ n ih =>
    rw [STATIC_HUFFMAN_WRITE_OUTPUT]
    split
    · obtain ⟨h1, h2⟩ := ih (upd buf pos ((lao &&& 0xFF000000) >>> 24)) (pos + 1)
        ((lao <<< 8) % 2 ^ 32) (remaining - 8)
      refine ⟨by omega, fun j hj => ?_⟩
      rw [h2 j (by omega), upd_other _ _ _ _ (by omega)]
    · simp

/-- Bytes below `output_pos` are never written again by a literal. -/
theorem literal_below (st : HuffState) (b j : Nat) (hj : j < st.output_pos) :
    (huffman_literal st b).output_buffer j = st.output_buffer j := by
  have h1 : j ≠ st.output_pos := by omega
  have h2 : j ≠ st.output_pos + 1 := by omega
  simp only [huffman_literal, huffman_literal_8, huffman_literal_9]
  split_ifs <;> simp [upd, h1, h2]

theorem literal_pos (st : HuffState) (b : Nat) :
    st.output_pos + 1 ≤ (huffman_literal st b).output_pos := by
  simp only [huffman_literal, huffman_literal_8, huffman_literal_9]
  split_ifs <;> simp

theorem literal_header (st : HuffState) (b : Nat) (hb : b < 256)
    (hp : st.output_pos = 0) (hr : st.output_char_remaining_bits = 5) :
    (huffman_literal st b).output_buffer 0 >>> 5 = st.output_buffer 0 >>> 5 := by
  have e8 : ((b + 48) % 256) >>> 3 % 256 < 2 ^ 5 := by
    simp only [Nat.shiftRight_eq_div_pow]; omega
  have e9 : ((b - 144 + 400) % 65536) >>> 4 % 256 < 2 ^ 5 := by
    simp only [Nat.shiftRight_eq_div_pow]; omega
  simp only [huffman_literal, huffman_literal_8, huffman_literal_9, hr, hp]
  split
  · simp [upd]
    exact or_shiftRight_of_lt _ _ 5 e8
  · simp [upd]
    exact or_shiftRight_of_lt _ _ 5 e9

theorem write_tail_mono (buf : Nat → Nat) (pos r lao remaining : Nat) :
    pos ≤ (huffman_write_tail buf pos r lao remaining).2.1 ∧
    ∀ j, j < pos → (huffman_write_tail buf pos r lao remaining).1 j = buf j := by
  unfold huffman_write_tail
  have h := write_output_mono remaining buf pos lao remaining
  rcases hw : STATIC_HUFFMAN_WRITE_OUTPUT remaining buf pos lao remaining with ⟨b2, p2, l2, r2⟩
  rw [hw] at h
  simp only at h ⊢
  split_ifs
  · exact h
  · refine ⟨h.1, fun j hj => ?_⟩
    simp only
    rw [upd_other _ _ _ _ (by omega)]
    exact h.2 j hj

theorem write_code_mono (buf : Nat → Nat) (pos r lao remaining : Nat) :
    pos ≤ (huffman_write_code buf pos r lao remaining).2.1 ∧
    (r ≠ 8 → pos + 1 ≤ (huffman_write_code buf pos r lao remaining).2.1) ∧
    ∀ j, j < pos → (huffman_write_code buf pos r lao remaining).1 j = buf j := by
  unfold huffman_write_code
  simp only []
  split_ifs with hr
  · have h := write_tail_mono
      (upd buf pos (buf pos ||| (lao >>> (32 - r)) % 2 ^ 8)) (pos + 1) 8
      ((lao <<< r) % 2 ^ 32) ((remaining + 2 ^ 32 - r) % 2 ^ 32)
    refine ⟨by omega, fun _ => h.1, fun j hj => ?_⟩
    rw [h.2 j (by omega), upd_other _ _ _ _ (by omega)]
  · have h := write_tail_mono buf pos r lao remaining
    exact ⟨h.1, fun h8 => absurd h8 hr, h.2⟩

theorem shiftRight_mod_lt (lao r k : Nat) (hl : lao < 4294967296) (hr : r ≤ 32) (hk : r ≤ k) :
    (lao >>> (32 - r)) % 256 < 2 ^ k := by
  have h1 : lao >>> (32 - r) < 2 ^ r := by
    rw [Nat.shiftRight_eq_div_pow]
    apply Nat.div_lt_of_lt_mul
    rw [← Nat.pow_add]
    have : 32 - r + r = 32 := by omega
    rw [this]
    exact hl
  exact lt_of_le_of_lt (Nat.mod_le _ _)
    (lt_of_lt_of_le h1 (Nat.pow_le_pow_right (by norm_num) hk))

theorem write_code_header (buf : Nat → Nat) (pos r lao remaining k : Nat) (hr8 : r ≠ 8)
    (hr : r ≤ 32) (hk : r ≤ k) (hl : lao < 4294967296) :
    (huffman_write_code buf pos r lao remaining).1 pos >>> k = buf pos >>> k := by
  rw [huffman_write_code, if_pos hr8]
  simp only []
  rw [(write_tail_mono _ _ _ _ _).2 pos (by omega), upd_same]
  apply or_shiftRight_of_lt
  exact shiftRight_mod_lt lao r k hl hr hk

theorem headerInv_step_literal (st : HuffState) (b : Nat) (hb : b < 256) (h : HeaderInv st) :
    HeaderInv (huffman_literal st b) := by
  have hpos := literal_pos st b
  refine ⟨?_, fun h0 => by omega⟩
  by_cases hp : st.output_pos = 0
  · rw [literal_header st b hb hp (h.2 hp)]; exact h.1
  · rw [literal_below st b 0 (by omega)]; exact h.1

theorem headerInv_step_match (st : HuffState) (b1 b2 b3 : Nat) (h : HeaderInv st) :
    HeaderInv (huffman_match st b1 b2 b3) := by
  rw [huffman_match]
  simp only [HeaderInv]
  generalize hlao : (((huffman_length_code b3 (st.length_code, st.length_valid_bits_num)).1 <<<
          (32 - (huffman_length_code b3 (st.length_code, st.length_valid_bits_num)).2)) |||
          ((huffman_offset_code (b1 * 128 + b2) (st.offset_code, st.offset_valid_bits_num)).1 <<<
          (32 - ((huffman_length_code b3 (st.length_code, st.length_valid_bits_num)).2 +
            (huffman_offset_code (b1 * 128 + b2)
              (st.offset_code, st.offset_valid_bits_num)).2)))) % 2 ^ 32 = lao
  generalize ((huffman_length_code b3 (st.length_code, st.length_valid_bits_num)).2 +
            (huffman_offset_code (b1 * 128 + b2)
              (st.offset_code, st.offset_valid_bits_num)).2) = remaining
  have hl : lao < 4294967296 := by rw [← hlao]; exact Nat.mod_lt _ (by norm_num)
  have hm := write_code_mono st.output_buffer st.output_pos st.output_char_remaining_bits
    lao remaining
  by_cases hp : st.output_pos = 0
  · have hr := h.2 hp
    refine ⟨?_, fun h0 => ?_⟩
    · have := write_code_header st.output_buffer st.output_pos st.output_char_remaining_bits
        lao remaining 5 (by omega) (by omega) (by omega) hl
      rw [hp] at this
      rw [hp, this]; exact h.1
    · have := hm.2.1 (by omega)
      omega
  · refine ⟨?_, fun h0 => ?_⟩
    · rw [hm.2.2 0 (by omega)]; exact h.1
    · have := hm.1
      omega

theorem headerInv_loop (input : List Nat) (hin : ∀ b ∈ input, b < 256) (fuel input_pos : Nat)
    (st : HuffState) (h : HeaderInv st) : HeaderInv (STATIC_HUFFMAN input fuel input_pos st) := by
  induction fuel generalizing input_pos st with
  | zero => exact h
  | succ n ih =>
    rw [STATIC_HUFFMAN]
    split_ifs with h0 h40
    · exact h
    · exact ih _ _ (headerInv_step_match _ _ _ _ h)
    · apply ih
      apply headerInv_step_literal _ _ _ h
      by_cases hlt : input_pos < input.length
      · rw [List.getD_eq_getElem _ _ hlt]
        exact hin _ (List.getElem_mem _)
      · rw [List.getD_eq_default _ _ (by omega)]; norm_num

theorem testBit_and_one (n i : Nat) : (n &&& 1).testBit i = (decide (i = 0) && n.testBit 0) := by
  rw [Nat.testBit_and]
  cases i with
  | zero => simp
  | succ j =>
    have : Nat.testBit 1 (j + 1) = false := by
      apply Nat.testBit_lt_two_pow
      calc 1 < 2 ^ 1 := by norm_num
        _ ≤ 2 ^ (j + 1) := Nat.pow_le_pow_right (by norm_num) (by omega)
    simp [this]

/-- Bits of the result of `REVERSE_BITS`: the `k` low bits of `n` reversed, above them
the old `rv`. -/
theorem testBit_REVERSE_BITS (W : Nat) (k n rv m : Nat) (hrv : rv < 2 ^ m) (hm : m + k ≤ W)
    (i : Nat) :
    (REVERSE_BITS W k n rv).testBit i =
      if i < k then n.testBit (k - 1 - i) else rv.testBit (i - k) := by
  induction k generalizing n rv m with
  | zero => simp [REVERSE_BITS]
  | succ k ih =>
    rw [REVERSE_BITS]
    have hrv2 : (rv <<< 1) % 2 ^ W ||| (n &&& 0x01) < 2 ^ (m + 1) := by
      apply Nat.or_lt_two_pow
      · apply lt_of_le_of_lt (Nat.mod_le _ _)
        rw [Nat.shiftLeft_eq, Nat.pow_succ]
        omega
      · have : n &&& 1 ≤ 1 := Nat.and_le_right
        calc n &&& 1 < 2 ^ 1 := by omega
          _ ≤ 2 ^ (m + 1) := Nat.pow_le_pow_right (by norm_num) (by omega)
    rw [ih (n >>> 1) _ (m + 1) hrv2 (by omega)]
    by_cases h1 : i < k
    · rw [if_pos h1, if_pos (by omega), Nat.testBit_shiftRight]
      congr 1; omega
    · rw [if_neg h1]
      by_cases h2 : i = k
      · subst h2
        rw [if_pos (by omega), Nat.testBit_or, testBit_and_one, Nat.testBit_mod_two_pow,
          Nat.testBit_shiftLeft]
        simp
      · rw [if_neg (by omega), Nat.testBit_or, testBit_and_one, Nat.testBit_mod_two_pow,
          Nat.testBit_shiftLeft]
        have e : i - k - 1 = i - (k + 1) := by omega
        have h0 : ¬ (i - k = 0) := by omega
        by_cases h3 : i - k < W
        · simp [h3, e, (by omega : 1 ≤ i - k), h0]
        · have : rv.testBit (i - (k + 1)) = false := testBit_false_of_lt hrv (by omega)
          simp [h3, this, h0]

theorem testBit_reverse (W n k : Nat) (hk : k ≤ W) (i : Nat) :
    (reverse W n k).testBit i = (decide (i < k) && n.testBit (k - 1 - i)) := by
  rw [reverse, testBit_REVERSE_BITS W k n 0 0 (by norm_num) (by omega)]
  by_cases h : i < k <;> simp [h]

theorem reverse_lt (W n k : Nat) (hk : k ≤ W) : reverse W n k < 2 ^ k := by
  apply Nat.lt_pow_two_of_testBit
  intro i hi
  rw [testBit_reverse W n k hk]
  simp; omega

theorem pack_words_succ (a : Nat → Nat) (n : Nat) :
    pack_words a (n + 1) =
      pack_word (a 0) (a 1) (a 2) (a 3) ::
        (List.range n).map (fun i => pack_word (a ((i + 1) * 4)) (a ((i + 1) * 4 + 1))
          (a ((i + 1) * 4 + 2)) (a ((i + 1) * 4 + 3))) := by
  simp [pack_words, List.range_succ_eq_map, List.map_map, Function.comp_def]

theorem testBit_pack_word_top (b0 b1 b2 b3 i : Nat) (h1 : b1 < 256) (h2 : b2 < 256)
    (h3 : b3 < 256) (hi : i < 8) :
    (pack_word b0 b1 b2 b3 >>> 24).testBit i = b0.testBit i := by
  have e1 : b1.testBit (24 + i - 16) = false := testBit_false_of_lt (k := 8) h1 (by omega)
  have e2 : b2.testBit (24 + i - 8) = false := testBit_false_of_lt (k := 8) h2 (by omega)
  have e3 : b3.testBit (24 + i) = false := testBit_false_of_lt (k := 8) h3 (by omega)
  rw [pack_word, Nat.testBit_shiftRight, Nat.testBit_mod_two_pow]
  simp only [Nat.testBit_or, Nat.testBit_shiftLeft, e1, e2, e3]
  simp [(by omega : 24 + i < 32)]

/-- C8: for every token stream the most significant byte of the first word that
`huffman` writes has its three least significant bits equal to 1, 1, 0 (bit 0, bit 1,
bit 2): BFINAL = 1 and BTYPE = 01, least significant bit first.  The accumulated first
byte starts as `0xC0` with 5 free bits and is bit-reversed on output. -/
theorem first_word_carries_static_header (input : List Nat) (hin : ∀ b ∈ input, b < 256) :
    huffman_init.output_buffer 0 = 0xC0 ∧ huffman_init.output_char_remaining_bits = 5 ∧
    ∃ w rest, huffman input = w :: rest ∧
      (w >>> 24).testBit 0 = true ∧ (w >>> 24).testBit 1 = true ∧
      (w >>> 24).testBit 2 = false := by
  refine ⟨by simp [huffman_init, upd], rfl, ?_⟩
  have hinit : HeaderInv huffman_init := by
    refine ⟨?_, fun _ => rfl⟩
    simp [huffman_init, upd]
  have hI := headerInv_loop input hin (input.length + 1) 0 huffman_init hinit
  rw [huffman]
  generalize STATIC_HUFFMAN input (input.length + 1) 0 huffman_init = st at hI ⊢
  obtain ⟨h6, h5⟩ := hI
  rw [huffman_finish, pack_words_succ]
  refine ⟨_, _, rfl, ?_⟩
  have hb : ∀ buf : Nat → Nat, ∀ j, reverse 8 (buf j) 8 < 256 := fun buf j =>
    reverse_lt 8 (buf j) 8 (le_refl _)
  have hbuf0 : (if st.output_char_remaining_bits = 8 then upd st.output_buffer st.output_pos 0
      else upd st.output_buffer (st.output_pos + 1) 0) 0 = st.output_buffer 0 := by
    split_ifs with h8
    · exact upd_other _ _ _ _ (by
        intro h0
        have := h5 h0.symm
        omega)
    · exact upd_other _ _ _ _ (by omega)
  have bit : ∀ j, (st.output_buffer 0).testBit (5 + j) = Nat.testBit 6 j := by
    intro j
    rw [← Nat.testBit_shiftRight, h6]
  rw [testBit_pack_word_top _ _ _ _ 0 (hb _ _) (hb _ _) (hb _ _) (by norm_num),
    testBit_pack_word_top _ _ _ _ 1 (hb _ _) (hb _ _) (hb _ _) (by norm_num),
    testBit_pack_word_top _ _ _ _ 2 (hb _ _) (hb _ _) (hb _ _) (by norm_num),
    testBit_reverse 8 _ 8 (le_refl _), testBit_reverse 8 _ 8 (le_refl _),
    testBit_reverse 8 _ 8 (le_refl _), hbuf0]
  have b7 := bit 2
  have b6 := bit 1
  have b5 := bit 0
  simp only [Nat.reduceAdd] at b7 b6 b5
  simp [b7, b6, b5]
  decide

/-- Witness for C8: the one-literal stream `a`. -/
theorem first_word_carries_static_header_witness :
    (∀ b ∈ ([0x61, 0] : List Nat), b < 256) ∧
    (huffman_init.output_buffer 0 = 0xC0 ∧ huffman_init.output_char_remaining_bits = 5 ∧
    ∃ w rest, huffman [0x61, 0] = w :: rest ∧
      (w >>> 24).testBit 0 = true ∧ (w >>> 24).testBit 1 = true ∧
      (w >>> 24).testBit 2 = false) :=
  ⟨by decide, first_word_carries_static_header [0x61, 0] (by decide)⟩

/-! ### `LZ77_decoder`: the copy of a back-reference (C5) and literal streams (C6) -/

theorem getD_of_take_eq {l l2 : List Nat} {n i : Nat} (h : l.take n = l2) (hi : i < n) :
    l.getD i 0 = l2.getD i 0 := by
  subst h
  simp only [List.getD_eq_getElem?_getD, List.getElem?_take, hi, if_true]

theorem copy_matched_char_spec (n : Nat) (output_array : List Nat) (msp offset : Nat)
    (h : msp + offset = output_array.length) (ho : 1 ≤ offset) :
    (COPY_MATCHED_CHAR n output_array msp).length = output_array.length + n ∧
    (COPY_MATCHED_CHAR n output_array msp).take output_array.length = output_array ∧
    ∀ k, k < n →
      (COPY_MATCHED_CHAR n output_array msp).getD (output_array.length + k) 0 =
        (COPY_MATCHED_CHAR n output_array msp).getD (output_array.length + k - offset) 0 := by
  induction n generalizing output_array msp with
  | zero => simp [COPY_MATCHED_CHAR]
  | succ n ih =>
    rw [COPY_MATCHED_CHAR]
    obtain ⟨h1, h2, h3⟩ := ih (output_array ++ [output_array.getD msp 0]) (msp + 1)
      (by simp; omega)
    have hlen : (output_array ++ [output_array.getD msp 0]).length = output_array.length + 1 := by
      simp
    rw [hlen] at h1 h2 h3
    have h2b : (COPY_MATCHED_CHAR n (output_array ++ [output_array.getD msp 0]) (msp + 1)).take
        output_array.length = output_array := by
      have := congrArg (List.take output_array.length) h2
      rw [List.take_take, Nat.min_eq_left (by omega)] at this
      rw [this]
      simp
    refine ⟨by omega, h2b, fun k hk => ?_⟩
    cases k with
    | zero =>
      have e : output_array.length - offset = msp := by omega
      simp only [Nat.add_zero]
      rw [getD_of_take_eq h2 (by omega), getD_of_take_eq h2b (by omega), e]
      simp [List.getD_eq_getElem?_getD]
    | succ j =>
      have := h3 j (by omega)
      have e1 : output_array.length + (j + 1) = output_array.length + 1 + j := by omega
      rw [e1]
      exact this

/-- C5: in `LZ77_decoder`, a back-reference `(offset, len)` met when `m` bytes have been
output, with `1 ≤ offset ≤ m`, leaves `m + len` bytes, the first `m` unchanged, and for
every `k < len` byte `m + k` equals byte `m + k - offset` of the new output: the copy is
byte by byte, so for `offset < len` the run repeats the last `offset` bytes with period
`offset`. -/
theorem back_reference_copies_byte_by_byte (fuel hi lo len : Nat) (rest output_array : List Nat)
    (h1 : 1 ≤ hi * 128 + lo) (h2 : hi * 128 + lo ≤ output_array.length) :
    ∃ out2 : List Nat,
      LZ77_MAIN_LOOP (fuel + 1) (0x40 :: hi :: lo :: len :: rest) output_array =
        LZ77_MAIN_LOOP fuel rest out2 ∧
      out2.length = output_array.length + len ∧
      out2.take output_array.length = output_array ∧
      (∀ k, k < len →
        out2.getD (output_array.length + k) 0 =
          out2.getD (output_array.length + k - (hi * 128 + lo)) 0) ∧
      (∀ k, k < len →
        out2.getD (output_array.length + k) 0 =
          output_array.getD (output_array.length - (hi * 128 + lo) + k % (hi * 128 + lo)) 0) := by
  refine ⟨COPY_MATCHED_CHAR len output_array (output_array.length - (hi * 128 + lo)), ?_, ?_⟩
  · rw [LZ77_MAIN_LOOP]
    simp
  · obtain ⟨e1, e2, e3⟩ := copy_matched_char_spec len output_array
      (output_array.length - (hi * 128 + lo)) (hi * 128 + lo) (by omega) h1
    refine ⟨e1, e2, e3, ?_⟩
    generalize COPY_MATCHED_CHAR len output_array (output_array.length - (hi * 128 + lo)) = out2
      at e1 e2 e3
    generalize hi * 128 + lo = offset at h1 h2 e3
    intro k
    induction k using Nat.strong_induction_on with
    | _ k ih =>
      intro hk
      rw [e3 k hk]
      by_cases hko : k < offset
      · rw [Nat.mod_eq_of_lt hko, getD_of_take_eq e2 (by omega)]
        congr 1; omega
      · have e : output_array.length + k - offset = output_array.length + (k - offset) := by omega
        rw [e, ih (k - offset) (by omega) (by omega)]
        have : k % offset = (k - offset) % offset := by
          conv_lhs => rw [show k = (k - offset) + offset by omega]
          exact Nat.add_mod_right _ _
        rw [this]

/-- Witness for C5: the record `(offset 2, len 5)` after the two bytes `a b`. -/
theorem back_reference_copies_byte_by_byte_witness :
    (1 ≤ 0 * 128 + 2 ∧ 0 * 128 + 2 ≤ ([0x61, 0x62] : List Nat).length) ∧
    ∃ out2 : List Nat,
      LZ77_MAIN_LOOP (1 + 1) (0x40 :: 0 :: 2 :: 5 :: [0]) [0x61, 0x62] =
        LZ77_MAIN_LOOP 1 [0] out2 ∧
      out2.length = ([0x61, 0x62] : List Nat).length + 5 ∧
      out2.take ([0x61, 0x62] : List Nat).length = [0x61, 0x62] ∧
      (∀ k, k < 5 →
        out2.getD (([0x61, 0x62] : List Nat).length + k) 0 =
          out2.getD (([0x61, 0x62] : List Nat).length + k - (0 * 128 + 2)) 0) ∧
      (∀ k, k < 5 →
        out2.getD (([0x61, 0x62] : List Nat).length + k) 0 =
          ([0x61, 0x62] : List Nat).getD
            (([0x61, 0x62] : List Nat).length - (0 * 128 + 2) + k % (0 * 128 + 2)) 0) :=
  ⟨⟨by decide, by decide⟩,
   back_reference_copies_byte_by_byte 1 0 2 5 [0] [0x61, 0x62] (by decide) (by decide)⟩

/-! ### Word packing -/

theorem testBit_pack_word (b0 b1 b2 b3 j : Nat) (h0 : b0 < 256) (h1 : b1 < 256)
    (h2 : b2 < 256) (h3 : b3 < 256) :
    (pack_word b0 b1 b2 b3).testBit j =
      if j < 8 then b3.testBit j else if j < 16 then b2.testBit (j - 8)
      else if j < 24 then b1.testBit (j - 16) else if j < 32 then b0.testBit (j - 24)
      else false := by
  rw [pack_word, Nat.testBit_mod_two_pow]
  simp only [Nat.testBit_or, Nat.testBit_shiftLeft]
  have f0 : ∀ i, 8 ≤ i → b0.testBit i = false := fun i hi => testBit_false_of_lt (k := 8) h0 hi
  have f1 : ∀ i, 8 ≤ i → b1.testBit i = false := fun i hi => testBit_false_of_lt (k := 8) h1 hi
  have f2 : ∀ i, 8 ≤ i → b2.testBit i = false := fun i hi => testBit_false_of_lt (k := 8) h2 hi
  have f3 : ∀ i, 8 ≤ i → b3.testBit i = false := fun i hi => testBit_false_of_lt (k := 8) h3 hi
  have d (n : Nat) (h : ¬ n ≤ j) : decide (n ≤ j) = false := by simp; omega
  have t (n : Nat) (h : n ≤ j) : decide (n ≤ j) = true := by simp; omega
  have u (n : Nat) (h : j < n) : decide (j < n) = true := by simp; omega
  by_cases c1 : j < 8
  · rw [if_pos c1, d 24 (by omega), d 16 (by omega), d 8 (by omega), u 32 (by omega)]
    simp
  · rw [if_neg c1]
    by_cases c2 : j < 16
    · rw [if_pos c2, d 24 (by omega), d 16 (by omega), t 8 (by omega), u 32 (by omega),
        f3 j (by omega)]
      simp
    · rw [if_neg c2]
      by_cases c3 : j < 24
      · rw [if_pos c3, d 24 (by omega), t 16 (by omega), t 8 (by omega), u 32 (by omega),
          f3 j (by omega), f2 (j - 8) (by omega)]
        simp
      · rw [if_neg c3]
        by_cases c4 : j < 32
        · rw [if_pos c4, t 24 (by omega), t 16 (by omega), t 8 (by omega), u 32 (by omega),
            f3 j (by omega), f2 (j - 8) (by omega), f1 (j - 16) (by omega)]
          simp
        · rw [if_neg c4]
          simp [c4]

theorem and_mask_shiftRight (w s : Nat) : (w &&& (255 <<< s)) >>> s = (w >>> s) % 256 := by
  apply Nat.eq_of_testBit_eq
  intro i
  have e : (255 : Nat) = 2 ^ 8 - 1 := by norm_num
  rw [Nat.testBit_shiftRight, Nat.testBit_and, Nat.testBit_shiftLeft, testBit_mod_256,
    Nat.testBit_shiftRight, e, Nat.testBit_two_pow_sub_one]
  by_cases h : i < 8 <;> simp [h]

theorem word_bytes_eq (w : Nat) :
    word_bytes w = [(w >>> 24) % 256, (w >>> 16) % 256, (w >>> 8) % 256, w % 256] := by
  have e24 : (0xFF000000 : Nat) = 255 <<< 24 := by decide
  have e16 : (0x00FF0000 : Nat) = 255 <<< 16 := by decide
  have e8 : (0x0000FF00 : Nat) = 255 <<< 8 := by decide
  have e0 : w &&& 0x000000FF = w % 256 := by
    have := and_mask_shiftRight w 0
    simpa using this
  rw [word_bytes, e0, e24, e16, e8, and_mask_shiftRight, and_mask_shiftRight,
    and_mask_shiftRight]

theorem byte_of_pack_word (w s v : Nat) (hv : v < 256)
    (hs : ∀ i, i < 8 → w.testBit (s + i) = v.testBit i) :
    (w >>> s) % 256 = v := by
  apply Nat.eq_of_testBit_eq
  intro i
  rw [testBit_mod_256, Nat.testBit_shiftRight]
  by_cases h : i < 8
  · simp [h, hs i h]
  · simp [h, testBit_false_of_lt (k := 8) hv (by omega : 8 ≤ i)]

theorem word_bytes_pack_word (b0 b1 b2 b3 : Nat) (h0 : b0 < 256) (h1 : b1 < 256)
    (h2 : b2 < 256) (h3 : b3 < 256) :
    word_bytes (pack_word b0 b1 b2 b3) = [b0, b1, b2, b3] := by
  rw [word_bytes_eq]
  have t := testBit_pack_word b0 b1 b2 b3
  have e0 := byte_of_pack_word (pack_word b0 b1 b2 b3) 24 b0 h0 (fun i hi => by
    rw [t _ h0 h1 h2 h3, if_neg (by omega), if_neg (by omega), if_neg (by omega),
      if_pos (by omega)]
    congr 1; omega)
  have e1 := byte_of_pack_word (pack_word b0 b1 b2 b3) 16 b1 h1 (fun i hi => by
    rw [t _ h0 h1 h2 h3, if_neg (by omega), if_neg (by omega), if_pos (by omega)]
    congr 1; omega)
  have e2 := byte_of_pack_word (pack_word b0 b1 b2 b3) 8 b2 h2 (fun i hi => by
    rw [t _ h0 h1 h2 h3, if_neg (by omega), if_pos (by omega)]
    congr 1; omega)
  have e3 := byte_of_pack_word (pack_word b0 b1 b2 b3) 0 b3 h3 (fun i hi => by
    rw [t _ h0 h1 h2 h3, Nat.zero_add, if_pos hi])
  rw [Nat.shiftRight_zero] at e3
  rw [e0, e1, e2, e3]

theorem unpack_pack_words (a : Nat → Nat) (ha : ∀ i, a i < 256) (n : Nat) :
    unpack_words (pack_words a n) = (List.range (4 * n)).map a := by
  induction n with
  | zero => simp [unpack_words, pack_words]
  | succ n ih =>
    have e : pack_words a (n + 1) =
        pack_words a n ++ [pack_word (a (n * 4)) (a (n * 4 + 1)) (a (n * 4 + 2)) (a (n * 4 + 3))] := by
      simp [pack_words, List.range_succ]
    have r : List.range (4 * (n + 1)) =
        List.range (4 * n) ++ [n * 4, n * 4 + 1, n * 4 + 2, n * 4 + 3] := by
      have : 4 * (n + 1) = 4 * n + 1 + 1 + 1 + 1 := by ring
      rw [this, List.range_succ, List.range_succ, List.range_succ, List.range_succ]
      simp [Nat.mul_comm]
    rw [e, r, List.map_append, ← ih]
    simp only [unpack_words, List.flatMap_append, List.flatMap_cons, List.flatMap_nil,
      List.append_nil, List.map_cons, List.map_nil]
    rw [word_bytes_pack_word _ _ _ _ (ha _) (ha _) (ha _) (ha _)]

theorem map_getD_range (l : List Nat) (n : Nat) (hn : n ≤ l.length) :
    (List.range n).map (fun i => l.getD i 0) = l.take n := by
  apply List.ext_getElem
  · simp [hn]
  · intro i h1 h2
    simp at h1 h2
    simp [List.getD_eq_getElem?_getD, List.getElem?_eq_getElem (by omega : i < l.length)]

/-- The bytes of the words written by `LZ77_decoder` begin with the decoded bytes and
the terminating `'\0'`. -/
theorem unpack_LZ77_decoder (input : List Nat)
    (hb : ∀ b ∈ LZ77_MAIN_LOOP (input.length + 1) input [], b < 256) :
    (unpack_words (LZ77_decoder input)).take
        ((LZ77_MAIN_LOOP (input.length + 1) input []).length + 1) =
      LZ77_MAIN_LOOP (input.length + 1) input [] ++ [0] := by
  rw [LZ77_decoder]
  generalize LZ77_MAIN_LOOP (input.length + 1) input [] = out at hb ⊢
  have ha : ∀ i, (out ++ [0]).getD i 0 < 256 := by
    intro i
    by_cases h : i < (out ++ [0]).length
    · rw [List.getD_eq_getElem _ _ h]
      have := List.getElem_mem h
      rcases List.mem_append.mp this with h1 | h1
      · exact hb _ h1
      · simp at h1; omega
    · rw [List.getD_eq_default _ _ (by omega)]; norm_num
  rw [unpack_pack_words _ ha, ← List.map_take, List.take_range,
    Nat.min_eq_left (by omega), map_getD_range _ _ (by simp)]
  simp

theorem LZ77_MAIN_LOOP_literals (T rest : List Nat) (hT : ∀ b ∈ T, b ≠ 0 ∧ b ≠ 0x40)
    (fuel : Nat) (hf : T.length + 1 ≤ fuel) (output_array : List Nat) :
    LZ77_MAIN_LOOP fuel (T ++ 0 :: rest) output_array = output_array ++ T := by
  induction T generalizing fuel output_array with
  | nil =>
    cases fuel with
    | zero => simp at hf
    | succ f => simp [LZ77_MAIN_LOOP]
  | cons b T ih =>
    cases fuel with
    | zero => simp at hf
    | succ f =>
      have hb := hT b (List.mem_cons_self _ _)
      rw [LZ77_MAIN_LOOP]
      simp only [List.cons_append, List.getD_cons_zero, List.drop_succ_cons, List.drop_zero]
      rw [if_neg hb.1, if_neg hb.2,
        ih (fun c hc => hT c (List.mem_cons_of_mem _ hc)) f (by simp at hf; omega)]
      simp

/-- C6: for a NUL-terminated token stream made of literal bytes only (no `0x40`, no
`0x00` before the terminator), shorter than 3000 bytes, the bytes that `LZ77_decoder`
writes are the input bytes, terminator included. -/
theorem decoding_literals_reproduces_input (T : List Nat)
    (hT : ∀ b ∈ T, b ≠ 0 ∧ b ≠ 0x40 ∧ b < 256) (_hlen : T.length < 3000) :
    (unpack_words (LZ77_decoder (T ++ [0]))).take (T.length + 1) = T ++ [0] := by
  have hloop : LZ77_MAIN_LOOP ((T ++ [0]).length + 1) (T ++ [0]) [] = T := by
    rw [LZ77_MAIN_LOOP_literals T [] (fun b hb => ⟨(hT b hb).1, (hT b hb).2.1⟩) _ (by simp)]
    simp
  have := unpack_LZ77_decoder (T ++ [0]) (by
    rw [hloop]
    exact fun b hb => (hT b hb).2.2)
  rw [hloop] at this
  exact this

/-- Witness for C6: the stream `a b c`. -/
theorem decoding_literals_reproduces_input_witness :
    (∀ b ∈ ([0x61, 0x62, 0x63] : List Nat), b ≠ 0 ∧ b ≠ 0x40 ∧ b < 256) ∧
    ([0x61, 0x62, 0x63] : List Nat).length < 3000 ∧
    (unpack_words (LZ77_decoder ([0x61, 0x62, 0x63] ++ [0]))).take
      (([0x61, 0x62, 0x63] : List Nat).length + 1) = [0x61, 0x62, 0x63] ++ [0] :=
  ⟨by decide, by decide,
   decoding_literals_reproduces_input [0x61, 0x62, 0x63] (by decide) (by decide)⟩

/-! ### Evaluations at failing inputs -/

/-- C3, at the failing input: for the input words `0x00000001, 0, ..., 0` (a plaintext
that begins with three zero bytes) and `size = 4`, `LZ77` writes the back-reference
record `(0x40, 0, 0, 3)`, whose offset `(0 << 7) | 0` is `0`, below the bound `1`. -/
theorem LZ77_writes_record_with_offset_zero :
    LZ77 [0x00000001, 0, 0, 0, 0, 0, 0, 0, 0] 4 = [0x40, 0, 0, 3, 1, 0] := by
  decide

/-- C4, at the failing input: the token stream `a b @(2049, 19) c` is encoded by
`huffman`, and `huffman_decoder` gives back `a b @(2049, 19)` only: the literal `c` that
follows the 24-bit back-reference code is lost, because `STATIC_MAIN_LOOP` stops as soon
as `buffer_bits_num` reaches `0`. -/
theorem huffman_decoder_stops_after_24_bit_code :
    huffman_decoder (huffman [0x61, 0x62, 0x40, 16, 1, 19, 0x63, 0]) =
      some [0x61, 0x62, 0x40, 16, 1, 19, 0] := by
  decide

/-! ### `LZ77`: the match search -/

theorem COMPARE_EACH_CHAR_spec (curr_window comp : Nat → Nat) (j fuel k : Nat) :
    COMPARE_EACH_CHAR curr_window comp j fuel k ≤ fuel ∧
    (∀ x, x < COMPARE_EACH_CHAR curr_window comp j fuel k →
      curr_window (j + (k + x)) = comp (k + x)) ∧
    (COMPARE_EACH_CHAR curr_window comp j fuel k < fuel →
      curr_window (j + (k + COMPARE_EACH_CHAR curr_window comp j fuel k)) ≠
        comp (k + COMPARE_EACH_CHAR curr_window comp j fuel k)) := by
  induction fuel generalizing k with
  | zero => simp [COMPARE_EACH_CHAR]
  | succ f ih =>
    rw [COMPARE_EACH_CHAR]
    split_ifs with h
    · obtain ⟨h1, h2, h3⟩ := ih (k + 1)
      refine ⟨by omega, fun x hx => ?_, fun hlt => ?_⟩
      · cases x with
        | zero => simpa using h
        | succ y =>
          have := h2 y (by omega)
          rw [show k + 1 + y = k + (y + 1) by omega] at this
          exact this
      · have := h3 (by omega)
        rw [show k + 1 + COMPARE_EACH_CHAR curr_window comp j f (k + 1) =
          k + (1 + COMPARE_EACH_CHAR curr_window comp j f (k + 1)) by omega] at this
        exact this
    · refine ⟨by omega, fun x hx => by omega, fun _ => ?_⟩
      simpa using h

theorem UPDATE_BESTLENGTH_spec (curr_window : Nat → Nat) (comp_window : Nat → Nat → Nat → Nat)
    (cpos : Nat → Nat → Nat) (m : Nat) (ts : List Nat) (best : Nat × Nat) :
    UPDATE_BESTLENGTH curr_window comp_window cpos m ts best = best ∨
    ∃ t, t ∈ ts ∧ UPDATE_BESTLENGTH curr_window comp_window cpos m ts best =
      (cpos t m, COMPARE_EACH_CHAR curr_window (comp_window t m) m LEN 0) := by
  induction ts generalizing best with
  | nil => left; rfl
  | cons t ts ih =>
    rw [UPDATE_BESTLENGTH]
    split_ifs with h
    · rcases ih (cpos t m, COMPARE_EACH_CHAR curr_window (comp_window t m) m LEN 0) with e | ⟨u, hu, e⟩
      · right; exact ⟨t, List.mem_cons_self _ _, e⟩
      · right; exact ⟨u, List.mem_cons_of_mem _ hu, e⟩
    · rcases ih best with e | ⟨u, hu, e⟩
      · left; exact e
      · right; exact ⟨u, List.mem_cons_of_mem _ hu, e⟩

/-- What `bestlength[m]` stands for: nothing (`length = 0` and `string_start_pos = 0`),
or the comparison with the compare window of one dictionary. -/
theorem bestlength_spec (curr_window : Nat → Nat) (comp_window : Nat → Nat → Nat → Nat)
    (cpos : Nat → Nat → Nat) (m : Nat) :
    bestlength curr_window comp_window cpos m = (0, 0) ∨
    ∃ t, t < NUM_DICT ∧ bestlength curr_window comp_window cpos m =
      (cpos t m, COMPARE_EACH_CHAR curr_window (comp_window t m) m LEN 0) := by
  rw [bestlength]
  rcases UPDATE_BESTLENGTH_spec curr_window comp_window cpos m (List.range NUM_DICT) (0, 0) with
    e | ⟨t, ht, e⟩
  · left; exact e
  · right; exact ⟨t, List.mem_range.mp ht, e⟩

/-- A lane inside the plaintext (no zero byte before position `n`, a zero byte at `n`)
has a match only against a real earlier occurrence, and the match ends before `n`. -/
theorem bestlength_real (W : Nat → Nat) (n ci : Nat) (curr_window : Nat → Nat)
    (comp_window : Nat → Nat → Nat → Nat) (cpos : Nat → Nat → Nat) (m : Nat)
    (hW : ∀ p, p < n → W p ≠ 0) (hn : W n = 0)
    (hcw : ∀ i, i < 36 → curr_window i = W (ci + i))
    (hcomp : ∀ t i, (∀ j, j < 32 → comp_window t i j = 0) ∨
      (cpos t i < ci ∧ ∀ j, j < 32 → comp_window t i j = W (cpos t i + j)))
    (hm : m < 4) (hq : ci + m < n)
    (hL : 1 ≤ (bestlength curr_window comp_window cpos m).2) :
    (bestlength curr_window comp_window cpos m).1 < ci ∧
    (bestlength curr_window comp_window cpos m).2 ≤ 32 ∧
    ci + m + (bestlength curr_window comp_window cpos m).2 ≤ n ∧
    ∀ j, j < (bestlength curr_window comp_window cpos m).2 →
      W (ci + m + j) = W ((bestlength curr_window comp_window cpos m).1 + j) := by
  rcases bestlength_spec curr_window comp_window cpos m with e | ⟨t, _, e⟩
  · rw [e] at hL; simp at hL
  · rw [e] at hL ⊢
    simp only [] at hL ⊢
    obtain ⟨h1, h2, _⟩ := COMPARE_EACH_CHAR_spec curr_window (comp_window t m) m LEN 0
    generalize COMPARE_EACH_CHAR curr_window (comp_window t m) m LEN 0 = L at h1 h2 hL
    have hL32 : L ≤ 32 := h1
    have heq : ∀ x, x < L → W (ci + m + x) = comp_window t m x := by
      intro x hx
      have := h2 x hx
      rw [Nat.zero_add, hcw (m + x) (by omega)] at this
      rw [← this]; congr 1; omega
    rcases hcomp t m with hz | ⟨hs, hc⟩
    · exfalso
      have := heq 0 (by omega)
      rw [hz 0 (by omega)] at this
      exact hW (ci + m) hq (by simpa using this)
    · have hWeq : ∀ j, j < L → W (ci + m + j) = W (cpos t m + j) := fun j hj => by
        rw [heq j hj, hc j (by omega)]
      refine ⟨hs, hL32, ?_, hWeq⟩
      by_contra hcon
      have hj : n - (ci + m) < L := by omega
      have := hWeq (n - (ci + m)) hj
      rw [show ci + m + (n - (ci + m)) = n by omega, hn] at this
      exact hW (cpos t m + (n - (ci + m))) (by omega) this.symm

theorem CHOOSE_MATCHING_STRING_spec (best : Nat → Nat × Nat) (ci fvp : Nat) (lanes : List Nat)
    (c : Choice) (hl : ∀ i, i ∈ lanes → fvp ≤ i ∧ i < 4) (hc : Chosen best ci fvp c) :
    Chosen best ci fvp (CHOOSE_MATCHING_STRING best ci lanes c) := by
  induction lanes generalizing c with
  | nil => exact hc
  | cons i lanes ih =>
    rw [CHOOSE_MATCHING_STRING]
    apply ih _ (fun j hj => hl j (List.mem_cons_of_mem _ hj))
    split_ifs with h
    · right
      exact ⟨i, (hl i (List.mem_cons_self _ _)).1, (hl i (List.mem_cons_self _ _)).2, h.1,
        rfl, rfl, rfl, rfl⟩
    · exact hc

theorem match_filtering_spec (st : LZ77State) (cw : Nat → Nat) :
    Chosen (bestlength cw (COPY_LOOP_MATCHING st cw) (matching_start_pos st cw))
      st.current_index (st.first_valid_position - VEC) (match_filtering st cw) := by
  rw [match_filtering]
  apply CHOOSE_MATCHING_STRING_spec
  · intro i hi
    rw [List.mem_range'_1] at hi
    simp only [VEC] at hi ⊢
    omega
  · left; exact ⟨rfl, rfl⟩

/-! ### `LZ77`: the window -/

theorem store_word_apply (cw : Nat → Nat) (base w i : Nat) :
    store_word cw base w i =
      if i = base + 3 then w &&& 0x000000FF
      else if i = base + 2 then (w &&& 0x0000FF00) >>> 8
      else if i = base + 1 then (w &&& 0x00FF0000) >>> 16
      else if i = base then (w &&& 0xFF000000) >>> 24
      else cw i := by
  simp only [store_word, upd]

theorem word_bytes_getD (w j : Nat) :
    (word_bytes w).getD j 0 =
      if j = 0 then (w &&& 0xFF000000) >>> 24
      else if j = 1 then (w &&& 0x00FF0000) >>> 16
      else if j = 2 then (w &&& 0x0000FF00) >>> 8
      else if j = 3 then w &&& 0x000000FF
      else 0 := by
  rcases j with _ | _ | _ | _ | j <;> simp [word_bytes]

theorem store_word_bytes (cw : Nat → Nat) (base w i : Nat) :
    store_word cw base w i =
      if base ≤ i ∧ i < base + 4 then (word_bytes w).getD (i - base) 0 else cw i := by
  rw [store_word_apply, word_bytes_getD]
  by_cases h3 : i = base + 3
  · simp [h3]
  · by_cases h2 : i = base + 2
    · simp [h2]
    · by_cases h1 : i = base + 1
      · simp [h1]
      · by_cases h0 : i = base
        · simp [h0]
        · rw [if_neg h3, if_neg h2, if_neg h1, if_neg h0, if_neg (by omega)]

theorem stream_byte_word (ws : List Nat) (k j : Nat) (hk : k < ws.length) (hj : j < 4) :
    (word_bytes (ws.getD k 0)).getD j 0 = stream_byte ws (4 * k + j) := by
  rw [stream_byte, if_pos (by omega)]
  congr 2
  · congr 1; omega
  · omega

theorem stream_byte_stale (ws : List Nat) (p : Nat) (hp : 4 * ws.length ≤ p + 4) (h28 : 28 ≤ p) :
    stream_byte ws (p + 4) = stream_byte ws p := by
  have hm : (p + 4) % 4 = p % 4 := by omega
  rw [stream_byte, stream_byte, if_neg (by omega), hm]
  by_cases h : p / 4 < ws.length
  · have h8 : 8 ≤ ws.length := by omega
    have hl : ws.length - 1 = p / 4 := by omega
    rw [if_pos h, if_pos h8, hl]
  · rw [if_neg h]

theorem getD_drop_zero (ws : List Nat) (k : Nat) : (stream_read (ws.drop k)).1 = ws.getD k 0 := by
  by_cases h : k < ws.length
  · rw [List.drop_eq_getElem_cons h, List.getD_eq_getElem _ _ h]
    rfl
  · rw [List.drop_eq_nil_of_le (by omega), List.getD_eq_default _ _ (by omega)]
    rfl

theorem stream_read_drop (ws : List Nat) (k : Nat) (h : k < ws.length) :
    (stream_read (ws.drop k)).2 = ws.drop (k + 1) := by
  rw [List.drop_eq_getElem_cons h]
  rfl

theorem drop_isEmpty_false (ws : List Nat) (k : Nat) (h : k < ws.length) :
    (ws.drop k).isEmpty = false := by
  cases hd : ws.drop k with
  | nil =>
    have := congrArg List.length hd
    simp at this
    omega
  | cons a l => rfl

/-- The window of iteration `k` (after shift and load) holds the bytes
`4k .. 4k + 35` of the stream. -/
theorem shift_and_load_window (ws : List Nat) (k : Nat) (curr_window : Nat → Nat)
    (hw : ∀ i, 4 ≤ i → i < 36 → curr_window i = stream_byte ws (4 * k + i - 4)) :
    ∀ i, i < 36 → shift_and_load curr_window (ws.drop (8 + k)) i = stream_byte ws (4 * k + i) := by
  intro i hi
  rw [shift_and_load]
  simp only [LEN, VEC]
  by_cases he : 8 + k < ws.length
  · have hne : (ws.drop (8 + k)).isEmpty = false := drop_isEmpty_false ws _ he
    rw [hne]
    simp only [Bool.false_eq_true, if_false]
    rw [store_word_bytes, getD_drop_zero]
    by_cases h32 : i < 32
    · rw [if_neg (by omega), if_pos h32, hw (4 + i) (by omega) (by omega)]
      congr 1; omega
    · rw [if_pos (by omega), stream_byte_word ws _ _ he (by omega)]
      congr 1; omega
  · have hemp : (ws.drop (8 + k)).isEmpty = true := by
      rw [List.isEmpty_iff, List.drop_eq_nil_iff]
      omega
    rw [hemp]
    simp only [if_true]
    by_cases h32 : i < 32
    · rw [if_pos h32, hw (4 + i) (by omega) (by omega)]
      congr 1; omega
    · rw [if_neg h32, hw i (by omega) hi]
      have := stream_byte_stale ws (4 * k + i - 4) (by omega) (by omega)
      rw [← this]
      congr 1; omega

/-! ### `LZ77`: the tokens written in one iteration -/

theorem token_bytes_append (a b : List Token) :
    token_bytes (a ++ b) = token_bytes a ++ token_bytes b := by
  simp [token_bytes, List.flatMap_append]

theorem tokens_cover_append (W : Nat → Nat) (n : Nat) (a b : List Token) (q m c : Nat)
    (ha : tokens_cover W n q a m) (hb : tokens_cover W n m b c) :
    tokens_cover W n q (a ++ b) c := by
  induction a generalizing q with
  | nil =>
    simp only [tokens_cover] at ha
    subst ha
    simpa using hb
  | cons t a ih =>
    cases t with
    | lit x =>
      simp only [List.cons_append, tokens_cover] at ha ⊢
      exact ⟨ha.1, ha.2.1, ih _ ha.2.2⟩
    | ref hi lo len =>
      simp only [List.cons_append, tokens_cover] at ha ⊢
      exact ⟨ha.1, ih _ ha.2⟩

/-- The literal loops write literal tokens. -/
theorem FILL_LOOP_tokens (W : Nat → Nat) (n ci : Nat) (cw : Nat → Nat) (bound fvp : Nat)
    (output : List Nat) (hcw : ∀ i, i < 36 → cw i = W (ci + i)) (hb : bound ≤ 36)
    (hn : ci + max fvp bound ≤ max n (ci + fvp)) :
    (FILL_LOOP cw bound output fvp).2 = max fvp bound ∧
    ∃ ts, (FILL_LOOP cw bound output fvp).1 = output ++ token_bytes ts ∧
      tokens_cover W n (ci + fvp) ts (ci + max fvp bound) := by
  refine ⟨rfl, ?_⟩
  rw [FILL_LOOP]
  simp only []
  generalize hd : bound - fvp = d
  induction d generalizing fvp output with
  | zero =>
    refine ⟨[], by simp [token_bytes], ?_⟩
    simp only [tokens_cover]
    congr 1; omega
  | succ d ih =>
    obtain ⟨ts, h1, h2⟩ := ih (fvp + 1) (output ++ [cw fvp]) (by omega) (by omega)
    refine ⟨Token.lit (cw fvp) :: ts, ?_, ?_⟩
    · rw [List.range'_succ, List.map_cons]
      simp only [token_bytes, List.flatMap_cons, Token.bytes]
      simp only [token_bytes] at h1
      rw [← List.append_assoc, ← h1]
      simp
    · simp only [tokens_cover]
      refine ⟨by omega, hcw fvp (by omega), ?_⟩
      have e : max (fvp + 1) bound = max fvp bound := by omega
      rw [e] at h2
      exact h2

theorem realChosen_of_chosen (W : Nat → Nat) (n ci fvp : Nat) (cw : Nat → Nat)
    (comp_window : Nat → Nat → Nat → Nat) (cpos : Nat → Nat → Nat) (c : Choice)
    (hW : ∀ p, p < n → W p ≠ 0) (hn : W n = 0)
    (hcw : ∀ i, i < 36 → cw i = W (ci + i))
    (hcomp : ∀ t i, (∀ j, j < 32 → comp_window t i j = 0) ∨
      (cpos t i < ci ∧ ∀ j, j < 32 → comp_window t i j = W (cpos t i + j)))
    (h4 : ci + 4 ≤ n) (hc : Chosen (bestlength cw comp_window cpos) ci fvp c) :
    RealChosen W n ci fvp c := by
  rcases hc with h | ⟨i0, h1, h2, h3, h4', h5, h6, h7⟩
  · left; exact h
  · right
    obtain ⟨r1, r2, r3, r4⟩ := bestlength_real W n ci cw comp_window cpos i0 hW hn hcw hcomp h2
      (by omega) (by omega)
    refine ⟨i0, (bestlength cw comp_window cpos i0).1, h1, h2, ?_, ?_, h5, ?_, h7, r1, ?_, ?_⟩
    · rw [h4']; exact h3
    · rw [h4']; exact r2
    · rw [h4']; exact h6
    · rw [h4']; exact r3
    · rw [h4']; exact r4

/-- Step "4. Fill In the Output Array": the output stays a token stream and the tokens
go on covering the plaintext in order. -/
theorem fill_output_tokens (W : Nat → Nat) (n ci : Nat) (cw : Nat → Nat) (output : List Nat)
    (fvp : Nat) (c : Choice) (ts : List Token)
    (hcw : ∀ i, i < 36 → cw i = W (ci + i)) (h4 : ci + 4 ≤ n)
    (hout : output = token_bytes ts) (hcov : tokens_cover W n 0 ts (ci + fvp))
    (hfn : ci + fvp ≤ n) (hc : RealChosen W n ci fvp c) :
    4 ≤ (fill_output cw output fvp c).2 ∧ ci + (fill_output cw output fvp c).2 ≤ n ∧
    ∃ ts2, (fill_output cw output fvp c).1 = token_bytes ts2 ∧
      tokens_cover W n 0 ts2 (ci + (fill_output cw output fvp c).2) := by
  rw [fill_output]
  have hno : 4 ≤ (FILL_LOOP cw VEC output fvp).2 ∧ ci + (FILL_LOOP cw VEC output fvp).2 ≤ n ∧
      ∃ ts2, (FILL_LOOP cw VEC output fvp).1 = token_bytes ts2 ∧
        tokens_cover W n 0 ts2 (ci + (FILL_LOOP cw VEC output fvp).2) := by
    obtain ⟨e, tl, h1, h2⟩ := FILL_LOOP_tokens W n ci cw VEC fvp output hcw (by simp [VEC])
      (by simp only [VEC]; omega)
    rw [e]
    simp only [VEC] at h1 h2 ⊢
    refine ⟨by omega, by omega, ts ++ tl, ?_, tokens_cover_append W n ts tl 0 _ _ hcov h2⟩
    rw [h1, hout, token_bytes_append]
  split_ifs with hm
  · rcases hc with h | ⟨i0, s, g1, g2, g3, g4, g5, g6, g7, g8, g9, g10⟩
    · omega
    · simp only []
      obtain ⟨e1, t1, a1, a2⟩ := FILL_LOOP_tokens W n ci cw c.start_match_position fvp output hcw
        (by omega) (by omega)
      have hmax : max fvp c.start_match_position = i0 := by omega
      rw [hmax] at a2
      rw [a1]
      have ho1 : (1 : Int) ≤ c.offset := by omega
      have ho2 : c.offset < 4096 := hm.2
      obtain ⟨o, ho⟩ : ∃ o : Nat, c.offset = (o : Int) := ⟨c.offset.toNat, by omega⟩
      have hhi : ((c.offset / 128) % 256).toNat = o / 128 := by omega
      have hlo : ((c.offset % 128) % 256).toNat = o % 128 := by omega
      have hlen : c.match_length % 256 = c.match_length := by omega
      rw [hhi, hlo, hlen]
      obtain ⟨e2, t2, b1, b2⟩ := FILL_LOOP_tokens W n ci cw VEC c.temp_valid_position
        (output ++ token_bytes t1 ++ [0x40, o / 128, o % 128, c.match_length]) hcw
        (by simp [VEC]) (by simp only [VEC]; omega)
      rw [e2, b1]
      simp only [VEC] at b2 ⊢
      refine ⟨by omega, by omega,
        ts ++ (t1 ++ (Token.ref (o / 128) (o % 128) c.match_length :: t2)), ?_, ?_⟩
      · rw [hout]
        simp [token_bytes, List.flatMap_append, Token.bytes]
      · apply tokens_cover_append W n ts _ 0 _ _ hcov
        apply tokens_cover_append W n t1 _ _ _ _ a2
        simp only [tokens_cover]
        have hoff : o / 128 * 128 + o % 128 = o := by omega
        rw [hoff]
        refine ⟨⟨by omega, by omega, by omega, by omega, by omega, g3, g4, g9, ?_⟩, ?_⟩
        · intro j hj
          rw [g10 j hj]
          congr 1; omega
        · rw [g6] at b2
          rw [g6]
          have e : ci + i0 + c.match_length = ci + (i0 + c.match_length) := by omega
          rw [e]
          exact b2
  · exact hno

/-! ### `LZ77`: the loop invariant -/

theorem comp_after_matching (W : Nat → Nat) (n : Nat) (ws : List Nat) (k : Nat) (st : LZ77State)
    (inv : LZ77Inv W n ws k st) (cw : Nat → Nat) (t i : Nat) :
    (∀ j, j < 32 → COPY_LOOP_MATCHING st cw t i j = 0) ∨
    (matching_start_pos st cw t i < 4 * k ∧
      ∀ j, j < 32 → COPY_LOOP_MATCHING st cw t i j = W (matching_start_pos st cw t i + j)) := by
  by_cases hf : found st.dict_string_start_pos cw t i
  · right
    obtain ⟨d1, d2⟩ := inv.dict t (hash_value cw i) hf.2.2
    rw [matching_start_pos, if_pos hf]
    refine ⟨d1, fun j hj => ?_⟩
    rw [COPY_LOOP_MATCHING, if_pos ⟨hf, by simp only [LEN]; exact hj⟩]
    exact d2 j hj
  · have e1 : matching_start_pos st cw t i = st.compare_window_string_start_pos t i := by
      rw [matching_start_pos, if_neg hf]
    have e2 : ∀ j, COPY_LOOP_MATCHING st cw t i j = st.comp_window t i j := by
      intro j
      rw [COPY_LOOP_MATCHING, if_neg (fun h => hf h.1)]
    rcases inv.comp t i with h | h
    · left; intro j hj; rw [e2]; exact h j hj
    · right; rw [e1]; exact ⟨h.1, fun j hj => by rw [e2]; exact h.2 j hj⟩

/-- One iteration of `CONTROL_LOOP` whose four lanes lie inside the plaintext keeps the
loop invariant. -/
theorem LZ77Inv_step (ws : List Nat) (n k : Nat) (st : LZ77State)
    (hW : ∀ p, p < n → stream_byte ws p ≠ 0) (hn : stream_byte ws n = 0)
    (hk : 4 * k + 4 ≤ n) (inv : LZ77Inv (stream_byte ws) n ws k st) :
    LZ77Inv (stream_byte ws) n ws (k + 1) (CONTROL_LOOP_body st) := by
  have hcw := shift_and_load_window ws k st.curr_window inv.window
  rw [← inv.input] at hcw
  have hcomp := comp_after_matching (stream_byte ws) n ws k st inv
    (shift_and_load st.curr_window st.input)
  have hchosen := realChosen_of_chosen (stream_byte ws) n (4 * k) (st.first_valid_position - VEC)
    (shift_and_load st.curr_window st.input)
    (COPY_LOOP_MATCHING st (shift_and_load st.curr_window st.input))
    (matching_start_pos st (shift_and_load st.curr_window st.input))
    (match_filtering st (shift_and_load st.curr_window st.input)) hW hn hcw hcomp hk
    (by
      have := match_filtering_spec st (shift_and_load st.curr_window st.input)
      rw [inv.index] at this
      exact this)
  obtain ⟨ts, hts, hcov⟩ := inv.tokens
  have hv := inv.valid
  have hc := inv.covered
  have hfill := fill_output_tokens (stream_byte ws) n (4 * k)
    (shift_and_load st.curr_window st.input) st.output (st.first_valid_position - VEC)
    (match_filtering st (shift_and_load st.curr_window st.input)) ts hcw hk hts
    (by
      have e : 4 * k + (st.first_valid_position - VEC) = 4 * k + st.first_valid_position - 4 := by
        simp only [VEC]; omega
      rw [e]; exact hcov)
    (by simp only [VEC]; omega) hchosen
  obtain ⟨f1, f2, ts2, f3, f4⟩ := hfill
  constructor
  · show st.current_index + VEC = 4 * (k + 1)
    rw [inv.index]; simp only [VEC]; omega
  · show (if st.input.isEmpty then st.input else (stream_read st.input).2) = ws.drop (8 + (k + 1))
    rw [inv.input]
    by_cases he : 8 + k < ws.length
    · have hne : (ws.drop (8 + k)).isEmpty = false := drop_isEmpty_false ws _ he
      rw [hne]
      simp only [Bool.false_eq_true, if_false]
      exact stream_read_drop ws (8 + k) he
    · have hemp : (ws.drop (8 + k)).isEmpty = true := by
        rw [List.isEmpty_iff, List.drop_eq_nil_iff]
        omega
      rw [hemp]
      simp only [if_true]
      rw [List.drop_eq_nil_of_le (by omega), List.drop_eq_nil_of_le (by omega)]
  · intro i h4 h36
    show shift_and_load st.curr_window st.input i = _
    rw [hcw i h36]
    congr 1; omega
  · intro t h hne
    have e1 : (CONTROL_LOOP_body st).dict_string_start_pos t h =
        UPDATE_DICT st.dict_string_start_pos (shift_and_load st.curr_window st.input)
          st.current_index t h := rfl
    have e2 : ∀ j, (CONTROL_LOOP_body st).dict t h j =
        UPDATE_COPY_STRING st.dict (shift_and_load st.curr_window st.input) t h j := fun _ => rfl
    rw [e1] at hne ⊢
    rw [UPDATE_DICT] at hne ⊢
    simp only [VEC] at hne ⊢
    by_cases hc1 : t < 4 ∧ h = hash_value (shift_and_load st.curr_window st.input) t
    · rw [if_pos hc1, inv.index]
      refine ⟨by omega, fun j hj => ?_⟩
      rw [e2, UPDATE_COPY_STRING, if_pos ⟨by simp only [VEC]; exact hc1.1, hc1.2,
        by simp only [LEN]; exact hj⟩, hcw (t + j) (by omega)]
      congr 1; omega
    · rw [if_neg hc1] at hne ⊢
      obtain ⟨d1, d2⟩ := inv.dict t h hne
      refine ⟨by omega, fun j hj => ?_⟩
      rw [e2, UPDATE_COPY_STRING, if_neg (by
        simp only [VEC]
        intro hx
        exact hc1 ⟨hx.1, hx.2.1⟩)]
      exact d2 j hj
  · intro t i
    have e1 : (CONTROL_LOOP_body st).compare_window_string_start_pos t i =
        matching_start_pos st (shift_and_load st.curr_window st.input) t i := rfl
    have e2 : ∀ j, (CONTROL_LOOP_body st).comp_window t i j =
        COPY_LOOP_MATCHING st (shift_and_load st.curr_window st.input) t i j := fun _ => rfl
    rcases hcomp t i with h | h
    · left; intro j hj; rw [e2]; exact h j hj
    · right
      rw [e1]
      exact ⟨by have := h.1; omega, fun j hj => by rw [e2]; exact h.2 j hj⟩
  · exact f1
  · show 4 * (k + 1) + (fill_output _ _ _ _).2 - 4 ≤ n
    omega
  · refine ⟨ts2, f3, ?_⟩
    show tokens_cover _ _ _ _ (4 * (k + 1) + (fill_output _ _ _ _).2 - 4)
    have e : 4 * (k + 1) + (fill_output (shift_and_load st.curr_window st.input) st.output
        (st.first_valid_position - VEC)
        (match_filtering st (shift_and_load st.curr_window st.input))).2 - 4 =
        4 * k + (fill_output (shift_and_load st.curr_window st.input) st.output
        (st.first_valid_position - VEC)
        (match_filtering st (shift_and_load st.curr_window st.input))).2 := by omega
    rw [e]
    exact f4

theorem LZ77_fill_spec (m i : Nat) (input : List Nat) (cw : Nat → Nat) :
    (LZ77_fill m i input cw).1 = input.drop m ∧
    ∀ j, (LZ77_fill m i input cw).2 j =
      if 4 * i ≤ j ∧ j < 4 * (i + m) then (word_bytes (input.getD (j / 4 - i) 0)).getD (j % 4) 0
      else cw j := by
  induction m generalizing i input cw with
  | zero =>
    refine ⟨by simp [LZ77_fill], fun j => ?_⟩
    rw [LZ77_fill, if_neg (by omega)]
  | succ m ih =>
    rw [LZ77_fill]
    obtain ⟨h1, h2⟩ := ih (i + 1) (stream_read input).2
      (store_word cw (i * 4) (stream_read input).1)
    have hr1 : (stream_read input).1 = input.getD 0 0 := by
      cases input <;> rfl
    have hr2 : (stream_read input).2 = input.drop 1 := by
      cases input <;> rfl
    refine ⟨?_, fun j => ?_⟩
    · rw [h1, hr2, List.drop_drop]
      congr 1; omega
    · rw [h2 j, store_word_bytes, hr1, hr2]
      by_cases c1 : 4 * (i + 1) ≤ j ∧ j < 4 * (i + 1 + m)
      · rw [if_pos c1, if_pos (by omega)]
        have e : j / 4 - i = (j / 4 - (i + 1)) + 1 := by omega
        rw [e]
        simp [List.getD_eq_getElem?_getD, List.getElem?_drop, Nat.add_comm]
      · rw [if_neg c1]
        by_cases c2 : i * 4 ≤ j ∧ j < i * 4 + 4
        · rw [if_pos c2, if_pos (by omega)]
          have e1 : j / 4 - i = 0 := by omega
          have e2 : j - i * 4 = j % 4 := by omega
          rw [e1, e2]
        · rw [if_neg c2, if_neg (by omega)]

theorem word_bytes_zero (j : Nat) : (word_bytes 0).getD j 0 = 0 := by
  rw [word_bytes_getD]
  split_ifs <;> rfl

theorem LZ77Inv_init (ws : List Nat) (n : Nat) :
    LZ77Inv (stream_byte ws) n ws 0 (LZ77_init ws) := by
  obtain ⟨h1, h2⟩ := LZ77_fill_spec 8 1 ws (fun _ => 0)
  constructor
  · rfl
  · exact h1
  · intro i h4 h36
    show (LZ77_fill 8 1 ws (fun _ => 0)).2 i = _
    rw [h2 i, if_pos (by omega), stream_byte]
    have e1 : (4 * 0 + i - 4) / 4 = i / 4 - 1 := by omega
    have e2 : (4 * 0 + i - 4) % 4 = i % 4 := by omega
    rw [e1, e2]
    by_cases hl : i / 4 - 1 < ws.length
    · rw [if_pos hl]
    · rw [if_neg hl, if_neg (by omega), List.getD_eq_default ws _ (by omega), word_bytes_zero]
  · intro t h hne
    exact absurd rfl hne
  · intro t i
    left
    intro j _
    rfl
  · show 4 ≤ 4
    omega
  · show 4 * 0 + 4 - 4 ≤ n
    omega
  · exact ⟨[], rfl, rfl⟩

theorem LZ77Inv_loop (ws : List Nat) (n : Nat)
    (hW : ∀ p, p < n → stream_byte ws p ≠ 0) (hn : stream_byte ws n = 0)
    (m k : Nat) (st : LZ77State) (hk : 4 * (k + m) ≤ n)
    (inv : LZ77Inv (stream_byte ws) n ws k st) :
    LZ77Inv (stream_byte ws) n ws (k + m) (CONTROL_LOOP m st) := by
  induction m generalizing k st with
  | zero => exact inv
  | succ m ih =>
    rw [CONTROL_LOOP]
    have := ih (k + 1) (CONTROL_LOOP_body st) (by omega)
      (LZ77Inv_step ws n k st hW hn (by omega) inv)
    rw [show k + 1 + m = k + (m + 1) by omega] at this
    exact this

theorem FILL_LOOP_REMAINING_BYTES_spec (W : Nat → Nat) (n : Nat) (cw : Nat → Nat)
    (hW : ∀ p, p < n → W p ≠ 0) (hn : W n = 0)
    (d fuel fvp c : Nat) (output : List Nat) (hd : c + d = n) (hf : d < fuel)
    (hcw : ∀ i, fvp ≤ i → i < fvp + fuel → cw i = W (c + (i - fvp))) :
    ∃ ts, FILL_LOOP_REMAINING_BYTES cw fuel fvp output = output ++ token_bytes ts ∧
      tokens_cover W n c ts n := by
  induction d generalizing fuel fvp c output with
  | zero =>
    cases fuel with
    | zero => omega
    | succ f =>
      rw [FILL_LOOP_REMAINING_BYTES]
      have : cw fvp = 0 := by
        rw [hcw fvp (le_refl _) (by omega), Nat.sub_self, Nat.add_zero]
        rw [show c = n by omega]; exact hn
      rw [if_neg (by simp [this])]
      exact ⟨[], by simp [token_bytes], by simp only [tokens_cover]; omega⟩
  | succ d ih =>
    cases fuel with
    | zero => omega
    | succ f =>
      rw [FILL_LOOP_REMAINING_BYTES]
      have e : cw fvp = W c := by
        rw [hcw fvp (le_refl _) (by omega), Nat.sub_self, Nat.add_zero]
      rw [if_pos (by rw [e]; exact hW c (by omega))]
      obtain ⟨ts, h1, h2⟩ := ih f (fvp + 1) (c + 1) (output ++ [cw fvp]) (by omega) (by omega)
        (fun i h1 h2 => by
          rw [hcw i (by omega) (by omega)]
          congr 1; omega)
      refine ⟨Token.lit (W c) :: ts, ?_, ?_⟩
      · rw [h1, e]
        simp [token_bytes, Token.bytes]
      · simp only [tokens_cover]
        exact ⟨by omega, trivial, h2⟩

/-- The token stream of `LZ77`: for a stream whose bytes `0 .. n-1` are non-zero and
whose byte `n` is zero, and a `size` whose iterations stay inside these `n` bytes while
the byte `n` is still in the window at the end, the output is a sequence of tokens that
covers the `n` bytes in order, followed by the final `'\0'`. -/
theorem LZ77_token_stream (ws : List Nat) (size n : Nat)
    (hW : ∀ p, p < n → stream_byte ws p ≠ 0) (hn : stream_byte ws n = 0)
    (hs1 : 4 * (size / 4) ≤ n) (hs2 : n ≤ 4 * (size / 4) + 31) :
    ∃ ts, LZ77 ws size = token_bytes ts ++ [0] ∧ tokens_cover (stream_byte ws) n 0 ts n := by
  have inv := LZ77Inv_loop ws n hW hn (size / 4) 0 (LZ77_init ws) (by omega)
    (LZ77Inv_init ws n)
  rw [Nat.zero_add] at inv
  rw [LZ77]
  simp only [VEC, LEN]
  generalize CONTROL_LOOP (size / 4) (LZ77_init ws) = st at inv
  obtain ⟨ts, hts, hcov⟩ := inv.tokens
  have hv := inv.valid
  have hc := inv.covered
  obtain ⟨tl, h1, h2⟩ := FILL_LOOP_REMAINING_BYTES_spec (stream_byte ws) n st.curr_window hW hn
    (n - (4 * (size / 4) + st.first_valid_position - 4))
    (4 + 32 - st.first_valid_position) st.first_valid_position
    (4 * (size / 4) + st.first_valid_position - 4) st.output (by omega) (by omega)
    (fun i hi1 hi2 => by
      rw [inv.window i (by omega) (by omega)]
      congr 1; omega)
  refine ⟨ts ++ tl, ?_, tokens_cover_append _ _ _ _ _ _ _ hcov h2⟩
  rw [h1, hts, token_bytes_append]

/-! ### `LZ77` followed by `LZ77_decoder` (C2, C7) -/

theorem list_eq_map_range (W : Nat → Nat) (l : List Nat) (N : Nat) (hl : l.length = N)
    (h : ∀ i, i < N → l.getD i 0 = W i) : l = (List.range N).map W := by
  apply List.ext_getElem
  · simp [hl]
  · intro i h1 h2
    have := h i (by omega)
    rw [List.getD_eq_getElem _ _ h1] at this
    simp [this]

theorem getD_map_range (W : Nat → Nat) (N i : Nat) (hi : i < N) :
    ((List.range N).map W).getD i 0 = W i := by
  simp [List.getD_eq_getElem?_getD, List.getElem?_map, List.getElem?_range hi]

theorem tokens_cover_le (W : Nat → Nat) (n : Nat) (ts : List Token) (q c : Nat)
    (h : tokens_cover W n q ts c) :
    q ≤ c ∧ 3 * (token_bytes ts).length ≤ 4 * (c - q) := by
  induction ts generalizing q with
  | nil =>
    simp only [tokens_cover] at h
    subst h
    simp [token_bytes]
  | cons t ts ih =>
    cases t with
    | lit b =>
      simp only [tokens_cover] at h
      obtain ⟨i1, i2⟩ := ih (q + 1) h.2.2
      simp only [token_bytes, List.flatMap_cons, Token.bytes, List.length_append,
        List.length_cons, List.length_nil] at i2 ⊢
      omega
    | ref hi lo len =>
      simp only [tokens_cover] at h
      obtain ⟨i1, i2⟩ := ih (q + len) h.2
      obtain ⟨_, _, _, _, _, h3, _, _, _⟩ := h.1
      simp only [token_bytes, List.flatMap_cons, Token.bytes, List.length_append,
        List.length_cons, List.length_nil] at i2 ⊢
      omega

/-- Loop `LZ77_MAIN_LOOP` expands a token stream that covers the plaintext back into the
plaintext. -/
theorem LZ77_MAIN_LOOP_tokens (W : Nat → Nat) (n : Nat)
    (hW : ∀ p, p < n → W p ≠ 0 ∧ W p ≠ 0x40) (ts : List Token) (rest : List Nat)
    (q c fuel : Nat) (hf : ts.length + 1 ≤ fuel) (hcov : tokens_cover W n q ts c) :
    LZ77_MAIN_LOOP fuel (token_bytes ts ++ 0 :: rest) ((List.range q).map W) =
      (List.range c).map W := by
  induction ts generalizing q fuel with
  | nil =>
    simp only [tokens_cover] at hcov
    subst hcov
    cases fuel with
    | zero => simp at hf
    | succ f => simp [LZ77_MAIN_LOOP, token_bytes]
  | cons t ts ih =>
    cases fuel with
    | zero => simp at hf
    | succ f =>
      have hf2 : ts.length + 1 ≤ f := by simp at hf; omega
      cases t with
      | lit b =>
        simp only [tokens_cover] at hcov
        obtain ⟨h1, h2, h3⟩ := hcov
        rw [LZ77_MAIN_LOOP]
        simp only [token_bytes, List.flatMap_cons, Token.bytes, List.cons_append,
          List.nil_append, List.getD_cons_zero, List.drop_succ_cons, List.drop_zero]
        rw [if_neg (by rw [h2]; exact (hW q h1).1), if_neg (by rw [h2]; exact (hW q h1).2)]
        have e : (List.range q).map W ++ [b] = (List.range (q + 1)).map W := by
          rw [List.range_succ, List.map_append, h2]; rfl
        rw [e]
        exact ih _ _ hf2 h3
      | ref hi lo len =>
        simp only [tokens_cover] at hcov
        obtain ⟨⟨g1, g2, g3, g4, g5, g6, g7, g8, g9⟩, h3⟩ := hcov
        rw [LZ77_MAIN_LOOP]
        simp only [token_bytes, List.flatMap_cons, Token.bytes, List.cons_append,
          List.nil_append, List.getD_cons_zero, List.getD_cons_succ, List.drop_succ_cons,
          List.drop_zero]
        rw [if_neg (by norm_num), if_pos trivial]
        have hlen : ((List.range q).map W).length = q := by simp
        obtain ⟨c1, c2, c3⟩ := copy_matched_char_spec len ((List.range q).map W)
          (((List.range q).map W).length - (hi * 128 + lo)) (hi * 128 + lo)
          (by rw [hlen]; omega) g1
        rw [hlen] at c1 c2 c3 ⊢
        have e : COPY_MATCHED_CHAR len ((List.range q).map W) (q - (hi * 128 + lo)) =
            (List.range (q + len)).map W := by
          apply list_eq_map_range W _ _ c1
          intro i
          induction i using Nat.strong_induction_on with
          | _ i ihi =>
            intro hi'
            by_cases hq : i < q
            · rw [getD_of_take_eq c2 hq, getD_map_range W q i hq]
            · have := c3 (i - q) (by omega)
              rw [show q + (i - q) = i by omega] at this
              rw [this, ihi (i - (hi * 128 + lo)) (by omega) (by omega)]
              have := g9 (i - q) (by omega)
              rw [show q + (i - q) = i by omega] at this
              exact this.symm
        rw [e]
        exact ih _ _ hf2 h3

theorem stream_byte_eq_unpack (ws : List Nat) (p : Nat) (hp : p / 4 < ws.length) :
    stream_byte ws p = (unpack_words ws).getD p 0 := by
  rw [stream_byte, if_pos hp]
  induction ws generalizing p with
  | nil => simp at hp
  | cons w ws ih =>
    have hwl : (word_bytes w).length = 4 := rfl
    by_cases h4 : p < 4
    · have e : p / 4 = 0 := by omega
      rw [e, Nat.mod_eq_of_lt h4]
      simp only [unpack_words, List.flatMap_cons, List.getD_cons_zero]
      rw [List.getD_eq_getElem?_getD, List.getD_eq_getElem?_getD,
        List.getElem?_append_left (by omega)]
    · have e : p / 4 = (p - 4) / 4 + 1 := by omega
      have e2 : p % 4 = (p - 4) % 4 := by omega
      rw [e, e2, List.getD_cons_succ, ih (p - 4) (by simp at hp; omega)]
      simp only [unpack_words, List.flatMap_cons]
      rw [List.getD_eq_getElem?_getD, List.getD_eq_getElem?_getD,
        List.getElem?_append_right (by omega), hwl]

theorem length_unpack_words (ws : List Nat) : (unpack_words ws).length = 4 * ws.length := by
  induction ws with
  | nil => rfl
  | cons w ws ih =>
    simp only [unpack_words, List.flatMap_cons, List.length_append, List.length_cons] at ih ⊢
    rw [ih]
    simp [word_bytes]
    omega

theorem length_le_token_bytes (ts : List Token) : ts.length ≤ (token_bytes ts).length := by
  induction ts with
  | nil => simp
  | cons t ts ih =>
    cases t <;>
      simp only [token_bytes, List.flatMap_cons, Token.bytes, List.length_append,
        List.length_cons, List.length_nil] at ih ⊢ <;> omega

/-- A delivery of the plaintext `P`: the bytes of the input words begin with `P` and a
zero byte.  Then the window stream of `LZ77` is `P` up to position `P.length`, where it
is zero. -/
theorem stream_byte_of_delivery (ws P : List Nat)
    (hdel : (unpack_words ws).take (P.length + 1) = P ++ [0]) :
    (∀ p, p < P.length → stream_byte ws p = P.getD p 0) ∧ stream_byte ws P.length = 0 := by
  have hlen : P.length + 1 ≤ 4 * ws.length := by
    have := congrArg List.length hdel
    rw [List.length_take, length_unpack_words] at this
    simp at this
    omega
  have key : ∀ p, p ≤ P.length → stream_byte ws p = (P ++ [0]).getD p 0 := by
    intro p hp
    rw [stream_byte_eq_unpack ws p (by omega), ← hdel]
    simp only [List.getD_eq_getElem?_getD, List.getElem?_take]
    rw [if_pos (by omega)]
  refine ⟨fun p hp => ?_, ?_⟩
  · rw [key p (by omega), List.getD_eq_getElem?_getD, List.getD_eq_getElem?_getD,
      List.getElem?_append_left hp]
  · rw [key _ (le_refl _), List.getD_eq_getElem?_getD, List.getElem?_append_right (le_refl _)]
    simp

theorem getD_mem_of_lt (P : List Nat) (p : Nat) (hp : p < P.length) : P.getD p 0 ∈ P := by
  rw [List.getD_eq_getElem _ _ hp]
  exact List.getElem_mem _

/-- Function `LZ77` then `LZ77_decoder`, for any delivery of a plaintext `P` without `0x00` and
`0x40` and any `size` whose iterations stay inside `P` while the terminator is in the
window at the end: the output of `LZ77` is a token stream that covers `P`, and the
decoder's bytes are `P` and the terminator. -/
theorem LZ77_roundtrip (ws P : List Nat) (size : Nat)
    (hP : ∀ b, b ∈ P → b ≠ 0 ∧ b ≠ 0x40 ∧ b < 256)
    (hdel : (unpack_words ws).take (P.length + 1) = P ++ [0])
    (hs1 : 4 * (size / 4) ≤ P.length) (hs2 : P.length ≤ 4 * (size / 4) + 31) :
    ∃ ts, LZ77 ws size = token_bytes ts ++ [0] ∧
      tokens_cover (stream_byte ws) P.length 0 ts P.length ∧
      LZ77_MAIN_LOOP ((LZ77 ws size).length + 1) (LZ77 ws size) [] = P ∧
      (unpack_words (LZ77_decoder (LZ77 ws size))).take (P.length + 1) = P ++ [0] := by
  obtain ⟨hW, hn⟩ := stream_byte_of_delivery ws P hdel
  have hW0 : ∀ p, p < P.length → stream_byte ws p ≠ 0 ∧ stream_byte ws p ≠ 0x40 := by
    intro p hp
    rw [hW p hp]
    exact ⟨(hP _ (getD_mem_of_lt P p hp)).1, (hP _ (getD_mem_of_lt P p hp)).2.1⟩
  obtain ⟨ts, h1, h2⟩ := LZ77_token_stream ws size P.length (fun p hp => (hW0 p hp).1) hn hs1 hs2
  have hmap : (List.range P.length).map (stream_byte ws) = P := by
    symm
    apply list_eq_map_range _ _ _ rfl
    intro i hi
    rw [hW i hi]
  have hloop : LZ77_MAIN_LOOP ((LZ77 ws size).length + 1) (LZ77 ws size) [] = P := by
    rw [h1]
    have := LZ77_MAIN_LOOP_tokens (stream_byte ws) P.length hW0 ts [] 0 P.length
      ((token_bytes ts ++ [0]).length + 1) (by
        have := length_le_token_bytes ts
        simp; omega) h2
    rw [hmap] at this
    exact this
  refine ⟨ts, h1, h2, hloop, ?_⟩
  have := unpack_LZ77_decoder (LZ77 ws size) (by
    rw [hloop]
    exact fun b hb => (hP b hb).2.2)
  rw [hloop] at this
  exact this

theorem unpack_pack_bytes_zero (P : List Nat) (hP : ∀ b, b ∈ P → b < 256)
    (h4 : P.length % 4 = 0) :
    unpack_words (pack_bytes P ++ [0]) = P ++ [0, 0, 0, 0] := by
  have e : unpack_words (pack_bytes P ++ [0]) = unpack_words (pack_bytes P) ++ word_bytes 0 := by
    simp [unpack_words, List.flatMap_append]
  rw [e, pack_bytes, unpack_pack_words _ (fun i => by
    by_cases h : i < P.length
    · exact hP _ (getD_mem_of_lt P i h)
    · rw [List.getD_eq_default _ _ (by omega)]; norm_num)]
  have e2 : 4 * ((P.length + 3) / 4) = P.length := by omega
  rw [e2, map_getD_range P P.length (le_refl _), List.take_length]
  rfl

/-- C2: for every plaintext `P` of length `n`, `n` a multiple of 4, `28 ≤ n ≤ 2000`,
without `0x00` and `0x40` byte, delivered as `n/4` big-endian words followed by one
all-zero word, the token stream written by `LZ77(input, n, output)` is NUL-terminated,
fits the 3000-byte array, and `LZ77_decoder` applied to it writes `P` followed by the
NUL terminator. -/
theorem LZ77_decoder_inverts_LZ77 (P : List Nat)
    (hP : ∀ b, b ∈ P → b ≠ 0 ∧ b ≠ 0x40 ∧ b < 256)
    (h4 : P.length % 4 = 0) (h28 : 28 ≤ P.length) (h2000 : P.length ≤ 2000) :
    (∃ T, LZ77 (pack_bytes P ++ [0]) P.length = T ++ [0]) ∧
    (LZ77 (pack_bytes P ++ [0]) P.length).length ≤ 3000 ∧
    (unpack_words (LZ77_decoder (LZ77 (pack_bytes P ++ [0]) P.length))).take (P.length + 1) =
      P ++ [0] := by
  have hdel : (unpack_words (pack_bytes P ++ [0])).take (P.length + 1) = P ++ [0] := by
    rw [unpack_pack_bytes_zero P (fun b hb => (hP b hb).2.2) h4]
    rw [List.take_append_eq_append_take, List.take_of_length_le (by omega)]
    simp
  obtain ⟨ts, h1, h2, _, h3⟩ := LZ77_roundtrip (pack_bytes P ++ [0]) P P.length hP hdel
    (by omega) (by omega)
  refine ⟨⟨_, h1⟩, ?_, h3⟩
  rw [h1]
  have := (tokens_cover_le _ _ _ _ _ h2).2
  simp
  omega

theorem LZ77_decoder_inverts_LZ77_witness :
    (∀ b, b ∈ (List.range 28).map (fun i => 0x61 + i % 5) →
        b ≠ 0 ∧ b ≠ 0x40 ∧ b < 256) ∧
    ((List.range 28).map (fun i => 0x61 + i % 5)).length % 4 = 0 ∧
    28 ≤ ((List.range 28).map (fun i => 0x61 + i % 5)).length ∧
    ((List.range 28).map (fun i => 0x61 + i % 5)).length ≤ 2000 ∧
    ((∃ T, LZ77 (pack_bytes ((List.range 28).map (fun i => 0x61 + i % 5)) ++ [0])
        ((List.range 28).map (fun i => 0x61 + i % 5)).length = T ++ [0]) ∧
    (LZ77 (pack_bytes ((List.range 28).map (fun i => 0x61 + i % 5)) ++ [0])
        ((List.range 28).map (fun i => 0x61 + i % 5)).length).length ≤ 3000 ∧
    (unpack_words (LZ77_decoder (LZ77 (pack_bytes ((List.range 28).map
        (fun i => 0x61 + i % 5)) ++ [0])
        ((List.range 28).map (fun i => 0x61 + i % 5)).length))).take
        (((List.range 28).map (fun i => 0x61 + i % 5)).length + 1) =
      (List.range 28).map (fun i => 0x61 + i % 5) ++ [0]) :=
  ⟨by decide, by decide, by decide, by decide,
    LZ77_decoder_inverts_LZ77 ((List.range 28).map (fun i => 0x61 + i % 5))
      (by decide) (by decide) (by decide) (by decide)⟩

/-- A token stream that covers a text in which no three bytes recur holds literals
only: its bytes are the bytes of the text. -/
theorem tokens_cover_no_repeat (W : Nat → Nat) (n : Nat)
    (hnr : ∀ i j, i < j → j + 3 ≤ n →
      ¬ (W i = W j ∧ W (i + 1) = W (j + 1) ∧ W (i + 2) = W (j + 2)))
    (ts : List Token) :
    ∀ q c, tokens_cover W n q ts c → token_bytes ts = (List.range' q (c - q)).map W := by
  induction ts with
  | nil =>
    intro q c h
    simp only [tokens_cover] at h
    subst h
    simp [token_bytes]
  | cons t ts ih =>
    intro q c h
    cases t with
    | lit b =>
      simp only [tokens_cover] at h
      obtain ⟨h1, h2, h3⟩ := h
      have hle := (tokens_cover_le _ _ _ _ _ h3).1
      have e : c - q = (c - (q + 1)) + 1 := by omega
      rw [e, List.range'_succ, List.map_cons, ← ih _ _ h3, h2]
      simp [token_bytes, Token.bytes]
    | ref off_hi off_lo len =>
      simp only [tokens_cover] at h
      obtain ⟨⟨g1, g2, _, _, _, g6, _, g8, g9⟩, _⟩ := h
      exfalso
      apply hnr (q - (off_hi * 128 + off_lo)) q (by omega) (by omega)
      have a0 := g9 0 (by omega)
      have a1 := g9 1 (by omega)
      have a2 := g9 2 (by omega)
      have e0 : q + 0 - (off_hi * 128 + off_lo) = q - (off_hi * 128 + off_lo) := by omega
      have e1 : q + 1 - (off_hi * 128 + off_lo) = q - (off_hi * 128 + off_lo) + 1 := by omega
      have e2 : q + 2 - (off_hi * 128 + off_lo) = q - (off_hi * 128 + off_lo) + 2 := by omega
      rw [e0] at a0
      rw [e1] at a1
      rw [e2] at a2
      exact ⟨a0.symm, a1.symm, a2.symm⟩

/-! ### What `LZ77` reads and what it has written after some iterations -/

theorem fill_output_append (cw : Nat → Nat) (output : List Nat) (fvp : Nat) (c : Choice) :
    ∃ x, (fill_output cw output fvp c).1 = output ++ x := by
  rw [fill_output]
  split
  · simp only [FILL_LOOP, List.append_assoc]
    exact ⟨_, rfl⟩
  · simp only [FILL_LOOP]
    exact ⟨_, rfl⟩

theorem CONTROL_LOOP_append (k : Nat) :
    ∀ st, ∃ x, (CONTROL_LOOP k st).output = st.output ++ x := by
  induction k with
  | zero => exact fun st => ⟨[], by simp [CONTROL_LOOP]⟩
  | succ k ih =>
    intro st
    obtain ⟨x, hx⟩ := ih (CONTROL_LOOP_body st)
    obtain ⟨y, hy⟩ := fill_output_append (shift_and_load st.curr_window st.input) st.output
      (st.first_valid_position - VEC) (match_filtering st (shift_and_load st.curr_window st.input))
    refine ⟨y ++ x, ?_⟩
    rw [CONTROL_LOOP, hx]
    show (fill_output _ _ _ _).1 ++ x = _
    rw [hy, List.append_assoc]

theorem FILL_LOOP_REMAINING_BYTES_append (cw : Nat → Nat) (fuel : Nat) :
    ∀ fvp output, ∃ x, FILL_LOOP_REMAINING_BYTES cw fuel fvp output = output ++ x := by
  induction fuel with
  | zero => exact fun _ output => ⟨[], by simp [FILL_LOOP_REMAINING_BYTES]⟩
  | succ f ih =>
    intro fvp output
    rw [FILL_LOOP_REMAINING_BYTES]
    split
    · obtain ⟨x, hx⟩ := ih (fvp + 1) (output ++ [cw fvp])
      exact ⟨[cw fvp] ++ x, by rw [hx, List.append_assoc]⟩
    · exact ⟨[], by simp⟩

/-- The bytes written in the first iteration of `CONTROL_LOOP` stay at the head of the
output of `LZ77`: the output array is only ever appended to. -/
theorem LZ77_first_iteration (ws : List Nat) (size : Nat) (h : 4 ≤ size) :
    ∃ x, LZ77 ws size = (CONTROL_LOOP_body (LZ77_init ws)).output ++ x := by
  obtain ⟨k, hk⟩ : ∃ k, size / VEC = k + 1 := ⟨size / 4 - 1, by simp only [VEC]; omega⟩
  rw [LZ77]
  simp only [hk, CONTROL_LOOP]
  obtain ⟨x, hx⟩ := CONTROL_LOOP_append k (CONTROL_LOOP_body (LZ77_init ws))
  obtain ⟨y, hy⟩ := FILL_LOOP_REMAINING_BYTES_append
    (CONTROL_LOOP k (CONTROL_LOOP_body (LZ77_init ws))).curr_window
    (VEC + LEN - (CONTROL_LOOP k (CONTROL_LOOP_body (LZ77_init ws))).first_valid_position)
    (CONTROL_LOOP k (CONTROL_LOOP_body (LZ77_init ws))).first_valid_position
    (CONTROL_LOOP k (CONTROL_LOOP_body (LZ77_init ws))).output
  rw [hy, hx]
  exact ⟨x ++ y ++ [0], by simp⟩

theorem CONTROL_LOOP_add (a b : Nat) (st : LZ77State) :
    CONTROL_LOOP (a + b) st = CONTROL_LOOP b (CONTROL_LOOP a st) := by
  induction a generalizing st with
  | zero => rw [Nat.zero_add, CONTROL_LOOP]
  | succ a ih => rw [show a + 1 + b = (a + b) + 1 by omega, CONTROL_LOOP, CONTROL_LOOP, ih]

/-- The bytes written in the first `k` iterations of `CONTROL_LOOP` stay at the head of
the output of `LZ77`. -/
theorem LZ77_first_iterations (ws : List Nat) (size k : Nat) (h : k ≤ size / 4) :
    ∃ x, LZ77 ws size = (CONTROL_LOOP k (LZ77_init ws)).output ++ x := by
  obtain ⟨m, hm⟩ : ∃ m, size / VEC = k + m := ⟨size / 4 - k, by simp only [VEC]; omega⟩
  rw [LZ77]
  simp only [hm]
  rw [CONTROL_LOOP_add]
  obtain ⟨x, hx⟩ := CONTROL_LOOP_append m (CONTROL_LOOP k (LZ77_init ws))
  obtain ⟨y, hy⟩ := FILL_LOOP_REMAINING_BYTES_append
    (CONTROL_LOOP m (CONTROL_LOOP k (LZ77_init ws))).curr_window
    (VEC + LEN - (CONTROL_LOOP m (CONTROL_LOOP k (LZ77_init ws))).first_valid_position)
    (CONTROL_LOOP m (CONTROL_LOOP k (LZ77_init ws))).first_valid_position
    (CONTROL_LOOP m (CONTROL_LOOP k (LZ77_init ws))).output
  rw [hy, hx]
  exact ⟨x ++ y ++ [0], by simp⟩

/-- The first filling of the window looks at the first `n` words only. -/
theorem LZ77_fill_take (n : Nat) :
    ∀ (i : Nat) (a b : List Nat) (cw : Nat → Nat) (k : Nat), a.take (n + k) = b.take (n + k) →
      (LZ77_fill n i a cw).2 = (LZ77_fill n i b cw).2 ∧
        (LZ77_fill n i a cw).1.take k = (LZ77_fill n i b cw).1.take k := by
  induction n with
  | zero =>
    intro i a b cw k h
    simp only [Nat.zero_add] at h
    exact ⟨rfl, h⟩
  | succ n ih =>
    intro i a b cw k h
    rw [LZ77_fill, LZ77_fill]
    cases a with
    | nil =>
      cases b with
      | nil => exact ⟨rfl, rfl⟩
      | cons y b2 =>
        rw [(by omega : n + 1 + k = (n + k) + 1)] at h
        simp at h
    | cons x a2 =>
      cases b with
      | nil =>
        rw [(by omega : n + 1 + k = (n + k) + 1)] at h
        simp at h
      | cons y b2 =>
        rw [(by omega : n + 1 + k = (n + k) + 1), List.take_succ_cons, List.take_succ_cons] at h
        injection h with h1 h2
        subst h1
        exact ih (i + 1) a2 b2 _ k h2

/-- One iteration of `CONTROL_LOOP` looks at the next word only. -/
theorem CONTROL_LOOP_body_input (st : LZ77State) (b : List Nat) (k : Nat)
    (h : st.input.take (k + 1) = b.take (k + 1)) :
    ∃ b2, CONTROL_LOOP_body { st with input := b } = { CONTROL_LOOP_body st with input := b2 } ∧
      (CONTROL_LOOP_body st).input.take k = b2.take k := by
  cases hs : st.input with
  | nil =>
    rw [hs] at h
    cases b with
    | nil =>
      refine ⟨(CONTROL_LOOP_body st).input, ?_, rfl⟩
      have : ({ st with input := [] } : LZ77State) = st := by
        cases st
        simp only at hs
        rw [hs]
      rw [this]
    | cons y b2 => simp at h
  | cons x a2 =>
    rw [hs] at h
    cases b with
    | nil => simp at h
    | cons y b2 =>
      rw [List.take_succ_cons, List.take_succ_cons] at h
      injection h with h1 h2
      subst h1
      refine ⟨b2, ?_, ?_⟩
      · cases st
        simp only at hs
        subst hs
        rfl
      · rw [CONTROL_LOOP_body]
        simp only [hs, List.isEmpty_cons, stream_read]
        exact h2

/-- Loop `CONTROL_LOOP` run `k` times looks at the next `k` words only. -/
theorem CONTROL_LOOP_input (k : Nat) :
    ∀ (st : LZ77State) (b : List Nat), st.input.take k = b.take k →
      ∃ b2, CONTROL_LOOP k { st with input := b } = { CONTROL_LOOP k st with input := b2 } := by
  induction k with
  | zero => exact fun st b _ => ⟨b, rfl⟩
  | succ k ih =>
    intro st b h
    obtain ⟨b2, e2, h2⟩ := CONTROL_LOOP_body_input st b k h
    obtain ⟨b3, e3⟩ := ih (CONTROL_LOOP_body st) b2 h2
    exact ⟨b3, by rw [CONTROL_LOOP, CONTROL_LOOP, e2, e3]⟩

/-- Function `LZ77` reads `8 + size / 4` words: two word streams that agree on these are
compressed to the same bytes. -/
theorem LZ77_reads_words (a b : List Nat) (size : Nat)
    (h : a.take (8 + size / 4) = b.take (8 + size / 4)) : LZ77 a size = LZ77 b size := by
  obtain ⟨f2, f1⟩ := LZ77_fill_take 8 1 a b (fun _ => 0) (size / 4) h
  have e : LZ77_init b = { LZ77_init a with input := (LZ77_fill 8 1 b (fun _ => 0)).1 } := by
    simp only [LZ77_init]
    rw [f2]
  obtain ⟨b2, e2⟩ := CONTROL_LOOP_input (size / 4) (LZ77_init a) (LZ77_fill 8 1 b (fun _ => 0)).1 f1
  rw [LZ77, LZ77]
  simp only [VEC]
  rw [e, e2]

/-- The first `m` words of a packed byte sequence hold its first `4 * m` bytes only. -/
theorem pack_bytes_take (B X Y : List Nat) (m : Nat) (hB : B.length = 4 * m) :
    (pack_bytes (B ++ X)).take m = (pack_bytes (B ++ Y)).take m := by
  have key : ∀ Z : List Nat, (pack_bytes (B ++ Z)).take m =
      (List.range m).map (fun i => pack_word (B.getD (i * 4) 0) (B.getD (i * 4 + 1) 0)
        (B.getD (i * 4 + 2) 0) (B.getD (i * 4 + 3) 0)) := by
    intro Z
    rw [pack_bytes, pack_words, ← List.map_take, List.take_range,
      Nat.min_eq_left (by rw [List.length_append]; omega)]
    apply List.map_congr_left
    intro i hi
    rw [List.mem_range] at hi
    rw [List.getD_append _ _ _ _ (by omega), List.getD_append _ _ _ _ (by omega),
      List.getD_append _ _ _ _ (by omega), List.getD_append _ _ _ _ (by omega)]
  rw [key X, key Y]

set_option maxRecDepth 100000 in
/-- C7 (counterexample): the claim names no `size`, and its only caller `Deflate` passes
2250 whatever the text.  The plaintext `61 62 63` (no `0x00`, no `0x40`, one 3-byte
substring) is delivered as the word `0x61626300`.  With `size = 4`, and with
`size = 2250` as well, `LZ77` writes `61 62 63 40 00 03 20`: behind the three literals
stands the marker of a back-reference of length 32 at distance 3, before the first zero
byte of the stream.  The iteration that holds the terminator compares the zero bytes
behind the text with a compare window that was never filled.  With a `size` that is too
small the stream is not the plaintext either: `LZ77` reads `8 + size / 4` words, so with
`size = 4` the two 37-byte plaintexts `61 62 ... 84 41` and `61 62 ... 84 42` (no byte
twice) give the same stream. -/
theorem LZ77_writes_marker_behind_short_text :
    (∀ b, b ∈ [0x61, 0x62, 0x63] → b ≠ 0 ∧ b ≠ 0x40) ∧
    unpack_words [0x61626300] = [0x61, 0x62, 0x63] ++ [0] ∧
    LZ77 [0x61626300] 4 = [0x61, 0x62, 0x63, 0x40, 0, 3, 32, 0] ∧
    (∃ x, LZ77 [0x61626300] 2250 = [0x61, 0x62, 0x63, 0x40, 0, 3, 32] ++ x) ∧
    ((List.range 36).map (fun i => 0x61 + i) ++ [0x41]).Nodup ∧
    ((List.range 36).map (fun i => 0x61 + i) ++ [0x42]).Nodup ∧
    (∀ b, b ∈ (List.range 36).map (fun i => 0x61 + i) ++ [0x41, 0x42] → b ≠ 0 ∧ b ≠ 0x40) ∧
    LZ77 (pack_bytes ((List.range 36).map (fun i => 0x61 + i) ++ [0x41] ++ [0])) 4 =
      LZ77 (pack_bytes ((List.range 36).map (fun i => 0x61 + i) ++ [0x42] ++ [0])) 4 := by
  refine ⟨by decide, by decide, by decide, ?_, by decide, by decide, by decide, by decide⟩
  obtain ⟨x, hx⟩ := LZ77_first_iteration [0x61626300] 2250 (by norm_num)
  have h1 : (CONTROL_LOOP_body (LZ77_init [0x61626300])).output =
      [0x61, 0x62, 0x63, 0x40, 0, 3, 32] := by
    decide
  rw [h1] at hx
  exact ⟨x, hx⟩

/-- C7 (amended): when no 3-byte substring of the plaintext `P` (no `0x00`, no `0x40`)
occurs twice and `LZ77` is called with a `size` whose iterations stay inside `P` with
the terminator in the last window (`4 * (size / 4) ≤ P.length ≤ 4 * (size / 4) + 31`;
`size = P.length` is one), the token stream written by `LZ77` is `P` followed by a
single `0x00`, so it contains no back-reference marker `0x40`.  The plaintext is
delivered as words whose bytes begin with `P` and a zero byte. -/
theorem LZ77_without_repeats_writes_literals (ws P : List Nat) (size : Nat)
    (hP : ∀ b, b ∈ P → b ≠ 0 ∧ b ≠ 0x40)
    (hdel : (unpack_words ws).take (P.length + 1) = P ++ [0])
    (hs1 : 4 * (size / 4) ≤ P.length) (hs2 : P.length ≤ 4 * (size / 4) + 31)
    (hnr : ∀ i j, i < j → j + 3 ≤ P.length →
      ¬ (P.getD i 0 = P.getD j 0 ∧ P.getD (i + 1) 0 = P.getD (j + 1) 0 ∧
        P.getD (i + 2) 0 = P.getD (j + 2) 0)) :
    LZ77 ws size = P ++ [0] ∧ 0x40 ∉ LZ77 ws size := by
  obtain ⟨hW, hn⟩ := stream_byte_of_delivery ws P hdel
  obtain ⟨ts, h1, h2⟩ := LZ77_token_stream ws size P.length
    (fun p hp => by rw [hW p hp]; exact (hP _ (getD_mem_of_lt P p hp)).1) hn hs1 hs2
  have hlit := tokens_cover_no_repeat (stream_byte ws) P.length (by
    intro i j hij hj
    rw [hW i (by omega), hW j (by omega), hW (i + 1) (by omega), hW (j + 1) (by omega),
      hW (i + 2) (by omega), hW (j + 2) (by omega)]
    exact hnr i j hij hj) ts 0 P.length h2
  have hmap : (List.range' 0 (P.length - 0)).map (stream_byte ws) = P := by
    rw [Nat.sub_zero, ← List.range_eq_range']
    symm
    apply list_eq_map_range _ _ _ rfl
    intro i hi
    rw [hW i hi]
  rw [hmap] at hlit
  have e : LZ77 ws size = P ++ [0] := by rw [h1, hlit]
  refine ⟨e, ?_⟩
  rw [e]
  intro hmem
  rcases List.mem_append.1 hmem with h | h
  · exact (hP _ h).2 rfl
  · simp at h

theorem LZ77_without_repeats_writes_literals_witness :
    (∀ b, b ∈ [0x61, 0x62, 0x63, 0x64, 0x65, 0x66, 0x67, 0x68] → b ≠ 0 ∧ b ≠ 0x40) ∧
    (unpack_words [0x61626364, 0x65666768, 0]).take
        ([0x61, 0x62, 0x63, 0x64, 0x65, 0x66, 0x67, 0x68].length + 1) =
      [0x61, 0x62, 0x63, 0x64, 0x65, 0x66, 0x67, 0x68] ++ [0] ∧
    4 * (8 / 4) ≤ [0x61, 0x62, 0x63, 0x64, 0x65, 0x66, 0x67, 0x68].length ∧
    [0x61, 0x62, 0x63, 0x64, 0x65, 0x66, 0x67, 0x68].length ≤ 4 * (8 / 4) + 31 ∧
    (∀ i j, i < j → j + 3 ≤ [0x61, 0x62, 0x63, 0x64, 0x65, 0x66, 0x67, 0x68].length →
      ¬ (([0x61, 0x62, 0x63, 0x64, 0x65, 0x66, 0x67, 0x68] : List Nat).getD i 0 =
          ([0x61, 0x62, 0x63, 0x64, 0x65, 0x66, 0x67, 0x68] : List Nat).getD j 0 ∧
        ([0x61, 0x62, 0x63, 0x64, 0x65, 0x66, 0x67, 0x68] : List Nat).getD (i + 1) 0 =
          ([0x61, 0x62, 0x63, 0x64, 0x65, 0x66, 0x67, 0x68] : List Nat).getD (j + 1) 0 ∧
        ([0x61, 0x62, 0x63, 0x64, 0x65, 0x66, 0x67, 0x68] : List Nat).getD (i + 2) 0 =
          ([0x61, 0x62, 0x63, 0x64, 0x65, 0x66, 0x67, 0x68] : List Nat).getD (j + 2) 0)) ∧
    (LZ77 [0x61626364, 0x65666768, 0] 8 = [0x61, 0x62, 0x63, 0x64, 0x65, 0x66, 0x67, 0x68] ++ [0] ∧
      0x40 ∉ LZ77 [0x61626364, 0x65666768, 0] 8) :=
  ⟨by decide, by decide, by decide, by decide,
    (by
      intro i j hij hj
      simp only [List.length_cons, List.length_nil] at hj
      have hj5 : j ≤ 5 := by omega
      interval_cases j <;> interval_cases i <;> decide),
    LZ77_without_repeats_writes_literals [0x61626364, 0x65666768, 0]
      [0x61, 0x62, 0x63, 0x64, 0x65, 0x66, 0x67, 0x68] 8
      (by decide) (by decide) (by decide) (by decide) (by
        intro i j hij hj
        simp only [List.length_cons, List.length_nil] at hj
        have hj5 : j ≤ 5 := by omega
        interval_cases j <;> interval_cases i <;> decide)⟩

/-! ## The bits written by `huffman` -/

theorem stream_bit_upd (buf : Nat → Nat) (p v i : Nat) :
    stream_bit (upd buf p v) i =
      if i / 8 = p then v.testBit (7 - i % 8) else stream_bit buf i := by
  simp only [stream_bit, upd]
  split <;> rfl

theorem mod_eq_zero_of_testBit (x r : Nat) (h : ∀ t, t < r → x.testBit t = false) :
    x % 2 ^ r = 0 := by
  apply Nat.eq_of_testBit_eq
  intro t
  rw [Nat.testBit_mod_two_pow, Nat.zero_testBit]
  by_cases ht : t < r
  · simp [h t ht]
  · simp [ht]

theorem testBit_shiftLeft_mod32 (x r t : Nat) :
    ((x <<< r) % 2 ^ 32).testBit t = (decide (t < 32) && (decide (r ≤ t) && x.testBit (t - r))) := by
  rw [Nat.testBit_mod_two_pow, Nat.testBit_shiftLeft]

theorem testBit_top_byte (lao s : Nat) :
    ((lao &&& 0xFF000000) >>> 24).testBit s = (decide (s < 8) && lao.testBit (24 + s)) := by
  have e24 : (0xFF000000 : Nat) = 255 <<< 24 := by decide
  rw [e24, and_mask_shiftRight, testBit_mod_256, Nat.testBit_shiftRight]

theorem testBit_ge_32 (x t : Nat) (hx : x < 2 ^ 32) (ht : 32 ≤ t) : x.testBit t = false :=
  testBit_false_of_lt hx ht

/-- Loop `STATIC_HUFFMAN_WRITE_OUTPUT`: the `k / 8` upper bytes of `lao` go to the buffer
from `pos` on, `lao` is shifted by as many bytes, `k % 8` bits remain. -/
theorem write_output_spec (fuel : Nat) :
    ∀ (buf : Nat → Nat) (pos lao k : Nat), k / 8 ≤ fuel → lao < 2 ^ 32 → k ≤ 32 →
    (STATIC_HUFFMAN_WRITE_OUTPUT fuel buf pos lao k).2.1 = pos + k / 8 ∧
    (STATIC_HUFFMAN_WRITE_OUTPUT fuel buf pos lao k).2.2.2 = k % 8 ∧
    (∀ t, (STATIC_HUFFMAN_WRITE_OUTPUT fuel buf pos lao k).2.2.1.testBit t =
      (decide (t < 32) && (decide (8 * (k / 8) ≤ t) && lao.testBit (t - 8 * (k / 8))))) ∧
    (∀ i, stream_bit (STATIC_HUFFMAN_WRITE_OUTPUT fuel buf pos lao k).1 i =
      if 8 * pos ≤ i ∧ i < 8 * pos + 8 * (k / 8) then lao.testBit (31 - (i - 8 * pos))
      else stream_bit buf i) := by
  induction fuel with
  | zero =>
    intro buf pos lao k hf hl hk
    have h0 : k / 8 = 0 := by omega
    have hk8 : k < 8 := by omega
    simp only [STATIC_HUFFMAN_WRITE_OUTPUT, h0]
    refine ⟨by omega, by omega, fun t => ?_, fun i => ?_⟩
    · by_cases ht : t < 32
      · simp [ht]
      · simp [ht, testBit_ge_32 lao t hl (by omega)]
    · rw [if_neg (by omega)]
  | succ n ih =>
    intro buf pos lao k hf hl hk
    rw [STATIC_HUFFMAN_WRITE_OUTPUT]
    by_cases hk8 : k ≥ 8
    · rw [if_pos hk8]
      have hl1 : (lao <<< 8) % 2 ^ 32 < 2 ^ 32 := Nat.mod_lt _ (by norm_num)
      obtain ⟨h1, h2, h3, h4⟩ := ih (upd buf pos ((lao &&& 0xFF000000) >>> 24)) (pos + 1)
        ((lao <<< 8) % 2 ^ 32) (k - 8) (by omega) hl1 (by omega)
      have hm : k / 8 = (k - 8) / 8 + 1 := by omega
      have hm3 : (k - 8) / 8 ≤ 3 := by omega
      refine ⟨by omega, by omega, fun t => ?_, fun i => ?_⟩
      · rw [h3, testBit_shiftLeft_mod32, hm]
        by_cases ht : t < 32
        · by_cases ht2 : 8 * ((k - 8) / 8 + 1) ≤ t
          · have e : t - 8 * ((k - 8) / 8) - 8 = t - 8 * ((k - 8) / 8 + 1) := by omega
            simp [ht, ht2, e, (by omega : 8 * ((k - 8) / 8) ≤ t),
              (by omega : t - 8 * ((k - 8) / 8) < 32), (by omega : 8 ≤ t - 8 * ((k - 8) / 8))]
          · by_cases ht3 : 8 * ((k - 8) / 8) ≤ t
            · simp [ht, ht2, ht3]
              intro _ h
              omega
            · simp [ht, ht2, ht3]
        · simp [ht]
      · rw [h4, stream_bit_upd, testBit_shiftLeft_mod32, testBit_top_byte, hm]
        by_cases hi1 : 8 * (pos + 1) ≤ i ∧ i < 8 * (pos + 1) + 8 * ((k - 8) / 8)
        · have e : 31 - (i - 8 * (pos + 1)) - 8 = 31 - (i - 8 * pos) := by omega
          rw [if_pos hi1, if_pos (by omega)]
          simp [e, (by omega : 31 - (i - 8 * (pos + 1)) < 32),
            (by omega : 8 ≤ 31 - (i - 8 * (pos + 1)))]
        · rw [if_neg hi1]
          by_cases hi2 : i / 8 = pos
          · have e : 24 + (7 - i % 8) = 31 - (i - 8 * pos) := by omega
            rw [if_pos hi2, if_pos (by omega)]
            simp [e, (by omega : 7 - i % 8 < 8)]
          · rw [if_neg hi2, if_neg (by omega)]
    · rw [if_neg hk8]
      have h0 : k / 8 = 0 := by omega
      simp only [h0]
      refine ⟨by omega, by omega, fun t => ?_, fun i => ?_⟩
      · by_cases ht : t < 32
        · simp [ht]
        · simp [ht, testBit_ge_32 lao t hl (by omega)]
      · rw [if_neg (by omega)]

/-- End of the match branch from a byte boundary: the `k` upper bits of `lao` are
appended. -/
theorem write_tail_spec (buf : Nat → Nat) (pos lao k : Nat) (hl : lao < 2 ^ 32) (hk : k ≤ 32)
    (hz : ∀ t, t < 32 - k → lao.testBit t = false) :
    8 * (huffman_write_tail buf pos 8 lao k).2.1 + (8 - (huffman_write_tail buf pos 8 lao k).2.2)
      = 8 * pos + k ∧
    1 ≤ (huffman_write_tail buf pos 8 lao k).2.2 ∧ (huffman_write_tail buf pos 8 lao k).2.2 ≤ 8 ∧
    (∀ i, i < 8 * pos → stream_bit (huffman_write_tail buf pos 8 lao k).1 i = stream_bit buf i) ∧
    (∀ j, j < k → stream_bit (huffman_write_tail buf pos 8 lao k).1 (8 * pos + j) =
      lao.testBit (31 - j)) ∧
    ((huffman_write_tail buf pos 8 lao k).2.2 < 8 →
      (huffman_write_tail buf pos 8 lao k).1 (huffman_write_tail buf pos 8 lao k).2.1 %
        2 ^ (huffman_write_tail buf pos 8 lao k).2.2 = 0) := by
  obtain ⟨h1, h2, h3, h4⟩ := write_output_spec k buf pos lao k (Nat.div_le_self _ _) hl hk
  rw [huffman_write_tail]
  rcases hw : STATIC_HUFFMAN_WRITE_OUTPUT k buf pos lao k with ⟨b2, p2, l2, r2⟩
  rw [hw] at h1 h2 h3 h4
  simp only at h1 h2 h3 h4 ⊢
  subst h1 h2
  by_cases h0 : k % 8 = 0
  · rw [if_pos h0]
    simp only
    refine ⟨by omega, by omega, by omega, fun i hi => ?_, fun j hj => ?_, fun h => by omega⟩
    · rw [h4, if_neg (by omega)]
    · rw [h4, if_pos (by omega)]
      congr 1
      omega
  · rw [if_neg h0]
    simp only
    have hk3 : k / 8 ≤ 3 := by omega
    refine ⟨by omega, by omega, by omega, fun i hi => ?_, fun j hj => ?_, fun _ => ?_⟩
    · rw [stream_bit_upd, if_neg (by omega), h4, if_neg (by omega)]
    · rw [stream_bit_upd]
      by_cases hj2 : j < 8 * (k / 8)
      · rw [if_neg (by omega), h4, if_pos (by omega)]
        congr 1
        omega
      · rw [if_pos (by omega), Nat.pow_succ, testBit_mod_256, Nat.testBit_shiftRight, h3]
        have e : 24 + (7 - (8 * pos + j) % 8) - 8 * (k / 8) = 31 - j := by omega
        simp [e, (by omega : 7 - (8 * pos + j) % 8 < 8),
          (by omega : 24 + (7 - (8 * pos + j) % 8) < 32),
          (by omega : 8 * (k / 8) ≤ 24 + (7 - (8 * pos + j) % 8))]
    · rw [upd_same]
      apply mod_eq_zero_of_testBit
      intro t ht
      rw [Nat.testBit_mod_two_pow, Nat.testBit_shiftRight, h3,
        hz (24 + t - 8 * (k / 8)) (by omega)]
      simp

/-- The match branch after `length_and_offset` is combined: the `k` upper bits of `lao`
are appended to the accumulated bits, whatever the number `r` of free bits. -/
theorem write_code_spec (buf : Nat → Nat) (pos r lao k : Nat) (hl : lao < 2 ^ 32)
    (hk8 : 8 ≤ k) (hk : k ≤ 32) (hz : ∀ t, t < 32 - k → lao.testBit t = false)
    (hr1 : 1 ≤ r) (hr8 : r ≤ 8) (hzr : r < 8 → buf pos % 2 ^ r = 0) :
    8 * (huffman_write_code buf pos r lao k).2.1 + (8 - (huffman_write_code buf pos r lao k).2.2)
      = 8 * pos + (8 - r) + k ∧
    1 ≤ (huffman_write_code buf pos r lao k).2.2 ∧ (huffman_write_code buf pos r lao k).2.2 ≤ 8 ∧
    (∀ i, i < 8 * pos + (8 - r) →
      stream_bit (huffman_write_code buf pos r lao k).1 i = stream_bit buf i) ∧
    (∀ j, j < k → stream_bit (huffman_write_code buf pos r lao k).1 (8 * pos + (8 - r) + j) =
      lao.testBit (31 - j)) ∧
    ((huffman_write_code buf pos r lao k).2.2 < 8 →
      (huffman_write_code buf pos r lao k).1 (huffman_write_code buf pos r lao k).2.1 %
        2 ^ (huffman_write_code buf pos r lao k).2.2 = 0) := by
  rw [huffman_write_code]
  by_cases hr : r = 8
  · rw [if_neg (by omega)]
    subst hr
    have := write_tail_spec buf pos lao k hl hk hz
    simpa using this
  · rw [if_pos hr]
    simp only
    have hk1 : (k + 2 ^ 32 - r) % 2 ^ 32 = k - r := by omega
    rw [hk1]
    have hl1 : (lao <<< r) % 2 ^ 32 < 2 ^ 32 := Nat.mod_lt _ (by norm_num)
    have hz1 : ∀ t, t < 32 - (k - r) → ((lao <<< r) % 2 ^ 32).testBit t = false := by
      intro t ht
      rw [testBit_shiftLeft_mod32]
      by_cases h1 : r ≤ t
      · rw [hz (t - r) (by omega)]
        simp
      · simp [h1]
    obtain ⟨g1, g2, g3, g4, g5, g6⟩ := write_tail_spec
      (upd buf pos (buf pos ||| (lao >>> (32 - r)) % 2 ^ 8)) (pos + 1) ((lao <<< r) % 2 ^ 32)
      (k - r) hl1 (by omega) hz1
    have hzb : ∀ t, t < r → (buf pos).testBit t = false :=
      fun t ht => testBit_of_mod_eq_zero _ r t (hzr (by omega)) ht
    refine ⟨by omega, g2, g3, fun i hi => ?_, fun j hj => ?_, g6⟩
    · rw [g4 i (by omega), stream_bit_upd]
      by_cases hi2 : i / 8 = pos
      · rw [if_pos hi2, stream_bit, hi2, Nat.testBit_or, Nat.testBit_mod_two_pow,
          Nat.testBit_shiftRight, testBit_ge_32 lao _ hl (by omega)]
        simp
      · rw [if_neg hi2]
    · by_cases hj2 : j < r
      · rw [g4 _ (by omega), stream_bit_upd, if_pos (by omega), Nat.testBit_or,
          Nat.testBit_mod_two_pow, Nat.testBit_shiftRight, hzb _ (by omega)]
        have e : 32 - r + (7 - (8 * pos + (8 - r) + j) % 8) = 31 - j := by omega
        simp [e, (by omega : 7 - (8 * pos + (8 - r) + j) % 8 < 8)]
      · have e : 8 * pos + (8 - r) + j = 8 * (pos + 1) + (j - r) := by omega
        rw [e, g5 (j - r) (by omega), testBit_shiftLeft_mod32]
        have e2 : 31 - (j - r) - r = 31 - j := by omega
        simp [e2, (by omega : 31 - (j - r) < 32), (by omega : r ≤ 31 - (j - r))]

/-! ### The codes of a back-reference -/

theorem length_code_spec (len : Nat) (old : Nat × Nat) (h3 : 3 ≤ len) (h32 : len ≤ 32) :
    huffman_length_code len old = huffman_length_code len (0, 0) ∧
    7 ≤ (huffman_length_code len (0, 0)).2 ∧ (huffman_length_code len (0, 0)).2 ≤ 9 ∧
    (huffman_length_code len (0, 0)).1 < 2 ^ (huffman_length_code len (0, 0)).2 ∧
    (len ≤ 18 → (huffman_length_code len (0, 0)).2 ≤ 8) := by
  interval_cases len <;> simp [huffman_length_code]

theorem offset_code_cases (off : Nat) (old : Nat × Nat) (h1 : 1 ≤ off) (h : off ≤ 4096) :
    ∃ c l, huffman_offset_code off old = (c, l) ∧ huffman_offset_code off (0, 0) = (c, l) ∧
      5 ≤ l ∧ l ≤ 15 ∧ c < 2 ^ l ∧ (off ≤ 2048 → l ≤ 14) := by
  rw [huffman_offset_code, huffman_offset_code]
  by_cases c0 : off ≥ 1 ∧ off ≤ 4
  · simp only [if_pos c0]
    exact ⟨_, _, rfl, rfl, by omega, by omega, by omega, by omega⟩
  simp only [if_neg c0]
  by_cases c1 : off ≥ 5 ∧ off ≤ 6
  · simp only [if_pos c1]
    exact ⟨_, _, rfl, rfl, by omega, by omega, by omega, by omega⟩
  simp only [if_neg c1]
  by_cases c2 : off ≥ 7 ∧ off ≤ 8
  · simp only [if_pos c2]
    exact ⟨_, _, rfl, rfl, by omega, by omega, by omega, by omega⟩
  simp only [if_neg c2]
  by_cases c3 : off ≥ 9 ∧ off ≤ 12
  · simp only [if_pos c3]
    exact ⟨_, _, rfl, rfl, by omega, by omega, by omega, by omega⟩
  simp only [if_neg c3]
  by_cases c4 : off ≥ 13 ∧ off ≤ 16
  · simp only [if_pos c4]
    exact ⟨_, _, rfl, rfl, by omega, by omega, by omega, by omega⟩
  simp only [if_neg c4]
  by_cases c5 : off ≥ 17 ∧ off ≤ 24
  · simp only [if_pos c5]
    exact ⟨_, _, rfl, rfl, by omega, by omega, by omega, by omega⟩
  simp only [if_neg c5]
  by_cases c6 : off ≥ 25 ∧ off ≤ 32
  · simp only [if_pos c6]
    exact ⟨_, _, rfl, rfl, by omega, by omega, by omega, by omega⟩
  simp only [if_neg c6]
  by_cases c7 : off ≥ 33 ∧ off ≤ 48
  · simp only [if_pos c7]
    exact ⟨_, _, rfl, rfl, by omega, by omega, by omega, by omega⟩
  simp only [if_neg c7]
  by_cases c8 : off ≥ 49 ∧ off ≤ 64
  · simp only [if_pos c8]
    exact ⟨_, _, rfl, rfl, by omega, by omega, by omega, by omega⟩
  simp only [if_neg c8]
  by_cases c9 : off ≥ 65 ∧ off ≤ 96
  · simp only [if_pos c9]
    exact ⟨_, _, rfl, rfl, by omega, by omega, by omega, by omega⟩
  simp only [if_neg c9]
  by_cases c10 : off ≥ 97 ∧ off ≤ 128
  · simp only [if_pos c10]
    exact ⟨_, _, rfl, rfl, by omega, by omega, by omega, by omega⟩
  simp only [if_neg c10]
  by_cases c11 : off ≥ 129 ∧ off ≤ 192
  · simp only [if_pos c11]
    exact ⟨_, _, rfl, rfl, by omega, by omega, by omega, by omega⟩
  simp only [if_neg c11]
  by_cases c12 : off ≥ 193 ∧ off ≤ 256
  · simp only [if_pos c12]
    exact ⟨_, _, rfl, rfl, by omega, by omega, by omega, by omega⟩
  simp only [if_neg c12]
  by_cases c13 : off ≥ 257 ∧ off ≤ 384
  · simp only [if_pos c13]
    exact ⟨_, _, rfl, rfl, by omega, by omega, by omega, by omega⟩
  simp only [if_neg c13]
  by_cases c14 : off ≥ 385 ∧ off ≤ 512
  · simp only [if_pos c14]
    exact ⟨_, _, rfl, rfl, by omega, by omega, by omega, by omega⟩
  simp only [if_neg c14]
  by_cases c15 : off ≥ 513 ∧ off ≤ 768
  · simp only [if_pos c15]
    exact ⟨_, _, rfl, rfl, by omega, by omega, by omega, by omega⟩
  simp only [if_neg c15]
  by_cases c16 : off ≥ 769 ∧ off ≤ 1024
  · simp only [if_pos c16]
    exact ⟨_, _, rfl, rfl, by omega, by omega, by omega, by omega⟩
  simp only [if_neg c16]
  by_cases c17 : off ≥ 1025 ∧ off ≤ 1536
  · simp only [if_pos c17]
    exact ⟨_, _, rfl, rfl, by omega, by omega, by omega, by omega⟩
  simp only [if_neg c17]
  by_cases c18 : off ≥ 1537 ∧ off ≤ 2048
  · simp only [if_pos c18]
    exact ⟨_, _, rfl, rfl, by omega, by omega, by omega, by omega⟩
  simp only [if_neg c18]
  by_cases c19 : off ≥ 2049 ∧ off ≤ 3072
  · simp only [if_pos c19]
    exact ⟨_, _, rfl, rfl, by omega, by omega, by omega, by omega⟩
  simp only [if_neg c19]
  by_cases c20 : off ≥ 3073 ∧ off ≤ 4096
  · simp only [if_pos c20]
    exact ⟨_, _, rfl, rfl, by omega, by omega, by omega, by omega⟩
  simp only [if_neg c20]
  omega

theorem offset_code_spec (off : Nat) (old : Nat × Nat) (h1 : 1 ≤ off) (h : off ≤ 4096) :
    huffman_offset_code off old = huffman_offset_code off (0, 0) ∧
    5 ≤ (huffman_offset_code off (0, 0)).2 ∧ (huffman_offset_code off (0, 0)).2 ≤ 15 ∧
    (huffman_offset_code off (0, 0)).1 < 2 ^ (huffman_offset_code off (0, 0)).2 ∧
    (off ≤ 2048 → (huffman_offset_code off (0, 0)).2 ≤ 14) := by
  obtain ⟨c, l, e1, e2, h5, h15, hc, h14⟩ := offset_code_cases off old h1 h
  rw [e1, e2]
  exact ⟨rfl, h5, h15, hc, h14⟩

/-- Bits of `length_and_offset`: the length code on top, the offset code below it. -/
theorem testBit_length_and_offset (lc ll oc ol t : Nat) (hoc : oc < 2 ^ ol)
    (hL : ll + ol ≤ 32) (ht : t < 32) :
    (((lc <<< (32 - ll)) ||| (oc <<< (32 - (ll + ol)))) % 2 ^ 32).testBit t =
      (decide (32 - (ll + ol) ≤ t) && (lc * 2 ^ ol + oc).testBit (t - (32 - (ll + ol)))) := by
  have e : lc * 2 ^ ol + oc = lc <<< ol ||| oc := by
    rw [Nat.shiftLeft_eq, Nat.mul_comm lc]
    exact Nat.mul_add_lt_is_or hoc lc
  rw [e, Nat.testBit_mod_two_pow, Nat.testBit_or, Nat.testBit_or, Nat.testBit_shiftLeft,
    Nat.testBit_shiftLeft, Nat.testBit_shiftLeft]
  by_cases h1 : 32 - (ll + ol) ≤ t
  · by_cases h2 : 32 - ll ≤ t
    · have e1 : t - (32 - (ll + ol)) - ol = t - (32 - ll) := by omega
      simp [ht, h1, h2, e1, (by omega : ol ≤ t - (32 - (ll + ol)))]
    · have h3 : ¬ ol ≤ t - (32 - (ll + ol)) := by omega
      simp [ht, h1, h2, h3]
  · simp [ht, h1]
    intro h
    omega

/-- A back-reference record with `3 ≤ len ≤ 32` and `1 ≤ offset ≤ 4096` appends its
code. -/
theorem match_appended_wf (st : HuffState) (off_hi off_lo len : Nat)
    (e1 : 1 ≤ off_hi * 128 + off_lo) (e2 : off_hi * 128 + off_lo ≤ 4096)
    (e4 : 3 ≤ len) (e5 : len ≤ 32) (hinv : HuffInv st) :
    Appended st (huffman_match st off_hi off_lo len) (Token.ref off_hi off_lo len).code.1
      (Token.ref off_hi off_lo len).code.2 := by
  obtain ⟨hr1, hr8, hzr⟩ := hinv
  obtain ⟨a1, a2, a3, a4, _⟩ := length_code_spec len (st.length_code, st.length_valid_bits_num)
    e4 e5
  obtain ⟨b1, b2, b3, b4, _⟩ := offset_code_spec (off_hi * 128 + off_lo)
    (st.offset_code, st.offset_valid_bits_num) e1 (by omega)
  rw [huffman_match]
  simp only [Token.code, a1, b1]
  generalize huffman_length_code len (0, 0) = lc at a2 a3 a4
  generalize huffman_offset_code (off_hi * 128 + off_lo) (0, 0) = oc at b2 b3 b4
  have hl : ((lc.1 <<< (32 - lc.2)) ||| (oc.1 <<< (32 - (lc.2 + oc.2)))) % 2 ^ 32 < 2 ^ 32 :=
    Nat.mod_lt _ (by norm_num)
  generalize hlao : ((lc.1 <<< (32 - lc.2)) ||| (oc.1 <<< (32 - (lc.2 + oc.2)))) % 2 ^ 32 = lao
    at hl
  have hbits : ∀ t, t < 32 → lao.testBit t =
      (decide (32 - (lc.2 + oc.2) ≤ t) &&
        (lc.1 * 2 ^ oc.2 + oc.1).testBit (t - (32 - (lc.2 + oc.2)))) := by
    intro t ht
    rw [← hlao]
    exact testBit_length_and_offset lc.1 lc.2 oc.1 oc.2 t b4 (by omega) ht
  obtain ⟨g1, g2, g3, g4, g5, g6⟩ := write_code_spec st.output_buffer st.output_pos
    st.output_char_remaining_bits lao (lc.2 + oc.2) hl (by omega) (by omega)
    (fun t ht => by
      rw [hbits t (by omega)]
      simp
      intro h
      omega) hr1 hr8 hzr
  refine ⟨?_, ?_, ?_, ⟨g2, g3, g6⟩⟩
  · simp only [used_bits]
    omega
  · intro i hi
    exact g4 i hi
  · intro j hj
    simp only [used_bits]
    rw [g5 j hj, hbits _ (by omega)]
    have e : 31 - j - (32 - (lc.2 + oc.2)) = lc.2 + oc.2 - 1 - j := by omega
    simp [e]
    intro h
    omega

/-- A back-reference record appends its code. -/
theorem match_appended (st : HuffState) (off_hi off_lo len : Nat)
    (henc : (Token.ref off_hi off_lo len).encodable) (hinv : HuffInv st) :
    Appended st (huffman_match st off_hi off_lo len) (Token.ref off_hi off_lo len).code.1
      (Token.ref off_hi off_lo len).code.2 := by
  obtain ⟨e1, e2, e3, e4, e5, _⟩ := henc
  exact match_appended_wf st off_hi off_lo len e1 (by omega) e4 e5 hinv

/-- A literal with an 8-bit code appends its code. -/
theorem literal_appended (st : HuffState) (b : Nat) (hb : b ≤ 143) (hinv : HuffInv st) :
    Appended st (huffman_literal st b) (Token.lit b).code.1 (Token.lit b).code.2 := by
  obtain ⟨hr1, hr8, hzr⟩ := hinv
  rw [huffman_literal, if_pos hb, huffman_literal_8]
  simp only [Token.code]
  have hc : (b + 48) % 2 ^ 8 < 2 ^ 8 := Nat.mod_lt _ (by norm_num)
  generalize (b + 48) % 2 ^ 8 = c at hc
  have hc8 : ∀ t, 8 ≤ t → c.testBit t = false := fun t ht => testBit_false_of_lt hc ht
  by_cases hr : st.output_char_remaining_bits = 8
  · rw [if_pos hr]
    refine ⟨?_, ?_, ?_, ?_⟩
    · simp only [used_bits, hr]
      omega
    · intro i hi
      simp only [used_bits, hr] at hi
      show stream_bit (upd _ _ _) i = _
      rw [stream_bit_upd, if_neg (by omega)]
    · intro j hj
      simp only [used_bits, hr]
      show stream_bit (upd _ _ _) _ = _
      rw [stream_bit_upd, if_pos (by omega)]
      congr 1
      omega
    · exact ⟨by simp [hr], by simp [hr], fun h => by simp [hr] at h⟩
  · rw [if_neg hr]
    have hzb : ∀ t, t < st.output_char_remaining_bits → (st.output_buffer st.output_pos).testBit t
        = false :=
      fun t ht => testBit_of_mod_eq_zero _ _ t (hzr (by omega)) ht
    refine ⟨?_, ?_, ?_, ?_⟩
    · simp only [used_bits]
      omega
    · intro i hi
      simp only [used_bits] at hi
      show stream_bit (upd (upd _ _ _) _ _) i = _
      rw [stream_bit_upd, if_neg (by omega), stream_bit_upd]
      by_cases hi2 : i / 8 = st.output_pos
      · rw [if_pos hi2, stream_bit, hi2, Nat.testBit_or, Nat.testBit_mod_two_pow,
          Nat.testBit_shiftRight, hc8 _ (by omega)]
        simp
      · rw [if_neg hi2]
    · intro j hj
      simp only [used_bits]
      show stream_bit (upd (upd _ _ _) _ _) _ = _
      rw [stream_bit_upd]
      by_cases hj2 : j < st.output_char_remaining_bits
      · rw [if_neg (by omega), stream_bit_upd, if_pos (by omega), Nat.testBit_or,
          Nat.testBit_mod_two_pow, Nat.testBit_shiftRight, hzb _ (by omega)]
        have e : 8 - st.output_char_remaining_bits +
            (7 - (8 * st.output_pos + (8 - st.output_char_remaining_bits) + j) % 8) = 8 - 1 - j := by
          omega
        simp [e, (by omega :
          7 - (8 * st.output_pos + (8 - st.output_char_remaining_bits) + j) % 8 < 8)]
      · rw [if_pos (by omega), Nat.testBit_mod_two_pow, Nat.testBit_shiftLeft]
        have e : 7 - (8 * st.output_pos + (8 - st.output_char_remaining_bits) + j) % 8 -
            st.output_char_remaining_bits = 8 - 1 - j := by omega
        simp [e, (by omega :
          7 - (8 * st.output_pos + (8 - st.output_char_remaining_bits) + j) % 8 < 8),
          (by omega : st.output_char_remaining_bits ≤
            7 - (8 * st.output_pos + (8 - st.output_char_remaining_bits) + j) % 8)]
    · refine ⟨hr1, hr8, fun _ => ?_⟩
      show upd _ _ _ _ % _ = 0
      rw [upd_same]
      exact mod_pow_of_shiftLeft_mod _ _ hr8

/-! ### The loop `STATIC_HUFFMAN` on a token stream -/

theorem appended_coded {S : Nat → Bool} {st st1 : HuffState} {t : Token} {ts : List Token}
    {e : Nat} (ha : Appended st st1 t.code.1 t.code.2)
    (hs : ∀ i, i < used_bits st1 → S i = stream_bit st1.output_buffer i)
    (hc : coded S (used_bits st1) ts e) : coded S (used_bits st) (t :: ts) e := by
  obtain ⟨a1, _, a3, _⟩ := ha
  refine ⟨fun j hj => ?_, ?_⟩
  · rw [hs _ (by omega), a3 j hj]
  · rw [← a1]
    exact hc

/-- Loop `STATIC_HUFFMAN` started at the first byte of the records of `ts`, which are
followed by the terminator: it stops at the terminator, keeps the earlier bits and has
appended the codes of `ts` in order. -/
theorem STATIC_HUFFMAN_tokens (input : List Nat) (rest : List Nat) (ts : List Token) :
    ∀ (fuel p : Nat) (st : HuffState),
    (∀ k, input.getD (p + k) 0 = (token_bytes ts ++ 0 :: rest).getD k 0) →
    (∀ t, t ∈ ts → t.encodable) → HuffInv st → ts.length + 1 ≤ fuel →
    HuffInv (STATIC_HUFFMAN input fuel p st) ∧
    (∀ i, i < used_bits st →
      stream_bit (STATIC_HUFFMAN input fuel p st).output_buffer i =
        stream_bit st.output_buffer i) ∧
    coded (stream_bit (STATIC_HUFFMAN input fuel p st).output_buffer) (used_bits st) ts
      (used_bits (STATIC_HUFFMAN input fuel p st)) := by
  induction ts with
  | nil =>
    intro fuel p st hin _ hinv hf
    cases fuel with
    | zero => simp at hf
    | succ f =>
      have h0 := hin 0
      simp only [token_bytes, List.flatMap_nil, List.nil_append, List.getD_cons_zero,
        Nat.add_zero] at h0
      rw [STATIC_HUFFMAN]
      rw [if_pos h0]
      exact ⟨hinv, fun _ _ => rfl, rfl⟩
  | cons t ts ih =>
    intro fuel p st hin henc hinv hf
    cases fuel with
    | zero => simp at hf
    | succ f =>
      have hf2 : ts.length + 1 ≤ f := by simp at hf; omega
      have henc2 : ∀ t, t ∈ ts → t.encodable := fun t ht => henc t (List.mem_cons_of_mem _ ht)
      have het := henc t (List.mem_cons_self _ _)
      cases t with
      | lit b =>
        obtain ⟨hb1, hb2, hb3⟩ := het
        have h0 := hin 0
        simp only [token_bytes, List.flatMap_cons, Token.bytes, List.cons_append,
          List.nil_append, List.getD_cons_zero, Nat.add_zero] at h0
        have hin2 : ∀ k, input.getD (p + 1 + k) 0 = (token_bytes ts ++ 0 :: rest).getD k 0 := by
          intro k
          have := hin (k + 1)
          simp only [token_bytes, List.flatMap_cons, Token.bytes, List.cons_append,
            List.nil_append, List.getD_cons_succ] at this
          rw [token_bytes, ← this]
          congr 1
          omega
        rw [STATIC_HUFFMAN]
        simp only [h0]
        rw [if_neg (by omega), if_neg hb3]
        have ha := literal_appended st b hb2 hinv
        obtain ⟨i1, i2, i3⟩ := ih f (p + 1) (huffman_literal st b) hin2 henc2 ha.2.2.2 hf2
        refine ⟨i1, fun i hi => ?_, ?_⟩
        · rw [i2 i (by have := ha.1; omega), ha.2.1 i hi]
        · exact appended_coded ha i2 i3
      | ref off_hi off_lo len =>
        have h0 := hin 0
        have h1 := hin 1
        have h2 := hin 2
        have h3 := hin 3
        simp only [token_bytes, List.flatMap_cons, Token.bytes, List.cons_append,
          List.nil_append, List.getD_cons_zero, List.getD_cons_succ, Nat.add_zero] at h0 h1 h2 h3
        have hin2 : ∀ k, input.getD (p + 4 + k) 0 = (token_bytes ts ++ 0 :: rest).getD k 0 := by
          intro k
          have := hin (k + 4)
          simp only [token_bytes, List.flatMap_cons, Token.bytes, List.cons_append,
            List.nil_append, List.getD_cons_succ] at this
          rw [token_bytes, ← this]
          congr 1
          omega
        rw [STATIC_HUFFMAN]
        simp only [h0, h1, h2, h3]
        rw [if_neg (by norm_num), if_pos trivial]
        have ha := match_appended st off_hi off_lo len het hinv
        obtain ⟨i1, i2, i3⟩ := ih f (p + 4) (huffman_match st off_hi off_lo len) hin2 henc2
          ha.2.2.2 hf2
        refine ⟨i1, fun i hi => ?_, ?_⟩
        · rw [i2 i (by have := ha.1; omega), ha.2.1 i hi]
        · exact appended_coded ha i2 i3

/-! ### The words written by `huffman` -/

theorem huffInv_init : HuffInv huffman_init := by
  refine ⟨by decide, by decide, fun _ => ?_⟩
  simp [huffman_init, upd]

theorem coded_length_le (S : Nat → Bool) (ts : List Token) (h : ∀ t, t ∈ ts → t.encodable) :
    ∀ p e, coded S p ts e → p + 8 * ts.length ≤ e := by
  induction ts with
  | nil =>
    intro p e hc
    simp only [coded] at hc
    simp [hc]
  | cons t ts ih =>
    intro p e hc
    obtain ⟨_, h2⟩ := hc
    have := ih (fun t ht => h t (List.mem_cons_of_mem _ ht)) _ _ h2
    have h8 : 8 ≤ t.code.2 := by
      have het := h t (List.mem_cons_self _ _)
      cases t with
      | lit b => simp [Token.code]
      | ref off_hi off_lo len =>
        obtain ⟨e1, e2, e3, e4, e5, _⟩ := het
        have a := length_code_spec len (0, 0) e4 e5
        have b := offset_code_spec (off_hi * 128 + off_lo) (0, 0) e1 (by omega)
        simp only [Token.code]
        omega
    simp only [List.length_cons]
    omega

theorem coded_le (S : Nat → Bool) (ts : List Token) : ∀ p e, coded S p ts e → p ≤ e := by
  induction ts with
  | nil =>
    intro p e hc
    simp only [coded] at hc
    omega
  | cons t ts ih =>
    intro p e hc
    have := ih _ _ hc.2
    omega

theorem coded_congr (S S2 : Nat → Bool) (ts : List Token) :
    ∀ p e, (∀ i, i < e → S2 i = S i) → coded S p ts e → coded S2 p ts e := by
  induction ts with
  | nil =>
    intro p e _ hc
    exact hc
  | cons t ts ih =>
    intro p e hS hc
    obtain ⟨h1, h2⟩ := hc
    refine ⟨fun j hj => ?_, ih _ _ hS h2⟩
    have hle := coded_le S ts _ _ h2
    rw [hS _ (by omega), h1 j hj]

/-- The words `huffman` writes for the records of `ts` and the terminator: the bytes of
a buffer `fb`, bit-reversed and packed; the bits of `fb`, most significant first, are the
block header `110`, the codes of `ts` in order and seven zero bits (the end-of-block
code), all inside the words written. -/
theorem huffman_bits (ts : List Token) (henc : ∀ t, t ∈ ts → t.encodable) :
    ∃ (fb : Nat → Nat) (cc e : Nat),
      huffman (token_bytes ts ++ [0]) = pack_words (fun i => reverse 8 (fb i) 8) cc ∧
      stream_bit fb 0 = true ∧ stream_bit fb 1 = true ∧ stream_bit fb 2 = false ∧
      coded (stream_bit fb) 3 ts e ∧ (∀ j, j < 7 → stream_bit fb (e + j) = false) ∧
      e + 17 ≤ 32 * cc := by
  obtain ⟨h1, h2, h3⟩ := STATIC_HUFFMAN_tokens (token_bytes ts ++ [0]) [] ts
    ((token_bytes ts ++ [0]).length + 1) 0 huffman_init (fun k => by simp) henc huffInv_init
    (by
      have := length_le_token_bytes ts
      simp
      omega)
  rw [huffman, huffman_finish]
  generalize STATIC_HUFFMAN (token_bytes ts ++ [0]) ((token_bytes ts ++ [0]).length + 1) 0
    huffman_init = st at h1 h2 h3
  obtain ⟨hr1, hr8, hzr⟩ := h1
  have hu : used_bits huffman_init = 3 := rfl
  rw [hu] at h2 h3
  have hle := coded_length_le _ ts henc _ _ h3
  have hbit : ∀ i, i < used_bits st →
      stream_bit (if st.output_char_remaining_bits = 8 then upd st.output_buffer st.output_pos 0
        else upd st.output_buffer (st.output_pos + 1) 0) i = stream_bit st.output_buffer i := by
    intro i hi
    simp only [used_bits] at hi
    split
    · rw [stream_bit_upd, if_neg (by omega)]
    · rw [stream_bit_upd, if_neg (by omega)]
  refine ⟨_, _, used_bits st, rfl, ?_, ?_, ?_, ?_, ?_, ?_⟩
  · rw [hbit 0 (by omega), h2 0 (by omega)]
    decide
  · rw [hbit 1 (by omega), h2 1 (by omega)]
    decide
  · rw [hbit 2 (by omega), h2 2 (by omega)]
    decide
  · exact coded_congr _ _ ts _ _ hbit h3
  · intro j hj
    simp only [used_bits]
    by_cases hr : st.output_char_remaining_bits = 8
    · rw [if_pos hr, stream_bit_upd, if_pos (by omega)]
      simp
    · rw [if_neg hr, stream_bit_upd]
      by_cases hj2 : j < st.output_char_remaining_bits
      · rw [if_neg (by omega), stream_bit,
          (by omega : (8 * st.output_pos + (8 - st.output_char_remaining_bits) + j) / 8
            = st.output_pos)]
        exact testBit_of_mod_eq_zero _ _ _ (hzr (by omega)) (by omega)
      · rw [if_pos (by omega)]
        simp
  · simp only [used_bits]
    omega

/-! ## The bit reader of `huffman_decoder` -/

/-- First half of an iteration of `STATIC_INPUT`: the bits taken from `next_word` stand
below the bits of `proc_buffer`; either the buffer is full or `next_word` is used up. -/
theorem STATIC_INPUT_shift_spec (S : Nat → Bool) (N pos : Nat) (st : DecState)
    (inv : DecInv S N pos 1 st) (hd : st.done_input = false) :
    DecInv S N pos 0 (STATIC_INPUT_shift st) ∧
    (STATIC_INPUT_shift st).done_input = false ∧
    ((STATIC_INPUT_shift st).buffer_bits_num = 32 ∨ (STATIC_INPUT_shift st).next_word_bits = 0) ∧
    (st.next_word_bits = 32 → (STATIC_INPUT_shift st).buffer_bits_num = 32) ∧
    (STATIC_INPUT_shift st).output = st.output ∧ (STATIC_INPUT_shift st).length = st.length ∧
    (STATIC_INPUT_shift st).done_decoding = st.done_decoding := by
  obtain ⟨n1, n2⟩ := inv.nwb_le hd
  have hb := inv.bbn_le
  have hnw := inv.nw_lt hd
  have hpb : st.proc_buffer ||| (st.next_word >>> st.buffer_bits_num) < 2 ^ 32 := by
    apply Nat.or_lt_two_pow inv.pb_lt
    rw [Nat.shiftRight_eq_div_pow]
    exact lt_of_le_of_lt (Nat.div_le_self _ _) hnw
  have hbits : ∀ t, t < 32 →
      (st.proc_buffer ||| (st.next_word >>> st.buffer_bits_num)).testBit (31 - t) =
        (decide (t < st.buffer_bits_num + st.next_word_bits) && S (pos + t)) := by
    intro t ht
    rw [Nat.testBit_or, inv.pb_bits t ht, Nat.testBit_shiftRight]
    by_cases h1 : t < st.buffer_bits_num
    · rw [testBit_ge_32 _ _ hnw (by omega)]
      simp [h1, (by omega : t < st.buffer_bits_num + st.next_word_bits)]
    · have e : st.buffer_bits_num + (31 - t) = 31 - (t - st.buffer_bits_num) := by omega
      rw [e, inv.nw_bits hd n1 _ (by omega)]
      have e2 : pos + st.buffer_bits_num + (t - st.buffer_bits_num) = pos + t := by omega
      rw [e2]
      by_cases h2 : t < st.buffer_bits_num + st.next_word_bits
      · simp [h1, h2, (by omega : t - st.buffer_bits_num < st.next_word_bits)]
      · simp [h1, h2]
        intro h
        omega
  rw [STATIC_INPUT_shift]
  by_cases hc : 32 - st.buffer_bits_num ≤ st.next_word_bits
  · rw [if_pos hc]
    refine ⟨?_, hd, Or.inl rfl, fun _ => rfl, rfl, rfl, rfl⟩
    refine ⟨hpb, le_refl _, fun t ht => ?_, fun _ => ⟨by omega, ?_⟩, fun _ => ?_, fun _ hn t ht => ?_,
      fun _ j t hj ht => ?_, fun _ => ?_, fun h => ?_⟩
    · show (st.proc_buffer ||| (st.next_word >>> st.buffer_bits_num)).testBit (31 - t) = _
      rw [hbits t ht]
      simp [ht, (by omega : t < st.buffer_bits_num + st.next_word_bits)]
    · show st.next_word_bits - (32 - st.buffer_bits_num) ≤ 32
      omega
    · exact Nat.mod_lt _ (by norm_num)
    · show ((st.next_word <<< (32 - st.buffer_bits_num)) % 2 ^ 32).testBit (31 - t) =
        (decide (t < st.next_word_bits - (32 - st.buffer_bits_num)) && S (pos + 32 + t))
      rw [testBit_shiftLeft_mod32]
      by_cases h1 : 32 - st.buffer_bits_num ≤ 31 - t
      · have e : 31 - t - (32 - st.buffer_bits_num) = 31 - (t + (32 - st.buffer_bits_num)) := by
          omega
        rw [e, inv.nw_bits hd n1 _ (by omega)]
        have e2 : pos + st.buffer_bits_num + (t + (32 - st.buffer_bits_num)) = pos + 32 + t := by
          omega
        rw [e2]
        by_cases h2 : t < st.next_word_bits - (32 - st.buffer_bits_num)
        · simp [h1, h2, (by omega : 31 - t < 32),
            (by omega : t + (32 - st.buffer_bits_num) < st.next_word_bits)]
        · simp [h1, h2]
          intro h
          omega
      · simp [h1]
        intro h
        omega
    · show (changeToLittleEndian (st.input.getD j 0)).testBit (31 - t) =
        S (pos + 32 + (st.next_word_bits - (32 - st.buffer_bits_num)) + 32 * j + t)
      rw [inv.in_bits hd j t hj ht]
      congr 1
      omega
    · show N = pos + 32 + (st.next_word_bits - (32 - st.buffer_bits_num)) + 32 * st.input.length
      rw [inv.total hd]
      omega
    · exact absurd h (by simp [hd])
  · rw [if_neg hc]
    refine ⟨?_, hd, Or.inr rfl, fun h => by omega, rfl, rfl, rfl⟩
    refine ⟨hpb, ?_, fun t ht => ?_, fun _ => ⟨by omega, ?_⟩, fun _ => hnw, fun _ hn t ht => ?_,
      fun _ j t hj ht => ?_, fun _ => ?_, fun h => ?_⟩
    · show st.buffer_bits_num + st.next_word_bits ≤ 32
      omega
    · show (st.proc_buffer ||| (st.next_word >>> st.buffer_bits_num)).testBit (31 - t) = _
      exact hbits t ht
    · show 0 ≤ 32
      omega
    · exact absurd hn (by show ¬ 1 ≤ 0; omega)
    · show (changeToLittleEndian (st.input.getD j 0)).testBit (31 - t) =
        S (pos + (st.buffer_bits_num + st.next_word_bits) + 0 + 32 * j + t)
      rw [inv.in_bits hd j t hj ht]
      congr 1
      omega
    · show N = pos + (st.buffer_bits_num + st.next_word_bits) + 0 + 32 * st.input.length
      rw [inv.total hd]
      omega
    · exact absurd h (by simp [hd])

theorem changeToLittleEndian_lt (w : Nat) : changeToLittleEndian w < 2 ^ 32 :=
  Nat.mod_lt _ (by norm_num)

/-- Second half of an iteration of `STATIC_INPUT`: a used-up `next_word` is replaced by
the next word of the stream, or `done_input` is set. -/
theorem STATIC_INPUT_read_spec (S : Nat → Bool) (N pos : Nat) (st : DecState)
    (inv : DecInv S N pos 0 st) (hd : st.done_input = false) :
    DecInv S N pos 1 (STATIC_INPUT_read st) ∧
    (STATIC_INPUT_read st).buffer_bits_num = st.buffer_bits_num ∧
    (st.next_word_bits = 0 →
      (STATIC_INPUT_read st).done_input = true ∨
        ((STATIC_INPUT_read st).done_input = false ∧ (STATIC_INPUT_read st).next_word_bits = 32)) ∧
    (st.next_word_bits ≠ 0 → (STATIC_INPUT_read st).done_input = false) ∧
    (STATIC_INPUT_read st).output = st.output ∧ (STATIC_INPUT_read st).length = st.length ∧
    (STATIC_INPUT_read st).done_decoding = st.done_decoding := by
  rw [STATIC_INPUT_read]
  by_cases h0 : st.next_word_bits = 0
  · rw [if_pos h0]
    by_cases he : st.input.isEmpty = true
    · rw [if_pos he]
      have hin : st.input = [] := List.isEmpty_iff.1 he
      refine ⟨?_, rfl, fun _ => Or.inl rfl, fun h => absurd h0 h, rfl, rfl, rfl⟩
      refine ⟨inv.pb_lt, inv.bbn_le, inv.pb_bits, fun h => ?_, fun h => ?_, fun h => ?_,
        fun h => ?_, fun h => ?_, fun _ => ?_⟩
      · exact absurd h (by simp)
      · exact absurd h (by simp)
      · exact absurd h (by simp)
      · exact absurd h (by simp)
      · exact absurd h (by simp)
      · show N = pos + st.buffer_bits_num
        rw [inv.total hd, h0, hin]
        simp
    · rw [if_neg he]
      obtain ⟨w, rest, hin⟩ : ∃ w rest, st.input = w :: rest := by
        cases h : st.input with
        | nil => simp [h] at he
        | cons w rest => exact ⟨_, _, rfl⟩
      have hb0 := inv.in_bits hd 0
      have hbj := inv.in_bits hd
      have htot := inv.total hd
      rw [hin] at hb0 hbj htot
      refine ⟨?_, rfl, fun _ => Or.inr ⟨hd, rfl⟩, fun h => absurd h0 h, rfl, rfl, rfl⟩
      refine ⟨inv.pb_lt, inv.bbn_le, inv.pb_bits, fun _ => ⟨by show 1 ≤ 32; omega, le_refl _⟩,
        fun _ => changeToLittleEndian_lt _, fun _ _ t ht => ?_, fun _ j t hj ht => ?_,
        fun _ => ?_, fun h => ?_⟩
      · show (changeToLittleEndian (stream_read st.input).1).testBit (31 - t) =
          (decide (t < 32) && S (pos + st.buffer_bits_num + t))
        rw [hin]
        have := hb0 t (by simp) ht
        simp only [List.getD_cons_zero] at this
        show (changeToLittleEndian w).testBit (31 - t) = _
        rw [this, h0]
        simp [ht]
      · have hj2 : j < (stream_read st.input).2.length := hj
        show (changeToLittleEndian ((stream_read st.input).2.getD j 0)).testBit (31 - t) =
          S (pos + st.buffer_bits_num + 32 + 32 * j + t)
        rw [hin] at hj2 ⊢
        have hj3 : j < rest.length := hj2
        have := hbj (j + 1) t (by simp; omega) ht
        simp only [List.getD_cons_succ] at this
        show (changeToLittleEndian (rest.getD j 0)).testBit (31 - t) = _
        rw [this, h0]
        congr 1
        omega
      · show N = pos + st.buffer_bits_num + 32 + 32 * (stream_read st.input).2.length
        rw [hin, htot, h0]
        show _ = pos + st.buffer_bits_num + 32 + 32 * rest.length
        simp
        omega
      · exact absurd h (by show ¬ st.done_input = true; simp [hd])
  · rw [if_neg h0]
    refine ⟨?_, rfl, fun h => absurd h h0, fun _ => hd, rfl, rfl, rfl⟩
    exact ⟨inv.pb_lt, inv.bbn_le, inv.pb_bits, fun h => ⟨by omega, (inv.nwb_le h).2⟩, inv.nw_lt,
      inv.nw_bits, inv.in_bits, inv.total, inv.fin⟩

/-- Loop `STATIC_INPUT` (three rounds of fuel are enough): the reader keeps its
position; afterwards the buffer holds at least 24 bits, or the whole rest of the
stream. -/
theorem STATIC_INPUT_spec (S : Nat → Bool) (N pos : Nat) (st : DecState)
    (inv : DecInv S N pos 1 st) :
    DecInv S N pos 1 (STATIC_INPUT 3 st) ∧
    (24 ≤ (STATIC_INPUT 3 st).buffer_bits_num ∨ (STATIC_INPUT 3 st).done_input = true) ∧
    (STATIC_INPUT 3 st).output = st.output ∧ (STATIC_INPUT 3 st).length = st.length ∧
    (STATIC_INPUT 3 st).done_decoding = st.done_decoding := by
  have exit : ∀ (f : Nat) (s : DecState),
      (24 ≤ s.buffer_bits_num ∨ s.done_input = true) → STATIC_INPUT (f + 1) s = s := by
    intro f s h
    rw [STATIC_INPUT, if_neg]
    rintro ⟨h1, h2⟩
    rcases h with h | h
    · omega
    · rw [h] at h2
      exact absurd h2 (by simp)
  by_cases hc : st.buffer_bits_num < 24 ∧ st.done_input = false
  · obtain ⟨a1, a2, a3, a4, a5, a6, a7⟩ := STATIC_INPUT_shift_spec S N pos st inv hc.2
    obtain ⟨b1, b2, b3, b4, b5, b6, b7⟩ := STATIC_INPUT_read_spec S N pos _ a1 a2
    rw [STATIC_INPUT, if_pos hc]
    generalize STATIC_INPUT_read (STATIC_INPUT_shift st) = s2 at b1 b2 b3 b4 b5 b6 b7
    by_cases hc2 : s2.buffer_bits_num < 24 ∧ s2.done_input = false
    · have hn32 : s2.next_word_bits = 32 := by
        rcases a3 with h | h
        · omega
        · rcases b3 h with h2 | h2
          · rw [h2] at hc2
            exact absurd hc2.2 (by simp)
          · exact h2.2
      obtain ⟨c1, c2, c3, c4, c5, c6, c7⟩ := STATIC_INPUT_shift_spec S N pos s2 b1 hc2.2
      obtain ⟨d1, d2, d3, d4, d5, d6, d7⟩ := STATIC_INPUT_read_spec S N pos _ c1 c2
      rw [STATIC_INPUT, if_pos hc2]
      have h32 := c4 hn32
      generalize STATIC_INPUT_read (STATIC_INPUT_shift s2) = s3 at d1 d2 d3 d4 d5 d6 d7
      rw [exit 0 s3 (Or.inl (by omega))]
      exact ⟨d1, Or.inl (by omega), by rw [d5, c5, b5, a5], by rw [d6, c6, b6, a6],
        by rw [d7, c7, b7, a7]⟩
    · have hex : 24 ≤ s2.buffer_bits_num ∨ s2.done_input = true := by
        by_cases h24 : 24 ≤ s2.buffer_bits_num
        · exact Or.inl h24
        · right
          cases hdi : s2.done_input with
          | true => rfl
          | false => exact absurd ⟨by omega, hdi⟩ hc2
      rw [exit 1 s2 hex]
      exact ⟨b1, hex, by rw [b5, a5], by rw [b6, a6], by rw [b7, a7]⟩
  · have hex : 24 ≤ st.buffer_bits_num ∨ st.done_input = true := by
      by_cases h24 : 24 ≤ st.buffer_bits_num
      · exact Or.inl h24
      · right
        cases hdi : st.done_input with
        | true => rfl
        | false => exact absurd ⟨by omega, hdi⟩ hc
    rw [exit 2 st hex]
    exact ⟨inv, hex, rfl, rfl, rfl⟩
theorem and_low_masks (x : Nat) :
    x &&& 0x1 = x % 2 ∧ x &&& 0x3 = x % 4 ∧ x &&& 0x7 = x % 8 ∧ x &&& 0x0F = x % 16 ∧
    x &&& 0x1F = x % 32 ∧ x &&& 0x3F = x % 64 ∧ x &&& 0x7F = x % 128 ∧ x &&& 0x0FF = x % 256 ∧
    x &&& 0x1FF = x % 512 ∧ x &&& 0x3FF = x % 1024 :=
  ⟨Nat.and_pow_two_sub_one_eq_mod x 1, Nat.and_pow_two_sub_one_eq_mod x 2,
    Nat.and_pow_two_sub_one_eq_mod x 3, Nat.and_pow_two_sub_one_eq_mod x 4,
    Nat.and_pow_two_sub_one_eq_mod x 5, Nat.and_pow_two_sub_one_eq_mod x 6,
    Nat.and_pow_two_sub_one_eq_mod x 7, Nat.and_pow_two_sub_one_eq_mod x 8,
    Nat.and_pow_two_sub_one_eq_mod x 9, Nat.and_pow_two_sub_one_eq_mod x 10⟩

/-- Function `decoder_get_offset` reads back the offset code that `huffman` writes:
called after a length code of `n` bits, with the offset code of `off` in the bits below
these, it returns `off` and the number of bits of both codes. -/
theorem decoder_get_offset_spec (n off pb : Nat) (hn : n = 7 ∨ n = 8 ∨ n = 9)
    (h1 : 1 ≤ off) (h : off ≤ 4095)
    (hB : pb / 2 ^ (32 - n - (huffman_offset_code off (0, 0)).2) %
        2 ^ (huffman_offset_code off (0, 0)).2 = (huffman_offset_code off (0, 0)).1) :
    decoder_get_offset n pb = (off, n + (huffman_offset_code off (0, 0)).2) := by
  revert hB
  rw [decoder_get_offset, huffman_offset_code]
  simp only [(and_low_masks _).1, (and_low_masks _).2.1, (and_low_masks _).2.2.1,
    (and_low_masks _).2.2.2.1, (and_low_masks _).2.2.2.2.1, (and_low_masks _).2.2.2.2.2.1,
    (and_low_masks _).2.2.2.2.2.2.1, (and_low_masks _).2.2.2.2.2.2.2.1,
    (and_low_masks _).2.2.2.2.2.2.2.2.1, (and_low_masks _).2.2.2.2.2.2.2.2.2,
    Nat.shiftRight_eq_div_pow]
  by_cases c0 : off ≥ 1 ∧ off ≤ 4
  · simp only [if_pos c0]
    intro hB
    have h5 : pb / 2 ^ (27 - n) % 32 % 2 ^ 8 = off - 1 := by
      rcases hn with rfl | rfl | rfl <;> omega
    simp only [h5]
    rw [if_pos ⟨by omega, by omega⟩]
    congr 1
    omega
  simp only [if_neg c0]
  by_cases c1 : off ≥ 5 ∧ off ≤ 6
  · simp only [if_pos c1]
    intro hB
    have h5 : pb / 2 ^ (27 - n) % 32 % 2 ^ 8 = 4 := by
      rcases hn with rfl | rfl | rfl <;> omega
    simp only [h5]
    norm_num
    rcases hn with rfl | rfl | rfl <;> omega
  simp only [if_neg c1]
  by_cases c2 : off ≥ 7 ∧ off ≤ 8
  · simp only [if_pos c2]
    intro hB
    have h5 : pb / 2 ^ (27 - n) % 32 % 2 ^ 8 = 5 := by
      rcases hn with rfl | rfl | rfl <;> omega
    simp only [h5]
    norm_num
    rcases hn with rfl | rfl | rfl <;> omega
  simp only [if_neg c2]
  by_cases c3 : off ≥ 9 ∧ off ≤ 12
  · simp only [if_pos c3]
    intro hB
    have h5 : pb / 2 ^ (27 - n) % 32 % 2 ^ 8 = 6 := by
      rcases hn with rfl | rfl | rfl <;> omega
    simp only [h5]
    norm_num
    rcases hn with rfl | rfl | rfl <;> omega
  simp only [if_neg c3]
  by_cases c4 : off ≥ 13 ∧ off ≤ 16
  · simp only [if_pos c4]
    intro hB
    have h5 : pb / 2 ^ (27 - n) % 32 % 2 ^ 8 = 7 := by
      rcases hn with rfl | rfl | rfl <;> omega
    simp only [h5]
    norm_num
    rcases hn with rfl | rfl | rfl <;> omega
  simp only [if_neg c4]
  by_cases c5 : off ≥ 17 ∧ off ≤ 24
  · simp only [if_pos c5]
    intro hB
    have h5 : pb / 2 ^ (27 - n) % 32 % 2 ^ 8 = 8 := by
      rcases hn with rfl | rfl | rfl <;> omega
    simp only [h5]
    norm_num
    rcases hn with rfl | rfl | rfl <;> omega
  simp only [if_neg c5]
  by_cases c6 : off ≥ 25 ∧ off ≤ 32
  · simp only [if_pos c6]
    intro hB
    have h5 : pb / 2 ^ (27 - n) % 32 % 2 ^ 8 = 9 := by
      rcases hn with rfl | rfl | rfl <;> omega
    simp only [h5]
    norm_num
    rcases hn with rfl | rfl | rfl <;> omega
  simp only [if_neg c6]
  by_cases c7 : off ≥ 33 ∧ off ≤ 48
  · simp only [if_pos c7]
    intro hB
    have h5 : pb / 2 ^ (27 - n) % 32 % 2 ^ 8 = 10 := by
      rcases hn with rfl | rfl | rfl <;> omega
    simp only [h5]
    norm_num
    rcases hn with rfl | rfl | rfl <;> omega
  simp only [if_neg c7]
  by_cases c8 : off ≥ 49 ∧ off ≤ 64
  · simp only [if_pos c8]
    intro hB
    have h5 : pb / 2 ^ (27 - n) % 32 % 2 ^ 8 = 11 := by
      rcases hn with rfl | rfl | rfl <;> omega
    simp only [h5]
    norm_num
    rcases hn with rfl | rfl | rfl <;> omega
  simp only [if_neg c8]
  by_cases c9 : off ≥ 65 ∧ off ≤ 96
  · simp only [if_pos c9]
    intro hB
    have h5 : pb / 2 ^ (27 - n) % 32 % 2 ^ 8 = 12 := by
      rcases hn with rfl | rfl | rfl <;> omega
    simp only [h5]
    norm_num
    rcases hn with rfl | rfl | rfl <;> omega
  simp only [if_neg c9]
  by_cases c10 : off ≥ 97 ∧ off ≤ 128
  · simp only [if_pos c10]
    intro hB
    have h5 : pb / 2 ^ (27 - n) % 32 % 2 ^ 8 = 13 := by
      rcases hn with rfl | rfl | rfl <;> omega
    simp only [h5]
    norm_num
    rcases hn with rfl | rfl | rfl <;> omega
  simp only [if_neg c10]
  by_cases c11 : off ≥ 129 ∧ off ≤ 192
  · simp only [if_pos c11]
    intro hB
    have h5 : pb / 2 ^ (27 - n) % 32 % 2 ^ 8 = 14 := by
      rcases hn with rfl | rfl | rfl <;> omega
    simp only [h5]
    norm_num
    rcases hn with rfl | rfl | rfl <;> omega
  simp only [if_neg c11]
  by_cases c12 : off ≥ 193 ∧ off ≤ 256
  · simp only [if_pos c12]
    intro hB
    have h5 : pb / 2 ^ (27 - n) % 32 % 2 ^ 8 = 15 := by
      rcases hn with rfl | rfl | rfl <;> omega
    simp only [h5]
    norm_num
    rcases hn with rfl | rfl | rfl <;> omega
  simp only [if_neg c12]
  by_cases c13 : off ≥ 257 ∧ off ≤ 384
  · simp only [if_pos c13]
    intro hB
    have h5 : pb / 2 ^ (27 - n) % 32 % 2 ^ 8 = 16 := by
      rcases hn with rfl | rfl | rfl <;> omega
    simp only [h5]
    norm_num
    rcases hn with rfl | rfl | rfl <;> omega
  simp only [if_neg c13]
  by_cases c14 : off ≥ 385 ∧ off ≤ 512
  · simp only [if_pos c14]
    intro hB
    have h5 : pb / 2 ^ (27 - n) % 32 % 2 ^ 8 = 17 := by
      rcases hn with rfl | rfl | rfl <;> omega
    simp only [h5]
    norm_num
    rcases hn with rfl | rfl | rfl <;> omega
  simp only [if_neg c14]
  by_cases c15 : off ≥ 513 ∧ off ≤ 768
  · simp only [if_pos c15]
    intro hB
    have h5 : pb / 2 ^ (27 - n) % 32 % 2 ^ 8 = 18 := by
      rcases hn with rfl | rfl | rfl <;> omega
    simp only [h5]
    norm_num
    rcases hn with rfl | rfl | rfl <;> omega
  simp only [if_neg c15]
  by_cases c16 : off ≥ 769 ∧ off ≤ 1024
  · simp only [if_pos c16]
    intro hB
    have h5 : pb / 2 ^ (27 - n) % 32 % 2 ^ 8 = 19 := by
      rcases hn with rfl | rfl | rfl <;> omega
    simp only [h5]
    norm_num
    rcases hn with rfl | rfl | rfl <;> omega
  simp only [if_neg c16]
  by_cases c17 : off ≥ 1025 ∧ off ≤ 1536
  · simp only [if_pos c17]
    intro hB
    have h5 : pb / 2 ^ (27 - n) % 32 % 2 ^ 8 = 20 := by
      rcases hn with rfl | rfl | rfl <;> omega
    simp only [h5]
    norm_num
    rcases hn with rfl | rfl | rfl <;> omega
  simp only [if_neg c17]
  by_cases c18 : off ≥ 1537 ∧ off ≤ 2048
  · simp only [if_pos c18]
    intro hB
    have h5 : pb / 2 ^ (27 - n) % 32 % 2 ^ 8 = 21 := by
      rcases hn with rfl | rfl | rfl <;> omega
    simp only [h5]
    norm_num
    rcases hn with rfl | rfl | rfl <;> omega
  simp only [if_neg c18]
  by_cases c19 : off ≥ 2049 ∧ off ≤ 3072
  · simp only [if_pos c19]
    intro hB
    have h5 : pb / 2 ^ (27 - n) % 32 % 2 ^ 8 = 22 := by
      rcases hn with rfl | rfl | rfl <;> omega
    simp only [h5]
    norm_num
    rcases hn with rfl | rfl | rfl <;> omega
  simp only [if_neg c19]
  by_cases c20 : off ≥ 3073 ∧ off ≤ 4096
  · simp only [if_pos c20]
    intro hB
    have h5 : pb / 2 ^ (27 - n) % 32 % 2 ^ 8 = 23 := by
      rcases hn with rfl | rfl | rfl <;> omega
    simp only [h5]
    norm_num
    rcases hn with rfl | rfl | rfl <;> omega
  simp only [if_neg c20]
  omega

/-- Reader after `L` bits are consumed (`proc_buffer <<= proc_bits_num`,
`buffer_bits_num -= proc_bits_num`). -/
theorem DecInv_consume (S : Nat → Bool) (N pos L : Nat) (st st2 : DecState)
    (inv : DecInv S N pos 1 st) (hL : L ≤ st.buffer_bits_num)
    (h1 : st2.input = st.input) (h2 : st2.proc_buffer = (st.proc_buffer <<< L) % 2 ^ 32)
    (h3 : st2.buffer_bits_num = st.buffer_bits_num - L) (h4 : st2.next_word = st.next_word)
    (h5 : st2.next_word_bits = st.next_word_bits) (h6 : st2.done_input = st.done_input) :
    DecInv S N (pos + L) 1 st2 := by
  have hb := inv.bbn_le
  refine ⟨?_, ?_, fun t ht => ?_, fun h => ?_, fun h => ?_, fun h hn t ht => ?_,
    fun h j t hj ht => ?_, fun h => ?_, fun h => ?_⟩
  · rw [h2]
    exact Nat.mod_lt _ (by norm_num)
  · omega
  · rw [h2, h3, testBit_shiftLeft_mod32]
    by_cases c : L ≤ 31 - t
    · have e : 31 - t - L = 31 - (t + L) := by omega
      rw [e, inv.pb_bits _ (by omega)]
      have e2 : pos + (t + L) = pos + L + t := by omega
      rw [e2]
      by_cases c2 : t + L < st.buffer_bits_num
      · simp [c, c2, (by omega : 31 - t < 32), (by omega : t < st.buffer_bits_num - L)]
      · simp [c, c2]
        intro h
        omega
    · simp [c]
      intro h
      omega
  · rw [h5]
    exact inv.nwb_le (h6 ▸ h)
  · rw [h4]
    exact inv.nw_lt (h6 ▸ h)
  · rw [h4, h5, h3, inv.nw_bits (h6 ▸ h) (h5 ▸ hn) t ht]
    congr 2
    omega
  · rw [h1] at hj ⊢
    rw [h5, h3, inv.in_bits (h6 ▸ h) j t hj ht]
    congr 1
    omega
  · rw [h1, h5, h3, inv.total (h6 ▸ h)]
    omega
  · rw [h3, inv.fin (h6 ▸ h)]
    omega

theorem and_mask_shiftRight_pow (w s m : Nat) :
    (w &&& ((2 ^ m - 1) <<< s)) >>> s = (w >>> s) % 2 ^ m := by
  apply Nat.eq_of_testBit_eq
  intro i
  rw [Nat.testBit_shiftRight, Nat.testBit_and, Nat.testBit_shiftLeft, Nat.testBit_mod_two_pow,
    Nat.testBit_shiftRight, Nat.testBit_two_pow_sub_one]
  by_cases h : i < m <;> simp [h]

/-- The bit fields that `static_decode_symbol` cuts out of `proc_buffer`, as quotients
and remainders. -/
theorem static_fields (pb : Nat) (hpb : pb < 2 ^ 32) :
    (pb &&& 0xFF000000) >>> 24 = pb / 2 ^ 24 ∧
    (pb >>> 25) &&& 0x7F = pb / 2 ^ 25 ∧
    (pb &&& 0x01000000) >>> 24 = pb / 2 ^ 24 % 2 ∧
    (pb &&& 0x01800000) >>> 23 = pb / 2 ^ 23 % 4 ∧
    (pb &&& 0x01C00000) >>> 22 = pb / 2 ^ 22 % 8 ∧
    (pb &&& 0xFF800000) >>> 23 = pb / 2 ^ 23 := by
  have e1 : (0xFF000000 : Nat) = (2 ^ 8 - 1) <<< 24 := by decide
  have e2 : (0x01000000 : Nat) = (2 ^ 1 - 1) <<< 24 := by decide
  have e3 : (0x01800000 : Nat) = (2 ^ 2 - 1) <<< 23 := by decide
  have e4 : (0x01C00000 : Nat) = (2 ^ 3 - 1) <<< 22 := by decide
  have e5 : (0xFF800000 : Nat) = (2 ^ 9 - 1) <<< 23 := by decide
  rw [e1, e2, e3, e4, e5, and_mask_shiftRight_pow, and_mask_shiftRight_pow,
    and_mask_shiftRight_pow, and_mask_shiftRight_pow, and_mask_shiftRight_pow,
    (and_low_masks _).2.2.2.2.2.2.1]
  simp only [Nat.shiftRight_eq_div_pow]
  refine ⟨?_, ?_, rfl, rfl, rfl, ?_⟩ <;> omega

theorem length_code_closed (len : Nat) (h3 : 3 ≤ len) (h32 : len ≤ 32) :
    huffman_length_code len (0, 0) =
      if len ≤ 10 then (len - 2, 7) else if len ≤ 18 then (len + 7, 8) else (len + 33, 9) := by
  interval_cases len <;> simp [huffman_length_code]

theorem split_code (pb lc ll oc ol : Nat) (hoc : oc < 2 ^ ol) (hL : ll + ol ≤ 32)
    (h : pb / 2 ^ (32 - (ll + ol)) = lc * 2 ^ ol + oc) :
    pb / 2 ^ (32 - ll) = lc ∧ pb / 2 ^ (32 - ll - ol) % 2 ^ ol = oc := by
  have hpos : 0 < 2 ^ ol := Nat.two_pow_pos ol
  constructor
  · have e : 32 - ll = (32 - (ll + ol)) + ol := by omega
    rw [e, Nat.pow_add, ← Nat.div_div_eq_div_mul, h, Nat.add_comm, Nat.add_mul_div_right _ _ hpos,
      Nat.div_eq_of_lt hoc]
    omega
  · rw [Nat.sub_sub, h, Nat.add_comm, Nat.add_mul_mod_self_right, Nat.mod_eq_of_lt hoc]

/-! ## One symbol of `STATIC_MAIN_LOOP` -/

/-- An 8-bit code on top of `proc_buffer` is decoded as its literal. -/
theorem static_decode_literal (st : DecState) (b : Nat) (hb : b ≤ 143)
    (hpb : st.proc_buffer < 2 ^ 32) (h : st.proc_buffer / 2 ^ 24 = b + 48) :
    static_decode_symbol st = ({ st with output := st.output ++ [b] }, 8) := by
  obtain ⟨e1, _⟩ := static_fields st.proc_buffer hpb
  rw [static_decode_symbol]
  simp only [e1, h]
  rw [if_pos ⟨by omega, by omega⟩]
  simp

/-- Seven zero bits on top of `proc_buffer` are the end-of-block code. -/
theorem static_decode_end (st : DecState) (hpb : st.proc_buffer < 2 ^ 32)
    (h : st.proc_buffer / 2 ^ 25 = 0) :
    static_decode_symbol st = ({ st with done_decoding := true }, 7) := by
  obtain ⟨e1, e2, _⟩ := static_fields st.proc_buffer hpb
  rw [static_decode_symbol]
  simp only [e1, e2, h]
  rw [if_neg (by omega), if_neg (by omega)]
  simp

/-- The code of a back-reference on top of `proc_buffer` is decoded as its record. -/
theorem static_decode_match (st : DecState) (off_hi off_lo len : Nat)
    (henc : (Token.ref off_hi off_lo len).encodable) (hpb : st.proc_buffer < 2 ^ 32)
    (h : st.proc_buffer / 2 ^ (32 - (Token.ref off_hi off_lo len).code.2) =
      (Token.ref off_hi off_lo len).code.1) :
    static_decode_symbol st =
      ({ st with length := len, output := st.output ++ [0x40, off_hi, off_lo, len] },
        (Token.ref off_hi off_lo len).code.2) := by
  obtain ⟨e1, e2, e3, e4, e5, _⟩ := henc
  obtain ⟨_, a2, a3, a4, _⟩ := length_code_spec len (0, 0) e4 e5
  obtain ⟨_, b2, b3, b4, _⟩ := offset_code_spec (off_hi * 128 + off_lo) (0, 0) e1 (by omega)
  simp only [Token.code] at h ⊢
  obtain ⟨A, B⟩ := split_code _ _ _ _ _ b4 (by omega) h
  obtain ⟨f1, f2, f3, f4, f5, f6⟩ := static_fields st.proc_buffer hpb
  have hhi : ((off_hi * 128 + off_lo) >>> 7) % 2 ^ 8 = off_hi := by
    simp only [Nat.shiftRight_eq_div_pow]
    omega
  have hlo : ((off_hi * 128 + off_lo) &&& 0x07F) % 2 ^ 8 = off_lo := by
    rw [(and_low_masks _).2.2.2.2.2.2.1]
    omega
  have hcl := length_code_closed len e4 e5
  rw [static_decode_symbol]
  simp only [f1, f2, f3, f4, f5, f6]
  by_cases c1 : len ≤ 10
  · rw [if_pos c1] at hcl
    rw [hcl] at A B ⊢
    simp only at A B ⊢
    have hoff := decoder_get_offset_spec 7 _ _ (Or.inl rfl) e1 (by omega) B
    rw [if_neg (by omega), if_neg (by omega), if_neg (by omega), if_pos ⟨by omega, by omega⟩,
      if_pos ⟨by omega, by omega⟩]
    simp only
    rw [hoff]
    simp only [hhi, hlo]
    have e : st.proc_buffer / 2 ^ 25 + 2 = len := by omega
    rw [e, Nat.mod_eq_of_lt (by omega : len < 2 ^ 8)]
  · rw [if_neg c1] at hcl
    by_cases c2 : len ≤ 18
    · rw [if_pos c2] at hcl
      rw [hcl] at A B ⊢
      simp only at A B ⊢
      have hoff := decoder_get_offset_spec 8 _ _ (Or.inr (Or.inl rfl)) e1 (by omega) B
      rw [if_neg (by omega), if_neg (by omega), if_neg (by omega), if_pos ⟨by omega, by omega⟩,
        if_neg (by omega), if_pos ⟨by omega, by omega⟩]
      simp only
      rw [hoff]
      simp only [hhi, hlo]
      have e : st.proc_buffer / 2 ^ 25 * 2 - 7 + st.proc_buffer / 2 ^ 24 % 2 = len := by omega
      rw [e, Nat.mod_eq_of_lt (by omega : len < 2 ^ 8)]
    · rw [if_neg c2] at hcl
      rw [hcl] at A B ⊢
      simp only at A B ⊢
      have hoff := decoder_get_offset_spec 9 _ _ (Or.inr (Or.inr rfl)) e1 (by omega) B
      rw [if_neg (by omega), if_neg (by omega), if_neg (by omega), if_pos ⟨by omega, by omega⟩,
        if_neg (by omega), if_neg (by omega), if_pos ⟨by omega, by omega⟩]
      simp only
      rw [hoff]
      simp only [hhi, hlo]
      have e : st.proc_buffer / 2 ^ 25 * 4 - 33 + st.proc_buffer / 2 ^ 23 % 4 = len := by omega
      rw [e, Nat.mod_eq_of_lt (by omega : len < 2 ^ 8)]

theorem token_code_facts (t : Token) (henc : t.encodable) :
    8 ≤ t.code.2 ∧ t.code.2 ≤ 23 ∧ t.code.1 < 2 ^ t.code.2 := by
  cases t with
  | lit b =>
    simp only [Token.code]
    exact ⟨le_refl _, by omega, Nat.mod_lt _ (by norm_num)⟩
  | ref off_hi off_lo len =>
    obtain ⟨e1, e2, e3, e4, e5, e6⟩ := henc
    obtain ⟨_, a2, a3, a4, a5⟩ := length_code_spec len (0, 0) e4 e5
    obtain ⟨_, b2, b3, b4, b5⟩ := offset_code_spec (off_hi * 128 + off_lo) (0, 0) e1 (by omega)
    simp only [Token.code]
    refine ⟨by omega, ?_, ?_⟩
    · rcases e6 with h | h
      · have := a5 h
        omega
      · have := b5 h
        omega
    · rw [Nat.pow_add]
      calc _ < (huffman_length_code len (0, 0)).1 *
              2 ^ (huffman_offset_code (off_hi * 128 + off_lo) (0, 0)).2 +
              2 ^ (huffman_offset_code (off_hi * 128 + off_lo) (0, 0)).2 :=
            Nat.add_lt_add_left b4 _
        _ = ((huffman_length_code len (0, 0)).1 + 1) *
              2 ^ (huffman_offset_code (off_hi * 128 + off_lo) (0, 0)).2 := by
            rw [Nat.add_mul, Nat.one_mul]
        _ ≤ _ := Nat.mul_le_mul_right _ a4

/-- One symbol of `STATIC_MAIN_LOOP`: the code of a token on top of `proc_buffer` is
decoded as the bytes of the token; the bit reader is not touched. -/
theorem static_decode_token (st : DecState) (t : Token) (henc : t.encodable)
    (hpb : st.proc_buffer < 2 ^ 32)
    (h : st.proc_buffer / 2 ^ (32 - t.code.2) = t.code.1) :
    (static_decode_symbol st).2 = t.code.2 ∧
    (static_decode_symbol st).1.output = st.output ++ t.bytes ∧
    (static_decode_symbol st).1.input = st.input ∧
    (static_decode_symbol st).1.proc_buffer = st.proc_buffer ∧
    (static_decode_symbol st).1.buffer_bits_num = st.buffer_bits_num ∧
    (static_decode_symbol st).1.next_word = st.next_word ∧
    (static_decode_symbol st).1.next_word_bits = st.next_word_bits ∧
    (static_decode_symbol st).1.done_input = st.done_input ∧
    (static_decode_symbol st).1.done_decoding = st.done_decoding := by
  cases t with
  | lit b =>
    obtain ⟨hb1, hb2, hb3⟩ := henc
    simp only [Token.code] at h
    rw [static_decode_literal st b hb2 hpb (by omega)]
    exact ⟨rfl, rfl, rfl, rfl, rfl, rfl, rfl, rfl, rfl⟩
  | ref off_hi off_lo len =>
    rw [static_decode_match st off_hi off_lo len henc hpb h]
    exact ⟨rfl, rfl, rfl, rfl, rfl, rfl, rfl, rfl, rfl⟩

/-- The `L` bits on top of `proc_buffer` as a number, when they are the bits of `code`
in the stream. -/
theorem top_bits_eq (S : Nat → Bool) (N pos m : Nat) (st : DecState) (inv : DecInv S N pos m st)
    (L code : Nat) (hL : L ≤ st.buffer_bits_num) (hc : code < 2 ^ L)
    (hS : ∀ j, j < L → S (pos + j) = code.testBit (L - 1 - j)) :
    st.proc_buffer / 2 ^ (32 - L) = code := by
  have hb := inv.bbn_le
  apply Nat.eq_of_testBit_eq
  intro i
  rw [← Nat.shiftRight_eq_div_pow, Nat.testBit_shiftRight]
  by_cases hi : i < L
  · have e : 32 - L + i = 31 - (L - 1 - i) := by omega
    rw [e, inv.pb_bits _ (by omega), hS _ (by omega)]
    have e2 : L - 1 - (L - 1 - i) = i := by omega
    simp [e2, (by omega : L - 1 - i < st.buffer_bits_num)]
  · rw [testBit_ge_32 _ _ inv.pb_lt (by omega), testBit_false_of_lt hc (by omega)]

/-! ## `STATIC_MAIN_LOOP` on the codes of a token stream -/

/-- Loop `STATIC_MAIN_LOOP` with the reader at the first of the codes of `ts`, which are
followed by the end-of-block code: it comes back, and has appended the records of
`ts`. -/
theorem STATIC_MAIN_LOOP_tokens (S : Nat → Bool) (N : Nat) (ts : List Token) :
    ∀ (fuel pos e : Nat) (st : DecState), DecInv S N pos 1 st → 0 < st.buffer_bits_num →
    st.done_decoding = false → coded S pos ts e → (∀ t, t ∈ ts → t.encodable) →
    (∀ j, j < 7 → S (e + j) = false) → e + 7 ≤ N → ts.length + 2 ≤ fuel →
    ∃ st2, STATIC_MAIN_LOOP fuel st = some st2 ∧ st2.output = st.output ++ token_bytes ts := by
  induction ts with
  | nil =>
    intro fuel pos e st inv hb hdd hc _ hz hN hf
    simp only [coded] at hc
    subst hc
    obtain ⟨f, rfl⟩ : ∃ f, fuel = f + 2 := ⟨fuel - 2, by simp at hf; omega⟩
    obtain ⟨r1, r2, r3, r4, r5⟩ := STATIC_INPUT_spec S N pos st inv
    rw [STATIC_MAIN_LOOP, if_pos ⟨hb, hdd⟩]
    simp only
    generalize STATIC_INPUT 3 st = st1 at r1 r2 r3 r4 r5
    have h7 : 7 ≤ st1.buffer_bits_num := by
      rcases r2 with h | h
      · omega
      · have := r1.fin h
        omega
    have htop := top_bits_eq S N pos 1 st1 r1 7 0 h7 (by norm_num) (fun j hj => by
      rw [hz j hj]
      simp)
    rw [static_decode_end st1 r1.pb_lt htop]
    simp only
    rw [if_neg (by norm_num), STATIC_MAIN_LOOP, if_neg (by simp)]
    exact ⟨_, rfl, by simp [token_bytes, r3]⟩
  | cons t ts ih =>
    intro fuel pos e st inv hb hdd hc henc hz hN hf
    obtain ⟨f, rfl⟩ : ∃ f, fuel = f + 1 := ⟨fuel - 1, by simp at hf; omega⟩
    have hf2 : ts.length + 2 ≤ f := by simp at hf; omega
    have het := henc t (List.mem_cons_self _ _)
    obtain ⟨k1, k2, k3⟩ := token_code_facts t het
    obtain ⟨hc1, hc2⟩ := hc
    have hle := coded_le S ts _ _ hc2
    obtain ⟨r1, r2, r3, r4, r5⟩ := STATIC_INPUT_spec S N pos st inv
    rw [STATIC_MAIN_LOOP, if_pos ⟨hb, hdd⟩]
    simp only
    generalize STATIC_INPUT 3 st = st1 at r1 r2 r3 r4 r5
    have hL : t.code.2 + 1 ≤ st1.buffer_bits_num := by
      rcases r2 with h | h
      · omega
      · have := r1.fin h
        omega
    have htop := top_bits_eq S N pos 1 st1 r1 t.code.2 t.code.1 (by omega) k3 hc1
    obtain ⟨d1, d2, d3, d4, d5, d6, d7, d8, d9⟩ := static_decode_token st1 t het r1.pb_lt htop
    generalize static_decode_symbol st1 = d at d1 d2 d3 d4 d5 d6 d7 d8 d9
    rw [if_neg (by omega), d1]
    have inv2 := DecInv_consume S N pos t.code.2 st1
      { d.1 with proc_buffer := (d.1.proc_buffer <<< t.code.2) % 2 ^ 32
                 buffer_bits_num := d.1.buffer_bits_num - t.code.2 }
      r1 (by omega) d3 (by rw [← d4]) (by rw [← d5]) d6 d7 d8
    obtain ⟨st2, g1, g2⟩ := ih f (pos + t.code.2) e _ inv2
      (by show 0 < d.1.buffer_bits_num - t.code.2; omega)
      (by show d.1.done_decoding = false; rw [d9, r5, hdd]) hc2
      (fun u hu => henc u (List.mem_cons_of_mem _ hu)) hz hN hf2
    refine ⟨st2, g1, ?_⟩
    rw [g2]
    show d.1.output ++ token_bytes ts = st.output ++ token_bytes (t :: ts)
    rw [d2, r3]
    simp [token_bytes]

/-! ## `huffman_decoder` on the words of `huffman` -/

theorem stream_read_snd (ws : List Nat) (k : Nat) :
    (stream_read (ws.drop k)).2 = ws.drop (k + 1) := by
  by_cases h : k < ws.length
  · exact stream_read_drop ws k h
  · rw [List.drop_eq_nil_of_le (by omega), List.drop_eq_nil_of_le (by omega)]
    rfl

theorem stream_read_eq (ws : List Nat) : stream_read ws = (ws.getD 0 0, ws.drop 1) := by
  cases ws <;> rfl

theorem getD_drop (ws : List Nat) (k j : Nat) : (ws.drop k).getD j 0 = ws.getD (k + j) 0 := by
  simp [List.getD_eq_getElem?_getD, List.getElem?_drop]

theorem block_header_static (pb : Nat) (h31 : pb.testBit 31 = true) (h30 : pb.testBit 30 = true)
    (h29 : pb.testBit 29 = false) : (pb &&& 0xE0000000) >>> 29 = 6 := by
  have e : (0xE0000000 : Nat) = (2 ^ 3 - 1) <<< 29 := by decide
  rw [e, and_mask_shiftRight_pow]
  apply Nat.eq_of_testBit_eq
  intro i
  rw [Nat.testBit_mod_two_pow, Nat.testBit_shiftRight]
  by_cases h3 : i < 3
  · interval_cases i
    · simp [h29]
    · simp [h30]
      decide
    · simp [h31]
      decide
  · have : Nat.testBit 6 i = false := testBit_false_of_lt (k := 3) (by norm_num) (by omega)
    simp [h3, this]

/-- Function `huffman_decoder` on a word stream whose bits are the static block header,
the codes of the tokens `ts` and the end-of-block code: it comes back with the records of
`ts` and the terminator. -/
theorem huffman_decoder_tokens (ws : List Nat) (ts : List Token) (e : Nat)
    (h0 : word_bit ws 0 = true) (h1 : word_bit ws 1 = true) (h2 : word_bit ws 2 = false)
    (hc : coded (word_bit ws) 3 ts e) (henc : ∀ t, t ∈ ts → t.encodable)
    (hz : ∀ j, j < 7 → word_bit ws (e + j) = false) (hN : e + 7 ≤ 32 * ws.length) :
    huffman_decoder ws = some (token_bytes ts ++ [0]) := by
  have key : ∀ (F : Nat) (X : DecState), DecInv (word_bit ws) (3 + 29 + 32 + 32 * ((ws.drop 1).drop 1).length) 3 1 X →
      X.buffer_bits_num = 29 → X.done_decoding = false → X.output = [] → ts.length + 2 ≤ F →
      (match STATIC_MAIN_LOOP F X with
        | none => none
        | some st1 => some (st1.output ++ [0])) = some (token_bytes ts ++ [0]) := by
    intro F X inv hb hdd ho hF
    obtain ⟨st2, g1, g2⟩ := STATIC_MAIN_LOOP_tokens (word_bit ws) _ ts F 3 e X inv (by omega) hdd
      hc henc hz (by simp only [List.length_drop]; omega) hF
    rw [g1]
    simp only
    rw [g2, ho]
    rfl
  have hlen := coded_length_le _ ts henc _ _ hc
  have hhead : ((changeToLittleEndian (ws.getD 0 0)) &&& 0xE0000000) >>> 29 = 6 :=
    block_header_static _ h0 h1 h2
  rw [huffman_decoder]
  simp only [stream_read_eq ws, stream_read_eq (ws.drop 1), hhead]
  rw [if_neg (by omega), if_neg (by omega), if_pos trivial]
  refine key _ _ ?_ rfl rfl rfl (by omega)
  refine ⟨Nat.mod_lt _ (by norm_num), by show 29 ≤ 32; omega, fun t ht => ?_,
    fun _ => ⟨by show 1 ≤ 32; omega, le_refl _⟩, fun _ => changeToLittleEndian_lt _,
    fun _ _ t ht => ?_, fun _ j t hj ht => ?_, fun _ => rfl, fun h => ?_⟩
  · show ((changeToLittleEndian (ws.getD 0 0) <<< 3) % 2 ^ 32).testBit (31 - t) =
      (decide (t < 29) && word_bit ws (3 + t))
    rw [testBit_shiftLeft_mod32]
    by_cases c : t < 29
    · have e1 : (3 + t) / 32 = 0 := by omega
      have e2 : 31 - (3 + t) % 32 = 31 - t - 3 := by omega
      rw [word_bit, e1, e2]
      simp [c, (by omega : 31 - t < 32), (by omega : 3 ≤ 31 - t)]
    · simp [c]
      intro h
      omega
  · show (changeToLittleEndian ((ws.drop 1).getD 0 0)).testBit (31 - t) =
      (decide (t < 32) && word_bit ws (3 + 29 + t))
    have e1 : (3 + 29 + t) / 32 = 1 := by omega
    have e2 : 31 - (3 + 29 + t) % 32 = 31 - t := by omega
    rw [word_bit, e1, e2, getD_drop]
    simp [ht]
  · show (changeToLittleEndian (((ws.drop 1).drop 1).getD j 0)).testBit (31 - t) =
      word_bit ws (3 + 29 + 32 + 32 * j + t)
    have e1 : (3 + 29 + 32 + 32 * j + t) / 32 = 1 + (1 + j) := by omega
    have e2 : 31 - (3 + 29 + 32 + 32 * j + t) % 32 = 31 - t := by omega
    rw [word_bit, e1, e2, getD_drop, getD_drop]
  · exact absurd h (by show ¬ (false = true); simp)

theorem changeToLittleEndian_pack_word (r0 r1 r2 r3 : Nat) (h0 : r0 < 256) (h1 : r1 < 256)
    (h2 : r2 < 256) (h3 : r3 < 256) :
    changeToLittleEndian (pack_word r0 r1 r2 r3) =
      pack_word (reverse 32 r0 8 % 2 ^ 8) (reverse 32 r1 8 % 2 ^ 8) (reverse 32 r2 8 % 2 ^ 8)
        (reverse 32 r3 8 % 2 ^ 8) := by
  have := word_bytes_pack_word r0 r1 r2 r3 h0 h1 h2 h3
  simp only [word_bytes, List.cons.injEq, and_true] at this
  obtain ⟨w0, w1, w2, w3⟩ := this
  rw [changeToLittleEndian]
  simp only [w0, w1, w2, w3]
  rfl

theorem testBit_reverse_reverse (x i : Nat) :
    (reverse 32 (reverse 8 x 8) 8 % 2 ^ 8).testBit i = (decide (i < 8) && x.testBit i) := by
  rw [Nat.testBit_mod_two_pow, testBit_reverse 32 _ 8 (by norm_num),
    testBit_reverse 8 _ 8 (by norm_num)]
  by_cases h : i < 8
  · have e : 8 - 1 - (8 - 1 - i) = i := by omega
    simp [h, e]
    intro h2
    omega
  · simp [h]

/-- The bits that `huffman_decoder` sees in the words written by `huffman` are the bits
of the output buffer of `huffman`. -/
theorem word_bit_pack_words (fb : Nat → Nat) (cc i : Nat) (hi : i < 32 * cc) :
    word_bit (pack_words (fun i => reverse 8 (fb i) 8) cc) i = stream_bit fb i := by
  have hr : ∀ x, reverse 8 x 8 < 256 := fun x => reverse_lt 8 x 8 (le_refl _)
  have hy : ∀ x, reverse 32 (reverse 8 x 8) 8 % 2 ^ 8 < 256 := fun x => Nat.mod_lt _ (by norm_num)
  rw [word_bit, pack_words, getD_map_range _ cc (i / 32) (by omega),
    changeToLittleEndian_pack_word _ _ _ _ (hr _) (hr _) (hr _) (hr _),
    testBit_pack_word _ _ _ _ _ (hy _) (hy _) (hy _) (hy _), stream_bit]
  by_cases c1 : 31 - i % 32 < 8
  · rw [if_pos c1, testBit_reverse_reverse]
    have e1 : i / 8 = i / 32 * 4 + 3 := by omega
    have e2 : 7 - i % 8 = 31 - i % 32 := by omega
    rw [e1, e2]
    simp [c1]
  · rw [if_neg c1]
    by_cases c2 : 31 - i % 32 < 16
    · rw [if_pos c2, testBit_reverse_reverse]
      have e1 : i / 8 = i / 32 * 4 + 2 := by omega
      have e2 : 7 - i % 8 = 31 - i % 32 - 8 := by omega
      rw [e1, e2]
      simp [(by omega : 31 - i % 32 - 8 < 8)]
    · rw [if_neg c2]
      by_cases c3 : 31 - i % 32 < 24
      · rw [if_pos c3, testBit_reverse_reverse]
        have e1 : i / 8 = i / 32 * 4 + 1 := by omega
        have e2 : 7 - i % 8 = 31 - i % 32 - 16 := by omega
        rw [e1, e2]
        simp [(by omega : 31 - i % 32 - 16 < 8)]
      · rw [if_neg c3, if_pos (by omega), testBit_reverse_reverse]
        have e1 : i / 8 = i / 32 * 4 := by omega
        have e2 : 7 - i % 8 = 31 - i % 32 - 24 := by omega
        rw [e1, e2]
        simp [(by omega : 31 - i % 32 - 24 < 8)]

/-- Round trip through `huffman` and `huffman_decoder`: a token stream whose literals
have 8-bit codes and whose back-references have codes shorter than 24 bits is written
and read back unchanged, the terminator included. -/
theorem huffman_round_trip (ts : List Token) (henc : ∀ t, t ∈ ts → t.encodable) :
    huffman_decoder (huffman (token_bytes ts ++ [0])) = some (token_bytes ts ++ [0]) := by
  obtain ⟨fb, cc, e, h1, b0, b1, b2, hc, hz, hN⟩ := huffman_bits ts henc
  have hle := coded_le _ ts _ _ hc
  have hb : ∀ i, i < 32 * cc →
      word_bit (pack_words (fun i => reverse 8 (fb i) 8) cc) i = stream_bit fb i :=
    fun i hi => word_bit_pack_words fb cc i hi
  have hlen : (pack_words (fun i => reverse 8 (fb i) 8) cc).length = cc := by
    simp [pack_words]
  rw [h1]
  apply huffman_decoder_tokens _ ts e
  · rw [hb 0 (by omega), b0]
  · rw [hb 1 (by omega), b1]
  · rw [hb 2 (by omega), b2]
  · exact coded_congr _ _ ts _ _ (fun i hi => hb i (by omega)) hc
  · exact henc
  · intro j hj
    rw [hb _ (by omega), hz j hj]
  · rw [hlen]
    omega

/-! ## `Deflate` followed by `inflate` (C1) -/

/-- Function `huffman` reads its input up to the first zero byte only. -/
theorem huffman_stops_at_NUL (b : Nat) (hb0 : b ≠ 0) (hb : b ≠ 0x40) (x : List Nat) :
    huffman (b :: 0 :: x) = huffman [b, 0] := by
  have e : ∀ (f : Nat) (l : List Nat), STATIC_HUFFMAN (b :: 0 :: l) (f + 2) 0 huffman_init =
      huffman_literal huffman_init b := by
    intro f l
    rw [STATIC_HUFFMAN]
    simp only [List.getD_cons_zero]
    rw [if_neg hb0, if_neg hb, STATIC_HUFFMAN]
    simp only [List.getD_cons_succ, List.getD_cons_zero]
    rw [if_pos trivial]
  rw [huffman, huffman]
  simp only [List.length_cons, List.length_nil]
  rw [e, e 1 []]

/-- Loop `STATIC_HUFFMAN` on the records of `ts` followed by a zero byte: what stands
behind that zero byte, and how many iterations are left, does not matter. -/
theorem STATIC_HUFFMAN_reads_tokens (ts : List Token)
    (hts : ∀ b, Token.lit b ∈ ts → b ≠ 0 ∧ b ≠ 0x40) :
    ∀ (in1 in2 : List Nat) (r1 r2 : List Nat) (f1 f2 p1 p2 : Nat) (st : HuffState),
    (∀ k, in1.getD (p1 + k) 0 = (token_bytes ts ++ 0 :: r1).getD k 0) →
    (∀ k, in2.getD (p2 + k) 0 = (token_bytes ts ++ 0 :: r2).getD k 0) →
    ts.length + 1 ≤ f1 → ts.length + 1 ≤ f2 →
    STATIC_HUFFMAN in1 f1 p1 st = STATIC_HUFFMAN in2 f2 p2 st := by
  induction ts with
  | nil =>
    intro in1 in2 r1 r2 f1 f2 p1 p2 st h1 h2 hf1 hf2
    obtain ⟨g1, e1⟩ : ∃ g, f1 = g + 1 := ⟨f1 - 1, by simp at hf1; omega⟩
    obtain ⟨g2, e2⟩ : ∃ g, f2 = g + 1 := ⟨f2 - 1, by simp at hf2; omega⟩
    have a1 := h1 0
    have a2 := h2 0
    simp only [token_bytes, List.flatMap_nil, List.nil_append, List.getD_cons_zero,
      Nat.add_zero] at a1 a2
    rw [e1, e2, STATIC_HUFFMAN, STATIC_HUFFMAN]
    simp only [a1, a2]
    rw [if_pos trivial, if_pos trivial]
  | cons t ts ih =>
    intro in1 in2 r1 r2 f1 f2 p1 p2 st h1 h2 hf1 hf2
    obtain ⟨g1, e1⟩ : ∃ g, f1 = g + 1 := ⟨f1 - 1, by omega⟩
    obtain ⟨g2, e2⟩ : ∃ g, f2 = g + 1 := ⟨f2 - 1, by omega⟩
    have hg1 : ts.length + 1 ≤ g1 := by simp at hf1; omega
    have hg2 : ts.length + 1 ≤ g2 := by simp at hf2; omega
    have hts2 : ∀ b, Token.lit b ∈ ts → b ≠ 0 ∧ b ≠ 0x40 :=
      fun b hb => hts b (List.mem_cons_of_mem _ hb)
    cases t with
    | lit b =>
      obtain ⟨hb0, hb40⟩ := hts b (List.mem_cons_self _ _)
      have step : ∀ (inp r : List Nat) (p : Nat),
          (∀ k, inp.getD (p + k) 0 = (token_bytes (Token.lit b :: ts) ++ 0 :: r).getD k 0) →
          inp.getD p 0 = b ∧
            ∀ k, inp.getD (p + 1 + k) 0 = (token_bytes ts ++ 0 :: r).getD k 0 := by
        intro inp r p hin
        refine ⟨?_, fun k => ?_⟩
        · have := hin 0
          simp only [token_bytes, List.flatMap_cons, Token.bytes, List.cons_append,
            List.nil_append, List.getD_cons_zero, Nat.add_zero] at this
          exact this
        · have := hin (k + 1)
          simp only [token_bytes, List.flatMap_cons, Token.bytes, List.cons_append,
            List.nil_append, List.getD_cons_succ] at this
          rw [token_bytes, ← this]
          congr 1
          omega
      obtain ⟨a1, b1⟩ := step in1 r1 p1 h1
      obtain ⟨a2, b2⟩ := step in2 r2 p2 h2
      rw [e1, e2, STATIC_HUFFMAN, STATIC_HUFFMAN]
      simp only [a1, a2]
      rw [if_neg hb0, if_neg hb40, if_neg hb0, if_neg hb40]
      exact ih hts2 in1 in2 r1 r2 g1 g2 (p1 + 1) (p2 + 1) _ b1 b2 hg1 hg2
    | ref off_hi off_lo len =>
      have step : ∀ (inp r : List Nat) (p : Nat),
          (∀ k, inp.getD (p + k) 0 =
            (token_bytes (Token.ref off_hi off_lo len :: ts) ++ 0 :: r).getD k 0) →
          inp.getD p 0 = 0x40 ∧ inp.getD (p + 1) 0 = off_hi ∧ inp.getD (p + 2) 0 = off_lo ∧
            inp.getD (p + 3) 0 = len ∧
            ∀ k, inp.getD (p + 4 + k) 0 = (token_bytes ts ++ 0 :: r).getD k 0 := by
        intro inp r p hin
        have h0 := hin 0
        have h1 := hin 1
        have h2 := hin 2
        have h3 := hin 3
        simp only [token_bytes, List.flatMap_cons, Token.bytes, List.cons_append,
          List.nil_append, List.getD_cons_zero, List.getD_cons_succ, Nat.add_zero] at h0 h1 h2 h3
        refine ⟨h0, h1, h2, h3, fun k => ?_⟩
        have := hin (k + 4)
        simp only [token_bytes, List.flatMap_cons, Token.bytes, List.cons_append,
          List.nil_append, List.getD_cons_succ] at this
        rw [token_bytes, ← this]
        congr 1
        omega
      obtain ⟨a1, b1, c1, d1, n1⟩ := step in1 r1 p1 h1
      obtain ⟨a2, b2, c2, d2, n2⟩ := step in2 r2 p2 h2
      rw [e1, e2, STATIC_HUFFMAN, STATIC_HUFFMAN]
      simp only [a1, a2, b1, b2, c1, c2, d1, d2]
      rw [if_neg (by norm_num), if_pos trivial, if_neg (by norm_num), if_pos trivial]
      exact ih hts2 in1 in2 r1 r2 g1 g2 (p1 + 4) (p2 + 4) _ n1 n2 hg1 hg2

/-- Function `huffman` reads its input up to the zero byte behind the last record. -/
theorem huffman_reads_tokens (ts : List Token) (rest : List Nat)
    (hts : ∀ b, Token.lit b ∈ ts → b ≠ 0 ∧ b ≠ 0x40) :
    huffman (token_bytes ts ++ 0 :: rest) = huffman (token_bytes ts ++ [0]) := by
  rw [huffman, huffman]
  congr 1
  have hl := length_le_token_bytes ts
  exact STATIC_HUFFMAN_reads_tokens ts hts _ _ rest [] _ _ 0 0 _
    (fun k => by rw [Nat.zero_add]) (fun k => by rw [Nat.zero_add])
    (by simp only [List.length_append, List.length_cons]; omega)
    (by simp only [List.length_append, List.length_cons]; omega)


/-- Function `Deflate` reads 570 words: two word streams that agree on these are
compressed to the same words. -/
theorem Deflate_reads_words (a b : List Nat) (h : a.take 570 = b.take 570) :
    Deflate a = Deflate b := by
  rw [Deflate, Deflate, LZ77_reads_words a b 2250 h]

/-- Literals alone describe any stretch of the plaintext. -/
theorem tokens_cover_literals (W : Nat → Nat) (n : Nat) (m : Nat) :
    ∀ q, q + m ≤ n →
      tokens_cover W n q ((List.range' q m).map (fun p => Token.lit (W p))) (q + m) := by
  induction m with
  | zero =>
    intro q _
    simp [tokens_cover]
  | succ m ih =>
    intro q h
    rw [List.range'_succ, List.map_cons]
    refine ⟨by omega, rfl, ?_⟩
    rw [(by omega : q + (m + 1) = q + 1 + m)]
    exact ih (q + 1) (by omega)

set_option maxRecDepth 100000 in
/-- C1 (counterexample): the claim as stated fails in four ways, each for a plaintext
without `0x40`.
An embedded zero byte: of the 32 bytes `61 00 62 62 ... 62`, packed into eight
big-endian words, the bytes `61 00 00 00` come back; everything behind the zero byte is
lost.
A short plaintext: `Deflate` runs the 562 iterations of `LZ77(input, 2250, ...)` whatever
the length of the text.  For the 29 bytes `61 62 ... 7D` the iteration that meets the
terminator takes the three zero bytes behind the text for a repetition (its compare
window was never filled) and writes a back-reference of length 3 at distance 29 where
the terminator stands; what comes back is the text followed by `61 62 63 7D`.
A long plaintext: `Deflate` reads 570 words, so the two 2281-byte plaintexts
`61 (2048 times) 62 (232 times) 63` and `61 ... 62 ... 64` are compressed to the same
words, and `inflate` cannot give back both.
A byte above 143: of the two bytes `61 91` the bytes `61 92` come back (the 9-bit
literal branch of `huffman` shifts the second byte of the code by one bit too many). -/
theorem Deflate_inflate_loses_bytes :
    0x40 ∉ (0x61 :: 0x00 :: List.replicate 30 0x62) ∧
    (inflate (Deflate (pack_bytes (0x61 :: 0x00 :: List.replicate 30 0x62)))).map unpack_words =
      some [0x61, 0, 0, 0] ∧
    (∀ b, b ∈ (List.range 29).map (fun i => 0x61 + i) → 1 ≤ b ∧ b ≤ 143 ∧ b ≠ 0x40) ∧
    (inflate (Deflate (pack_bytes ((List.range 29).map (fun i => 0x61 + i) ++ [0])))).map
        unpack_words =
      some ((List.range 29).map (fun i => 0x61 + i) ++ [0x61, 0x62, 0x63, 0x7D, 0, 0, 0]) ∧
    0x40 ∉ List.replicate 2048 0x61 ++ List.replicate 232 0x62 ++ [0x63] ∧
    0x40 ∉ List.replicate 2048 0x61 ++ List.replicate 232 0x62 ++ [0x64] ∧
    Deflate (pack_bytes
        (List.replicate 2048 0x61 ++ List.replicate 232 0x62 ++ [0x63] ++ [0])) =
      Deflate (pack_bytes
        (List.replicate 2048 0x61 ++ List.replicate 232 0x62 ++ [0x64] ++ [0])) ∧
    ¬ ((∃ out, inflate (Deflate (pack_bytes
          (List.replicate 2048 0x61 ++ List.replicate 232 0x62 ++ [0x63] ++ [0]))) = some out ∧
        (unpack_words out).take 2282 =
          List.replicate 2048 0x61 ++ List.replicate 232 0x62 ++ [0x63] ++ [0]) ∧
      (∃ out, inflate (Deflate (pack_bytes
          (List.replicate 2048 0x61 ++ List.replicate 232 0x62 ++ [0x64] ++ [0]))) = some out ∧
        (unpack_words out).take 2282 =
          List.replicate 2048 0x61 ++ List.replicate 232 0x62 ++ [0x64] ++ [0])) ∧
    0x40 ∉ [0x61, 0x91] ∧
    (inflate (Deflate (pack_bytes [0x61, 0x91, 0]))).map unpack_words =
      some [0x61, 0x92, 0, 0] := by
  have hD : Deflate (pack_bytes
        (List.replicate 2048 0x61 ++ List.replicate 232 0x62 ++ [0x63] ++ [0])) =
      Deflate (pack_bytes
        (List.replicate 2048 0x61 ++ List.replicate 232 0x62 ++ [0x64] ++ [0])) := by
    apply Deflate_reads_words
    rw [List.append_assoc (List.replicate 2048 0x61 ++ List.replicate 232 0x62),
      List.append_assoc (List.replicate 2048 0x61 ++ List.replicate 232 0x62)]
    exact pack_bytes_take _ _ _ 570 (by
      rw [List.length_append, List.length_replicate, List.length_replicate])
  refine ⟨by decide, ?_, by decide, ?_, ?_, ?_, hD, ?_, by decide, ?_⟩
  · obtain ⟨x, hx⟩ := LZ77_first_iteration (pack_bytes (0x61 :: 0x00 :: List.replicate 30 0x62))
      2250 (by norm_num)
    have h1 : (CONTROL_LOOP_body
        (LZ77_init (pack_bytes (0x61 :: 0x00 :: List.replicate 30 0x62)))).output =
        [0x61, 0, 0x62, 0x62] := by
      decide
    rw [h1] at hx
    rw [Deflate, hx]
    show (inflate (huffman (0x61 :: 0 :: ([0x62, 0x62] ++ x)))).map unpack_words = _
    rw [huffman_stops_at_NUL 0x61 (by norm_num) (by norm_num)]
    decide
  · obtain ⟨x, hx⟩ := LZ77_first_iterations
      (pack_bytes ((List.range 29).map (fun i => 0x61 + i) ++ [0])) 2250 9 (by norm_num)
    have h1 : (CONTROL_LOOP 9
        (LZ77_init (pack_bytes ((List.range 29).map (fun i => 0x61 + i) ++ [0])))).output =
        token_bytes ((List.range 29).map (fun i => Token.lit (0x61 + i)) ++
          [Token.ref 0 29 3, Token.lit 0x7D]) ++ 0 :: [0, 0x40, 0, 4, 32] := by
      decide
    have hlit : ∀ b, Token.lit b ∈ (List.range 29).map (fun i => Token.lit (0x61 + i)) ++
        [Token.ref 0 29 3, Token.lit 0x7D] → b ≠ 0 ∧ b ≠ 0x40 := by
      intro b hb
      simp only [List.mem_append, List.mem_map, List.mem_range, List.mem_cons, Token.lit.injEq,
        List.mem_singleton, List.mem_nil_iff, or_false, false_or, reduceCtorEq] at hb
      rcases hb with ⟨a, ha, hab⟩ | hb
      · omega
      · omega
    rw [h1, List.append_assoc, List.cons_append] at hx
    rw [Deflate, hx, huffman_reads_tokens _ _ hlit]
    decide
  · intro h
    simp only [List.mem_append, List.mem_replicate, List.mem_singleton] at h
    omega
  · intro h
    simp only [List.mem_append, List.mem_replicate, List.mem_singleton] at h
    omega
  · rintro ⟨⟨o1, e1, t1⟩, ⟨o2, e2, t2⟩⟩
    rw [hD, e2] at e1
    injection e1 with e1
    rw [← e1, t2] at t1
    have := List.append_cancel_left (List.append_cancel_right t1)
    exact absurd this (by decide)
  · obtain ⟨x, hx⟩ := LZ77_first_iteration (pack_bytes [0x61, 0x91, 0]) 2250 (by norm_num)
    have h1 : (CONTROL_LOOP_body (LZ77_init (pack_bytes [0x61, 0x91, 0]))).output =
        token_bytes [Token.lit 0x61, Token.lit 0x91] ++ 0 :: [0x40, 0, 3, 32] := by
      decide
    have hlit : ∀ b, Token.lit b ∈ [Token.lit 0x61, Token.lit 0x91] → b ≠ 0 ∧ b ≠ 0x40 := by
      intro b hb
      simp only [List.mem_cons, Token.lit.injEq, List.mem_singleton, List.mem_nil_iff,
        or_false] at hb
      omega
    rw [h1, List.append_assoc, List.cons_append] at hx
    rw [Deflate, hx, huffman_reads_tokens _ _ hlit]
    decide

/-- The tokens that `LZ77` writes for a plaintext whose bytes all have 8-bit codes and
in which no run of 19 bytes recurs 2049 or more positions later are tokens that
`huffman` and `huffman_decoder` carry unchanged. -/
theorem tokens_cover_encodable (W : Nat → Nat) (n : Nat)
    (hW : ∀ p, p < n → 1 ≤ W p ∧ W p ≤ 143 ∧ W p ≠ 0x40)
    (hfar : ∀ i j, i + 2049 ≤ j → j + 19 ≤ n → ∃ k, k < 19 ∧ W (i + k) ≠ W (j + k))
    (ts : List Token) :
    ∀ q c, tokens_cover W n q ts c → ∀ t, t ∈ ts → t.encodable := by
  induction ts with
  | nil =>
    intro q c _ t ht
    simp at ht
  | cons u us ih =>
    intro q c hcov t ht
    cases u with
    | lit b =>
      obtain ⟨h1, h2, h3⟩ := hcov
      rcases List.mem_cons.1 ht with h | h
      · rw [h, h2]
        exact hW q h1
      · exact ih _ _ h3 t h
    | ref off_hi off_lo len =>
      obtain ⟨⟨g1, g2, g3, g4, g5, g6, g7, g8, g9⟩, h3⟩ := hcov
      rcases List.mem_cons.1 ht with h | h
      · rw [h]
        refine ⟨g1, g5, g4, g6, g7, ?_⟩
        by_contra hcon
        have hl : 19 ≤ len := by omega
        have ho : 2049 ≤ off_hi * 128 + off_lo := by omega
        obtain ⟨k, hk, hne⟩ := hfar (q - (off_hi * 128 + off_lo)) q (by omega) (by omega)
        apply hne
        have := g9 k (by omega)
        rw [this]
        congr 1
        omega
      · exact ih _ _ h3 t h

/-- C1 (amended): a plaintext `P` whose bytes lie in `1 .. 143` and are not `0x40`, in
which no run of 19 bytes recurs 2049 or more positions later, delivered as big-endian
words whose bytes are `P` followed by a zero byte.  When `P` has 2248 to 2279 bytes (the
562 iterations of `LZ77(input, 2250, ...)` stay inside `P` and the terminator is in the
last window), or when, for any other length, the stream that `LZ77` writes is a token
stream that describes `P` followed by a zero byte, `inflate` applied to the words of
`Deflate` comes back, and the bytes of its output words begin with `P` followed by the
terminator. -/
theorem Deflate_inflate_round_trip (P ws : List Nat)
    (hP : ∀ b, b ∈ P → 1 ≤ b ∧ b ≤ 143 ∧ b ≠ 0x40)
    (hdel : (unpack_words ws).take (P.length + 1) = P ++ [0])
    (hfar : ∀ i j, i + 2049 ≤ j → j + 19 ≤ P.length →
      ∃ k, k < 19 ∧ P.getD (i + k) 0 ≠ P.getD (j + k) 0)
    (hlz : (2248 ≤ P.length ∧ P.length ≤ 2279) ∨
      ∃ ts rest, LZ77 ws 2250 = token_bytes ts ++ 0 :: rest ∧
        tokens_cover (stream_byte ws) P.length 0 ts P.length) :
    ∃ out, inflate (Deflate ws) = some out ∧
      (unpack_words out).take (P.length + 1) = P ++ [0] := by
  obtain ⟨hW, _⟩ := stream_byte_of_delivery ws P hdel
  have hP2 : ∀ b, b ∈ P → b ≠ 0 ∧ b ≠ 0x40 ∧ b < 256 :=
    fun b hb => ⟨by have := hP b hb; omega, (hP b hb).2.2, by have := hP b hb; omega⟩
  have hlz2 : ∃ ts rest, LZ77 ws 2250 = token_bytes ts ++ 0 :: rest ∧
      tokens_cover (stream_byte ws) P.length 0 ts P.length := by
    rcases hlz with ⟨h1, h2⟩ | h
    · obtain ⟨ts, e1, hcov, _⟩ := LZ77_roundtrip ws P 2250 hP2 hdel (by omega) (by omega)
      exact ⟨ts, [], e1, hcov⟩
    · exact h
  obtain ⟨ts, rest, e1, hcov⟩ := hlz2
  have henc := tokens_cover_encodable (stream_byte ws) P.length
    (fun p hp => by
      rw [hW p hp]
      exact hP _ (getD_mem_of_lt P p hp))
    (fun i j hij hj => by
      obtain ⟨k, hk, hne⟩ := hfar i j hij hj
      refine ⟨k, hk, ?_⟩
      rw [hW _ (by omega), hW _ (by omega)]
      exact hne) ts 0 P.length hcov
  have hlit : ∀ b, Token.lit b ∈ ts → b ≠ 0 ∧ b ≠ 0x40 := by
    intro b hb
    have := henc _ hb
    simp only [Token.encodable] at this
    exact ⟨by omega, this.2.2⟩
  have hW0 : ∀ p, p < P.length → stream_byte ws p ≠ 0 ∧ stream_byte ws p ≠ 0x40 := by
    intro p hp
    rw [hW p hp]
    exact ⟨(hP2 _ (getD_mem_of_lt P p hp)).1, (hP2 _ (getD_mem_of_lt P p hp)).2.1⟩
  have hmap : (List.range P.length).map (stream_byte ws) = P := by
    symm
    apply list_eq_map_range _ _ _ rfl
    intro i hi
    rw [hW i hi]
  have hloop : LZ77_MAIN_LOOP ((token_bytes ts ++ [0]).length + 1) (token_bytes ts ++ [0]) [] =
      P := by
    have := LZ77_MAIN_LOOP_tokens (stream_byte ws) P.length hW0 ts [] 0 P.length
      ((token_bytes ts ++ [0]).length + 1) (by
        have := length_le_token_bytes ts
        simp; omega) hcov
    rw [hmap] at this
    exact this
  refine ⟨LZ77_decoder (token_bytes ts ++ [0]), ?_, ?_⟩
  · rw [inflate, Deflate, e1, huffman_reads_tokens ts rest hlit, huffman_round_trip ts henc]
    rfl
  · have := unpack_LZ77_decoder (token_bytes ts ++ [0]) (by
      rw [hloop]
      exact fun b hb => (hP2 b hb).2.2)
    rw [hloop] at this
    exact this

theorem unpack_pack_bytes_take (Q : List Nat) (hQ : ∀ b, b ∈ Q → b < 256) :
    (unpack_words (pack_bytes Q)).take Q.length = Q := by
  rw [pack_bytes, unpack_pack_words _ (fun i => by
    by_cases h : i < Q.length
    · exact hQ _ (getD_mem_of_lt Q i h)
    · rw [List.getD_eq_default _ _ (by omega)]; norm_num), ← List.map_take, List.take_range,
    Nat.min_eq_left (by omega), map_getD_range Q Q.length (le_refl _), List.take_length]

set_option maxRecDepth 100000 in
theorem Deflate_inflate_round_trip_witness :
    ((∀ b, b ∈ [0x48, 0x65, 0x6C, 0x6C, 0x6F, 0x2C, 0x20, 0x77, 0x6F, 0x72, 0x6C, 0x64, 0x21] → 1 ≤ b ∧ b ≤ 143 ∧ b ≠ 0x40) ∧
    (unpack_words [0x48656C6C, 0x6F2C2077, 0x6F726C64, 0x21000000]).take ([0x48, 0x65, 0x6C, 0x6C, 0x6F, 0x2C, 0x20, 0x77, 0x6F, 0x72, 0x6C, 0x64, 0x21].length + 1) =
      [0x48, 0x65, 0x6C, 0x6C, 0x6F, 0x2C, 0x20, 0x77, 0x6F, 0x72, 0x6C, 0x64, 0x21] ++ [0] ∧
    (∀ i j, i + 2049 ≤ j → j + 19 ≤ [0x48, 0x65, 0x6C, 0x6C, 0x6F, 0x2C, 0x20, 0x77, 0x6F, 0x72, 0x6C, 0x64, 0x21].length →
      ∃ k, k < 19 ∧ ([0x48, 0x65, 0x6C, 0x6C, 0x6F, 0x2C, 0x20, 0x77, 0x6F, 0x72, 0x6C, 0x64, 0x21] : List Nat).getD (i + k) 0 ≠
        ([0x48, 0x65, 0x6C, 0x6C, 0x6F, 0x2C, 0x20, 0x77, 0x6F, 0x72, 0x6C, 0x64, 0x21] : List Nat).getD (j + k) 0) ∧
    ((2248 ≤ [0x48, 0x65, 0x6C, 0x6C, 0x6F, 0x2C, 0x20, 0x77, 0x6F, 0x72, 0x6C, 0x64, 0x21].length ∧
        [0x48, 0x65, 0x6C, 0x6C, 0x6F, 0x2C, 0x20, 0x77, 0x6F, 0x72, 0x6C, 0x64, 0x21].length ≤ 2279) ∨
      ∃ ts rest, LZ77 [0x48656C6C, 0x6F2C2077, 0x6F726C64, 0x21000000] 2250 = token_bytes ts ++ 0 :: rest ∧
        tokens_cover (stream_byte [0x48656C6C, 0x6F2C2077, 0x6F726C64, 0x21000000])
          [0x48, 0x65, 0x6C, 0x6C, 0x6F, 0x2C, 0x20, 0x77, 0x6F, 0x72, 0x6C, 0x64, 0x21].length 0 ts
          [0x48, 0x65, 0x6C, 0x6C, 0x6F, 0x2C, 0x20, 0x77, 0x6F, 0x72, 0x6C, 0x64, 0x21].length) ∧
    ∃ out, inflate (Deflate [0x48656C6C, 0x6F2C2077, 0x6F726C64, 0x21000000]) = some out ∧
      (unpack_words out).take ([0x48, 0x65, 0x6C, 0x6C, 0x6F, 0x2C, 0x20, 0x77, 0x6F, 0x72, 0x6C, 0x64, 0x21].length + 1) =
        [0x48, 0x65, 0x6C, 0x6C, 0x6F, 0x2C, 0x20, 0x77, 0x6F, 0x72, 0x6C, 0x64, 0x21] ++ [0]) ∧
    ((∀ b, b ∈ (List.replicate 1124 0x61 ++ List.replicate 1124 0x62) → 1 ≤ b ∧ b ≤ 143 ∧ b ≠ 0x40) ∧
    (unpack_words (pack_bytes (List.replicate 1124 0x61 ++ List.replicate 1124 0x62 ++ [0]))).take ((List.replicate 1124 0x61 ++ List.replicate 1124 0x62).length + 1) =
      (List.replicate 1124 0x61 ++ List.replicate 1124 0x62) ++ [0] ∧
    (∀ i j, i + 2049 ≤ j → j + 19 ≤ (List.replicate 1124 0x61 ++ List.replicate 1124 0x62).length →
      ∃ k, k < 19 ∧ (List.replicate 1124 0x61 ++ List.replicate 1124 0x62).getD (i + k) 0 ≠
        (List.replicate 1124 0x61 ++ List.replicate 1124 0x62).getD (j + k) 0) ∧
    ((2248 ≤ (List.replicate 1124 0x61 ++ List.replicate 1124 0x62).length ∧
        (List.replicate 1124 0x61 ++ List.replicate 1124 0x62).length ≤ 2279) ∨
      ∃ ts rest, LZ77 (pack_bytes (List.replicate 1124 0x61 ++ List.replicate 1124 0x62 ++ [0])) 2250 = token_bytes ts ++ 0 :: rest ∧
        tokens_cover (stream_byte (pack_bytes (List.replicate 1124 0x61 ++ List.replicate 1124 0x62 ++ [0])))
          (List.replicate 1124 0x61 ++ List.replicate 1124 0x62).length 0 ts
          (List.replicate 1124 0x61 ++ List.replicate 1124 0x62).length) ∧
    ∃ out, inflate (Deflate (pack_bytes (List.replicate 1124 0x61 ++ List.replicate 1124 0x62 ++ [0]))) = some out ∧
      (unpack_words out).take ((List.replicate 1124 0x61 ++ List.replicate 1124 0x62).length + 1) =
        (List.replicate 1124 0x61 ++ List.replicate 1124 0x62) ++ [0]) := by
  have hlz : ∃ ts rest, LZ77 [0x48656C6C, 0x6F2C2077, 0x6F726C64, 0x21000000] 2250 =
        token_bytes ts ++ 0 :: rest ∧
      tokens_cover (stream_byte [0x48656C6C, 0x6F2C2077, 0x6F726C64, 0x21000000])
        [0x48, 0x65, 0x6C, 0x6C, 0x6F, 0x2C, 0x20, 0x77, 0x6F, 0x72, 0x6C, 0x64, 0x21].length 0 ts
        [0x48, 0x65, 0x6C, 0x6C, 0x6F, 0x2C, 0x20, 0x77, 0x6F, 0x72, 0x6C, 0x64, 0x21].length := by
    obtain ⟨x, hx⟩ := LZ77_first_iterations [0x48656C6C, 0x6F2C2077, 0x6F726C64, 0x21000000]
      2250 4 (by norm_num)
    have h1 : (CONTROL_LOOP 4
        (LZ77_init [0x48656C6C, 0x6F2C2077, 0x6F726C64, 0x21000000])).output =
        token_bytes ((List.range' 0 13).map (fun p =>
          Token.lit (stream_byte [0x48656C6C, 0x6F2C2077, 0x6F726C64, 0x21000000] p))) ++
          0 :: [0, 0x40, 0, 15, 32] := by
      decide
    rw [h1, List.append_assoc, List.cons_append] at hx
    exact ⟨_, _, hx, tokens_cover_literals _ 13 13 0 (by norm_num)⟩
  have gfar : ∀ i j, i + 2049 ≤ j →
      j + 19 ≤ [0x48, 0x65, 0x6C, 0x6C, 0x6F, 0x2C, 0x20, 0x77, 0x6F, 0x72, 0x6C, 0x64, 0x21].length →
      ∃ k, k < 19 ∧
        ([0x48, 0x65, 0x6C, 0x6C, 0x6F, 0x2C, 0x20, 0x77, 0x6F, 0x72, 0x6C, 0x64, 0x21] : List Nat).getD (i + k) 0 ≠
        ([0x48, 0x65, 0x6C, 0x6C, 0x6F, 0x2C, 0x20, 0x77, 0x6F, 0x72, 0x6C, 0x64, 0x21] : List Nat).getD (j + k) 0 := by
    intro i j hij hj
    simp only [List.length_cons, List.length_nil] at hj
    omega
  have hlen : (List.replicate 1124 0x61 ++ List.replicate 1124 0x62).length = 2248 := by
    rw [List.length_append, List.length_replicate, List.length_replicate]
  have h1 : 2248 ≤ (List.replicate 1124 0x61 ++ List.replicate 1124 0x62).length := by
    rw [hlen]
  have h2 : (List.replicate 1124 0x61 ++ List.replicate 1124 0x62).length ≤ 2279 := by
    rw [hlen]
    norm_num
  have hP : ∀ b, b ∈ List.replicate 1124 0x61 ++ List.replicate 1124 0x62 →
      1 ≤ b ∧ b ≤ 143 ∧ b ≠ 0x40 := by
    intro b hb
    rcases List.mem_append.1 hb with h | h
    · rw [(List.mem_replicate.1 h).2]
      decide
    · rw [(List.mem_replicate.1 h).2]
      decide
  have hdel : (unpack_words (pack_bytes
      (List.replicate 1124 0x61 ++ List.replicate 1124 0x62 ++ [0]))).take
        ((List.replicate 1124 0x61 ++ List.replicate 1124 0x62).length + 1) =
      List.replicate 1124 0x61 ++ List.replicate 1124 0x62 ++ [0] := by
    have := unpack_pack_bytes_take (List.replicate 1124 0x61 ++ List.replicate 1124 0x62 ++ [0])
      (fun b hb => by
        rcases List.mem_append.1 hb with h | h
        · have := hP b h
          omega
        · rw [List.mem_singleton.1 h]
          norm_num)
    rw [List.length_append, List.length_singleton] at this
    exact this
  have hfar : ∀ i j, i + 2049 ≤ j →
      j + 19 ≤ (List.replicate 1124 0x61 ++ List.replicate 1124 0x62).length →
      ∃ k, k < 19 ∧ (List.replicate 1124 0x61 ++ List.replicate 1124 0x62).getD (i + k) 0 ≠
        (List.replicate 1124 0x61 ++ List.replicate 1124 0x62).getD (j + k) 0 := by
    intro i j hij hj
    rw [hlen] at hj
    refine ⟨0, by norm_num, ?_⟩
    rw [Nat.add_zero, Nat.add_zero, List.getD_eq_getElem?_getD, List.getD_eq_getElem?_getD,
      List.getElem?_append_left (by rw [List.length_replicate]; omega),
      List.getElem?_append_right (by rw [List.length_replicate]; omega),
      List.getElem?_replicate, List.getElem?_replicate, List.length_replicate,
      if_pos (by omega), if_pos (by omega)]
    decide
  exact ⟨⟨by decide, by decide, gfar, Or.inr hlz,
      Deflate_inflate_round_trip
        [0x48, 0x65, 0x6C, 0x6C, 0x6F, 0x2C, 0x20, 0x77, 0x6F, 0x72, 0x6C, 0x64, 0x21]
        [0x48656C6C, 0x6F2C2077, 0x6F726C64, 0x21000000] (by decide) (by decide) gfar (Or.inr hlz)⟩,
    ⟨hP, hdel, hfar, Or.inl ⟨h1, h2⟩,
      Deflate_inflate_round_trip (List.replicate 1124 0x61 ++ List.replicate 1124 0x62)
        (pack_bytes (List.replicate 1124 0x61 ++ List.replicate 1124 0x62 ++ [0]))
        hP hdel hfar (Or.inl ⟨h1, h2⟩)⟩⟩

/-! ## The length and offset codes of `huffman` against RFC 1951 (C11, C12) -/

theorem shl_or_add (d e x : Nat) (h : x < 2 ^ e) : d <<< e ||| x = d * 2 ^ e + x := by
  rw [Nat.shiftLeft_eq, Nat.mul_comm d]
  exact (Nat.mul_add_lt_is_or h d).symm

/-- C11: for every `len` in `3 .. 32` the pair `(length_code, length_valid_bits_num)` that
`huffman` computes is the decomposition of RFC 1951, paragraph 3.2.5: with `(s, e, base)`
the one row of the length table whose range holds `len`,
`length_code = ((s - 256) << e) | (len - base)` and `length_valid_bits_num = 7 + e`. -/
theorem length_code_is_rfc_decomposition (len : Nat) (old : Nat × Nat)
    (h3 : 3 ≤ len) (h32 : len ≤ 32) :
    ∃ s e base, (s, e, base) ∈ rfc_length_table ∧ base ≤ len ∧ len < base + 2 ^ e ∧
      (∀ r, r ∈ rfc_length_table → r.2.2 ≤ len → len < r.2.2 + 2 ^ r.2.1 → r = (s, e, base)) ∧
      huffman_length_code len old = (((s - 256) <<< e) ||| (len - base), 7 + e) := by
  rw [(length_code_spec len old h3 h32).1]
  interval_cases len
  all_goals first
    | exact ⟨257, 0, 3, by decide, by decide, by decide, by decide, by decide⟩
    | exact ⟨258, 0, 4, by decide, by decide, by decide, by decide, by decide⟩
    | exact ⟨259, 0, 5, by decide, by decide, by decide, by decide, by decide⟩
    | exact ⟨260, 0, 6, by decide, by decide, by decide, by decide, by decide⟩
    | exact ⟨261, 0, 7, by decide, by decide, by decide, by decide, by decide⟩
    | exact ⟨262, 0, 8, by decide, by decide, by decide, by decide, by decide⟩
    | exact ⟨263, 0, 9, by decide, by decide, by decide, by decide, by decide⟩
    | exact ⟨264, 0, 10, by decide, by decide, by decide, by decide, by decide⟩
    | exact ⟨265, 1, 11, by decide, by decide, by decide, by decide, by decide⟩
    | exact ⟨266, 1, 13, by decide, by decide, by decide, by decide, by decide⟩
    | exact ⟨267, 1, 15, by decide, by decide, by decide, by decide, by decide⟩
    | exact ⟨268, 1, 17, by decide, by decide, by decide, by decide, by decide⟩
    | exact ⟨269, 2, 19, by decide, by decide, by decide, by decide, by decide⟩
    | exact ⟨270, 2, 23, by decide, by decide, by decide, by decide, by decide⟩
    | exact ⟨271, 2, 27, by decide, by decide, by decide, by decide, by decide⟩
    | exact ⟨272, 2, 31, by decide, by decide, by decide, by decide, by decide⟩

theorem length_code_is_rfc_decomposition_witness :
    3 ≤ 12 ∧ 12 ≤ 32 ∧
    ∃ s e base, (s, e, base) ∈ rfc_length_table ∧ base ≤ 12 ∧ 12 < base + 2 ^ e ∧
      (∀ r, r ∈ rfc_length_table → r.2.2 ≤ 12 → 12 < r.2.2 + 2 ^ r.2.1 → r = (s, e, base)) ∧
      huffman_length_code 12 (0, 0) = (((s - 256) <<< e) ||| (12 - base), 7 + e) :=
  ⟨by decide, by decide, length_code_is_rfc_decomposition 12 (0, 0) (by decide) (by decide)⟩

/-- The ranges of the rows of the distance table do not overlap. -/
theorem rfc_distance_rows_disjoint :
    rfc_distance_table.Pairwise
      (fun r r2 => r.2.2 + 2 ^ r.2.1 ≤ r2.2.2 ∨ r2.2.2 + 2 ^ r2.2.1 ≤ r.2.2) := by
  decide

theorem rfc_distance_row_unique (v : Nat) (r r2 : Nat × Nat × Nat)
    (hr : r ∈ rfc_distance_table) (hr2 : r2 ∈ rfc_distance_table)
    (h1 : r.2.2 ≤ v) (h2 : v < r.2.2 + 2 ^ r.2.1)
    (h3 : r2.2.2 ≤ v) (h4 : v < r2.2.2 + 2 ^ r2.2.1) : r2 = r := by
  by_contra hne
  have := rfc_distance_rows_disjoint.forall (fun a b h => Or.symm h) hr2 hr hne
  omega

/-- C12: for every `offset` in `1 .. 4096` the pair `(offset_code, offset_valid_bits_num)`
that `huffman` computes is the decomposition of RFC 1951, paragraph 3.2.5: with
`(d, e, base)` the one row of the distance table whose range holds `offset`,
`offset_code = (d << e) | (offset - base)` and `offset_valid_bits_num = 5 + e`. -/
theorem offset_code_is_rfc_decomposition (offset : Nat) (old : Nat × Nat)
    (h1 : 1 ≤ offset) (h4096 : offset ≤ 4096) :
    ∃ d e base, (d, e, base) ∈ rfc_distance_table ∧ base ≤ offset ∧ offset < base + 2 ^ e ∧
      (∀ r, r ∈ rfc_distance_table → r.2.2 ≤ offset → offset < r.2.2 + 2 ^ r.2.1 →
        r = (d, e, base)) ∧
      huffman_offset_code offset old = ((d <<< e) ||| (offset - base), 5 + e) := by
  have uniq : ∀ d e base, (d, e, base) ∈ rfc_distance_table → base ≤ offset →
      offset < base + 2 ^ e →
      ∀ r, r ∈ rfc_distance_table → r.2.2 ≤ offset → offset < r.2.2 + 2 ^ r.2.1 →
        r = (d, e, base) :=
    fun d e base hm hb ht r hr g1 g2 =>
      rfc_distance_row_unique offset (d, e, base) r hm hr hb ht g1 g2
  rw [huffman_offset_code]
  by_cases c0 : offset ≥ 1 ∧ offset ≤ 4
  · simp only [if_pos c0]
    have h : offset = 1 ∨ offset = 2 ∨ offset = 3 ∨ offset = 4 := by omega
    rcases h with rfl | rfl | rfl | rfl
    · exact ⟨0, 0, 1, by decide, by decide, by decide, uniq _ _ _ (by decide) (by decide) (by decide),
        by decide⟩
    · exact ⟨1, 0, 2, by decide, by decide, by decide, uniq _ _ _ (by decide) (by decide) (by decide),
        by decide⟩
    · exact ⟨2, 0, 3, by decide, by decide, by decide, uniq _ _ _ (by decide) (by decide) (by decide),
        by decide⟩
    · exact ⟨3, 0, 4, by decide, by decide, by decide, uniq _ _ _ (by decide) (by decide) (by decide),
        by decide⟩
  simp only [if_neg c0]
  by_cases c1 : offset ≥ 5 ∧ offset ≤ 6
  · simp only [if_pos c1]
    refine ⟨4, 1, 5, by decide, c1.1, by omega,
      uniq _ _ _ (by decide) c1.1 (by omega), ?_⟩
    rw [shl_or_add 4 1 _ (by omega)]
    rfl
  simp only [if_neg c1]
  by_cases c2 : offset ≥ 7 ∧ offset ≤ 8
  · simp only [if_pos c2]
    refine ⟨5, 1, 7, by decide, c2.1, by omega,
      uniq _ _ _ (by decide) c2.1 (by omega), ?_⟩
    rw [shl_or_add 5 1 _ (by omega)]
    rfl
  simp only [if_neg c2]
  by_cases c3 : offset ≥ 9 ∧ offset ≤ 12
  · simp only [if_pos c3]
    refine ⟨6, 2, 9, by decide, c3.1, by omega,
      uniq _ _ _ (by decide) c3.1 (by omega), ?_⟩
    rw [shl_or_add 6 2 _ (by omega)]
    rfl
  simp only [if_neg c3]
  by_cases c4 : offset ≥ 13 ∧ offset ≤ 16
  · simp only [if_pos c4]
    refine ⟨7, 2, 13, by decide, c4.1, by omega,
      uniq _ _ _ (by decide) c4.1 (by omega), ?_⟩
    rw [shl_or_add 7 2 _ (by omega)]
    rfl
  simp only [if_neg c4]
  by_cases c5 : offset ≥ 17 ∧ offset ≤ 24
  · simp only [if_pos c5]
    refine ⟨8, 3, 17, by decide, c5.1, by omega,
      uniq _ _ _ (by decide) c5.1 (by omega), ?_⟩
    rw [shl_or_add 8 3 _ (by omega)]
    rfl
  simp only [if_neg c5]
  by_cases c6 : offset ≥ 25 ∧ offset ≤ 32
  · simp only [if_pos c6]
    refine ⟨9, 3, 25, by decide, c6.1, by omega,
      uniq _ _ _ (by decide) c6.1 (by omega), ?_⟩
    rw [shl_or_add 9 3 _ (by omega)]
    rfl
  simp only [if_neg c6]
  by_cases c7 : offset ≥ 33 ∧ offset ≤ 48
  · simp only [if_pos c7]
    refine ⟨10, 4, 33, by decide, c7.1, by omega,
      uniq _ _ _ (by decide) c7.1 (by omega), ?_⟩
    rw [shl_or_add 10 4 _ (by omega)]
    rfl
  simp only [if_neg c7]
  by_cases c8 : offset ≥ 49 ∧ offset ≤ 64
  · simp only [if_pos c8]
    refine ⟨11, 4, 49, by decide, c8.1, by omega,
      uniq _ _ _ (by decide) c8.1 (by omega), ?_⟩
    rw [shl_or_add 11 4 _ (by omega)]
    rfl
  simp only [if_neg c8]
  by_cases c9 : offset ≥ 65 ∧ offset ≤ 96
  · simp only [if_pos c9]
    refine ⟨12, 5, 65, by decide, c9.1, by omega,
      uniq _ _ _ (by decide) c9.1 (by omega), ?_⟩
    rw [shl_or_add 12 5 _ (by omega)]
    rfl
  simp only [if_neg c9]
  by_cases c10 : offset ≥ 97 ∧ offset ≤ 128
  · simp only [if_pos c10]
    refine ⟨13, 5, 97, by decide, c10.1, by omega,
      uniq _ _ _ (by decide) c10.1 (by omega), ?_⟩
    rw [shl_or_add 13 5 _ (by omega)]
    rfl
  simp only [if_neg c10]
  by_cases c11 : offset ≥ 129 ∧ offset ≤ 192
  · simp only [if_pos c11]
    refine ⟨14, 6, 129, by decide, c11.1, by omega,
      uniq _ _ _ (by decide) c11.1 (by omega), ?_⟩
    rw [shl_or_add 14 6 _ (by omega)]
    rfl
  simp only [if_neg c11]
  by_cases c12 : offset ≥ 193 ∧ offset ≤ 256
  · simp only [if_pos c12]
    refine ⟨15, 6, 193, by decide, c12.1, by omega,
      uniq _ _ _ (by decide) c12.1 (by omega), ?_⟩
    rw [shl_or_add 15 6 _ (by omega)]
    rfl
  simp only [if_neg c12]
  by_cases c13 : offset ≥ 257 ∧ offset ≤ 384
  · simp only [if_pos c13]
    refine ⟨16, 7, 257, by decide, c13.1, by omega,
      uniq _ _ _ (by decide) c13.1 (by omega), ?_⟩
    rw [shl_or_add 16 7 _ (by omega)]
    rfl
  simp only [if_neg c13]
  by_cases c14 : offset ≥ 385 ∧ offset ≤ 512
  · simp only [if_pos c14]
    refine ⟨17, 7, 385, by decide, c14.1, by omega,
      uniq _ _ _ (by decide) c14.1 (by omega), ?_⟩
    rw [shl_or_add 17 7 _ (by omega)]
    rfl
  simp only [if_neg c14]
  by_cases c15 : offset ≥ 513 ∧ offset ≤ 768
  · simp only [if_pos c15]
    refine ⟨18, 8, 513, by decide, c15.1, by omega,
      uniq _ _ _ (by decide) c15.1 (by omega), ?_⟩
    rw [shl_or_add 18 8 _ (by omega)]
    rfl
  simp only [if_neg c15]
  by_cases c16 : offset ≥ 769 ∧ offset ≤ 1024
  · simp only [if_pos c16]
    refine ⟨19, 8, 769, by decide, c16.1, by omega,
      uniq _ _ _ (by decide) c16.1 (by omega), ?_⟩
    rw [shl_or_add 19 8 _ (by omega)]
    rfl
  simp only [if_neg c16]
  by_cases c17 : offset ≥ 1025 ∧ offset ≤ 1536
  · simp only [if_pos c17]
    refine ⟨20, 9, 1025, by decide, c17.1, by omega,
      uniq _ _ _ (by decide) c17.1 (by omega), ?_⟩
    rw [shl_or_add 20 9 _ (by omega)]
    rfl
  simp only [if_neg c17]
  by_cases c18 : offset ≥ 1537 ∧ offset ≤ 2048
  · simp only [if_pos c18]
    refine ⟨21, 9, 1537, by decide, c18.1, by omega,
      uniq _ _ _ (by decide) c18.1 (by omega), ?_⟩
    rw [shl_or_add 21 9 _ (by omega)]
    rfl
  simp only [if_neg c18]
  by_cases c19 : offset ≥ 2049 ∧ offset ≤ 3072
  · simp only [if_pos c19]
    refine ⟨22, 10, 2049, by decide, c19.1, by omega,
      uniq _ _ _ (by decide) c19.1 (by omega), ?_⟩
    rw [shl_or_add 22 10 _ (by omega)]
    rfl
  simp only [if_neg c19]
  by_cases c20 : offset ≥ 3073 ∧ offset ≤ 4096
  · simp only [if_pos c20]
    refine ⟨23, 10, 3073, by decide, c20.1, by omega,
      uniq _ _ _ (by decide) c20.1 (by omega), ?_⟩
    rw [shl_or_add 23 10 _ (by omega)]
    rfl
  simp only [if_neg c20]
  omega

theorem offset_code_is_rfc_decomposition_witness :
    1 ≤ 2049 ∧ 2049 ≤ 4096 ∧
    ∃ d e base, (d, e, base) ∈ rfc_distance_table ∧ base ≤ 2049 ∧ 2049 < base + 2 ^ e ∧
      (∀ r, r ∈ rfc_distance_table → r.2.2 ≤ 2049 → 2049 < r.2.2 + 2 ^ r.2.1 →
        r = (d, e, base)) ∧
      huffman_offset_code 2049 (0, 0) = ((d <<< e) ||| (2049 - base), 5 + e) :=
  ⟨by decide, by decide, offset_code_is_rfc_decomposition 2049 (0, 0) (by decide) (by decide)⟩

/-! ## `reverse` and `changeToLittleEndian` are involutions (C15, C16) -/

theorem reverse_twice (W k n : Nat) (hk : k ≤ W) (hn : n < 2 ^ k) :
    reverse W (reverse W n k) k = n := by
  apply Nat.eq_of_testBit_eq
  intro i
  rw [testBit_reverse W _ k hk, testBit_reverse W n k hk]
  by_cases h : i < k
  · have e : k - 1 - (k - 1 - i) = i := by omega
    simp [h, e]
    intro h2
    omega
  · simp [h, testBit_false_of_lt hn (by omega : k ≤ i)]

/-- C15: for every bit count `k` not larger than the width `W` of the operand type and
every `n < 2 ^ k`, `reverse(reverse(n, k), k) = n`. -/
theorem reverse_undoes_reverse (W k n : Nat) (hk : k ≤ W) (hn : n < 2 ^ k) :
    reverse W (reverse W n k) k = n :=
  reverse_twice W k n hk hn

theorem reverse_undoes_reverse_witness :
    5 ≤ 8 ∧ 19 < 2 ^ 5 ∧ reverse 8 (reverse 8 19 5) 5 = 19 :=
  ⟨by decide, by decide, reverse_undoes_reverse 8 5 19 (by decide) (by decide)⟩

theorem reverse_reverse_byte (x : Nat) (hx : x < 256) :
    reverse 32 (reverse 32 x 8 % 2 ^ 8) 8 % 2 ^ 8 = x := by
  have h1 : reverse 32 x 8 < 2 ^ 8 := reverse_lt 32 x 8 (by norm_num)
  rw [Nat.mod_eq_of_lt h1, reverse_twice 32 8 x (by norm_num) hx]
  exact Nat.mod_eq_of_lt hx

theorem changeToLittleEndian_eq (w : Nat) :
    changeToLittleEndian w =
      pack_word (reverse 32 ((w >>> 24) % 256) 8 % 2 ^ 8) (reverse 32 ((w >>> 16) % 256) 8 % 2 ^ 8)
        (reverse 32 ((w >>> 8) % 256) 8 % 2 ^ 8) (reverse 32 (w % 256) 8 % 2 ^ 8) := by
  have h := word_bytes_eq w
  simp only [word_bytes, List.cons.injEq, and_true] at h
  obtain ⟨w0, w1, w2, w3⟩ := h
  rw [changeToLittleEndian]
  simp only [w0, w1, w2, w3]
  rfl

theorem pack_word_word_bytes (w : Nat) (hw : w < 2 ^ 32) :
    pack_word ((w >>> 24) % 256) ((w >>> 16) % 256) ((w >>> 8) % 256) (w % 256) = w := by
  apply Nat.eq_of_testBit_eq
  intro j
  rw [testBit_pack_word _ _ _ _ j (Nat.mod_lt _ (by norm_num)) (Nat.mod_lt _ (by norm_num))
    (Nat.mod_lt _ (by norm_num)) (Nat.mod_lt _ (by norm_num))]
  by_cases c1 : j < 8
  · rw [if_pos c1, testBit_mod_256]
    simp [c1]
  · rw [if_neg c1]
    by_cases c2 : j < 16
    · rw [if_pos c2, testBit_mod_256, Nat.testBit_shiftRight]
      have e : 8 + (j - 8) = j := by omega
      simp [e, (by omega : j - 8 < 8)]
    · rw [if_neg c2]
      by_cases c3 : j < 24
      · rw [if_pos c3, testBit_mod_256, Nat.testBit_shiftRight]
        have e : 16 + (j - 16) = j := by omega
        simp [e, (by omega : j - 16 < 8)]
      · rw [if_neg c3]
        by_cases c4 : j < 32
        · rw [if_pos c4, testBit_mod_256, Nat.testBit_shiftRight]
          have e : 24 + (j - 24) = j := by omega
          simp [e, (by omega : j - 24 < 8)]
        · rw [if_neg c4, testBit_ge_32 w j hw (by omega)]

/-- C16: for every 32-bit word `w`,
`changeToLittleEndian(changeToLittleEndian(w)) = w`. -/
theorem changeToLittleEndian_involution (w : Nat) (hw : w < 2 ^ 32) :
    changeToLittleEndian (changeToLittleEndian w) = w := by
  have hy : ∀ x, reverse 32 x 8 % 2 ^ 8 < 256 := fun x => Nat.mod_lt _ (by norm_num)
  have hb : ∀ x, x % 256 < 256 := fun x => Nat.mod_lt _ (by norm_num)
  have h := word_bytes_pack_word _ _ _ _ (hy ((w >>> 24) % 256)) (hy ((w >>> 16) % 256))
    (hy ((w >>> 8) % 256)) (hy (w % 256))
  rw [word_bytes_eq] at h
  simp only [List.cons.injEq, and_true] at h
  obtain ⟨w0, w1, w2, w3⟩ := h
  rw [changeToLittleEndian_eq w, changeToLittleEndian_eq, w0, w1, w2, w3,
    reverse_reverse_byte _ (hb _), reverse_reverse_byte _ (hb _), reverse_reverse_byte _ (hb _),
    reverse_reverse_byte _ (hb _)]
  exact pack_word_word_bytes w hw

theorem changeToLittleEndian_involution_witness :
    0x12345678 < 2 ^ 32 ∧
    changeToLittleEndian (changeToLittleEndian 0x12345678) = 0x12345678 :=
  ⟨by decide, changeToLittleEndian_involution 0x12345678 (by decide)⟩

/-! ## The end of the bit sequence of `huffman` (C13) and its output words (C14) -/

theorem map_range_add (f : Nat → Bool) (a b : Nat) :
    (List.range (a + b)).map f = (List.range a).map f ++ (List.range b).map (fun i => f (a + i)) := by
  rw [List.range_add, List.map_append, List.map_map]
  rfl

theorem bits_msb_eq_stream_bit (buf : Nat → Nat) (n : Nat) :
    bits_msb (buf n) 8 = (List.range 8).map (fun i => stream_bit buf (8 * n + i)) := by
  rw [bits_msb]
  apply List.map_congr_left
  intro i hi
  have hi8 : i < 8 := List.mem_range.1 hi
  rw [stream_bit, (by omega : (8 * n + i) / 8 = n), (by omega : (8 * n + i) % 8 = i)]

theorem buffer_bits_eq_stream_bit (buf : Nat → Nat) (n : Nat) :
    buffer_bits buf n = (List.range (8 * n)).map (stream_bit buf) := by
  induction n with
  | zero => simp [buffer_bits]
  | succ n ih =>
    rw [buffer_bits_succ, ih, bits_msb_eq_stream_bit, (by omega : 8 * (n + 1) = 8 * n + 8),
      map_range_add]

theorem acc_bits_eq_stream_bit (st : HuffState) :
    acc_bits st = (List.range (used_bits st)).map (stream_bit st.output_buffer) := by
  rw [acc_bits, used_bits, buffer_bits_eq_stream_bit, bits_msb_eq_stream_bit, map_range_add,
    ← List.map_take, List.take_range, Nat.min_eq_left (Nat.sub_le _ _)]

/-- The 9-bit literal branch keeps between one and eight free bits, all zero. -/
theorem huffInv_literal_9 (st : HuffState) (b : Nat) (hinv : HuffInv st) :
    HuffInv (huffman_literal_9 st b) := by
  obtain ⟨hr1, hr8, _⟩ := hinv
  rw [huffman_literal_9]
  by_cases h : st.output_char_remaining_bits - 1 = 0
  · rw [if_pos h]
    exact ⟨by show 1 ≤ 8; omega, le_refl _, fun h8 => absurd h8 (by show ¬ 8 < 8; omega)⟩
  · rw [if_neg h]
    refine ⟨by show 1 ≤ st.output_char_remaining_bits - 1; omega,
      by show st.output_char_remaining_bits - 1 ≤ 8; omega, fun _ => ?_⟩
    show upd _ _ _ _ % 2 ^ (st.output_char_remaining_bits - 1) = 0
    rw [upd_same]
    apply mod_eq_zero_of_testBit
    intro t ht
    rw [Nat.testBit_mod_two_pow, Nat.testBit_shiftLeft]
    simp
    intro _ h2
    omega

/-- Every token of a well-formed stream keeps between one and eight free bits, all
zero. -/
theorem huffInv_literal (st : HuffState) (b : Nat) (hinv : HuffInv st) :
    HuffInv (huffman_literal st b) := by
  rw [huffman_literal]
  split
  · rename_i hb
    have := (acc_bits_literal_8 st b hb hinv).2.2
    rw [huffman_literal, if_pos hb] at this
    exact this
  · exact huffInv_literal_9 st b hinv

theorem STATIC_HUFFMAN_huffInv (input : List Nat) (rest : List Nat) (ts : List Token) :
    ∀ (fuel p : Nat) (st : HuffState),
    (∀ k, input.getD (p + k) 0 = (token_bytes ts ++ 0 :: rest).getD k 0) →
    (∀ t, t ∈ ts → t.wellformed) → HuffInv st → ts.length + 1 ≤ fuel →
    HuffInv (STATIC_HUFFMAN input fuel p st) := by
  induction ts with
  | nil =>
    intro fuel p st hin _ hinv hf
    cases fuel with
    | zero => simp at hf
    | succ f =>
      have h0 := hin 0
      simp only [token_bytes, List.flatMap_nil, List.nil_append, List.getD_cons_zero,
        Nat.add_zero] at h0
      rw [STATIC_HUFFMAN]
      rw [if_pos h0]
      exact hinv
  | cons t ts ih =>
    intro fuel p st hin hwf hinv hf
    cases fuel with
    | zero => simp at hf
    | succ f =>
      have hf2 : ts.length + 1 ≤ f := by simp at hf; omega
      have hwf2 : ∀ t, t ∈ ts → t.wellformed := fun t ht => hwf t (List.mem_cons_of_mem _ ht)
      have het := hwf t (List.mem_cons_self _ _)
      cases t with
      | lit b =>
        obtain ⟨hb1, hb2, hb3⟩ := het
        have h0 := hin 0
        simp only [token_bytes, List.flatMap_cons, Token.bytes, List.cons_append,
          List.nil_append, List.getD_cons_zero, Nat.add_zero] at h0
        have hin2 : ∀ k, input.getD (p + 1 + k) 0 = (token_bytes ts ++ 0 :: rest).getD k 0 := by
          intro k
          have := hin (k + 1)
          simp only [token_bytes, List.flatMap_cons, Token.bytes, List.cons_append,
            List.nil_append, List.getD_cons_succ] at this
          rw [token_bytes, ← this]
          congr 1
          omega
        rw [STATIC_HUFFMAN]
        simp only [h0]
        rw [if_neg hb1, if_neg hb2]
        exact ih f (p + 1) _ hin2 hwf2 (huffInv_literal st b hinv) hf2
      | ref off_hi off_lo len =>
        obtain ⟨e1, e2, e3, e4⟩ := het
        have h0 := hin 0
        have h1 := hin 1
        have h2 := hin 2
        have h3 := hin 3
        simp only [token_bytes, List.flatMap_cons, Token.bytes, List.cons_append,
          List.nil_append, List.getD_cons_zero, List.getD_cons_succ, Nat.add_zero] at h0 h1 h2 h3
        have hin2 : ∀ k, input.getD (p + 4 + k) 0 = (token_bytes ts ++ 0 :: rest).getD k 0 := by
          intro k
          have := hin (k + 4)
          simp only [token_bytes, List.flatMap_cons, Token.bytes, List.cons_append,
            List.nil_append, List.getD_cons_succ] at this
          rw [token_bytes, ← this]
          congr 1
          omega
        rw [STATIC_HUFFMAN]
        simp only [h0, h1, h2, h3]
        rw [if_neg (by norm_num), if_pos trivial]
        exact ih f (p + 4) _ hin2 hwf2
          (match_appended_wf st off_hi off_lo len e1 e2 e3 e4 hinv).2.2.2 hf2

theorem huffman_finish_eq (st : HuffState) :
    huffman_finish st =
      pack_words (fun i => reverse 8 (huffman_last_buffer st i) 8) ((st.output_pos + 2) / 4 + 1) :=
  rfl

/-- After the zero byte of edoc 256 is stored the accumulated bits are as before, and
from their end to the end of the byte that holds the seventh bit behind them every bit is
zero. -/
theorem last_buffer_bits (st : HuffState) (hinv : HuffInv st) :
    (∀ i, i < used_bits st →
      stream_bit (huffman_last_buffer st) i = stream_bit st.output_buffer i) ∧
    (∀ i, used_bits st ≤ i → i < 8 * ((used_bits st + 6) / 8 + 1) →
      stream_bit (huffman_last_buffer st) i = false) := by
  obtain ⟨hr1, hr8, hzr⟩ := hinv
  rw [huffman_last_buffer]
  simp only [used_bits]
  by_cases hr : st.output_char_remaining_bits = 8
  · rw [if_pos hr]
    refine ⟨fun i hi => ?_, fun i h1 h2 => ?_⟩
    · rw [stream_bit_upd, if_neg (by omega)]
    · rw [stream_bit_upd, if_pos (by omega)]
      simp
  · rw [if_neg hr]
    refine ⟨fun i hi => ?_, fun i h1 h2 => ?_⟩
    · rw [stream_bit_upd, if_neg (by omega)]
    · rw [stream_bit_upd]
      by_cases hb : i / 8 = st.output_pos + 1
      · rw [if_pos hb]
        simp
      · rw [if_neg hb, stream_bit, (by omega : i / 8 = st.output_pos)]
        exact testBit_of_mod_eq_zero _ _ _ (hzr (by omega)) (by omega)

/-- C13: for every well-formed token stream, in the bit sequence that `huffman`
accumulates (most significant bit first) the bits of the last token are followed by zero
bits only, up to the end of the byte that holds the seventh of them, the last bit of the
end-of-block code: at least seven zero bits, and all of them inside the words written. -/
theorem end_of_block_follows_last_token (ts : List Token)
    (hwf : ∀ t, t ∈ ts → t.wellformed) :
    ∃ st m, st = STATIC_HUFFMAN (token_bytes ts ++ [0]) ((token_bytes ts ++ [0]).length + 1) 0
        huffman_init ∧
      huffman (token_bytes ts ++ [0]) =
        pack_words (fun i => reverse 8 (huffman_last_buffer st i) 8)
          ((st.output_pos + 2) / 4 + 1) ∧
      7 ≤ m ∧
      buffer_bits (huffman_last_buffer st) ((used_bits st + 6) / 8 + 1) =
        acc_bits st ++ List.replicate m false ∧
      (used_bits st + 6) / 8 + 1 ≤ 4 * ((st.output_pos + 2) / 4 + 1) := by
  have hinv := STATIC_HUFFMAN_huffInv (token_bytes ts ++ [0]) [] ts
    ((token_bytes ts ++ [0]).length + 1) 0 huffman_init (fun k => by simp) hwf huffInv_init
    (by
      have := length_le_token_bytes ts
      simp
      omega)
  refine ⟨_, 8 * ((used_bits (STATIC_HUFFMAN (token_bytes ts ++ [0])
    ((token_bytes ts ++ [0]).length + 1) 0 huffman_init) + 6) / 8 + 1) -
    used_bits (STATIC_HUFFMAN (token_bytes ts ++ [0])
    ((token_bytes ts ++ [0]).length + 1) 0 huffman_init), rfl, rfl, ?_⟩
  generalize STATIC_HUFFMAN (token_bytes ts ++ [0]) ((token_bytes ts ++ [0]).length + 1) 0
    huffman_init = st at hinv
  obtain ⟨h1, h2⟩ := last_buffer_bits st hinv
  have hr := hinv.1
  have hr8 := hinv.2.1
  refine ⟨by omega, ?_, by simp only [used_bits]; omega⟩
  have e : 8 * ((used_bits st + 6) / 8 + 1) =
      used_bits st + (8 * ((used_bits st + 6) / 8 + 1) - used_bits st) := by omega
  rw [buffer_bits_eq_stream_bit, acc_bits_eq_stream_bit]
  conv_lhs => rw [e]
  rw [map_range_add]
  congr 1
  · apply List.map_congr_left
    intro i hi
    exact h1 i (List.mem_range.1 hi)
  · rw [List.eq_replicate_iff]
    refine ⟨by simp, fun b hb => ?_⟩
    obtain ⟨i, hi, rfl⟩ := List.mem_map.1 hb
    exact h2 _ (by omega) (by have := List.mem_range.1 hi; omega)

theorem end_of_block_follows_last_token_witness :
    (∀ t, t ∈ [Token.lit 0x61, Token.ref 0 1 3] → t.wellformed) ∧
    ∃ st m, st = STATIC_HUFFMAN (token_bytes [Token.lit 0x61, Token.ref 0 1 3] ++ [0])
        ((token_bytes [Token.lit 0x61, Token.ref 0 1 3] ++ [0]).length + 1) 0 huffman_init ∧
      huffman (token_bytes [Token.lit 0x61, Token.ref 0 1 3] ++ [0]) =
        pack_words (fun i => reverse 8 (huffman_last_buffer st i) 8)
          ((st.output_pos + 2) / 4 + 1) ∧
      7 ≤ m ∧
      buffer_bits (huffman_last_buffer st) ((used_bits st + 6) / 8 + 1) =
        acc_bits st ++ List.replicate m false ∧
      (used_bits st + 6) / 8 + 1 ≤ 4 * ((st.output_pos + 2) / 4 + 1) :=
  ⟨by
    intro t ht
    rcases List.mem_cons.1 ht with h | h
    · rw [h]
      exact ⟨by decide, by decide, by decide⟩
    · rw [List.mem_singleton.1 h]
      exact ⟨by decide, by decide, by decide, by decide⟩,
   end_of_block_follows_last_token [Token.lit 0x61, Token.ref 0 1 3] (by
    intro t ht
    rcases List.mem_cons.1 ht with h | h
    · rw [h]
      exact ⟨by decide, by decide, by decide⟩
    · rw [List.mem_singleton.1 h]
      exact ⟨by decide, by decide, by decide, by decide⟩)⟩

/-! ### Output words (C14) -/

theorem upd_lt (buf : Nat → Nat) (p v : Nat) (hb : ∀ j, buf j < 256) (hv : v < 256) :
    ∀ j, upd buf p v j < 256 := by
  intro j
  rw [upd]
  split
  · exact hv
  · exact hb j

theorem or_mod_lt (x y : Nat) (hx : x < 256) : x ||| y % 2 ^ 8 < 256 :=
  Nat.or_lt_two_pow (n := 8) hx (Nat.mod_lt _ (by norm_num))

theorem top_byte_lt (lao : Nat) : (lao &&& 0xFF000000) >>> 24 < 256 := by
  have e24 : (0xFF000000 : Nat) = 255 <<< 24 := by decide
  rw [e24, and_mask_shiftRight]
  exact Nat.mod_lt _ (by norm_num)

theorem write_output_lt (fuel : Nat) :
    ∀ (buf : Nat → Nat) (pos lao k : Nat), (∀ j, buf j < 256) →
      ∀ j, (STATIC_HUFFMAN_WRITE_OUTPUT fuel buf pos lao k).1 j < 256 := by
  induction fuel with
  | zero =>
    intro buf pos lao k hb
    exact hb
  | succ f ih =>
    intro buf pos lao k hb
    rw [STATIC_HUFFMAN_WRITE_OUTPUT]
    split
    · exact ih _ _ _ _ (upd_lt buf pos _ hb (top_byte_lt lao))
    · exact hb

theorem write_tail_lt (buf : Nat → Nat) (pos r lao k : Nat) (hb : ∀ j, buf j < 256) :
    ∀ j, (huffman_write_tail buf pos r lao k).1 j < 256 := by
  have h := write_output_lt k buf pos lao k hb
  rw [huffman_write_tail]
  rcases hw : STATIC_HUFFMAN_WRITE_OUTPUT k buf pos lao k with ⟨b2, p2, l2, r2⟩
  rw [hw] at h
  simp only at h ⊢
  split
  · exact h
  · exact upd_lt b2 p2 _ h (Nat.mod_lt _ (by norm_num))

theorem write_code_lt (buf : Nat → Nat) (pos r lao k : Nat) (hb : ∀ j, buf j < 256) :
    ∀ j, (huffman_write_code buf pos r lao k).1 j < 256 := by
  rw [huffman_write_code]
  split
  · exact write_tail_lt _ _ _ _ _ (upd_lt buf pos _ hb (or_mod_lt _ _ (hb pos)))
  · exact write_tail_lt _ _ _ _ _ hb

theorem huffman_match_lt (st : HuffState) (b1 b2 b3 : Nat) (hb : ∀ j, st.output_buffer j < 256) :
    ∀ j, (huffman_match st b1 b2 b3).output_buffer j < 256 := by
  rw [huffman_match]
  exact write_code_lt _ _ _ _ _ hb

theorem huffman_literal_lt (st : HuffState) (b : Nat) (hb : ∀ j, st.output_buffer j < 256) :
    ∀ j, (huffman_literal st b).output_buffer j < 256 := by
  rw [huffman_literal]
  split
  · rw [huffman_literal_8]
    split
    · exact upd_lt _ _ _ hb (Nat.mod_lt _ (by norm_num))
    · exact upd_lt _ _ _ (upd_lt _ _ _ hb (or_mod_lt _ _ (hb _))) (Nat.mod_lt _ (by norm_num))
  · rw [huffman_literal_9]
    split
    · exact upd_lt _ _ _ (upd_lt _ _ _ hb (or_mod_lt _ _ (hb _))) (Nat.mod_lt _ (by norm_num))
    · exact upd_lt _ _ _ (upd_lt _ _ _ hb (or_mod_lt _ _ (hb _))) (Nat.mod_lt _ (by norm_num))

/-- Every element of `output_buffer` stays a byte, whatever the input. -/
theorem STATIC_HUFFMAN_lt (input : List Nat) (fuel : Nat) :
    ∀ (p : Nat) (st : HuffState), (∀ j, st.output_buffer j < 256) →
      ∀ j, (STATIC_HUFFMAN input fuel p st).output_buffer j < 256 := by
  induction fuel with
  | zero =>
    intro p st hb
    exact hb
  | succ f ih =>
    intro p st hb
    rw [STATIC_HUFFMAN]
    split
    · exact hb
    · split
      · exact ih _ _ (huffman_match_lt st _ _ _ hb)
      · exact ih _ _ (huffman_literal_lt st _ hb)

theorem huffman_last_buffer_lt (st : HuffState) (hb : ∀ j, st.output_buffer j < 256) :
    ∀ j, huffman_last_buffer st j < 256 := by
  rw [huffman_last_buffer]
  split
  · exact upd_lt _ _ _ hb (by norm_num)
  · exact upd_lt _ _ _ hb (by norm_num)

/-- C14: output word `i` of `huffman` packs the accumulated bytes `4i .. 4i+3` in
big-endian order, each byte bit-reversed, and `changeToLittleEndian` applied to that word
gives back the four accumulated bytes, not reversed, at the same big-endian positions.
The accumulated bytes are `output_buffer` at the end of `huffman`; this holds for every
input array. -/
theorem output_word_packs_reversed_bytes (input : List Nat) (i : Nat)
    (hi : i < (huffman input).length) :
    ∃ st, st = STATIC_HUFFMAN input (input.length + 1) 0 huffman_init ∧
      (huffman input).length = (st.output_pos + 2) / 4 + 1 ∧
      word_bytes ((huffman input).getD i 0) =
        [reverse 8 (huffman_last_buffer st (4 * i)) 8,
         reverse 8 (huffman_last_buffer st (4 * i + 1)) 8,
         reverse 8 (huffman_last_buffer st (4 * i + 2)) 8,
         reverse 8 (huffman_last_buffer st (4 * i + 3)) 8] ∧
      word_bytes (changeToLittleEndian ((huffman input).getD i 0)) =
        [huffman_last_buffer st (4 * i), huffman_last_buffer st (4 * i + 1),
         huffman_last_buffer st (4 * i + 2), huffman_last_buffer st (4 * i + 3)] := by
  refine ⟨_, rfl, ?_⟩
  have hb0 : ∀ j, huffman_init.output_buffer j < 256 := by
    intro j
    rw [huffman_init]
    exact upd_lt (fun _ => 0) 0 0xC0 (fun _ => by norm_num) (by norm_num) j
  have hb := huffman_last_buffer_lt _ (STATIC_HUFFMAN_lt input (input.length + 1) 0 huffman_init hb0)
  rw [huffman, huffman_finish_eq] at hi ⊢
  generalize STATIC_HUFFMAN input (input.length + 1) 0 huffman_init = st at hb hi
  have hr : ∀ x, reverse 8 x 8 < 256 := fun x => reverse_lt 8 x 8 (le_refl _)
  have hy : ∀ x, reverse 32 (reverse 8 x 8) 8 % 2 ^ 8 < 256 := fun x => Nat.mod_lt _ (by norm_num)
  have hlen : (pack_words (fun i => reverse 8 (huffman_last_buffer st i) 8)
      ((st.output_pos + 2) / 4 + 1)).length = (st.output_pos + 2) / 4 + 1 := by
    simp [pack_words]
  refine ⟨hlen, ?_⟩
  rw [hlen] at hi
  rw [pack_words, getD_map_range _ _ i hi, (by omega : i * 4 = 4 * i)]
  refine ⟨word_bytes_pack_word _ _ _ _ (hr _) (hr _) (hr _) (hr _), ?_⟩
  rw [changeToLittleEndian_pack_word _ _ _ _ (hr _) (hr _) (hr _) (hr _),
    word_bytes_pack_word _ _ _ _ (hy _) (hy _) (hy _) (hy _)]
  have e : ∀ x, x < 256 → reverse 32 (reverse 8 x 8) 8 % 2 ^ 8 = x := by
    intro x hx
    apply Nat.eq_of_testBit_eq
    intro t
    rw [testBit_reverse_reverse]
    by_cases ht : t < 8
    · simp [ht]
    · have h8 : x.testBit t = false :=
        testBit_false_of_lt (y := x) (k := 8) (i := t) hx (by omega)
      simp [ht, h8]
  rw [e _ (hb _), e _ (hb _), e _ (hb _), e _ (hb _)]

theorem output_word_packs_reversed_bytes_witness :
    0 < (huffman [0x61, 0x62, 0]).length ∧
    ∃ st, st = STATIC_HUFFMAN [0x61, 0x62, 0] (([0x61, 0x62, 0] : List Nat).length + 1) 0
        huffman_init ∧
      (huffman [0x61, 0x62, 0]).length = (st.output_pos + 2) / 4 + 1 ∧
      word_bytes ((huffman [0x61, 0x62, 0]).getD 0 0) =
        [reverse 8 (huffman_last_buffer st (4 * 0)) 8,
         reverse 8 (huffman_last_buffer st (4 * 0 + 1)) 8,
         reverse 8 (huffman_last_buffer st (4 * 0 + 2)) 8,
         reverse 8 (huffman_last_buffer st (4 * 0 + 3)) 8] ∧
      word_bytes (changeToLittleEndian ((huffman [0x61, 0x62, 0]).getD 0 0)) =
        [huffman_last_buffer st (4 * 0), huffman_last_buffer st (4 * 0 + 1),
         huffman_last_buffer st (4 * 0 + 2), huffman_last_buffer st (4 * 0 + 3)] :=
  ⟨by decide, output_word_packs_reversed_bytes [0x61, 0x62, 0] 0 (by decide)⟩

/-! ## The codes assigned by `get_huffman_table_1/2/3` (C17, C18, C19) -/

theorem bl_count_succ (lengths : Nat → Nat) (k L : Nat) :
    bl_count lengths (k + 1) L = bl_count lengths k L + (if lengths k = L then 1 else 0) := by
  simp only [bl_count, List.range_succ, List.filter_append, List.length_append]
  by_cases h : lengths k = L <;> simp [h]

theorem bl_count_mono (lengths : Nat → Nat) (L : Nat) (j k : Nat) (h : j ≤ k) :
    bl_count lengths j L ≤ bl_count lengths k L := by
  induction k with
  | zero =>
    have : j = 0 := by omega
    rw [this]
  | succ k ih =>
    by_cases hj : j = k + 1
    · rw [hj]
    · have := ih (by omega)
      rw [bl_count_succ]
      omega

/-- A later symbol of the same length has a larger rank. -/
theorem bl_count_lt (lengths : Nat → Nat) (j k : Nat) (h : j < k) :
    bl_count lengths j (lengths j) < bl_count lengths k (lengths j) := by
  have h1 := bl_count_mono lengths (lengths j) (j + 1) k (by omega)
  rw [bl_count_succ, if_pos rfl] at h1
  omega

theorem bl_count_le (lengths : Nat → Nat) (k L : Nat) : bl_count lengths k L ≤ k := by
  induction k with
  | zero => simp [bl_count]
  | succ k ih =>
    rw [bl_count_succ]
    split <;> omega

/-- The array `next_code` in the third loop of `get_huffman_table_*`, after the symbols
`0 .. k-1`: the base of the length plus the number of symbols of this length met. -/
theorem assign_codes_next (lengths : Nat → Nat) (n maxbits cw : Nat) (code0 : Nat → Nat)
    (k L : Nat) (h0 : 0 < L) (hL : L < maxbits) :
    (assign_codes lengths n maxbits cw code0 k).1 L =
      (next_code lengths n L + bl_count lengths k L) % 2 ^ 32 := by
  induction k with
  | zero =>
    rw [assign_codes]
    simp only
    rw [if_neg (by omega)]
    simp [bl_count]
  | succ k ih =>
    rw [assign_codes, bl_count_succ]
    by_cases hk : lengths k ≠ 0
    · rw [if_pos hk]
      simp only
      by_cases he : lengths k = L
      · rw [he, upd_same, ih, if_pos rfl]
        omega
      · rw [upd_other _ _ _ _ (fun h => he h.symm), ih, if_neg he]
        rfl
    · rw [if_neg hk, ih, if_neg (by omega)]
      rfl

/-- The `code` fields after the third loop of `get_huffman_table_*` has run over the
symbols `0 .. k-1`. -/
theorem assign_codes_code (lengths : Nat → Nat) (n maxbits cw : Nat) (code0 : Nat → Nat)
    (k : Nat) (hb : ∀ i, i < k → lengths i < maxbits) (j : Nat) (hj : j < k)
    (hL : lengths j ≠ 0) :
    (assign_codes lengths n maxbits cw code0 k).2 j =
      (next_code lengths n (lengths j) + bl_count lengths j (lengths j)) % 2 ^ 32 % 2 ^ cw := by
  induction k with
  | zero => omega
  | succ k ih =>
    rw [assign_codes]
    by_cases hk : lengths k ≠ 0
    · rw [if_pos hk]
      simp only
      by_cases he : j = k
      · rw [he, upd_same, assign_codes_next lengths n maxbits cw code0 k (lengths k) (by omega)
          (hb k (by omega))]
      · rw [upd_other _ _ _ _ he]
        exact ih (fun i hi => hb i (by omega)) (by omega)
    · rw [if_neg hk]
      have he : j ≠ k := fun h => hk (h ▸ hL)
      exact ih (fun i hi => hb i (by omega)) (by omega)

/-- The Kraft sum of the lengths up to `L + 1` is the one of the lengths up to `L` plus the
weight of the symbols of length `L + 1`. -/
theorem kraft_sum_cut_succ (lengths : Nat → Nat) (M L k : Nat) :
    kraft_sum (fun i => if lengths i ≤ L + 1 then lengths i else 0) M k =
      kraft_sum (fun i => if lengths i ≤ L then lengths i else 0) M k +
        bl_count lengths k (L + 1) * 2 ^ (M - (L + 1)) := by
  induction k with
  | zero => simp [kraft_sum, bl_count]
  | succ k ih =>
    rw [kraft_sum, kraft_sum, ih, bl_count_succ]
    by_cases h1 : lengths k = L + 1
    · have e1 : (if lengths k ≤ L + 1 then lengths k else 0) = L + 1 := by
        rw [if_pos (by omega)]
        exact h1
      have e2 : (if lengths k ≤ L then lengths k else 0) = 0 := by
        rw [if_neg (by omega)]
      rw [e1, e2, if_neg (Nat.succ_ne_zero L), if_pos rfl, if_pos h1]
      ring
    · rw [if_neg h1]
      by_cases h2 : lengths k ≤ L
      · have e1 : (if lengths k ≤ L + 1 then lengths k else 0) = lengths k := by
          rw [if_pos (by omega)]
        have e2 : (if lengths k ≤ L then lengths k else 0) = lengths k := by
          rw [if_pos h2]
        rw [e1, e2]
        ring
      · have e1 : (if lengths k ≤ L + 1 then lengths k else 0) = 0 := by
          rw [if_neg (by omega)]
        have e2 : (if lengths k ≤ L then lengths k else 0) = 0 := by
          rw [if_neg h2]
        rw [e1, e2, if_pos rfl]
        ring

theorem kraft_sum_cut_zero (lengths : Nat → Nat) (M k : Nat) :
    kraft_sum (fun i => if lengths i ≤ 0 then lengths i else 0) M k = 0 := by
  induction k with
  | zero => rfl
  | succ k ih =>
    rw [kraft_sum, ih]
    by_cases h : lengths k ≤ 0
    · have : lengths k = 0 := by omega
      simp [this]
    · simp [h]

theorem kraft_sum_cut_le (lengths : Nat → Nat) (M L k : Nat) :
    kraft_sum (fun i => if lengths i ≤ L then lengths i else 0) M k ≤ kraft_sum lengths M k := by
  induction k with
  | zero => exact Nat.le_refl _
  | succ k ih =>
    rw [kraft_sum, kraft_sum]
    by_cases h : lengths k ≤ L
    · simp only [if_pos h]
      omega
    · simp only [if_neg h, if_true]
      omega

/-- The base of a length, plus the number of symbols of that length, scaled to `2 ^ M`, is
the Kraft sum of the symbols of at most that length. -/
theorem next_code_kraft (lengths : Nat → Nat) (n M L : Nat) (hL : L ≤ M) :
    (next_code lengths n L + (if L = 0 then 0 else bl_count lengths n L)) * 2 ^ (M - L) =
      kraft_sum (fun i => if lengths i ≤ L then lengths i else 0) M n := by
  induction L with
  | zero =>
    rw [kraft_sum_cut_zero]
    simp [next_code]
  | succ L ih =>
    have hn : next_code lengths n (L + 1) =
        (next_code lengths n L + (if L = 0 then 0 else bl_count lengths n L)) * 2 := by
      rw [next_code, Nat.shiftLeft_eq, Nat.pow_one]
    have h2 : 2 ^ (M - L) = 2 * 2 ^ (M - (L + 1)) := by
      rw [show M - L = (M - (L + 1)) + 1 by omega, Nat.pow_succ, Nat.mul_comm]
    have h3 := ih (by omega)
    rw [h2] at h3
    rw [kraft_sum_cut_succ, ← h3, hn, if_neg (Nat.succ_ne_zero L)]
    ring

/-- When the lengths satisfy Kraft's inequality, the codes of a length stay below `2 ^ L`. -/
theorem next_code_bound (lengths : Nat → Nat) (n M L : Nat) (h0 : 0 < L) (hL : L ≤ M)
    (hk : kraft_sum lengths M n ≤ 2 ^ M) :
    next_code lengths n L + bl_count lengths n L ≤ 2 ^ L := by
  have h1 := next_code_kraft lengths n M L hL
  rw [if_neg (by omega)] at h1
  have h2 := kraft_sum_cut_le lengths M L n
  have h3 : 2 ^ M = 2 ^ L * 2 ^ (M - L) := by
    rw [← Nat.pow_add]
    congr 1
    omega
  have h4 : (next_code lengths n L + bl_count lengths n L) * 2 ^ (M - L) ≤
      2 ^ L * 2 ^ (M - L) := by
    rw [h1, ← h3]
    omega
  exact Nat.le_of_mul_le_mul_right h4 (Nat.two_pow_pos _)

/-- The code of a symbol under Kraft's inequality is below `2 ^ L`, before any cut. -/
theorem rank_code_lt (lengths : Nat → Nat) (n M j : Nat) (hj : j < n) (h0 : lengths j ≠ 0)
    (hL : lengths j ≤ M) (hk : kraft_sum lengths M n ≤ 2 ^ M) :
    next_code lengths n (lengths j) + bl_count lengths j (lengths j) < 2 ^ lengths j := by
  have h1 := next_code_bound lengths n M (lengths j) (by omega) hL hk
  have h2 := bl_count_lt lengths j n hj
  omega

/-- The three table builders are the same loop with their own sizes. -/
theorem table_code (table : (Nat → Nat) → (Nat → Nat) → Nat → Nat) (n M cw : Nat)
    (htab : (table = get_huffman_table_1 ∧ n = 286 ∧ M = 15 ∧ cw = 16) ∨
      (table = get_huffman_table_2 ∧ n = 30 ∧ M = 15 ∧ cw = 16) ∨
      (table = get_huffman_table_3 ∧ n = 19 ∧ M = 7 ∧ cw = 8))
    (lengths code0 : Nat → Nat) (hb : ∀ i, i < n → lengths i ≤ M)
    (j : Nat) (hj : j < n) (hL : lengths j ≠ 0) :
    table lengths code0 j =
      (next_code lengths n (lengths j) + bl_count lengths j (lengths j)) % 2 ^ 32 % 2 ^ cw ∧
    M < cw ∧ cw ≤ 32 ∧ n < 2 ^ cw := by
  rcases htab with ⟨ht, hn, hM, hc⟩ | ⟨ht, hn, hM, hc⟩ | ⟨ht, hn, hM, hc⟩
  · subst ht hn hM hc
    refine ⟨?_, by decide, by decide, by decide⟩
    exact assign_codes_code lengths 286 16 16 code0 286
      (fun i hi => Nat.lt_succ_of_le (hb i hi)) j hj hL
  · subst ht hn hM hc
    refine ⟨?_, by decide, by decide, by decide⟩
    exact assign_codes_code lengths 30 16 16 code0 30
      (fun i hi => Nat.lt_succ_of_le (hb i hi)) j hj hL
  · subst ht hn hM hc
    refine ⟨?_, by decide, by decide, by decide⟩
    exact assign_codes_code lengths 19 8 8 code0 19
      (fun i hi => Nat.lt_succ_of_le (hb i hi)) j hj hL

theorem mod_mod_pow_le (x a b : Nat) (h : a ≤ b) : x % 2 ^ b % 2 ^ a = x % 2 ^ a :=
  Nat.mod_mod_of_dvd x (Nat.pow_dvd_pow 2 h)

theorem add_mod_ne (a r s m : Nat) (h1 : r < s) (h2 : s < m) : (a + r) % m ≠ (a + s) % m := by
  intro h
  have h3 : r ≡ s [MOD m] := Nat.ModEq.add_left_cancel' a h
  have h4 : r % m = s % m := h3
  rw [Nat.mod_eq_of_lt (by omega), Nat.mod_eq_of_lt h2] at h4
  omega

/-- Two symbols of one non-zero length, the first before the second, get different codes. -/
theorem table_code_ne_of_lt (table : (Nat → Nat) → (Nat → Nat) → Nat → Nat) (n M cw : Nat)
    (htab : (table = get_huffman_table_1 ∧ n = 286 ∧ M = 15 ∧ cw = 16) ∨
      (table = get_huffman_table_2 ∧ n = 30 ∧ M = 15 ∧ cw = 16) ∨
      (table = get_huffman_table_3 ∧ n = 19 ∧ M = 7 ∧ cw = 8))
    (lengths code0 : Nat → Nat) (hb : ∀ i, i < n → lengths i ≤ M)
    (i j : Nat) (hij : i < j) (hj : j < n) (hL : lengths i ≠ 0)
    (heq : lengths i = lengths j) :
    table lengths code0 i ≠ table lengths code0 j := by
  obtain ⟨ci, _, hc32, hn⟩ := table_code table n M cw htab lengths code0 hb i (by omega) hL
  obtain ⟨cj, _, _, _⟩ := table_code table n M cw htab lengths code0 hb j hj (heq ▸ hL)
  rw [ci, cj, mod_mod_pow_le _ _ _ hc32, mod_mod_pow_le _ _ _ hc32, ← heq]
  have h1 := bl_count_mono lengths (lengths i) (i + 1) j (by omega)
  rw [bl_count_succ, if_pos rfl] at h1
  have h2 := bl_count_le lengths j (lengths i)
  exact add_mod_ne _ _ _ _ (by omega) (by omega)

/-- C17 (as stated, refuted): the code field of `get_huffman_table_3` is 8 bits wide (16 bits
in `get_huffman_table_1`), and the lengths are not checked. With four symbols of length 1
and one of length 7 (0..3 and 4 of table 3), resp. of length 15 (table 1), the base of the
long length is 256, resp. 65536, and the first symbol of that length is stored with the
code 0, not with the base. -/
theorem long_code_is_cut_to_field_width :
    get_huffman_table_3 (fun i => if i < 4 then 1 else if i = 4 then 7 else 0) (fun _ => 0) 4 = 0 ∧
    next_code (fun i => if i < 4 then 1 else if i = 4 then 7 else 0) 19 7 = 256 ∧
    bl_count (fun i => if i < 4 then 1 else if i = 4 then 7 else 0) 4 7 = 0 ∧
    get_huffman_table_1 (fun i => if i < 4 then 1 else if i = 4 then 15 else 0)
      (fun _ => 0) 4 = 0 ∧
    next_code (fun i => if i < 4 then 1 else if i = 4 then 15 else 0) 286 15 = 65536 ∧
    bl_count (fun i => if i < 4 then 1 else if i = 4 then 15 else 0) 4 15 = 0 := by
  have h3 := (table_code get_huffman_table_3 19 7 8 (Or.inr (Or.inr ⟨rfl, rfl, rfl, rfl⟩))
    (fun i => if i < 4 then 1 else if i = 4 then 7 else 0) (fun _ => 0) (by decide) 4
    (by decide) (by decide)).1
  have h1 := (table_code get_huffman_table_1 286 15 16 (Or.inl ⟨rfl, rfl, rfl, rfl⟩)
    (fun i => if i < 4 then 1 else if i = 4 then 15 else 0) (fun _ => 0)
    (by intro i _; simp only; split <;> [omega; (split <;> omega)]) 4
    (by decide) (by decide)).1
  have a3 : next_code (fun i => if i < 4 then 1 else if i = 4 then 7 else 0) 19 7 = 256 := by
    decide
  have b3 : bl_count (fun i => if i < 4 then 1 else if i = 4 then 7 else 0) 4 7 = 0 := by
    decide
  have a1 : next_code (fun i => if i < 4 then 1 else if i = 4 then 15 else 0) 286 15
      = 65536 := by
    decide
  have b1 : bl_count (fun i => if i < 4 then 1 else if i = 4 then 15 else 0) 4 15 = 0 := by
    decide
  refine ⟨?_, a3, b3, ?_, a1, b1⟩
  · rw [h3]
    simp only [if_neg (show ¬ 4 < 4 by decide), if_pos, a3, b3]
    decide
  · rw [h1]
    simp only [if_neg (show ¬ 4 < 4 by decide), if_pos, a1, b1]
    decide

/-- C17 (amended): for each of `get_huffman_table_1`, `get_huffman_table_2` (lengths 0..15,
16-bit code field) and `get_huffman_table_3` (lengths 0..7, 8-bit code field), a symbol `j`
of non-zero length `L` gets the base `next_code[L]` plus the number of earlier symbols of
length `L`, cut to the width of the code field; when the lengths satisfy Kraft's inequality
nothing is cut and the code is that sum itself; the base follows the recurrence
`next_code[L] = (next_code[L-1] + bl_count[L-1]) << 1` with `bl_count[0] = 0`. -/
theorem codes_of_one_length_are_consecutive
    (table : (Nat → Nat) → (Nat → Nat) → Nat → Nat) (n M cw : Nat)
    (htab : (table = get_huffman_table_1 ∧ n = 286 ∧ M = 15 ∧ cw = 16) ∨
      (table = get_huffman_table_2 ∧ n = 30 ∧ M = 15 ∧ cw = 16) ∨
      (table = get_huffman_table_3 ∧ n = 19 ∧ M = 7 ∧ cw = 8))
    (lengths code0 : Nat → Nat) (hb : ∀ i, i < n → lengths i ≤ M)
    (j : Nat) (hj : j < n) (hL : lengths j ≠ 0) :
    table lengths code0 j =
      (next_code lengths n (lengths j) + bl_count lengths j (lengths j)) % 2 ^ cw ∧
    (kraft_sum lengths M n ≤ 2 ^ M →
      table lengths code0 j =
        next_code lengths n (lengths j) + bl_count lengths j (lengths j)) ∧
    next_code lengths n (lengths j) =
      (next_code lengths n (lengths j - 1) +
        (if lengths j - 1 = 0 then 0 else bl_count lengths n (lengths j - 1))) <<< 1 := by
  obtain ⟨c, hM, hc32, _⟩ := table_code table n M cw htab lengths code0 hb j hj hL
  rw [mod_mod_pow_le _ _ _ hc32] at c
  refine ⟨c, ?_, ?_⟩
  · intro hk
    rw [c]
    apply Nat.mod_eq_of_lt
    have h1 := rank_code_lt lengths n M j hj hL (hb j hj) hk
    have h2 : 2 ^ lengths j ≤ 2 ^ cw :=
      Nat.pow_le_pow_right (by decide) (by have := hb j hj; omega)
    omega
  · obtain ⟨L, hLs⟩ : ∃ L, lengths j = L + 1 := ⟨lengths j - 1, by omega⟩
    rw [hLs]
    rfl

theorem codes_of_one_length_are_consecutive_witness :
    (∀ i, i < 19 → (fun i => if i = 0 then 1 else if i = 1 then 2 else if i < 4 then 3 else 0) i
      ≤ 7) ∧
    get_huffman_table_3
        (fun i => if i = 0 then 1 else if i = 1 then 2 else if i < 4 then 3 else 0)
        (fun _ => 0) 3 =
      (next_code (fun i => if i = 0 then 1 else if i = 1 then 2 else if i < 4 then 3 else 0) 19
          ((fun i => if i = 0 then 1 else if i = 1 then 2 else if i < 4 then 3 else 0) 3) +
        bl_count (fun i => if i = 0 then 1 else if i = 1 then 2 else if i < 4 then 3 else 0) 3
          ((fun i => if i = 0 then 1 else if i = 1 then 2 else if i < 4 then 3 else 0) 3))
        % 2 ^ 8 :=
  ⟨by decide,
    (codes_of_one_length_are_consecutive get_huffman_table_3 19 7 8
      (Or.inr (Or.inr ⟨rfl, rfl, rfl, rfl⟩))
      (fun i => if i = 0 then 1 else if i = 1 then 2 else if i < 4 then 3 else 0)
      (fun _ => 0) (by decide) 3 (by decide) (by decide)).1⟩

/-- C18: for each of `get_huffman_table_1`, `get_huffman_table_2` (lengths within the 16
counters) and `get_huffman_table_3` (lengths within the 8 counters), two distinct symbols
of the same non-zero length get different code values, so no two symbols with non-zero
length share a code word (length together with code value). -/
theorem distinct_symbols_get_distinct_code_words
    (table : (Nat → Nat) → (Nat → Nat) → Nat → Nat) (n M cw : Nat)
    (htab : (table = get_huffman_table_1 ∧ n = 286 ∧ M = 15 ∧ cw = 16) ∨
      (table = get_huffman_table_2 ∧ n = 30 ∧ M = 15 ∧ cw = 16) ∨
      (table = get_huffman_table_3 ∧ n = 19 ∧ M = 7 ∧ cw = 8))
    (lengths code0 : Nat → Nat) (hb : ∀ i, i < n → lengths i ≤ M)
    (i j : Nat) (hi : i < n) (hj : j < n) (hne : i ≠ j) (hL : lengths i ≠ 0)
    (hLj : lengths j ≠ 0) :
    (lengths i, table lengths code0 i) ≠ (lengths j, table lengths code0 j) := by
  intro h
  have heq : lengths i = lengths j := congrArg Prod.fst h
  have hc : table lengths code0 i = table lengths code0 j := congrArg Prod.snd h
  rcases Nat.lt_or_gt_of_ne hne with hlt | hgt
  · exact table_code_ne_of_lt table n M cw htab lengths code0 hb i j hlt hj hL heq hc
  · exact table_code_ne_of_lt table n M cw htab lengths code0 hb j i hgt hi hLj heq.symm hc.symm

theorem distinct_symbols_get_distinct_code_words_witness :
    (∀ i, i < 286 → (fun i => if i < 144 then 8 else if i < 256 then 9 else if i < 280 then 7
      else 8) i ≤ 15) ∧
    ((fun i => if i < 144 then 8 else if i < 256 then 9 else if i < 280 then 7 else 8) 0,
      get_huffman_table_1
        (fun i => if i < 144 then 8 else if i < 256 then 9 else if i < 280 then 7 else 8)
        (fun _ => 0) 0) ≠
    ((fun i => if i < 144 then 8 else if i < 256 then 9 else if i < 280 then 7 else 8) 285,
      get_huffman_table_1
        (fun i => if i < 144 then 8 else if i < 256 then 9 else if i < 280 then 7 else 8)
        (fun _ => 0) 285) :=
  ⟨by intro i _; simp only; split_ifs <;> decide,
    distinct_symbols_get_distinct_code_words get_huffman_table_1 286 15 16
      (Or.inl ⟨rfl, rfl, rfl, rfl⟩)
      (fun i => if i < 144 then 8 else if i < 256 then 9 else if i < 280 then 7 else 8)
      (fun _ => 0) (by intro i _; simp only; split_ifs <;> decide) 0 285 (by decide) (by decide) (by decide) (by decide)
      (by decide)⟩

/-- C19 (as stated, refuted): the lengths are not checked. With three symbols of length 1
(0, 1, 2 of table 3) the third one gets the code 2, which does not fit in 1 bit. -/
theorem third_code_of_length_1_needs_2_bits :
    (fun i => if i < 3 then 1 else 0) 2 = 1 ∧
    get_huffman_table_3 (fun i => if i < 3 then 1 else 0) (fun _ => 0) 2 = 2 ∧
    ¬ get_huffman_table_3 (fun i => if i < 3 then 1 else 0) (fun _ => 0) 2 <
      2 ^ (fun i => if i < 3 then 1 else 0) 2 := by
  have h3 := (table_code get_huffman_table_3 19 7 8 (Or.inr (Or.inr ⟨rfl, rfl, rfl, rfl⟩))
    (fun i => if i < 3 then 1 else 0) (fun _ => 0) (by decide) 2 (by decide) (by decide)).1
  have a : next_code (fun i => if i < 3 then 1 else 0) 19 1 = 0 := by decide
  have b : bl_count (fun i => if i < 3 then 1 else 0) 2 1 = 2 := by decide
  have e : get_huffman_table_3 (fun i => if i < 3 then 1 else 0) (fun _ => 0) 2 = 2 := by
    rw [h3]
    simp only [if_pos (show 2 < 3 by decide), a, b]
    decide
  refine ⟨by decide, e, ?_⟩
  rw [e]
  decide

/-- C19 (amended): for each of `get_huffman_table_1`, `get_huffman_table_2` (lengths 0..15)
and `get_huffman_table_3` (lengths 0..7), when the lengths satisfy Kraft's inequality (the
sum of `2 ^ (M - L)` over the symbols of non-zero length `L` is at most `2 ^ M`), every
symbol of non-zero length `L` gets a code value below `2 ^ L`. -/
theorem code_fits_its_length_under_kraft
    (table : (Nat → Nat) → (Nat → Nat) → Nat → Nat) (n M cw : Nat)
    (htab : (table = get_huffman_table_1 ∧ n = 286 ∧ M = 15 ∧ cw = 16) ∨
      (table = get_huffman_table_2 ∧ n = 30 ∧ M = 15 ∧ cw = 16) ∨
      (table = get_huffman_table_3 ∧ n = 19 ∧ M = 7 ∧ cw = 8))
    (lengths code0 : Nat → Nat) (hb : ∀ i, i < n → lengths i ≤ M)
    (hk : kraft_sum lengths M n ≤ 2 ^ M)
    (j : Nat) (hj : j < n) (hL : lengths j ≠ 0) :
    table lengths code0 j < 2 ^ lengths j := by
  obtain ⟨c, _, _, _⟩ := table_code table n M cw htab lengths code0 hb j hj hL
  rw [c]
  have h1 := rank_code_lt lengths n M j hj hL (hb j hj) hk
  exact Nat.lt_of_le_of_lt (Nat.le_trans (Nat.mod_le _ _) (Nat.mod_le _ _)) h1

theorem code_fits_its_length_under_kraft_witness :
    (∀ i, i < 30 → (fun _ => 5) i ≤ 15) ∧ kraft_sum (fun _ => 5) 15 30 ≤ 2 ^ 15 ∧
    get_huffman_table_2 (fun _ => 5) (fun _ => 0) 29 < 2 ^ (fun _ => 5) 29 :=
  ⟨by decide, by decide,
    code_fits_its_length_under_kraft get_huffman_table_2 30 15 16
      (Or.inr (Or.inl ⟨rfl, rfl, rfl, rfl⟩)) (fun _ => 5) (fun _ => 0) (by decide) (by decide)
      29 (by decide) (by decide)⟩

/-! ## `permute_CCL` (C20) -/

/-- C20: `permute_CCL` puts the `k`-th code length read from the stream at the position
of the specification: for every `k` in `0 .. 18`, `hTable3[order[k]].length = CCL[k]`
with `order = {16,17,18,0,8,7,9,6,10,5,11,4,12,3,13,2,14,1,15}`, whatever the table held
before; the nineteen stores go to the nineteen entries `0 .. 18`, one store each, the
`k`-th length read going to entry `order[k]`. -/
theorem permute_CCL_follows_order (CCL length0 : Nat → Nat) :
    (∀ k, k < 19 → permute_CCL_run CCL length0 (CCL_order.getD k 0) = CCL k) ∧
    (∀ i, i < 19 → permute_CCL_run CCL length0 i = permute_CCL CCL i) ∧
    (∀ i, 19 ≤ i → permute_CCL_run CCL length0 i = length0 i) ∧
    permute_CCL_stores.length = 19 ∧
    (∀ i, i < 19 → (permute_CCL_stores.filter (fun s => s.1 = i)).length = 1) ∧
    (∀ k, k < 19 → (CCL_order.getD k 0, k) ∈ permute_CCL_stores) := by
  refine ⟨?_, ?_, ?_, rfl, by decide, by decide⟩
  · intro k hk
    interval_cases k <;> rfl
  · intro i hi
    interval_cases i <;> rfl
  · intro i hi
    have h : ∀ j, j < 19 → i ≠ j := fun j hj => by omega
    simp only [permute_CCL_run, permute_CCL_stores, List.foldl_cons, List.foldl_nil]
    repeat rw [upd_other _ _ _ _ (h _ (by norm_num))]

/-! ## The static decoder against the code of `huffman` (C21 .. C25) -/

/-- Function `decoder_get_offset` reads back the offset code that `huffman` writes, for
every offset `1 .. 4096` and every number `n ≤ 17` of bits already taken: with the offset
code in the bits `n ..` of `proc_buffer` (counted from the top) it returns the offset and
`n` plus the number of bits of the code. -/
theorem decoder_get_offset_any (n off pb : Nat) (hn : n ≤ 17)
    (h1 : 1 ≤ off) (h : off ≤ 4096)
    (hB : pb / 2 ^ (32 - n - (huffman_offset_code off (0, 0)).2) %
        2 ^ (huffman_offset_code off (0, 0)).2 = (huffman_offset_code off (0, 0)).1) :
    decoder_get_offset n pb = (off, n + (huffman_offset_code off (0, 0)).2) := by
  revert hB
  rw [decoder_get_offset, huffman_offset_code]
  simp only [(and_low_masks _).1, (and_low_masks _).2.1, (and_low_masks _).2.2.1,
    (and_low_masks _).2.2.2.1, (and_low_masks _).2.2.2.2.1, (and_low_masks _).2.2.2.2.2.1,
    (and_low_masks _).2.2.2.2.2.2.1, (and_low_masks _).2.2.2.2.2.2.2.1,
    (and_low_masks _).2.2.2.2.2.2.2.2.1, (and_low_masks _).2.2.2.2.2.2.2.2.2,
    Nat.shiftRight_eq_div_pow]
  by_cases c0 : off ≥ 1 ∧ off ≤ 4
  · simp only [if_pos c0]
    intro hB
    have hx : 32 - n - 5 = 27 - n := by omega
    rw [hx] at hB
    have h5 : pb / 2 ^ (27 - n) % 32 % 2 ^ 8 = off - 1 := by omega
    simp only [h5]
    rw [if_pos ⟨by omega, by omega⟩]
    congr 1
    omega
  simp only [if_neg c0]
  by_cases c1 : off ≥ 5 ∧ off ≤ 6
  · simp only [if_pos c1]
    intro hB
    have hx : 32 - n - 6 = 26 - n := by omega
    have hy : pb / 2 ^ (27 - n) = pb / 2 ^ (26 - n) / 2 ^ 1 := by
      rw [Nat.div_div_eq_div_mul, ← Nat.pow_add]
      congr 2
      omega
    rw [hx] at hB
    rw [hy]
    generalize pb / 2 ^ (26 - n) = y at hB ⊢
    have h5 : y / 2 ^ 1 % 32 % 2 ^ 8 = 4 := by omega
    simp only [h5]
    norm_num
    omega
  simp only [if_neg c1]
  by_cases c2 : off ≥ 7 ∧ off ≤ 8
  · simp only [if_pos c2]
    intro hB
    have hx : 32 - n - 6 = 26 - n := by omega
    have hy : pb / 2 ^ (27 - n) = pb / 2 ^ (26 - n) / 2 ^ 1 := by
      rw [Nat.div_div_eq_div_mul, ← Nat.pow_add]
      congr 2
      omega
    rw [hx] at hB
    rw [hy]
    generalize pb / 2 ^ (26 - n) = y at hB ⊢
    have h5 : y / 2 ^ 1 % 32 % 2 ^ 8 = 5 := by omega
    simp only [h5]
    norm_num
    omega
  simp only [if_neg c2]
  by_cases c3 : off ≥ 9 ∧ off ≤ 12
  · simp only [if_pos c3]
    intro hB
    have hx : 32 - n - 7 = 25 - n := by omega
    have hy : pb / 2 ^ (27 - n) = pb / 2 ^ (25 - n) / 2 ^ 2 := by
      rw [Nat.div_div_eq_div_mul, ← Nat.pow_add]
      congr 2
      omega
    rw [hx] at hB
    rw [hy]
    generalize pb / 2 ^ (25 - n) = y at hB ⊢
    have h5 : y / 2 ^ 2 % 32 % 2 ^ 8 = 6 := by omega
    simp only [h5]
    norm_num
    omega
  simp only [if_neg c3]
  by_cases c4 : off ≥ 13 ∧ off ≤ 16
  · simp only [if_pos c4]
    intro hB
    have hx : 32 - n - 7 = 25 - n := by omega
    have hy : pb / 2 ^ (27 - n) = pb / 2 ^ (25 - n) / 2 ^ 2 := by
      rw [Nat.div_div_eq_div_mul, ← Nat.pow_add]
      congr 2
      omega
    rw [hx] at hB
    rw [hy]
    generalize pb / 2 ^ (25 - n) = y at hB ⊢
    have h5 : y / 2 ^ 2 % 32 % 2 ^ 8 = 7 := by omega
    simp only [h5]
    norm_num
    omega
  simp only [if_neg c4]
  by_cases c5 : off ≥ 17 ∧ off ≤ 24
  · simp only [if_pos c5]
    intro hB
    have hx : 32 - n - 8 = 24 - n := by omega
    have hy : pb / 2 ^ (27 - n) = pb / 2 ^ (24 - n) / 2 ^ 3 := by
      rw [Nat.div_div_eq_div_mul, ← Nat.pow_add]
      congr 2
      omega
    rw [hx] at hB
    rw [hy]
    generalize pb / 2 ^ (24 - n) = y at hB ⊢
    have h5 : y / 2 ^ 3 % 32 % 2 ^ 8 = 8 := by omega
    simp only [h5]
    norm_num
    omega
  simp only [if_neg c5]
  by_cases c6 : off ≥ 25 ∧ off ≤ 32
  · simp only [if_pos c6]
    intro hB
    have hx : 32 - n - 8 = 24 - n := by omega
    have hy : pb / 2 ^ (27 - n) = pb / 2 ^ (24 - n) / 2 ^ 3 := by
      rw [Nat.div_div_eq_div_mul, ← Nat.pow_add]
      congr 2
      omega
    rw [hx] at hB
    rw [hy]
    generalize pb / 2 ^ (24 - n) = y at hB ⊢
    have h5 : y / 2 ^ 3 % 32 % 2 ^ 8 = 9 := by omega
    simp only [h5]
    norm_num
    omega
  simp only [if_neg c6]
  by_cases c7 : off ≥ 33 ∧ off ≤ 48
  · simp only [if_pos c7]
    intro hB
    have hx : 32 - n - 9 = 23 - n := by omega
    have hy : pb / 2 ^ (27 - n) = pb / 2 ^ (23 - n) / 2 ^ 4 := by
      rw [Nat.div_div_eq_div_mul, ← Nat.pow_add]
      congr 2
      omega
    rw [hx] at hB
    rw [hy]
    generalize pb / 2 ^ (23 - n) = y at hB ⊢
    have h5 : y / 2 ^ 4 % 32 % 2 ^ 8 = 10 := by omega
    simp only [h5]
    norm_num
    omega
  simp only [if_neg c7]
  by_cases c8 : off ≥ 49 ∧ off ≤ 64
  · simp only [if_pos c8]
    intro hB
    have hx : 32 - n - 9 = 23 - n := by omega
    have hy : pb / 2 ^ (27 - n) = pb / 2 ^ (23 - n) / 2 ^ 4 := by
      rw [Nat.div_div_eq_div_mul, ← Nat.pow_add]
      congr 2
      omega
    rw [hx] at hB
    rw [hy]
    generalize pb / 2 ^ (23 - n) = y at hB ⊢
    have h5 : y / 2 ^ 4 % 32 % 2 ^ 8 = 11 := by omega
    simp only [h5]
    norm_num
    omega
  simp only [if_neg c8]
  by_cases c9 : off ≥ 65 ∧ off ≤ 96
  · simp only [if_pos c9]
    intro hB
    have hx : 32 - n - 10 = 22 - n := by omega
    have hy : pb / 2 ^ (27 - n) = pb / 2 ^ (22 - n) / 2 ^ 5 := by
      rw [Nat.div_div_eq_div_mul, ← Nat.pow_add]
      congr 2
      omega
    rw [hx] at hB
    rw [hy]
    generalize pb / 2 ^ (22 - n) = y at hB ⊢
    have h5 : y / 2 ^ 5 % 32 % 2 ^ 8 = 12 := by omega
    simp only [h5]
    norm_num
    omega
  simp only [if_neg c9]
  by_cases c10 : off ≥ 97 ∧ off ≤ 128
  · simp only [if_pos c10]
    intro hB
    have hx : 32 - n - 10 = 22 - n := by omega
    have hy : pb / 2 ^ (27 - n) = pb / 2 ^ (22 - n) / 2 ^ 5 := by
      rw [Nat.div_div_eq_div_mul, ← Nat.pow_add]
      congr 2
      omega
    rw [hx] at hB
    rw [hy]
    generalize pb / 2 ^ (22 - n) = y at hB ⊢
    have h5 : y / 2 ^ 5 % 32 % 2 ^ 8 = 13 := by omega
    simp only [h5]
    norm_num
    omega
  simp only [if_neg c10]
  by_cases c11 : off ≥ 129 ∧ off ≤ 192
  · simp only [if_pos c11]
    intro hB
    have hx : 32 - n - 11 = 21 - n := by omega
    have hy : pb / 2 ^ (27 - n) = pb / 2 ^ (21 - n) / 2 ^ 6 := by
      rw [Nat.div_div_eq_div_mul, ← Nat.pow_add]
      congr 2
      omega
    rw [hx] at hB
    rw [hy]
    generalize pb / 2 ^ (21 - n) = y at hB ⊢
    have h5 : y / 2 ^ 6 % 32 % 2 ^ 8 = 14 := by omega
    simp only [h5]
    norm_num
    omega
  simp only [if_neg c11]
  by_cases c12 : off ≥ 193 ∧ off ≤ 256
  · simp only [if_pos c12]
    intro hB
    have hx : 32 - n - 11 = 21 - n := by omega
    have hy : pb / 2 ^ (27 - n) = pb / 2 ^ (21 - n) / 2 ^ 6 := by
      rw [Nat.div_div_eq_div_mul, ← Nat.pow_add]
      congr 2
      omega
    rw [hx] at hB
    rw [hy]
    generalize pb / 2 ^ (21 - n) = y at hB ⊢
    have h5 : y / 2 ^ 6 % 32 % 2 ^ 8 = 15 := by omega
    simp only [h5]
    norm_num
    omega
  simp only [if_neg c12]
  by_cases c13 : off ≥ 257 ∧ off ≤ 384
  · simp only [if_pos c13]
    intro hB
    have hx : 32 - n - 12 = 20 - n := by omega
    have hy : pb / 2 ^ (27 - n) = pb / 2 ^ (20 - n) / 2 ^ 7 := by
      rw [Nat.div_div_eq_div_mul, ← Nat.pow_add]
      congr 2
      omega
    rw [hx] at hB
    rw [hy]
    generalize pb / 2 ^ (20 - n) = y at hB ⊢
    have h5 : y / 2 ^ 7 % 32 % 2 ^ 8 = 16 := by omega
    simp only [h5]
    norm_num
    omega
  simp only [if_neg c13]
  by_cases c14 : off ≥ 385 ∧ off ≤ 512
  · simp only [if_pos c14]
    intro hB
    have hx : 32 - n - 12 = 20 - n := by omega
    have hy : pb / 2 ^ (27 - n) = pb / 2 ^ (20 - n) / 2 ^ 7 := by
      rw [Nat.div_div_eq_div_mul, ← Nat.pow_add]
      congr 2
      omega
    rw [hx] at hB
    rw [hy]
    generalize pb / 2 ^ (20 - n) = y at hB ⊢
    have h5 : y / 2 ^ 7 % 32 % 2 ^ 8 = 17 := by omega
    simp only [h5]
    norm_num
    omega
  simp only [if_neg c14]
  by_cases c15 : off ≥ 513 ∧ off ≤ 768
  · simp only [if_pos c15]
    intro hB
    have hx : 32 - n - 13 = 19 - n := by omega
    have hy : pb / 2 ^ (27 - n) = pb / 2 ^ (19 - n) / 2 ^ 8 := by
      rw [Nat.div_div_eq_div_mul, ← Nat.pow_add]
      congr 2
      omega
    rw [hx] at hB
    rw [hy]
    generalize pb / 2 ^ (19 - n) = y at hB ⊢
    have h5 : y / 2 ^ 8 % 32 % 2 ^ 8 = 18 := by omega
    simp only [h5]
    norm_num
    omega
  simp only [if_neg c15]
  by_cases c16 : off ≥ 769 ∧ off ≤ 1024
  · simp only [if_pos c16]
    intro hB
    have hx : 32 - n - 13 = 19 - n := by omega
    have hy : pb / 2 ^ (27 - n) = pb / 2 ^ (19 - n) / 2 ^ 8 := by
      rw [Nat.div_div_eq_div_mul, ← Nat.pow_add]
      congr 2
      omega
    rw [hx] at hB
    rw [hy]
    generalize pb / 2 ^ (19 - n) = y at hB ⊢
    have h5 : y / 2 ^ 8 % 32 % 2 ^ 8 = 19 := by omega
    simp only [h5]
    norm_num
    omega
  simp only [if_neg c16]
  by_cases c17 : off ≥ 1025 ∧ off ≤ 1536
  · simp only [if_pos c17]
    intro hB
    have hx : 32 - n - 14 = 18 - n := by omega
    have hy : pb / 2 ^ (27 - n) = pb / 2 ^ (18 - n) / 2 ^ 9 := by
      rw [Nat.div_div_eq_div_mul, ← Nat.pow_add]
      congr 2
      omega
    rw [hx] at hB
    rw [hy]
    generalize pb / 2 ^ (18 - n) = y at hB ⊢
    have h5 : y / 2 ^ 9 % 32 % 2 ^ 8 = 20 := by omega
    simp only [h5]
    norm_num
    omega
  simp only [if_neg c17]
  by_cases c18 : off ≥ 1537 ∧ off ≤ 2048
  · simp only [if_pos c18]
    intro hB
    have hx : 32 - n - 14 = 18 - n := by omega
    have hy : pb / 2 ^ (27 - n) = pb / 2 ^ (18 - n) / 2 ^ 9 := by
      rw [Nat.div_div_eq_div_mul, ← Nat.pow_add]
      congr 2
      omega
    rw [hx] at hB
    rw [hy]
    generalize pb / 2 ^ (18 - n) = y at hB ⊢
    have h5 : y / 2 ^ 9 % 32 % 2 ^ 8 = 21 := by omega
    simp only [h5]
    norm_num
    omega
  simp only [if_neg c18]
  by_cases c19 : off ≥ 2049 ∧ off ≤ 3072
  · simp only [if_pos c19]
    intro hB
    have hx : 32 - n - 15 = 17 - n := by omega
    have hy : pb / 2 ^ (27 - n) = pb / 2 ^ (17 - n) / 2 ^ 10 := by
      rw [Nat.div_div_eq_div_mul, ← Nat.pow_add]
      congr 2
      omega
    rw [hx] at hB
    rw [hy]
    generalize pb / 2 ^ (17 - n) = y at hB ⊢
    have h5 : y / 2 ^ 10 % 32 % 2 ^ 8 = 22 := by omega
    simp only [h5]
    norm_num
    omega
  simp only [if_neg c19]
  by_cases c20 : off ≥ 3073 ∧ off ≤ 4096
  · simp only [if_pos c20]
    intro hB
    have hx : 32 - n - 15 = 17 - n := by omega
    have hy : pb / 2 ^ (27 - n) = pb / 2 ^ (17 - n) / 2 ^ 10 := by
      rw [Nat.div_div_eq_div_mul, ← Nat.pow_add]
      congr 2
      omega
    rw [hx] at hB
    rw [hy]
    generalize pb / 2 ^ (17 - n) = y at hB ⊢
    have h5 : y / 2 ^ 10 % 32 % 2 ^ 8 = 23 := by omega
    simp only [h5]
    norm_num
    omega
  simp only [if_neg c20]
  omega

theorem length_code_closed_66 (len : Nat) (old : Nat × Nat) (h3 : 3 ≤ len) (h66 : len ≤ 66) :
    huffman_length_code len old =
      if len ≤ 10 then (len - 2, 7) else if len ≤ 18 then (len + 7, 8)
      else if len ≤ 34 then (len + 33, 9) else (len + 101, 10) := by
  interval_cases len <;> simp [huffman_length_code]

/-- The length code of `len`, `3 ≤ len ≤ 66`, on top of `proc_buffer` is decoded as a
record of that length; the offset is what `decoder_get_offset` reads behind the length
code. -/
theorem static_decode_length (st : DecState) (len : Nat) (h3 : 3 ≤ len) (h66 : len ≤ 66)
    (hpb : st.proc_buffer < 2 ^ 32)
    (h : st.proc_buffer / 2 ^ (32 - (huffman_length_code len (0, 0)).2) =
      (huffman_length_code len (0, 0)).1) :
    static_decode_symbol st =
      ({ st with
          length := len
          output := st.output ++
            [0x40,
              ((decoder_get_offset (huffman_length_code len (0, 0)).2 st.proc_buffer).1 >>> 7)
                % 2 ^ 8,
              ((decoder_get_offset (huffman_length_code len (0, 0)).2 st.proc_buffer).1
                &&& 0x07F) % 2 ^ 8,
              len] },
        (decoder_get_offset (huffman_length_code len (0, 0)).2 st.proc_buffer).2) := by
  obtain ⟨f1, f2, f3, f4, f5, f6⟩ := static_fields st.proc_buffer hpb
  have hcl := length_code_closed_66 len (0, 0) h3 h66
  rw [static_decode_symbol]
  simp only [f1, f2, f3, f4, f5, f6]
  by_cases c1 : len ≤ 10
  · rw [if_pos c1] at hcl
    rw [hcl] at h ⊢
    simp only at h ⊢
    rw [if_neg (by omega), if_neg (by omega), if_neg (by omega), if_pos ⟨by omega, by omega⟩,
      if_pos ⟨by omega, by omega⟩]
    simp only
    have e : st.proc_buffer / 2 ^ 25 + 2 = len := by omega
    rw [e, Nat.mod_eq_of_lt (by omega : len < 2 ^ 8)]
  · rw [if_neg c1] at hcl
    by_cases c2 : len ≤ 18
    · rw [if_pos c2] at hcl
      rw [hcl] at h ⊢
      simp only at h ⊢
      rw [if_neg (by omega), if_neg (by omega), if_neg (by omega), if_pos ⟨by omega, by omega⟩,
        if_neg (by omega), if_pos ⟨by omega, by omega⟩]
      simp only
      have e : st.proc_buffer / 2 ^ 25 * 2 - 7 + st.proc_buffer / 2 ^ 24 % 2 = len := by omega
      rw [e, Nat.mod_eq_of_lt (by omega : len < 2 ^ 8)]
    · rw [if_neg c2] at hcl
      by_cases c3 : len ≤ 34
      · rw [if_pos c3] at hcl
        rw [hcl] at h ⊢
        simp only at h ⊢
        rw [if_neg (by omega), if_neg (by omega), if_neg (by omega),
          if_pos ⟨by omega, by omega⟩, if_neg (by omega), if_neg (by omega),
          if_pos ⟨by omega, by omega⟩]
        simp only
        have e : st.proc_buffer / 2 ^ 25 * 4 - 33 + st.proc_buffer / 2 ^ 23 % 4 = len := by
          omega
        rw [e, Nat.mod_eq_of_lt (by omega : len < 2 ^ 8)]
      · rw [if_neg c3] at hcl
        rw [hcl] at h ⊢
        simp only at h ⊢
        rw [if_neg (by omega), if_neg (by omega), if_neg (by omega),
          if_pos ⟨by omega, by omega⟩, if_neg (by omega), if_neg (by omega),
          if_neg (by omega), if_pos ⟨by omega, by omega⟩]
        simp only
        have e : st.proc_buffer / 2 ^ 25 * 8 - 101 + st.proc_buffer / 2 ^ 22 % 8 = len := by
          omega
        rw [e, Nat.mod_eq_of_lt (by omega : len < 2 ^ 8)]

/-- The code of a record with `3 ≤ len ≤ 66` and `1 ≤ offset ≤ 4096` on top of
`proc_buffer` is decoded as this record, and all its bits are taken. -/
theorem static_decode_record (st : DecState) (len off : Nat) (h3 : 3 ≤ len) (h66 : len ≤ 66)
    (h1 : 1 ≤ off) (h4096 : off ≤ 4096) (hpb : st.proc_buffer < 2 ^ 32)
    (h : st.proc_buffer /
        2 ^ (32 - ((huffman_length_code len (0, 0)).2 + (huffman_offset_code off (0, 0)).2)) =
      (huffman_length_code len (0, 0)).1 * 2 ^ (huffman_offset_code off (0, 0)).2 +
        (huffman_offset_code off (0, 0)).1) :
    decoder_get_offset (huffman_length_code len (0, 0)).2 st.proc_buffer =
      (off, (huffman_length_code len (0, 0)).2 + (huffman_offset_code off (0, 0)).2) ∧
    static_decode_symbol st =
      ({ st with length := len
                 output := st.output ++ [0x40, (off >>> 7) % 2 ^ 8, (off &&& 0x07F) % 2 ^ 8, len] },
        (huffman_length_code len (0, 0)).2 + (huffman_offset_code off (0, 0)).2) := by
  obtain ⟨_, b2, b3, b4, _⟩ := offset_code_spec off (0, 0) h1 h4096
  have hll : 7 ≤ (huffman_length_code len (0, 0)).2 ∧ (huffman_length_code len (0, 0)).2 ≤ 10 := by
    rw [length_code_closed_66 len (0, 0) h3 h66]
    split_ifs <;> simp
  obtain ⟨A, B⟩ := split_code _ _ _ _ _ b4 (by omega) h
  have hoff := decoder_get_offset_any (huffman_length_code len (0, 0)).2 off st.proc_buffer
    (by omega) h1 h4096 B
  refine ⟨hoff, ?_⟩
  rw [static_decode_length st len h3 h66 hpb A, hoff]

/-! ## Properties of the static decoder (C21 .. C25) -/

/-- C21: for a token stream whose first byte is NUL (the empty token stream), `huffman`
writes exactly one word, `0x03000000`, whose 16 most significant bits are `0x0300`; before
the per-byte reversal the first ten bits of the accumulated bytes are the header `110`
and the seven zero bits of the end-of-block code; and `huffman_decoder` on any stream
that starts with this word gives the empty token stream (`decoding_output[0] = 0`). -/
theorem empty_token_stream_is_one_word (input : List Nat) (h0 : input.getD 0 0 = 0) :
    huffman input = [0x03000000] ∧ (0x03000000 : Nat) >>> 16 = 0x0300 ∧
    acc_bits (STATIC_HUFFMAN input (input.length + 1) 0 huffman_init) = [true, true, false] ∧
    (buffer_bits (huffman_last_buffer
        (STATIC_HUFFMAN input (input.length + 1) 0 huffman_init)) 2).take 10 =
      [true, true, false] ++ List.replicate 7 false ∧
    ∀ rest, huffman_decoder (0x03000000 :: rest) = some [0] := by
  have e : STATIC_HUFFMAN input (input.length + 1) 0 huffman_init = huffman_init := by
    rw [STATIC_HUFFMAN]
    simp only [h0, if_true]
  refine ⟨?_, by decide, ?_, ?_, ?_⟩
  · rw [huffman, e]
    decide
  · rw [e]
    decide
  · rw [e]
    decide
  · intro rest
    have e1 : changeToLittleEndian 0x03000000 = 0xC0000000 := by decide
    have hw : ∀ i, i < 32 →
        word_bit (0x03000000 :: rest) i = (0xC0000000 : Nat).testBit (31 - i) := by
      intro i hi
      rw [word_bit, (by omega : i / 32 = 0), List.getD_cons_zero, e1, Nat.mod_eq_of_lt hi]
    have hz : ∀ j, j < 7 → word_bit (0x03000000 :: rest) (3 + j) = false := by
      intro j hj
      rw [hw _ (by omega)]
      interval_cases j <;> decide
    have h := huffman_decoder_tokens (0x03000000 :: rest) [] 3
      ((hw 0 (by decide)).trans (by decide)) ((hw 1 (by decide)).trans (by decide))
      ((hw 2 (by decide)).trans (by decide)) rfl (fun t ht => absurd ht (List.not_mem_nil t)) hz
      (by rw [List.length_cons]; omega)
    exact h

theorem empty_token_stream_is_one_word_witness :
    ([0] : List Nat).getD 0 0 = 0 ∧ huffman [0] = [0x03000000] ∧
    huffman_decoder [0x03000000] = some [0] :=
  ⟨rfl, (empty_token_stream_is_one_word [0] rfl).1,
    (empty_token_stream_is_one_word [0] rfl).2.2.2.2 []⟩

/-- C22 (as stated, refuted): the static decoder has no branch for the length symbols
277..279 (7-bit codes `0x15 .. 0x17`).  A record of length 67 (symbol 277) that follows a
record of length 3 comes back with the length 3 of the record before it, a wrong offset,
and a stray literal behind it. -/
theorem length_67_is_not_decoded :
    huffman_length_code 67 (0, 0) = (0b00101010000, 11) ∧
    huffman_decoder (huffman [0x40, 0, 1, 3, 0x40, 0, 1, 67, 0]) =
      some [0x40, 0, 1, 3, 0x40, 0, 7, 3, 80, 0] := by
  decide

/-- C22 (amended): for every match length `len` in `3 .. 66` (length symbols 257..276),
when the top bits of `proc_buffer` are the length code that `huffman` computes for `len`,
the static branch of `huffman_decoder` writes a record with the same length. -/
theorem static_decoder_returns_length_up_to_66 (st : DecState) (len : Nat) (old : Nat × Nat)
    (h3 : 3 ≤ len) (h66 : len ≤ 66) (hpb : st.proc_buffer < 2 ^ 32)
    (h : st.proc_buffer >>> (32 - (huffman_length_code len old).2) =
      (huffman_length_code len old).1) :
    (static_decode_symbol st).1.length = len ∧
    ∃ off_hi off_lo,
      (static_decode_symbol st).1.output = st.output ++ [0x40, off_hi, off_lo, len] := by
  have e : huffman_length_code len old = huffman_length_code len (0, 0) := by
    rw [length_code_closed_66 len old h3 h66, length_code_closed_66 len (0, 0) h3 h66]
  rw [e, Nat.shiftRight_eq_div_pow] at h
  rw [static_decode_length st len h3 h66 hpb h]
  exact ⟨rfl, _, _, rfl⟩

theorem static_decoder_returns_length_up_to_66_witness :
    3 ≤ 66 ∧ 66 ≤ 66 ∧ (0b0010100111 <<< 22 : Nat) < 2 ^ 32 ∧
    (static_decode_symbol
      { input := [], proc_buffer := 0b0010100111 <<< 22, buffer_bits_num := 32, next_word := 0
        next_word_bits := 0, done_decoding := false, done_input := true, length := 0
        output := [] }).1.length = 66 :=
  ⟨by decide, by decide, by decide,
    (static_decoder_returns_length_up_to_66
      { input := [], proc_buffer := 0b0010100111 <<< 22, buffer_bits_num := 32, next_word := 0
        next_word_bits := 0, done_decoding := false, done_input := true, length := 0
        output := [] } 66 (0, 0) (by decide) (by decide) (by decide) (by decide)).1⟩

/-- C23 (as stated, refuted): `huffman` has no branch for an offset above 4096 (distance
symbols 24..29) and keeps the code of the record before; the record with offset
`32 * 128 + 1 = 4097` comes back with offset 1. -/
theorem offset_4097_is_not_encoded :
    huffman_offset_code 4097 (7, 5) = (7, 5) ∧
    huffman_decoder (huffman [0x40, 32, 1, 3, 0]) = some [0x40, 0, 1, 3, 0] := by
  decide

/-- C23 (amended): for every offset in `1 .. 4096` (distance symbols 0..23), when the
bits of `proc_buffer` behind the `n ≤ 17` bits already taken are the offset code that
`huffman` computes for the offset, `decoder_get_offset` returns the same offset, and
`proc_bits_num` grows by the number of bits of the code. -/
theorem decoder_get_offset_inverts_offset_code (n off pb : Nat) (old : Nat × Nat)
    (hn : n ≤ 17) (h1 : 1 ≤ off) (h4096 : off ≤ 4096)
    (h : (pb >>> (32 - n - (huffman_offset_code off old).2)) %
        2 ^ (huffman_offset_code off old).2 = (huffman_offset_code off old).1) :
    decoder_get_offset n pb = (off, n + (huffman_offset_code off old).2) := by
  obtain ⟨e, _⟩ := offset_code_spec off old h1 h4096
  rw [e, Nat.shiftRight_eq_div_pow] at h
  rw [e]
  exact decoder_get_offset_any n off pb hn h1 h4096 h

theorem decoder_get_offset_inverts_offset_code_witness :
    7 ≤ 17 ∧ 1 ≤ 4096 ∧ 4096 ≤ 4096 ∧
    decoder_get_offset 7 (0b101111111111111 <<< 10) = (4096, 7 + 15) :=
  ⟨by decide, by decide, by decide,
    decoder_get_offset_inverts_offset_code 7 4096 (0b101111111111111 <<< 10) (0, 0) (by decide)
      (by decide) (by decide) (by decide)⟩

/-- C24: the symbol test of the static decoder on a 32-bit `proc_buffer`.  With `t8`,
`t7`, `t9` the top 8, 7, 9 bits: `t8` in `0x30 .. 0xBF` gives the literal `t8 - 0x30` and
takes 8 bits; `t7 = 0` is the end of the block and takes 7 bits; `t7` in `1 .. 0x17` gives
a record (a length symbol); `t9` in `0x190 .. 0x1FF` gives the literal `t9 - 0x190 + 144`
and takes 9 bits; `t8` in `0xC0 .. 0xC7` gives nothing.  Exactly one of the five cases
holds for every buffer value. -/
theorem static_symbol_test_inverts_fixed_table (st : DecState) (hpb : st.proc_buffer < 2 ^ 32) :
    (0x30 ≤ st.proc_buffer >>> 24 ∧ st.proc_buffer >>> 24 ≤ 0xBF →
      static_decode_symbol st =
        ({ st with output := st.output ++ [st.proc_buffer >>> 24 - 0x30] }, 8)) ∧
    (st.proc_buffer >>> 25 = 0 →
      static_decode_symbol st = ({ st with done_decoding := true }, 7)) ∧
    (1 ≤ st.proc_buffer >>> 25 ∧ st.proc_buffer >>> 25 ≤ 0x17 →
      ∃ len off_hi off_lo, (static_decode_symbol st).1 =
        { st with length := len, output := st.output ++ [0x40, off_hi, off_lo, len % 2 ^ 8] }) ∧
    (0x190 ≤ st.proc_buffer >>> 23 ∧ st.proc_buffer >>> 23 ≤ 0x1FF →
      static_decode_symbol st =
        ({ st with output := st.output ++ [st.proc_buffer >>> 23 - 0x190 + 144] }, 9)) ∧
    (0xC0 ≤ st.proc_buffer >>> 24 ∧ st.proc_buffer >>> 24 ≤ 0xC7 →
      static_decode_symbol st = (st, 0)) ∧
    ((0x30 ≤ st.proc_buffer >>> 24 ∧ st.proc_buffer >>> 24 ≤ 0xBF) ∨
      st.proc_buffer >>> 25 = 0 ∨
      (1 ≤ st.proc_buffer >>> 25 ∧ st.proc_buffer >>> 25 ≤ 0x17) ∨
      (0x190 ≤ st.proc_buffer >>> 23 ∧ st.proc_buffer >>> 23 ≤ 0x1FF) ∨
      (0xC0 ≤ st.proc_buffer >>> 24 ∧ st.proc_buffer >>> 24 ≤ 0xC7)) ∧
    ((0x30 ≤ st.proc_buffer >>> 24 ∧ st.proc_buffer >>> 24 ≤ 0xBF) →
      ¬ st.proc_buffer >>> 25 = 0 ∧
      ¬ (1 ≤ st.proc_buffer >>> 25 ∧ st.proc_buffer >>> 25 ≤ 0x17) ∧
      ¬ (0x190 ≤ st.proc_buffer >>> 23 ∧ st.proc_buffer >>> 23 ≤ 0x1FF) ∧
      ¬ (0xC0 ≤ st.proc_buffer >>> 24 ∧ st.proc_buffer >>> 24 ≤ 0xC7)) ∧
    (st.proc_buffer >>> 25 = 0 →
      ¬ (1 ≤ st.proc_buffer >>> 25 ∧ st.proc_buffer >>> 25 ≤ 0x17) ∧
      ¬ (0x190 ≤ st.proc_buffer >>> 23 ∧ st.proc_buffer >>> 23 ≤ 0x1FF) ∧
      ¬ (0xC0 ≤ st.proc_buffer >>> 24 ∧ st.proc_buffer >>> 24 ≤ 0xC7)) ∧
    ((1 ≤ st.proc_buffer >>> 25 ∧ st.proc_buffer >>> 25 ≤ 0x17) →
      ¬ (0x190 ≤ st.proc_buffer >>> 23 ∧ st.proc_buffer >>> 23 ≤ 0x1FF) ∧
      ¬ (0xC0 ≤ st.proc_buffer >>> 24 ∧ st.proc_buffer >>> 24 ≤ 0xC7)) ∧
    ((0x190 ≤ st.proc_buffer >>> 23 ∧ st.proc_buffer >>> 23 ≤ 0x1FF) →
      ¬ (0xC0 ≤ st.proc_buffer >>> 24 ∧ st.proc_buffer >>> 24 ≤ 0xC7)) := by
  obtain ⟨f1, f2, f3, f4, f5, f6⟩ := static_fields st.proc_buffer hpb
  simp only [Nat.shiftRight_eq_div_pow]
  refine ⟨?_, ?_, ?_, ?_, ?_, by omega, by omega, by omega, by omega, by omega⟩
  · intro h
    rw [static_decode_symbol]
    simp only [f1]
    rw [if_pos h]
  · intro h
    exact static_decode_end st hpb h
  · intro h
    rw [static_decode_symbol]
    simp only [f1, f2]
    rw [if_neg (by omega), if_neg (by omega), if_neg (by omega), if_pos ⟨by omega, h.2⟩]
    exact ⟨_, _, _, rfl⟩
  · intro h
    rw [static_decode_symbol]
    simp only [f1, f2, f6]
    rw [if_neg (by omega), if_neg (by omega), if_neg (by omega), if_neg (by omega), if_pos h,
      Nat.mod_eq_of_lt (by omega)]
  · intro h
    rw [static_decode_symbol]
    simp only [f1]
    rw [if_neg (by omega), if_pos h]

theorem static_symbol_test_inverts_fixed_table_witness :
    (0x91000000 : Nat) < 2 ^ 32 ∧
    static_decode_symbol
      { input := [], proc_buffer := 0x91000000, buffer_bits_num := 32, next_word := 0
        next_word_bits := 0, done_decoding := false, done_input := true, length := 0
        output := [] } =
      ({ input := [], proc_buffer := 0x91000000, buffer_bits_num := 32, next_word := 0
         next_word_bits := 0, done_decoding := false, done_input := true, length := 0
         output := [] ++ [0x91000000 >>> 24 - 0x30] }, 8) :=
  ⟨by decide,
    (static_symbol_test_inverts_fixed_table
      { input := [], proc_buffer := 0x91000000, buffer_bits_num := 32, next_word := 0
        next_word_bits := 0, done_decoding := false, done_input := true, length := 0
        output := [] } (by decide)).1 (by decide)⟩

/-- The word `length_and_offset` of `huffman`, shifted down, is the length code followed
by the offset code. -/
theorem length_and_offset_shift (lc ll oc ol : Nat) (hlc : lc < 2 ^ ll) (hoc : oc < 2 ^ ol)
    (hL : ll + ol ≤ 32) :
    (((lc <<< (32 - ll)) ||| (oc <<< (32 - (ll + ol)))) % 2 ^ 32) >>> (32 - (ll + ol)) =
      lc * 2 ^ ol + oc := by
  have hv : lc * 2 ^ ol + oc < 2 ^ (ll + ol) := by
    rw [Nat.pow_add]
    have h1 : (lc + 1) * 2 ^ ol ≤ 2 ^ ll * 2 ^ ol := Nat.mul_le_mul_right _ hlc
    rw [Nat.add_mul, Nat.one_mul] at h1
    omega
  apply Nat.eq_of_testBit_eq
  intro i
  rw [Nat.testBit_shiftRight]
  by_cases c : 32 - (ll + ol) + i < 32
  · rw [testBit_length_and_offset lc ll oc ol _ hoc hL c]
    simp
  · rw [testBit_ge_32 _ _ (Nat.mod_lt _ (by norm_num)) (by omega),
      testBit_false_of_lt hv (by omega)]

/-- C25: for every `len` in `3 .. 32` and every offset in `1 .. 4096`: when the top bits of
`proc_buffer` are those of the word `length_and_offset` that `huffman` builds for
`(len, offset)`, the length computation of the static decoder followed by
`decoder_get_offset` gives the record `(len, offset)`, and `proc_bits_num` becomes
`length_valid_bits_num + offset_valid_bits_num`. -/
theorem static_decoder_inverts_length_and_offset (st : DecState) (len off : Nat)
    (old1 old2 : Nat × Nat) (h3 : 3 ≤ len) (h32 : len ≤ 32) (h1 : 1 ≤ off) (h4096 : off ≤ 4096)
    (hpb : st.proc_buffer < 2 ^ 32)
    (h : st.proc_buffer >>>
        (32 - ((huffman_length_code len old1).2 + (huffman_offset_code off old2).2)) =
      ((((huffman_length_code len old1).1 <<< (32 - (huffman_length_code len old1).2)) |||
          ((huffman_offset_code off old2).1 <<<
            (32 - ((huffman_length_code len old1).2 + (huffman_offset_code off old2).2))))
        % 2 ^ 32) >>>
        (32 - ((huffman_length_code len old1).2 + (huffman_offset_code off old2).2))) :
    decoder_get_offset (huffman_length_code len old1).2 st.proc_buffer =
      (off, (huffman_length_code len old1).2 + (huffman_offset_code off old2).2) ∧
    static_decode_symbol st =
      ({ st with length := len, output := st.output ++ [0x40, off / 128, off % 128, len] },
        (huffman_length_code len old1).2 + (huffman_offset_code off old2).2) := by
  obtain ⟨a1, a2, a3, a4, _⟩ := length_code_spec len old1 h3 h32
  obtain ⟨b1, b2, b3, b4, _⟩ := offset_code_spec off old2 h1 h4096
  rw [a1, b1] at h ⊢
  rw [length_and_offset_shift _ _ _ _ a4 b4 (by omega), Nat.shiftRight_eq_div_pow] at h
  obtain ⟨r1, r2⟩ := static_decode_record st len off h3 (by omega) h1 h4096 hpb h
  refine ⟨r1, ?_⟩
  rw [r2]
  have hhi : (off >>> 7) % 2 ^ 8 = off / 128 := by
    simp only [Nat.shiftRight_eq_div_pow]
    omega
  have hlo : (off &&& 0x07F) % 2 ^ 8 = off % 128 := by
    rw [(and_low_masks _).2.2.2.2.2.2.1]
    omega
  rw [hhi, hlo]

theorem static_decoder_inverts_length_and_offset_witness :
    3 ≤ 32 ∧ 32 ≤ 32 ∧ 1 ≤ 4096 ∧ 4096 ≤ 4096 ∧ (0x20DFFF00 : Nat) < 2 ^ 32 ∧
    decoder_get_offset (huffman_length_code 32 (0, 0)).2 0x20DFFF00 =
      (4096, (huffman_length_code 32 (0, 0)).2 + (huffman_offset_code 4096 (0, 0)).2) :=
  ⟨by decide, by decide, by decide, by decide, by decide,
    (static_decoder_inverts_length_and_offset
      { input := [], proc_buffer := 0x20DFFF00, buffer_bits_num := 32, next_word := 0
        next_word_bits := 0, done_decoding := false, done_input := true, length := 0
        output := [] } 32 4096 (0, 0) (0, 0) (by decide) (by decide) (by decide) (by decide)
      (by decide) (by decide)).1⟩

/-! ## One cycle of `LZ77` (C26 .. C29) -/

theorem shl_lt_2048 (b k : Nat) (hb : b < 256) (hk : k ≤ 3) : b <<< k < 2 ^ 11 := by
  rw [Nat.shiftLeft_eq]
  interval_cases k <;> omega

/-- C26: for all bytes `b0 b1 b2 b3` in the window, the hash
`(b0 << 3) ^ (b1 << 2) ^ (b2 << 1) ^ b3` that `LZ77` uses for the lookup and for the update
of the dictionaries is below `HASH_TABLE_SIZE = 2048`, without any masking. -/
theorem hash_value_indexes_in_bounds (curr_window : Nat → Nat) (i : Nat)
    (h0 : curr_window i < 256) (h1 : curr_window (i + 1) < 256)
    (h2 : curr_window (i + 2) < 256) (h3 : curr_window (i + 3) < 256) :
    hash_value curr_window i < HASH_TABLE_SIZE ∧ HASH_TABLE_SIZE = 2048 := by
  refine ⟨?_, rfl⟩
  rw [hash_value]
  exact Nat.xor_lt_two_pow (Nat.xor_lt_two_pow (Nat.xor_lt_two_pow
    (shl_lt_2048 _ 3 h0 (by omega)) (shl_lt_2048 _ 2 h1 (by omega)))
    (shl_lt_2048 _ 1 h2 (by omega))) (by omega)

theorem hash_value_indexes_in_bounds_witness :
    (fun _ => 255 : Nat → Nat) 0 < 256 ∧ hash_value (fun _ => 255) 0 < HASH_TABLE_SIZE :=
  ⟨by decide,
    (hash_value_indexes_in_bounds (fun _ => 255) 0 (by decide) (by decide) (by decide)
      (by decide)).1⟩

/-- Loop `CHOOSE_MATCHING_STRING` over the lanes `a .. a + n - 1` keeps `Furthest`. -/
theorem CHOOSE_MATCHING_STRING_furthest (best : Nat → Nat × Nat) (ci fvp : Nat) (n a : Nat)
    (c : Choice) (ha : fvp ≤ a) (hc : Furthest best ci fvp a c) :
    Furthest best ci fvp (a + n)
      (CHOOSE_MATCHING_STRING best ci (List.range' a n) c) := by
  induction n generalizing a c with
  | zero => exact hc
  | succ n ih =>
    rw [List.range'_succ, CHOOSE_MATCHING_STRING, show a + (n + 1) = (a + 1) + n by omega]
    apply ih (a + 1) _ (by omega)
    by_cases h : (best a).2 ≥ 3 ∧ a + (best a).2 > c.temp_valid_position
    · rw [if_pos h]
      right
      refine ⟨a, ha, by omega, h.1, rfl, rfl, rfl, rfl, ?_, ?_⟩
      · intro i hi1 hi2 hi3
        by_cases e : i = a
        · rw [e]
        · rcases hc with ⟨_, _, h3⟩ | ⟨i0, _, _, _, _, _, h6, _, h8, _⟩
          · have := h3 i hi1 (by omega)
            omega
          · have := h8 i hi1 (by omega) hi3
            omega
      · intro i hi1 hi2 hi3
        rcases hc with ⟨_, _, h3⟩ | ⟨i0, _, _, _, _, _, h6, _, h8, _⟩
        · have := h3 i hi1 hi2
          omega
        · have := h8 i hi1 hi2 hi3
          omega
    · rw [if_neg h]
      rcases hc with ⟨h1, h2, h3⟩ | ⟨i0, g1, g2, g3, g4, g5, g6, g7, g8, g9⟩
      · left
        refine ⟨h1, h2, ?_⟩
        intro i hi1 hi2
        by_cases e : i = a
        · rw [e]
          by_contra hcon
          exact h ⟨by omega, by omega⟩
        · exact h3 i hi1 (by omega)
      · right
        refine ⟨i0, g1, by omega, g3, g4, g5, g6, g7, ?_, g9⟩
        intro i hi1 hi2 hi3
        by_cases e : i = a
        · rw [e] at hi3 ⊢
          by_contra hcon
          exact h ⟨hi3, by omega⟩
        · exact g8 i hi1 (by omega) hi3

/-- The choice of "3. Match Filtering" is the first lane that reaches furthest. -/
theorem match_filtering_furthest (st : LZ77State) (cw : Nat → Nat)
    (hv : st.first_valid_position - VEC ≤ VEC) :
    Furthest (bestlength cw (COPY_LOOP_MATCHING st cw) (matching_start_pos st cw))
      st.current_index (st.first_valid_position - VEC) VEC (match_filtering st cw) := by
  have h := CHOOSE_MATCHING_STRING_furthest
    (bestlength cw (COPY_LOOP_MATCHING st cw) (matching_start_pos st cw)) st.current_index
    (st.first_valid_position - VEC) (VEC - (st.first_valid_position - VEC))
    (st.first_valid_position - VEC)
    { temp_valid_position := st.first_valid_position - VEC, match_length := 0
      start_match_position := st.start_match_position, offset := st.offset }
    (Nat.le_refl _) (Or.inl ⟨rfl, rfl, fun i h1 h2 => absurd h1 (by omega)⟩)
  rw [show st.first_valid_position - VEC + (VEC - (st.first_valid_position - VEC)) = VEC by
    omega] at h
  exact h

/-- C27: in a cycle of `LZ77`, after the loop `CHOOSE_MATCHING_STRING`: if some lane `i`
in `[first_valid_position, VEC)` has `bestlength[i].length ≥ 3`, the chosen lane
(`start_match_position`) is the smallest such lane that maximises
`i + bestlength[i].length`, `match_length` is its length and `temp_valid_position` is that
maximum; otherwise `match_length = 0` and `temp_valid_position = first_valid_position`.
Here `first_valid_position` is the value after `first_valid_position -= VEC`. -/
theorem match_filtering_picks_first_furthest_lane (st : LZ77State) (cw : Nat → Nat) :
    ((∃ i, st.first_valid_position - VEC ≤ i ∧ i < VEC ∧
        3 ≤ (bestlength cw (COPY_LOOP_MATCHING st cw) (matching_start_pos st cw) i).2) →
      ∃ i0, st.first_valid_position - VEC ≤ i0 ∧ i0 < VEC ∧
        3 ≤ (bestlength cw (COPY_LOOP_MATCHING st cw) (matching_start_pos st cw) i0).2 ∧
        (∀ i, st.first_valid_position - VEC ≤ i → i < VEC →
          3 ≤ (bestlength cw (COPY_LOOP_MATCHING st cw) (matching_start_pos st cw) i).2 →
          i + (bestlength cw (COPY_LOOP_MATCHING st cw) (matching_start_pos st cw) i).2 ≤
            i0 + (bestlength cw (COPY_LOOP_MATCHING st cw) (matching_start_pos st cw) i0).2) ∧
        (∀ i, st.first_valid_position - VEC ≤ i → i < i0 →
          3 ≤ (bestlength cw (COPY_LOOP_MATCHING st cw) (matching_start_pos st cw) i).2 →
          i + (bestlength cw (COPY_LOOP_MATCHING st cw) (matching_start_pos st cw) i).2 <
            i0 + (bestlength cw (COPY_LOOP_MATCHING st cw) (matching_start_pos st cw) i0).2) ∧
        (match_filtering st cw).start_match_position = i0 ∧
        (match_filtering st cw).match_length =
          (bestlength cw (COPY_LOOP_MATCHING st cw) (matching_start_pos st cw) i0).2 ∧
        (match_filtering st cw).temp_valid_position =
          i0 + (bestlength cw (COPY_LOOP_MATCHING st cw) (matching_start_pos st cw) i0).2) ∧
    ((¬ ∃ i, st.first_valid_position - VEC ≤ i ∧ i < VEC ∧
        3 ≤ (bestlength cw (COPY_LOOP_MATCHING st cw) (matching_start_pos st cw) i).2) →
      (match_filtering st cw).match_length = 0 ∧
      (match_filtering st cw).temp_valid_position = st.first_valid_position - VEC) := by
  by_cases hv : st.first_valid_position - VEC ≤ VEC
  · have hF := match_filtering_furthest st cw hv
    constructor
    · rintro ⟨i, hi1, hi2, hi3⟩
      rcases hF with ⟨_, _, h3⟩ | ⟨i0, g1, g2, g3, g4, g5, g6, _, g8, g9⟩
      · have := h3 i hi1 hi2
        omega
      · exact ⟨i0, g1, g2, g3, g8, g9, g4, g5, g6⟩
    · intro hno
      rcases hF with ⟨h1, h2, _⟩ | ⟨i0, g1, g2, g3, _⟩
      · exact ⟨h1, h2⟩
      · exact absurd ⟨i0, g1, g2, g3⟩ hno
  · have e : match_filtering st cw =
        { temp_valid_position := st.first_valid_position - VEC, match_length := 0
          start_match_position := st.start_match_position, offset := st.offset } := by
      rw [match_filtering]
      simp only [show VEC - (st.first_valid_position - VEC) = 0 by omega, List.range'_zero,
        CHOOSE_MATCHING_STRING]
    constructor
    · rintro ⟨i, hi1, hi2, _⟩
      omega
    · intro _
      rw [e]
      exact ⟨rfl, rfl⟩

/-- C28: in a cycle of `LZ77` where the chosen match has `offset ≥ 4096`, no record is
written: the output grows by exactly the window bytes of the lanes
`first_valid_position .. VEC-1` (the value after `first_valid_position -= VEC`), in
order, and `first_valid_position` ends at `VEC` (or stays where it was beyond `VEC`). -/
theorem far_match_is_written_as_literals (st : LZ77State)
    (h : 4096 ≤ (match_filtering st (shift_and_load st.curr_window st.input)).offset) :
    (CONTROL_LOOP_body st).output =
      st.output ++
        (List.range' (st.first_valid_position - VEC)
          (VEC - (st.first_valid_position - VEC))).map
          (shift_and_load st.curr_window st.input) ∧
    (CONTROL_LOOP_body st).first_valid_position = max (st.first_valid_position - VEC) VEC := by
  have e : fill_output (shift_and_load st.curr_window st.input) st.output
      (st.first_valid_position - VEC)
      (match_filtering st (shift_and_load st.curr_window st.input)) =
      FILL_LOOP (shift_and_load st.curr_window st.input) VEC st.output
        (st.first_valid_position - VEC) := by
    rw [fill_output, if_neg]
    intro hc
    omega
  constructor
  · show (fill_output _ _ _ _).1 = _
    rw [e]
    rfl
  · show (fill_output _ _ _ _).2 = _
    rw [e]
    rfl

theorem far_match_is_written_as_literals_witness :
    4096 ≤ (match_filtering
      { input := [], curr_window := fun _ => 0x61, dict := fun _ _ _ => 0x61
        dict_string_start_pos := fun _ _ => 100, comp_window := fun _ _ _ => 0
        compare_window_string_start_pos := fun _ _ => 0, start_match_position := 0, offset := 0
        first_valid_position := 4, current_index := 8000, output := [] }
      (shift_and_load (fun _ => 0x61) [])).offset ∧
    (CONTROL_LOOP_body
      { input := [], curr_window := fun _ => 0x61, dict := fun _ _ _ => 0x61
        dict_string_start_pos := fun _ _ => 100, comp_window := fun _ _ _ => 0
        compare_window_string_start_pos := fun _ _ => 0, start_match_position := 0, offset := 0
        first_valid_position := 4, current_index := 8000, output := [] }).output =
      [] ++ (List.range' (4 - VEC) (VEC - (4 - VEC))).map (shift_and_load (fun _ => 0x61) []) :=
  ⟨by decide,
    (far_match_is_written_as_literals
      { input := [], curr_window := fun _ => 0x61, dict := fun _ _ _ => 0x61
        dict_string_start_pos := fun _ _ => 100, comp_window := fun _ _ _ => 0
        compare_window_string_start_pos := fun _ _ => 0, start_match_position := 0, offset := 0
        first_valid_position := 4, current_index := 8000, output := [] } (by decide)).1⟩

theorem map_range_eq_take (W : Nat → Nat) (P : List Nat) (c : Nat) (hc : c ≤ P.length)
    (hW : ∀ p, p < P.length → W p = P.getD p 0) :
    (List.range c).map W = P.take c := by
  symm
  apply list_eq_map_range W (P.take c) c (by rw [List.length_take]; omega)
  intro i hi
  rw [hW i (by omega)]
  simp only [List.getD_eq_getElem?_getD, List.getElem?_take, if_pos hi]

/-- C29 (as stated, refuted): for the plaintext `abcdefgh`, at the end of the first cycle
(after `current_index += VEC`) `current_index = 4` and `first_valid_position = 4`; the
tokens written so far are the four literals `abcd`, which expand to the prefix of length
`4 = current_index + first_valid_position - VEC`, not to the one of length
`min(8, current_index + first_valid_position) = 8`. -/
theorem first_cycle_covers_four_bytes :
    (CONTROL_LOOP 1 (LZ77_init [0x61626364, 0x65666768, 0])).current_index = 4 ∧
    (CONTROL_LOOP 1 (LZ77_init [0x61626364, 0x65666768, 0])).first_valid_position = 4 ∧
    (CONTROL_LOOP 1 (LZ77_init [0x61626364, 0x65666768, 0])).output =
      [0x61, 0x62, 0x63, 0x64] ∧
    LZ77_MAIN_LOOP 6 ([0x61, 0x62, 0x63, 0x64] ++ [0]) [] = [0x61, 0x62, 0x63, 0x64] ∧
    ([0x61, 0x62, 0x63, 0x64, 0x65, 0x66, 0x67, 0x68] : List Nat).take (min 8 (4 + 4)) ≠
      [0x61, 0x62, 0x63, 0x64] := by
  decide

/-- C29 (amended): loop invariant of `LZ77` for a plaintext `P` without `0x00` and `0x40`
byte, delivered NUL-terminated: after each of the first `k` cycles, `4 * k ≤ n`,
`first_valid_position ≥ VEC`, `current_index = VEC * k`, and the bytes written so far are
tokens that cover, in order and each byte once, the prefix of `P` of length
`current_index + first_valid_position - VEC ≤ n`; the decoder loop expands them into
exactly this prefix. -/
theorem LZ77_cycle_covers_plaintext_start (ws P : List Nat) (k : Nat)
    (hP : ∀ b, b ∈ P → b ≠ 0 ∧ b ≠ 0x40)
    (hdel : (unpack_words ws).take (P.length + 1) = P ++ [0]) (hk : 4 * k ≤ P.length) :
    VEC ≤ (CONTROL_LOOP k (LZ77_init ws)).first_valid_position ∧
    (CONTROL_LOOP k (LZ77_init ws)).current_index = VEC * k ∧
    (CONTROL_LOOP k (LZ77_init ws)).current_index +
      (CONTROL_LOOP k (LZ77_init ws)).first_valid_position - VEC ≤ P.length ∧
    (∀ p, p < P.length → stream_byte ws p = P.getD p 0) ∧
    (∃ ts, (CONTROL_LOOP k (LZ77_init ws)).output = token_bytes ts ∧
      tokens_cover (stream_byte ws) P.length 0 ts
        ((CONTROL_LOOP k (LZ77_init ws)).current_index +
          (CONTROL_LOOP k (LZ77_init ws)).first_valid_position - VEC)) ∧
    LZ77_MAIN_LOOP ((CONTROL_LOOP k (LZ77_init ws)).output.length + 2)
        ((CONTROL_LOOP k (LZ77_init ws)).output ++ [0]) [] =
      P.take ((CONTROL_LOOP k (LZ77_init ws)).current_index +
        (CONTROL_LOOP k (LZ77_init ws)).first_valid_position - VEC) := by
  obtain ⟨hWP, hn⟩ := stream_byte_of_delivery ws P hdel
  have hW0 : ∀ p, p < P.length → stream_byte ws p ≠ 0 ∧ stream_byte ws p ≠ 0x40 := by
    intro p hp
    rw [hWP p hp]
    exact hP _ (getD_mem_of_lt P p hp)
  have inv := LZ77Inv_loop ws P.length (fun p hp => (hW0 p hp).1) hn k 0 (LZ77_init ws)
    (by omega) (LZ77Inv_init ws P.length)
  rw [Nat.zero_add] at inv
  obtain ⟨ts, ho, hcov⟩ := inv.tokens
  have hidx : (CONTROL_LOOP k (LZ77_init ws)).current_index = VEC * k := inv.index
  have hc : (CONTROL_LOOP k (LZ77_init ws)).current_index +
      (CONTROL_LOOP k (LZ77_init ws)).first_valid_position - VEC =
      4 * k + (CONTROL_LOOP k (LZ77_init ws)).first_valid_position - 4 := by
    rw [hidx]
    rfl
  rw [hc]
  refine ⟨inv.valid, hidx, inv.covered, hWP, ⟨ts, ho, hcov⟩, ?_⟩
  have h := LZ77_MAIN_LOOP_tokens (stream_byte ws) P.length hW0 ts [] 0 _
    ((CONTROL_LOOP k (LZ77_init ws)).output.length + 2)
    (by rw [ho]; have := length_le_token_bytes ts; omega) hcov
  rw [ho]
  rw [ho] at h
  rw [show (List.range 0).map (stream_byte ws) = [] from rfl] at h
  rw [h]
  exact map_range_eq_take _ P _ inv.covered hWP

theorem LZ77_cycle_covers_plaintext_start_witness :
    (∀ b, b ∈ [0x61, 0x62, 0x63, 0x64, 0x65, 0x66, 0x67, 0x68] → b ≠ 0 ∧ b ≠ 0x40) ∧
    (unpack_words [0x61626364, 0x65666768, 0]).take
        ([0x61, 0x62, 0x63, 0x64, 0x65, 0x66, 0x67, 0x68].length + 1) =
      [0x61, 0x62, 0x63, 0x64, 0x65, 0x66, 0x67, 0x68] ++ [0] ∧
    4 * 2 ≤ [0x61, 0x62, 0x63, 0x64, 0x65, 0x66, 0x67, 0x68].length ∧
    VEC ≤ (CONTROL_LOOP 2 (LZ77_init [0x61626364, 0x65666768, 0])).first_valid_position :=
  ⟨by decide, by decide, by decide,
    (LZ77_cycle_covers_plaintext_start [0x61626364, 0x65666768, 0]
      [0x61, 0x62, 0x63, 0x64, 0x65, 0x66, 0x67, 0x68] 2 (by decide) (by decide)
      (by decide)).1⟩

/-! ## The repeated 32-byte string (C30) -/

theorem hash_value_congr (f g : Nat → Nat) (i j : Nat)
    (h : ∀ d, d < 4 → f (i + d) = g (j + d)) : hash_value f i = hash_value g j := by
  have h0 := h 0 (by omega)
  rw [Nat.add_zero, Nat.add_zero] at h0
  rw [hash_value, hash_value, h0, h 1 (by omega), h 2 (by omega), h 3 (by omega)]

theorem UPDATE_BESTLENGTH_ge (curr_window : Nat → Nat) (comp_window : Nat → Nat → Nat → Nat)
    (cpos : Nat → Nat → Nat) (m : Nat) (ts : List Nat) (best : Nat × Nat) :
    best.2 ≤ (UPDATE_BESTLENGTH curr_window comp_window cpos m ts best).2 ∧
    ∀ t, t ∈ ts → COMPARE_EACH_CHAR curr_window (comp_window t m) m LEN 0 ≤
      (UPDATE_BESTLENGTH curr_window comp_window cpos m ts best).2 := by
  induction ts generalizing best with
  | nil => exact ⟨Nat.le_refl _, fun t ht => absurd ht (List.not_mem_nil t)⟩
  | cons i ts ih =>
    rw [UPDATE_BESTLENGTH]
    obtain ⟨h1, h2⟩ := ih (if COMPARE_EACH_CHAR curr_window (comp_window i m) m LEN 0 > best.2
      then (cpos i m, COMPARE_EACH_CHAR curr_window (comp_window i m) m LEN 0) else best)
    have h3 : best.2 ≤ (if COMPARE_EACH_CHAR curr_window (comp_window i m) m LEN 0 > best.2
        then (cpos i m, COMPARE_EACH_CHAR curr_window (comp_window i m) m LEN 0) else best).2 ∧
        COMPARE_EACH_CHAR curr_window (comp_window i m) m LEN 0 ≤
        (if COMPARE_EACH_CHAR curr_window (comp_window i m) m LEN 0 > best.2
        then (cpos i m, COMPARE_EACH_CHAR curr_window (comp_window i m) m LEN 0) else best).2 := by
      split_ifs with hc
      · simp only
        omega
      · omega
    refine ⟨Nat.le_trans h3.1 h1, ?_⟩
    intro t ht
    rcases List.mem_cons.mp ht with rfl | ht2
    · exact Nat.le_trans h3.2 h1
    · exact h2 t ht2

/-- The best length of a lane is at least what the comparison with any dictionary
gives. -/
theorem bestlength_ge (curr_window : Nat → Nat) (comp_window : Nat → Nat → Nat → Nat)
    (cpos : Nat → Nat → Nat) (m t : Nat) (ht : t < NUM_DICT) :
    COMPARE_EACH_CHAR curr_window (comp_window t m) m LEN 0 ≤
      (bestlength curr_window comp_window cpos m).2 := by
  rw [bestlength]
  exact (UPDATE_BESTLENGTH_ge curr_window comp_window cpos m (List.range NUM_DICT) (0, 0)).2 t
    (List.mem_range.mpr ht)

/-- A cycle that starts with `first_valid_position ≥ 2 * VEC` has no lane to look at: it
writes nothing and only moves `first_valid_position` down by `VEC`. -/
theorem CONTROL_LOOP_body_idle (st : LZ77State) (h : 8 ≤ st.first_valid_position) :
    (CONTROL_LOOP_body st).output = st.output ∧
    (CONTROL_LOOP_body st).first_valid_position = st.first_valid_position - 4 := by
  have e : match_filtering st (shift_and_load st.curr_window st.input) =
      { temp_valid_position := st.first_valid_position - VEC, match_length := 0
        start_match_position := st.start_match_position, offset := st.offset } := by
    rw [match_filtering]
    simp only [show VEC - (st.first_valid_position - VEC) = 0 by simp only [VEC]; omega,
      List.range'_zero, CHOOSE_MATCHING_STRING]
  have e2 : fill_output (shift_and_load st.curr_window st.input) st.output
      (st.first_valid_position - VEC)
      (match_filtering st (shift_and_load st.curr_window st.input)) =
      (st.output, st.first_valid_position - 4) := by
    rw [e, fill_output, if_neg (by simp), FILL_LOOP]
    simp only [VEC]
    rw [show 4 - (st.first_valid_position - 4) = 0 by omega, List.range'_zero, List.map_nil,
      List.append_nil, Nat.max_eq_left (by omega)]
  constructor
  · show (fill_output _ _ _ _).1 = _
    rw [e2]
  · show (fill_output _ _ _ _).2 = _
    rw [e2]

theorem CONTROL_LOOP_idle (m : Nat) (st : LZ77State) (h : 4 * m + 4 ≤ st.first_valid_position) :
    (CONTROL_LOOP m st).output = st.output ∧
    (CONTROL_LOOP m st).first_valid_position = st.first_valid_position - 4 * m := by
  induction m generalizing st with
  | zero => exact ⟨rfl, rfl⟩
  | succ m ih =>
    obtain ⟨h1, h2⟩ := CONTROL_LOOP_body_idle st (by omega)
    obtain ⟨h3, h4⟩ := ih (CONTROL_LOOP_body st) (by omega)
    rw [CONTROL_LOOP, h3, h4, h1, h2]
    exact ⟨rfl, by omega⟩

theorem map_range_four (W : Nat → Nat) (a : Nat) :
    (List.range (a + 4)).map W = (List.range a).map W ++ [W a, W (a + 1), W (a + 2), W (a + 3)] := by
  simp [List.range_succ]

/-- A cycle of the first 32 bytes: no 3-byte substring that starts there occurred before,
so the four lanes are written as literals; and the slot of dictionary 1 that holds the
string at position 1 is not written again. -/
theorem boundary_step (ws : List Nat) (k : Nat) (st : LZ77State)
    (hW : ∀ p, p < 65 → stream_byte ws p ≠ 0) (hn : stream_byte ws 65 = 0)
    (H1 : ∀ i j, i < j → j ≤ 32 →
      ¬ (stream_byte ws i = stream_byte ws j ∧ stream_byte ws (i + 1) = stream_byte ws (j + 1) ∧
        stream_byte ws (i + 2) = stream_byte ws (j + 2)))
    (H2 : ∀ q, 1 ≤ q → q ≤ 7 →
      hash_value (stream_byte ws) (4 * q + 1) ≠ hash_value (stream_byte ws) 1)
    (hk : k < 8) (inv : LZ77Inv (stream_byte ws) 65 ws k st)
    (hf : st.first_valid_position = 4)
    (ho : st.output = (List.range (4 * k)).map (stream_byte ws))
    (hd : 1 ≤ k → st.dict_string_start_pos 1 (hash_value (stream_byte ws) 1) = 1) :
    LZ77Inv (stream_byte ws) 65 ws (k + 1) (CONTROL_LOOP_body st) ∧
    (CONTROL_LOOP_body st).first_valid_position = 4 ∧
    (CONTROL_LOOP_body st).output = (List.range (4 * (k + 1))).map (stream_byte ws) ∧
    (CONTROL_LOOP_body st).dict_string_start_pos 1 (hash_value (stream_byte ws) 1) = 1 := by
  have hcw := shift_and_load_window ws k st.curr_window inv.window
  rw [← inv.input] at hcw
  have hcomp := comp_after_matching (stream_byte ws) 65 ws k st inv
    (shift_and_load st.curr_window st.input)
  have hchosen := realChosen_of_chosen (stream_byte ws) 65 (4 * k) (st.first_valid_position - VEC)
    (shift_and_load st.curr_window st.input)
    (COPY_LOOP_MATCHING st (shift_and_load st.curr_window st.input))
    (matching_start_pos st (shift_and_load st.curr_window st.input))
    (match_filtering st (shift_and_load st.curr_window st.input)) hW hn hcw hcomp (by omega)
    (by
      have := match_filtering_spec st (shift_and_load st.curr_window st.input)
      rw [inv.index] at this
      exact this)
  have hml : (match_filtering st (shift_and_load st.curr_window st.input)).match_length = 0 := by
    rcases hchosen with ⟨h1, _⟩ | ⟨i0, s, _, g2, g3, _, _, _, _, g8, _, g10⟩
    · exact h1
    · exfalso
      have a0 := g10 0 (by omega)
      have a1 := g10 1 (by omega)
      have a2 := g10 2 (by omega)
      rw [Nat.add_zero, Nat.add_zero] at a0
      exact H1 s (4 * k + i0) (by omega) (by omega)
        ⟨a0.symm, a1.symm, a2.symm⟩
  have e2 : fill_output (shift_and_load st.curr_window st.input) st.output
      (st.first_valid_position - VEC)
      (match_filtering st (shift_and_load st.curr_window st.input)) =
      (st.output ++ [stream_byte ws (4 * k), stream_byte ws (4 * k + 1),
        stream_byte ws (4 * k + 2), stream_byte ws (4 * k + 3)], 4) := by
    rw [fill_output, if_neg (by rw [hml]; simp), FILL_LOOP, hf]
    simp only [VEC, Nat.sub_self, Nat.sub_zero]
    have e : List.range' 0 4 = [0, 1, 2, 3] := by decide
    rw [e]
    simp only [List.map_cons, List.map_nil]
    rw [hcw 0 (by omega), hcw 1 (by omega), hcw 2 (by omega), hcw 3 (by omega)]
    rfl
  refine ⟨LZ77Inv_step ws 65 k st hW hn (by omega) inv, ?_, ?_, ?_⟩
  · show (fill_output _ _ _ _).2 = _
    rw [e2]
  · show (fill_output _ _ _ _).1 = _
    rw [e2, ho, show 4 * (k + 1) = 4 * k + 4 by omega, map_range_four]
  · show UPDATE_DICT st.dict_string_start_pos (shift_and_load st.curr_window st.input)
      st.current_index 1 (hash_value (stream_byte ws) 1) = 1
    have hh : hash_value (shift_and_load st.curr_window st.input) 1 =
        hash_value (stream_byte ws) (4 * k + 1) := by
      apply hash_value_congr
      intro d hd4
      rw [hcw (1 + d) (by omega)]
      congr 1
      omega
    rw [UPDATE_DICT, hh, inv.index]
    by_cases hk0 : k = 0
    · rw [hk0, if_pos ⟨by decide, rfl⟩]
    · rw [if_neg, hd (by omega)]
      intro hc
      exact H2 k (by omega) (by omega) hc.2.symm

theorem boundary_phase1 (ws : List Nat)
    (hW : ∀ p, p < 65 → stream_byte ws p ≠ 0) (hn : stream_byte ws 65 = 0)
    (H1 : ∀ i j, i < j → j ≤ 32 →
      ¬ (stream_byte ws i = stream_byte ws j ∧ stream_byte ws (i + 1) = stream_byte ws (j + 1) ∧
        stream_byte ws (i + 2) = stream_byte ws (j + 2)))
    (H2 : ∀ q, 1 ≤ q → q ≤ 7 →
      hash_value (stream_byte ws) (4 * q + 1) ≠ hash_value (stream_byte ws) 1)
    (m : Nat) : ∀ (k : Nat) (st : LZ77State), k + m ≤ 8 →
      LZ77Inv (stream_byte ws) 65 ws k st → st.first_valid_position = 4 →
      st.output = (List.range (4 * k)).map (stream_byte ws) →
      (1 ≤ k → st.dict_string_start_pos 1 (hash_value (stream_byte ws) 1) = 1) →
      LZ77Inv (stream_byte ws) 65 ws (k + m) (CONTROL_LOOP m st) ∧
      (CONTROL_LOOP m st).first_valid_position = 4 ∧
      (CONTROL_LOOP m st).output = (List.range (4 * (k + m))).map (stream_byte ws) ∧
      (1 ≤ k + m →
        (CONTROL_LOOP m st).dict_string_start_pos 1 (hash_value (stream_byte ws) 1) = 1) := by
  induction m with
  | zero => exact fun k st _ inv hf ho hd => ⟨inv, hf, ho, hd⟩
  | succ m ih =>
    intro k st hk inv hf ho hd
    obtain ⟨s1, s2, s3, s4⟩ := boundary_step ws k st hW hn H1 H2 (by omega) inv hf ho hd
    have := ih (k + 1) (CONTROL_LOOP_body st) (by omega) s1 s2 s3 (fun _ => s4)
    rw [show k + 1 + m = k + (m + 1) by omega] at this
    exact this

/-- The four lanes of the cycle that meets the second copy (window at position 32):
lane 0 has no match, lane 1 matches the first copy over all 32 bytes, the lanes 2 and 3
cannot reach further. -/
theorem boundary_lanes (W : Nat → Nat) (cw : Nat → Nat) (comp : Nat → Nat → Nat → Nat)
    (cpos : Nat → Nat → Nat)
    (hW : ∀ p, p < 65 → W p ≠ 0) (hn : W 65 = 0)
    (H1 : ∀ i j, i < j → j ≤ 32 →
      ¬ (W i = W j ∧ W (i + 1) = W (j + 1) ∧ W (i + 2) = W (j + 2)))
    (Hrep : ∀ j, j < 32 → W (33 + j) = W (1 + j))
    (hcw : ∀ i, i < 36 → cw i = W (32 + i))
    (hcomp : ∀ t i, (∀ j, j < 32 → comp t i j = 0) ∨
      (cpos t i < 32 ∧ ∀ j, j < 32 → comp t i j = W (cpos t i + j)))
    (h11 : ∀ j, j < 32 → comp 1 1 j = W (1 + j)) :
    (bestlength cw comp cpos 0).2 < 3 ∧ bestlength cw comp cpos 1 = (1, 32) ∧
    2 + (bestlength cw comp cpos 2).2 ≤ 33 ∧ 3 + (bestlength cw comp cpos 3).2 ≤ 33 := by
  have real := fun m hm hq hL =>
    bestlength_real W 65 32 cw comp cpos m hW hn hcw hcomp hm hq hL
  refine ⟨?_, ?_, ?_, ?_⟩
  · by_contra hc
    obtain ⟨r1, _, _, r4⟩ := real 0 (by omega) (by omega) (by omega)
    have a0 := r4 0 (by omega)
    have a1 := r4 1 (by omega)
    have a2 := r4 2 (by omega)
    rw [Nat.add_zero, Nat.add_zero] at a0
    exact H1 _ 32 r1 (by omega) ⟨a0.symm, a1.symm, a2.symm⟩
  · have hlen : COMPARE_EACH_CHAR cw (comp 1 1) 1 LEN 0 = 32 := by
      obtain ⟨c1, _, c3⟩ := COMPARE_EACH_CHAR_spec cw (comp 1 1) 1 LEN 0
      by_contra hne
      have hlt : COMPARE_EACH_CHAR cw (comp 1 1) 1 LEN 0 < 32 := by
        have : COMPARE_EACH_CHAR cw (comp 1 1) 1 LEN 0 ≤ 32 := c1
        omega
      apply c3 hlt
      rw [Nat.zero_add, h11 _ hlt, hcw _ (by omega), ← Hrep _ hlt]
      congr 1
      omega
    have hge := bestlength_ge cw comp cpos 1 1 (by decide)
    rw [hlen] at hge
    obtain ⟨r1, r2, _, r4⟩ := real 1 (by omega) (by omega) (by omega)
    have e2 : (bestlength cw comp cpos 1).2 = 32 := by omega
    have b0 := r4 0 (by omega)
    have b1 := r4 1 (by omega)
    have b2 := r4 2 (by omega)
    rw [show 32 + 1 + 0 = 33 + 0 by omega, Hrep 0 (by omega)] at b0
    rw [show 32 + 1 + 1 = 33 + 1 by omega, Hrep 1 (by omega)] at b1
    rw [show 32 + 1 + 2 = 33 + 2 by omega, Hrep 2 (by omega)] at b2
    rw [Nat.add_zero] at b0
    have e1 : (bestlength cw comp cpos 1).1 = 1 := by
      by_contra hne
      rcases Nat.lt_or_gt_of_ne hne with hlt | hgt
      · have e0 : (bestlength cw comp cpos 1).1 = 0 := by omega
        rw [e0] at b0 b1 b2
        exact H1 0 1 (by omega) (by omega) ⟨b0.symm, b1.symm, b2.symm⟩
      · exact H1 1 _ hgt (by omega) ⟨b0, b1, b2⟩
    exact Prod.ext e1 e2
  · by_cases h : 1 ≤ (bestlength cw comp cpos 2).2
    · have := (real 2 (by omega) (by omega) h).2.2.1
      omega
    · omega
  · by_cases h : 1 ≤ (bestlength cw comp cpos 3).2
    · have := (real 3 (by omega) (by omega) h).2.2.1
      omega
    · omega

/-- With these four lanes, `CHOOSE_MATCHING_STRING` takes lane 1: length 32, offset 32. -/
theorem boundary_choice (best : Nat → Nat × Nat) (c : Choice)
    (hF : Furthest best 32 0 4 c) (h0 : (best 0).2 < 3) (h1 : best 1 = (1, 32))
    (h2 : 2 + (best 2).2 ≤ 33) (h3 : 3 + (best 3).2 ≤ 33) :
    c.start_match_position = 1 ∧ c.match_length = 32 ∧ c.temp_valid_position = 33 ∧
    c.offset = 32 := by
  have h12 : (best 1).2 = 32 := by rw [h1]
  rcases hF with ⟨_, _, g⟩ | ⟨i0, _, g2, g3, g4, g5, g6, g7, g8, g9⟩
  · have := g 1 (by omega) (by omega)
    omega
  · have a := g8 1 (by omega) (by omega) (by omega)
    have e : i0 = 1 := by
      by_contra hne
      have i0gt : 1 < i0 := by
        rcases Nat.lt_or_gt_of_ne hne with hlt | hgt
        · have : i0 = 0 := by omega
          rw [this] at g3
          omega
        · exact hgt
      have b := g9 1 (by omega) i0gt (by omega)
      have : i0 = 2 ∨ i0 = 3 := by omega
      rcases this with rfl | rfl <;> omega
    rw [e] at g4 g5 g6 g7
    rw [h1] at g5 g6 g7
    refine ⟨g4, g5, g6, ?_⟩
    rw [g7]
    rfl

/-- The cycle that meets the second copy writes the literal of lane 0 and the record
`(offset 32, length 32)`. -/
theorem boundary_match (ws : List Nat) (st : LZ77State)
    (hW : ∀ p, p < 65 → stream_byte ws p ≠ 0) (hn : stream_byte ws 65 = 0)
    (H1 : ∀ i j, i < j → j ≤ 32 →
      ¬ (stream_byte ws i = stream_byte ws j ∧ stream_byte ws (i + 1) = stream_byte ws (j + 1) ∧
        stream_byte ws (i + 2) = stream_byte ws (j + 2)))
    (Hrep : ∀ j, j < 32 → stream_byte ws (33 + j) = stream_byte ws (1 + j))
    (inv : LZ77Inv (stream_byte ws) 65 ws 8 st) (hf : st.first_valid_position = 4)
    (ho : st.output = (List.range 32).map (stream_byte ws))
    (hd : st.dict_string_start_pos 1 (hash_value (stream_byte ws) 1) = 1) :
    (CONTROL_LOOP_body st).output =
      (List.range 33).map (stream_byte ws) ++ [0x40, 0, 32, 32] ∧
    (CONTROL_LOOP_body st).first_valid_position = 33 := by
  have hcw : ∀ i, i < 36 →
      shift_and_load st.curr_window st.input i = stream_byte ws (32 + i) := by
    have h := shift_and_load_window ws 8 st.curr_window inv.window
    rw [← inv.input] at h
    exact h
  have hcomp : ∀ t i,
      (∀ j, j < 32 → COPY_LOOP_MATCHING st (shift_and_load st.curr_window st.input) t i j = 0) ∨
      (matching_start_pos st (shift_and_load st.curr_window st.input) t i < 32 ∧
        ∀ j, j < 32 → COPY_LOOP_MATCHING st (shift_and_load st.curr_window st.input) t i j =
          stream_byte ws (matching_start_pos st (shift_and_load st.curr_window st.input) t i + j)) :=
    comp_after_matching (stream_byte ws) 65 ws 8 st inv (shift_and_load st.curr_window st.input)
  have hh : hash_value (shift_and_load st.curr_window st.input) 1 =
      hash_value (stream_byte ws) 1 := by
    apply hash_value_congr
    intro d hd4
    rw [hcw (1 + d) (by omega), ← Hrep d (by omega)]
    congr 1
    omega
  have hfound : found st.dict_string_start_pos (shift_and_load st.curr_window st.input) 1 1 := by
    rw [found, hh, hd]
    decide
  have h11 : ∀ j, j < 32 →
      COPY_LOOP_MATCHING st (shift_and_load st.curr_window st.input) 1 1 j =
        stream_byte ws (1 + j) := by
    intro j hj
    rw [COPY_LOOP_MATCHING]
    rw [if_pos ⟨hfound, hj⟩, hh, (inv.dict 1 _ (by rw [hd]; decide)).2 j hj, hd]
  obtain ⟨l0, l1, l2, l3⟩ := boundary_lanes (stream_byte ws)
    (shift_and_load st.curr_window st.input)
    (COPY_LOOP_MATCHING st (shift_and_load st.curr_window st.input))
    (matching_start_pos st (shift_and_load st.curr_window st.input)) hW hn H1 Hrep hcw hcomp h11
  have hF := match_filtering_furthest st (shift_and_load st.curr_window st.input)
    (by rw [hf]; decide)
  rw [inv.index, hf] at hF
  obtain ⟨c1, c2, c3, c4⟩ := boundary_choice _ _ hF l0 l1 l2 l3
  have e2 : fill_output (shift_and_load st.curr_window st.input) st.output
      (st.first_valid_position - VEC)
      (match_filtering st (shift_and_load st.curr_window st.input)) =
      (st.output ++ [stream_byte ws 32] ++ [0x40, 0, 32, 32], 33) := by
    rw [fill_output, if_pos ⟨by omega, by omega⟩]
    simp only [FILL_LOOP, c1, c2, c3, c4, hf, VEC]
    have e : List.range' (4 - 4) (1 - (4 - 4)) = [0] := by decide
    have e3 : List.range' 33 (4 - 33) = [] := by decide
    rw [e, e3]
    simp only [List.map_cons, List.map_nil, List.append_nil]
    rw [hcw 0 (by omega)]
    rfl
  constructor
  · show (fill_output _ _ _ _).1 = _
    rw [e2, ho]
    simp [List.range_succ]
  · show (fill_output _ _ _ _).2 = _
    rw [e2]

/-- The token stream of `LZ77` with `size = 64` for a stream of 65 non-zero bytes: one
byte, 32 bytes in which (with the two bytes behind them) no three bytes occur twice, and
the same 32 bytes again, when the slot of dictionary 1 for the first four of them is not
taken by a later string of lane 1. -/
theorem LZ77_boundary_stream (ws : List Nat)
    (hW : ∀ p, p < 65 → stream_byte ws p ≠ 0) (hn : stream_byte ws 65 = 0)
    (H1 : ∀ i j, i < j → j ≤ 32 →
      ¬ (stream_byte ws i = stream_byte ws j ∧ stream_byte ws (i + 1) = stream_byte ws (j + 1) ∧
        stream_byte ws (i + 2) = stream_byte ws (j + 2)))
    (H2 : ∀ q, 1 ≤ q → q ≤ 7 →
      hash_value (stream_byte ws) (4 * q + 1) ≠ hash_value (stream_byte ws) 1)
    (Hrep : ∀ j, j < 32 → stream_byte ws (33 + j) = stream_byte ws (1 + j)) :
    LZ77 ws 64 = (List.range 33).map (stream_byte ws) ++ [0x40, 0, 32, 32] ++ [0] := by
  obtain ⟨p1, p2, p3, p4⟩ := boundary_phase1 ws hW hn H1 H2 8 0 (LZ77_init ws) (by omega)
    (LZ77Inv_init ws 65) rfl rfl (fun h => absurd h (by omega))
  rw [Nat.zero_add] at p1 p3 p4
  obtain ⟨m1, m2⟩ := boundary_match ws (CONTROL_LOOP 8 (LZ77_init ws)) hW hn H1 Hrep p1 p2 p3
    (p4 (by omega))
  obtain ⟨i1, i2⟩ := CONTROL_LOOP_idle 7 (CONTROL_LOOP_body (CONTROL_LOOP 8 (LZ77_init ws)))
    (by rw [m2]; decide)
  have e16 : CONTROL_LOOP 16 (LZ77_init ws) =
      CONTROL_LOOP 7 (CONTROL_LOOP_body (CONTROL_LOOP 8 (LZ77_init ws))) := by
    rw [show 16 = 8 + (7 + 1) from rfl, CONTROL_LOOP_add, CONTROL_LOOP]
  have inv16 := LZ77Inv_loop ws 65 hW hn 16 0 (LZ77_init ws) (by omega) (LZ77Inv_init ws 65)
  rw [Nat.zero_add] at inv16
  have hw5 : (CONTROL_LOOP 16 (LZ77_init ws)).curr_window 5 = 0 := by
    rw [inv16.window 5 (by omega) (by omega)]
    exact hn
  rw [← e16] at i1 i2
  rw [m1] at i1
  rw [m2] at i2
  have hdiv : 64 / VEC = 16 := by decide
  rw [LZ77]
  simp only [hdiv]
  rw [i2, i1, show VEC + LEN - (33 - 4 * 7) = 30 + 1 by decide, FILL_LOOP_REMAINING_BYTES,
    show 33 - 4 * 7 = 5 by decide, if_neg (by rw [hw5]; simp)]

theorem getD_text_first (x : Nat) (S : List Nat) (j : Nat) (hj : j < S.length) :
    (x :: (S ++ S)).getD (1 + j) 0 = S.getD j 0 := by
  rw [Nat.add_comm, List.getD_cons_succ, List.getD_append _ _ _ _ hj]

theorem getD_text_second (x : Nat) (S : List Nat) (j : Nat) :
    (x :: (S ++ S)).getD (1 + S.length + j) 0 = S.getD j 0 := by
  rw [show 1 + S.length + j = (S.length + j) + 1 by omega, List.getD_cons_succ,
    List.getD_append_right _ _ _ _ (by omega), Nat.add_sub_cancel_left]

set_option maxRecDepth 100000 in
/-- C30 (as stated, refuted): for `'X'`, the 32 bytes `1 .. 32` and the same 32 bytes
again, the record that `LZ77` writes has the offset `0 * 128 + 32 = 32`, the distance
between the two copies, not 33.  And the conditions on `S` do not fix the shape of the
output: with `S = 1 2 3 4 1 2 5 8 9 .. 32` the strings `1 2 3 4` and `1 2 5 8` have the same
hash, the slot of the first is overwritten, and `LZ77` writes 34 literals and a record of
length 31; with `S = 1 .. 10 31 32 1 2 15 .. 32` the end of `S` followed by its beginning
repeats `31 32 1 2`, and `LZ77` writes two records. -/
theorem repeated_string_is_found_at_offset_32 :
    LZ77 (pack_bytes (0x58 :: (List.range' 1 32 ++ List.range' 1 32) ++ [0])) 64 =
      0x58 :: List.range' 1 32 ++ [0x40, 0, 32, 32] ++ [0] ∧
    LZ77 (pack_bytes (0x58 :: (([1, 2, 3, 4, 1, 2, 5, 8] ++ List.range' 9 24) ++
        ([1, 2, 3, 4, 1, 2, 5, 8] ++ List.range' 9 24)) ++ [0])) 64 =
      0x58 :: ([1, 2, 3, 4, 1, 2, 5, 8] ++ List.range' 9 24) ++ [1] ++ [0x40, 0, 32, 31] ++ [0] ∧
    LZ77 (pack_bytes (0x58 :: (([1, 2, 3, 4, 5, 6, 7, 8, 9, 10, 31, 32, 1, 2] ++
        List.range' 15 18) ++ ([1, 2, 3, 4, 5, 6, 7, 8, 9, 10, 31, 32, 1, 2] ++
        List.range' 15 18)) ++ [0])) 64 =
      0x58 :: ([1, 2, 3, 4, 5, 6, 7, 8, 9, 10, 31, 32, 1, 2] ++ List.range' 15 16) ++
        [0x40, 0, 20, 4] ++ [0x40, 0, 32, 30] ++ [0] :=
  ⟨by decide, by decide, by decide⟩

/-- C30 (amended): for the plaintext made of a byte `x`, a 32-byte string `S` and `S`
again (no `0x00` byte, NUL-terminated, `size = 64`), when no 3-byte substring occurs
twice in `x S` followed by the first two bytes of `S`, and the hash of `S[0..3]` differs
from the hashes of `S[4..7]`, `S[8..11]`, ..., `S[28..31]` (the later strings of the same
lane), `LZ77` writes the 33 bytes `x S` as literals followed by exactly one record, with
`len = 32` and `offset = 0 * 128 + 32 = 32`, and the terminator. -/
theorem LZ77_repeated_32_byte_string (ws : List Nat) (x : Nat) (S : List Nat)
    (hS : S.length = 32) (hP : ∀ b, b ∈ x :: S → b ≠ 0)
    (hdel : (unpack_words ws).take 66 = x :: (S ++ S) ++ [0])
    (hnr : ∀ j, j < 33 → ∀ i, i < j →
      ¬ ((x :: (S ++ S)).getD i 0 = (x :: (S ++ S)).getD j 0 ∧
        (x :: (S ++ S)).getD (i + 1) 0 = (x :: (S ++ S)).getD (j + 1) 0 ∧
        (x :: (S ++ S)).getD (i + 2) 0 = (x :: (S ++ S)).getD (j + 2) 0))
    (hh : ∀ q, q < 8 → 1 ≤ q →
      hash_value (fun j => S.getD j 0) (4 * q) ≠ hash_value (fun j => S.getD j 0) 0) :
    LZ77 ws 64 = x :: S ++ [0x40, 0, 32, 32] ++ [0] := by
  have hlen : (x :: (S ++ S)).length = 65 := by
    rw [List.length_cons, List.length_append, hS]
  have hdel2 : (unpack_words ws).take ((x :: (S ++ S)).length + 1) = x :: (S ++ S) ++ [0] := by
    rw [hlen]
    exact hdel
  obtain ⟨hWP, hn⟩ := stream_byte_of_delivery ws (x :: (S ++ S)) hdel2
  rw [hlen] at hWP hn
  have hW : ∀ p, p < 65 → stream_byte ws p ≠ 0 := by
    intro p hp
    rw [hWP p hp]
    have hm := getD_mem_of_lt (x :: (S ++ S)) p (by rw [hlen]; exact hp)
    apply hP
    rcases List.mem_cons.mp hm with h | h
    · rw [h]
      exact List.mem_cons_self _ _
    · exact List.mem_cons_of_mem _ ((List.mem_append.mp h).elim id id)
  have H1 : ∀ i j, i < j → j ≤ 32 →
      ¬ (stream_byte ws i = stream_byte ws j ∧ stream_byte ws (i + 1) = stream_byte ws (j + 1) ∧
        stream_byte ws (i + 2) = stream_byte ws (j + 2)) := by
    intro i j hij hj
    rw [hWP i (by omega), hWP j (by omega), hWP (i + 1) (by omega), hWP (j + 1) (by omega),
      hWP (i + 2) (by omega), hWP (j + 2) (by omega)]
    exact hnr j (by omega) i hij
  have hfirst : ∀ j, j < 32 → stream_byte ws (1 + j) = S.getD j 0 := by
    intro j hj
    rw [hWP _ (by omega), getD_text_first x S j (by omega)]
  have Hrep : ∀ j, j < 32 → stream_byte ws (33 + j) = stream_byte ws (1 + j) := by
    intro j hj
    rw [hfirst j hj, hWP _ (by omega), show 33 + j = 1 + S.length + j by omega,
      getD_text_second]
  have H2 : ∀ q, 1 ≤ q → q ≤ 7 →
      hash_value (stream_byte ws) (4 * q + 1) ≠ hash_value (stream_byte ws) 1 := by
    intro q h1 h7
    have e1 : hash_value (stream_byte ws) (4 * q + 1) =
        hash_value (fun j => S.getD j 0) (4 * q) := by
      apply hash_value_congr
      intro d hd
      rw [show 4 * q + 1 + d = 1 + (4 * q + d) by omega, hfirst _ (by omega)]
    have e2 : hash_value (stream_byte ws) 1 = hash_value (fun j => S.getD j 0) 0 := by
      apply hash_value_congr
      intro d hd
      rw [hfirst _ (by omega), Nat.zero_add]
    rw [e1, e2]
    exact hh q (by omega) h1
  rw [LZ77_boundary_stream ws hW hn H1 H2 Hrep,
    map_range_eq_take (stream_byte ws) (x :: (S ++ S)) 33 (by omega)
      (by rw [hlen]; exact hWP)]
  have e : (x :: (S ++ S)).take 33 = x :: S := by
    rw [show 33 = S.length + 1 by omega, List.take_succ_cons, List.take_left]
  rw [e]

theorem LZ77_repeated_32_byte_string_witness :
    (List.range' 1 32).length = 32 ∧
    (∀ b, b ∈ 0x58 :: List.range' 1 32 → b ≠ 0) ∧
    (unpack_words (pack_bytes (0x58 :: (List.range' 1 32 ++ List.range' 1 32) ++ [0]))).take 66
      = 0x58 :: (List.range' 1 32 ++ List.range' 1 32) ++ [0] ∧
    LZ77 (pack_bytes (0x58 :: (List.range' 1 32 ++ List.range' 1 32) ++ [0])) 64 =
      0x58 :: List.range' 1 32 ++ [0x40, 0, 32, 32] ++ [0] :=
  ⟨by decide, by decide, by decide,
    LZ77_repeated_32_byte_string
      (pack_bytes (0x58 :: (List.range' 1 32 ++ List.range' 1 32) ++ [0])) 0x58
      (List.range' 1 32) (by decide) (by decide) (by decide) (by decide) (by decide)⟩

/-! ## The error branches of `huffman` on the output of `LZ77` -/

/-- The chain on `length` prints exactly when `length` is outside `3 .. 114`. -/
theorem huffman_length_error_iff (length : Nat) :
    huffman_length_error length = false ↔ 3 ≤ length ∧ length ≤ 114 := by
  unfold huffman_length_error
  by_cases c0 : length ≥ 115 ∨ length < 3
  · rw [if_pos c0]
    exact ⟨fun h => Bool.noConfusion h, fun h => by exfalso; omega⟩
  rw [if_neg c0]
  by_cases c1 : length ≥ 3 ∧ length ≤ 10
  · rw [if_pos c1]
    exact ⟨fun _ => by omega, fun _ => rfl⟩
  rw [if_neg c1]
  by_cases c2 : length = 11 ∨ length = 12
  · rw [if_pos c2]
    exact ⟨fun _ => by omega, fun _ => rfl⟩
  rw [if_neg c2]
  by_cases c3 : length = 13 ∨ length = 14
  · rw [if_pos c3]
    exact ⟨fun _ => by omega, fun _ => rfl⟩
  rw [if_neg c3]
  by_cases c4 : length = 15 ∨ length = 16
  · rw [if_pos c4]
    exact ⟨fun _ => by omega, fun _ => rfl⟩
  rw [if_neg c4]
  by_cases c5 : length = 17 ∨ length = 18
  · rw [if_pos c5]
    exact ⟨fun _ => by omega, fun _ => rfl⟩
  rw [if_neg c5]
  by_cases c6 : length ≥ 19 ∧ length ≤ 22
  · rw [if_pos c6]
    exact ⟨fun _ => by omega, fun _ => rfl⟩
  rw [if_neg c6]
  by_cases c7 : length ≥ 23 ∧ length ≤ 26
  · rw [if_pos c7]
    exact ⟨fun _ => by omega, fun _ => rfl⟩
  rw [if_neg c7]
  by_cases c8 : length ≥ 27 ∧ length ≤ 30
  · rw [if_pos c8]
    exact ⟨fun _ => by omega, fun _ => rfl⟩
  rw [if_neg c8]
  by_cases c9 : length ≥ 31 ∧ length ≤ 34
  · rw [if_pos c9]
    exact ⟨fun _ => by omega, fun _ => rfl⟩
  rw [if_neg c9]
  by_cases c10 : length ≥ 35 ∧ length ≤ 42
  · rw [if_pos c10]
    exact ⟨fun _ => by omega, fun _ => rfl⟩
  rw [if_neg c10]
  by_cases c11 : length ≥ 43 ∧ length ≤ 50
  · rw [if_pos c11]
    exact ⟨fun _ => by omega, fun _ => rfl⟩
  rw [if_neg c11]
  by_cases c12 : length ≥ 51 ∧ length ≤ 58
  · rw [if_pos c12]
    exact ⟨fun _ => by omega, fun _ => rfl⟩
  rw [if_neg c12]
  by_cases c13 : length ≥ 59 ∧ length ≤ 66
  · rw [if_pos c13]
    exact ⟨fun _ => by omega, fun _ => rfl⟩
  rw [if_neg c13]
  by_cases c14 : length ≥ 67 ∧ length ≤ 82
  · rw [if_pos c14]
    exact ⟨fun _ => by omega, fun _ => rfl⟩
  rw [if_neg c14]
  by_cases c15 : length ≥ 83 ∧ length ≤ 98
  · rw [if_pos c15]
    exact ⟨fun _ => by omega, fun _ => rfl⟩
  rw [if_neg c15]
  by_cases c16 : length ≥ 99 ∧ length ≤ 114
  · rw [if_pos c16]
    exact ⟨fun _ => by omega, fun _ => rfl⟩
  rw [if_neg c16]
  exact ⟨fun h => Bool.noConfusion h, fun h => by exfalso; omega⟩

/-- The chain on `offset` prints exactly when `offset` is outside `1 .. 4096`. -/
theorem huffman_offset_error_iff (offset : Nat) :
    huffman_offset_error offset = false ↔ 1 ≤ offset ∧ offset ≤ 4096 := by
  unfold huffman_offset_error
  by_cases c0 : offset ≥ 1 ∧ offset ≤ 4
  · rw [if_pos c0]
    exact ⟨fun _ => by omega, fun _ => rfl⟩
  rw [if_neg c0]
  by_cases c1 : offset ≥ 5 ∧ offset ≤ 6
  · rw [if_pos c1]
    exact ⟨fun _ => by omega, fun _ => rfl⟩
  rw [if_neg c1]
  by_cases c2 : offset ≥ 7 ∧ offset ≤ 8
  · rw [if_pos c2]
    exact ⟨fun _ => by omega, fun _ => rfl⟩
  rw [if_neg c2]
  by_cases c3 : offset ≥ 9 ∧ offset ≤ 12
  · rw [if_pos c3]
    exact ⟨fun _ => by omega, fun _ => rfl⟩
  rw [if_neg c3]
  by_cases c4 : offset ≥ 13 ∧ offset ≤ 16
  · rw [if_pos c4]
    exact ⟨fun _ => by omega, fun _ => rfl⟩
  rw [if_neg c4]
  by_cases c5 : offset ≥ 17 ∧ offset ≤ 24
  · rw [if_pos c5]
    exact ⟨fun _ => by omega, fun _ => rfl⟩
  rw [if_neg c5]
  by_cases c6 : offset ≥ 25 ∧ offset ≤ 32
  · rw [if_pos c6]
    exact ⟨fun _ => by omega, fun _ => rfl⟩
  rw [if_neg c6]
  by_cases c7 : offset ≥ 33 ∧ offset ≤ 48
  · rw [if_pos c7]
    exact ⟨fun _ => by omega, fun _ => rfl⟩
  rw [if_neg c7]
  by_cases c8 : offset ≥ 49 ∧ offset ≤ 64
  · rw [if_pos c8]
    exact ⟨fun _ => by omega, fun _ => rfl⟩
  rw [if_neg c8]
  by_cases c9 : offset ≥ 65 ∧ offset ≤ 96
  · rw [if_pos c9]
    exact ⟨fun _ => by omega, fun _ => rfl⟩
  rw [if_neg c9]
  by_cases c10 : offset ≥ 97 ∧ offset ≤ 128
  · rw [if_pos c10]
    exact ⟨fun _ => by omega, fun _ => rfl⟩
  rw [if_neg c10]
  by_cases c11 : offset ≥ 129 ∧ offset ≤ 192
  · rw [if_pos c11]
    exact ⟨fun _ => by omega, fun _ => rfl⟩
  rw [if_neg c11]
  by_cases c12 : offset ≥ 193 ∧ offset ≤ 256
  · rw [if_pos c12]
    exact ⟨fun _ => by omega, fun _ => rfl⟩
  rw [if_neg c12]
  by_cases c13 : offset ≥ 257 ∧ offset ≤ 384
  · rw [if_pos c13]
    exact ⟨fun _ => by omega, fun _ => rfl⟩
  rw [if_neg c13]
  by_cases c14 : offset ≥ 385 ∧ offset ≤ 512
  · rw [if_pos c14]
    exact ⟨fun _ => by omega, fun _ => rfl⟩
  rw [if_neg c14]
  by_cases c15 : offset ≥ 513 ∧ offset ≤ 768
  · rw [if_pos c15]
    exact ⟨fun _ => by omega, fun _ => rfl⟩
  rw [if_neg c15]
  by_cases c16 : offset ≥ 769 ∧ offset ≤ 1024
  · rw [if_pos c16]
    exact ⟨fun _ => by omega, fun _ => rfl⟩
  rw [if_neg c16]
  by_cases c17 : offset ≥ 1025 ∧ offset ≤ 1536
  · rw [if_pos c17]
    exact ⟨fun _ => by omega, fun _ => rfl⟩
  rw [if_neg c17]
  by_cases c18 : offset ≥ 1537 ∧ offset ≤ 2048
  · rw [if_pos c18]
    exact ⟨fun _ => by omega, fun _ => rfl⟩
  rw [if_neg c18]
  by_cases c19 : offset ≥ 2049 ∧ offset ≤ 3072
  · rw [if_pos c19]
    exact ⟨fun _ => by omega, fun _ => rfl⟩
  rw [if_neg c19]
  by_cases c20 : offset ≥ 3073 ∧ offset ≤ 4096
  · rw [if_pos c20]
    exact ⟨fun _ => by omega, fun _ => rfl⟩
  rw [if_neg c20]
  exact ⟨fun h => Bool.noConfusion h, fun h => by exfalso; omega⟩

/-- The records of a token stream that covers a text have `3 ≤ len ≤ 32` and
`1 ≤ offset ≤ 4095`; its literals are bytes of the text. -/
theorem tokens_cover_records (W : Nat → Nat) (n : Nat) (ts : List Token) :
    ∀ q c, tokens_cover W n q ts c →
      (∀ b, Token.lit b ∈ ts → ∃ p, p < n ∧ b = W p) ∧
      (∀ off_hi off_lo len, Token.ref off_hi off_lo len ∈ ts →
        3 ≤ len ∧ len ≤ 32 ∧ 1 ≤ off_hi * 128 + off_lo ∧ off_hi * 128 + off_lo ≤ 4095) := by
  induction ts with
  | nil =>
    intro q c _
    exact ⟨fun b hb => by simp at hb, fun _ _ _ hb => by simp at hb⟩
  | cons u us ih =>
    intro q c hcov
    cases u with
    | lit x =>
      obtain ⟨h1, h2, h3⟩ := hcov
      obtain ⟨i1, i2⟩ := ih _ _ h3
      refine ⟨fun b hb => ?_, fun off_hi off_lo len hb => ?_⟩
      · rcases List.mem_cons.1 hb with h | h
        · injection h with h
          exact ⟨q, h1, by rw [h, h2]⟩
        · exact i1 b h
      · rcases List.mem_cons.1 hb with h | h
        · exact Token.noConfusion h
        · exact i2 _ _ _ h
    | ref hi lo ln =>
      obtain ⟨⟨g1, g2, g3, g4, g5, g6, g7, g8, g9⟩, h3⟩ := hcov
      obtain ⟨i1, i2⟩ := ih _ _ h3
      refine ⟨fun b hb => ?_, fun off_hi off_lo len hb => ?_⟩
      · rcases List.mem_cons.1 hb with h | h
        · exact Token.noConfusion h
        · exact i1 b h
      · rcases List.mem_cons.1 hb with h | h
        · injection h with e1 e2 e3
          subst e1 e2 e3
          exact ⟨g6, g7, g1, g3⟩
        · exact i2 _ _ _ h

/-- Loop `STATIC_HUFFMAN` on the records of `ts` followed by the terminator: when no
literal is a terminator or a marker and every record has `3 ≤ len ≤ 114` and
`1 ≤ offset ≤ 4096`, the loop comes to the terminator through no printing branch. -/
theorem huffman_no_error_tokens (input : List Nat) (rest : List Nat) (ts : List Token) :
    ∀ (fuel p : Nat),
    (∀ k, input.getD (p + k) 0 = (token_bytes ts ++ 0 :: rest).getD k 0) →
    (∀ b, Token.lit b ∈ ts → b ≠ 0 ∧ b ≠ 0x40) →
    (∀ off_hi off_lo len, Token.ref off_hi off_lo len ∈ ts →
      3 ≤ len ∧ len ≤ 114 ∧ 1 ≤ off_hi * 128 + off_lo ∧ off_hi * 128 + off_lo ≤ 4096) →
    ts.length + 1 ≤ fuel → huffman_no_error input fuel p = true := by
  induction ts with
  | nil =>
    intro fuel p hin _ _ hf
    cases fuel with
    | zero => simp at hf
    | succ f =>
      have h0 := hin 0
      simp only [token_bytes, List.flatMap_nil, List.nil_append, List.getD_cons_zero,
        Nat.add_zero] at h0
      rw [huffman_no_error]
      simp only [h0]
      rw [if_pos trivial]
  | cons t ts ih =>
    intro fuel p hin hlit href hf
    cases fuel with
    | zero => simp at hf
    | succ f =>
      have hf2 : ts.length + 1 ≤ f := by simp at hf; omega
      have hlit2 : ∀ b, Token.lit b ∈ ts → b ≠ 0 ∧ b ≠ 0x40 :=
        fun b hb => hlit b (List.mem_cons_of_mem _ hb)
      have href2 : ∀ off_hi off_lo len, Token.ref off_hi off_lo len ∈ ts →
          3 ≤ len ∧ len ≤ 114 ∧ 1 ≤ off_hi * 128 + off_lo ∧ off_hi * 128 + off_lo ≤ 4096 :=
        fun a b c hb => href a b c (List.mem_cons_of_mem _ hb)
      cases t with
      | lit b =>
        obtain ⟨hb1, hb2⟩ := hlit b (List.mem_cons_self _ _)
        have h0 := hin 0
        simp only [token_bytes, List.flatMap_cons, Token.bytes, List.cons_append,
          List.nil_append, List.getD_cons_zero, Nat.add_zero] at h0
        have hin2 : ∀ k, input.getD (p + 1 + k) 0 = (token_bytes ts ++ 0 :: rest).getD k 0 := by
          intro k
          have := hin (k + 1)
          simp only [token_bytes, List.flatMap_cons, Token.bytes, List.cons_append,
            List.nil_append, List.getD_cons_succ] at this
          rw [token_bytes, ← this]
          congr 1
          omega
        rw [huffman_no_error]
        simp only [h0]
        rw [if_neg hb1, if_neg hb2]
        exact ih f (p + 1) hin2 hlit2 href2 hf2
      | ref off_hi off_lo len =>
        obtain ⟨g1, g2, g3, g4⟩ := href off_hi off_lo len (List.mem_cons_self _ _)
        have h0 := hin 0
        have h1 := hin 1
        have h2 := hin 2
        have h3 := hin 3
        simp only [token_bytes, List.flatMap_cons, Token.bytes, List.cons_append,
          List.nil_append, List.getD_cons_zero, List.getD_cons_succ, Nat.add_zero] at h0 h1 h2 h3
        have hin2 : ∀ k, input.getD (p + 4 + k) 0 = (token_bytes ts ++ 0 :: rest).getD k 0 := by
          intro k
          have := hin (k + 4)
          simp only [token_bytes, List.flatMap_cons, Token.bytes, List.cons_append,
            List.nil_append, List.getD_cons_succ] at this
          rw [token_bytes, ← this]
          congr 1
          omega
        have e1 := (huffman_length_error_iff len).2 ⟨g1, g2⟩
        have e2 := (huffman_offset_error_iff (off_hi * 128 + off_lo)).2 ⟨g3, g4⟩
        rw [huffman_no_error]
        simp only [h0, h1, h2, h3]
        rw [if_neg (by norm_num), if_pos trivial, e1, e2, if_neg (by simp)]
        exact ih f (p + 4) hin2 hlit2 href2 hf2

/-- C31 (counterexample): the plaintext `@abc`, NUL-terminated.  `LZ77` writes its four
bytes as literals; `huffman` takes the literal `0x40` for the marker of a record, reads
`offset = 0x61 * 128 + 0x62 = 12514` and enters "Wrong! Offset is out of range!".  The
same branch is entered with `offset = 0` for the record that `LZ77` writes for a
plaintext that begins with three zero bytes. -/
theorem marker_byte_in_plaintext_reaches_error_branch :
    LZ77 [0x40616263, 0, 0, 0, 0, 0, 0, 0, 0] 4 = [0x40, 0x61, 0x62, 0x63, 0] ∧
    huffman_offset_error (0x61 * 128 + 0x62) = true ∧
    huffman_no_error (LZ77 [0x40616263, 0, 0, 0, 0, 0, 0, 0, 0] 4)
      ((LZ77 [0x40616263, 0, 0, 0, 0, 0, 0, 0, 0] 4).length + 1) 0 = false ∧
    LZ77 [0x00000001, 0, 0, 0, 0, 0, 0, 0, 0] 4 = [0x40, 0, 0, 3, 1, 0] ∧
    huffman_offset_error (0 * 128 + 0) = true ∧
    huffman_no_error (LZ77 [0x00000001, 0, 0, 0, 0, 0, 0, 0, 0] 4)
      ((LZ77 [0x00000001, 0, 0, 0, 0, 0, 0, 0, 0] 4).length + 1) 0 = false := by
  decide

/-- C31 (amended): for a plaintext `P` without `0x00` and `0x40` byte, delivered
NUL-terminated to `LZ77` with a `size` whose iterations stay inside `P` while the
terminator is in the last window, `huffman` on the output of `LZ77` comes to the
terminator through none of its printing branches: the output is a sequence of literals
and records followed by the terminator, every literal is a byte of `P`, every record
has `3 ≤ len ≤ 32` and `1 ≤ offset ≤ 4095`, and for such a record the chains on `length`
and on `offset` assign code and bit count whatever the variables held before. -/
theorem huffman_has_no_error_on_LZ77_output (ws P : List Nat) (size : Nat)
    (hP : ∀ b, b ∈ P → b ≠ 0 ∧ b ≠ 0x40)
    (hdel : (unpack_words ws).take (P.length + 1) = P ++ [0])
    (hs1 : 4 * (size / 4) ≤ P.length) (hs2 : P.length ≤ 4 * (size / 4) + 31) :
    huffman_no_error (LZ77 ws size) ((LZ77 ws size).length + 1) 0 = true ∧
    ∃ ts, LZ77 ws size = token_bytes ts ++ [0] ∧
      (∀ b, Token.lit b ∈ ts → b ∈ P) ∧
      (∀ off_hi off_lo len, Token.ref off_hi off_lo len ∈ ts →
        3 ≤ len ∧ len ≤ 32 ∧ 1 ≤ off_hi * 128 + off_lo ∧ off_hi * 128 + off_lo ≤ 4095 ∧
        huffman_length_error len = false ∧
        huffman_offset_error (off_hi * 128 + off_lo) = false ∧
        ∀ old, huffman_length_code len old = huffman_length_code len (0, 0) ∧
          huffman_offset_code (off_hi * 128 + off_lo) old =
            huffman_offset_code (off_hi * 128 + off_lo) (0, 0)) := by
  obtain ⟨hW, hn⟩ := stream_byte_of_delivery ws P hdel
  have hW0 : ∀ p, p < P.length → stream_byte ws p ≠ 0 := by
    intro p hp
    rw [hW p hp]
    exact (hP _ (getD_mem_of_lt P p hp)).1
  obtain ⟨ts, h1, h2⟩ := LZ77_token_stream ws size P.length hW0 hn hs1 hs2
  obtain ⟨r1, r2⟩ := tokens_cover_records (stream_byte ws) P.length ts 0 P.length h2
  have hlitP : ∀ b, Token.lit b ∈ ts → b ∈ P := by
    intro b hb
    obtain ⟨p, hp, e⟩ := r1 b hb
    rw [e, hW p hp]
    exact getD_mem_of_lt P p hp
  refine ⟨?_, ts, h1, hlitP, fun off_hi off_lo len hb => ?_⟩
  · have hlen := length_le_token_bytes ts
    apply huffman_no_error_tokens (LZ77 ws size) [] ts _ 0
    · intro k
      rw [Nat.zero_add, h1]
    · exact fun b hb => hP b (hlitP b hb)
    · intro off_hi off_lo len hb
      obtain ⟨g1, g2, g3, g4⟩ := r2 off_hi off_lo len hb
      exact ⟨g1, by omega, g3, by omega⟩
    · rw [h1]
      simp
      omega
  · obtain ⟨g1, g2, g3, g4⟩ := r2 off_hi off_lo len hb
    refine ⟨g1, g2, g3, g4, (huffman_length_error_iff len).2 ⟨g1, by omega⟩,
      (huffman_offset_error_iff _).2 ⟨g3, by omega⟩, fun old => ?_⟩
    exact ⟨(length_code_spec len old g1 g2).1,
      (offset_code_spec _ old g3 (by omega)).1⟩

theorem huffman_has_no_error_on_LZ77_output_witness :
    (∀ b, b ∈ [0x61, 0x62, 0x63, 0x64, 0x65, 0x66, 0x67, 0x68] → b ≠ 0 ∧ b ≠ 0x40) ∧
    (unpack_words [0x61626364, 0x65666768, 0]).take
        ([0x61, 0x62, 0x63, 0x64, 0x65, 0x66, 0x67, 0x68].length + 1) =
      [0x61, 0x62, 0x63, 0x64, 0x65, 0x66, 0x67, 0x68] ++ [0] ∧
    4 * (8 / 4) ≤ [0x61, 0x62, 0x63, 0x64, 0x65, 0x66, 0x67, 0x68].length ∧
    [0x61, 0x62, 0x63, 0x64, 0x65, 0x66, 0x67, 0x68].length ≤ 4 * (8 / 4) + 31 ∧
    huffman_no_error (LZ77 [0x61626364, 0x65666768, 0] 8)
      ((LZ77 [0x61626364, 0x65666768, 0] 8).length + 1) 0 = true :=
  ⟨by decide, by decide, by decide, by decide,
    (huffman_has_no_error_on_LZ77_output [0x61626364, 0x65666768, 0]
      [0x61, 0x62, 0x63, 0x64, 0x65, 0x66, 0x67, 0x68] 8 (by decide) (by decide)
      (by decide) (by decide)).1⟩

/-! ## The block header of `huffman_decoder` -/

/-- Function `huffman_decoder` with the reader and the header named. -/
theorem huffman_decoder_start (input : List Nat) :
    huffman_decoder input =
      if block_header input ≥ 0 ∧ block_header input ≤ 2 then some [0]
      else if block_header input = 4 then some [0]
      else if block_header input = 6 then
        match STATIC_MAIN_LOOP (32 * (input.length + 2))
            { decoder_start input with
                proc_buffer := ((decoder_start input).proc_buffer <<< 3) % 2 ^ 32
                buffer_bits_num := 29 } with
        | none => none
        | some st1 => some (st1.output ++ [0])
      else if block_header input = 5 then
        match dynamic_huffman_decoder (decoder_start input) with
        | none => none
        | some st1 => some (st1.output ++ [0])
      else some [0] := rfl

theorem block_header_lt (input : List Nat) : block_header input < 8 := by
  unfold block_header
  have h : (decoder_start input).proc_buffer &&& 0xE0000000 ≤ 0xE0000000 := Nat.and_le_right
  rw [Nat.shiftRight_eq_div_pow]
  omega

/-- C37: the header `block_header` is one of `0 .. 7`, and for every header other than
`6` (bits `110`, static) and `5` (bits `101`, dynamic), that is for `000`, `001`, `010`,
`011`, `100` and `111`, `huffman_decoder` decodes nothing: its output is the terminator
`decoding_output[0] = 0` alone. -/
theorem other_block_headers_give_empty_output (input : List Nat)
    (h5 : block_header input ≠ 5) (h6 : block_header input ≠ 6) :
    block_header input < 8 ∧ huffman_decoder input = some [0] := by
  refine ⟨block_header_lt input, ?_⟩
  rw [huffman_decoder_start]
  by_cases c1 : block_header input ≥ 0 ∧ block_header input ≤ 2
  · rw [if_pos c1]
  rw [if_neg c1]
  by_cases c2 : block_header input = 4
  · rw [if_pos c2]
  rw [if_neg c2, if_neg h6, if_neg h5]

theorem other_block_headers_give_empty_output_witness :
    block_header [0x01000000, 0x12345678] ≠ 5 ∧ block_header [0x01000000, 0x12345678] ≠ 6 ∧
    block_header [0x01000000, 0x12345678] < 8 ∧
    huffman_decoder [0x01000000, 0x12345678] = some [0] :=
  ⟨by decide, by decide,
    other_block_headers_give_empty_output [0x01000000, 0x12345678] (by decide) (by decide)⟩

/-! ## The width of a record's code -/

/-- One round of `STATIC_INPUT` fills the buffer, or finds the stream empty, or leaves
a full `next_word`. -/
theorem STATIC_INPUT_round (s : DecState) :
    (STATIC_INPUT_read (STATIC_INPUT_shift s)).buffer_bits_num = 32 ∨
    (STATIC_INPUT_read (STATIC_INPUT_shift s)).done_input = true ∨
    ((STATIC_INPUT_read (STATIC_INPUT_shift s)).next_word_bits = 32 ∧
      (STATIC_INPUT_read (STATIC_INPUT_shift s)).buffer_bits_num ≤ 32) := by
  by_cases h1 : 32 - s.buffer_bits_num ≤ s.next_word_bits
  · left
    rw [STATIC_INPUT_shift, if_pos h1, STATIC_INPUT_read]
    split_ifs <;> rfl
  · right
    rw [STATIC_INPUT_shift, if_neg h1, STATIC_INPUT_read]
    simp only [if_pos trivial]
    by_cases h2 : s.input.isEmpty = true
    · left
      rw [if_pos h2]
    · right
      rw [if_neg h2]
      exact ⟨rfl, by show s.buffer_bits_num + s.next_word_bits ≤ 32; omega⟩

/-- Loop `STATIC_INPUT` leaves at least 24 bits in `proc_buffer` unless the input is
used up, from any state of the reader. -/
theorem STATIC_INPUT_fills (st : DecState) :
    24 ≤ (STATIC_INPUT 3 st).buffer_bits_num ∨ (STATIC_INPUT 3 st).done_input = true := by
  have exit : ∀ (f : Nat) (s : DecState),
      (24 ≤ s.buffer_bits_num ∨ s.done_input = true) → STATIC_INPUT (f + 1) s = s := by
    intro f s h
    rw [STATIC_INPUT, if_neg]
    rintro ⟨h1, h2⟩
    rcases h with h | h
    · omega
    · rw [h] at h2
      exact absurd h2 (by simp)
  have hneg : ∀ s : DecState, ¬ (s.buffer_bits_num < 24 ∧ s.done_input = false) →
      24 ≤ s.buffer_bits_num ∨ s.done_input = true := by
    intro s h
    by_cases hb : s.buffer_bits_num < 24
    · right
      cases hd : s.done_input with
      | true => rfl
      | false => exact absurd ⟨hb, hd⟩ h
    · left
      omega
  by_cases c1 : st.buffer_bits_num < 24 ∧ st.done_input = false
  · rw [STATIC_INPUT, if_pos c1]
    have hr := STATIC_INPUT_round st
    generalize STATIC_INPUT_read (STATIC_INPUT_shift st) = s1 at hr ⊢
    rcases hr with h | h | ⟨h, hb⟩
    · rw [exit 1 s1 (Or.inl (by omega))]
      left
      omega
    · rw [exit 1 s1 (Or.inr h)]
      right
      exact h
    · by_cases c2 : s1.buffer_bits_num < 24 ∧ s1.done_input = false
      · rw [STATIC_INPUT, if_pos c2]
        have h32 : (STATIC_INPUT_read (STATIC_INPUT_shift s1)).buffer_bits_num = 32 := by
          rw [STATIC_INPUT_shift, if_pos (by omega), STATIC_INPUT_read]
          split_ifs <;> rfl
        rw [exit 0 _ (Or.inl (by omega))]
        left
        omega
      · rw [exit 1 s1 (hneg s1 c2)]
        exact hneg s1 c2
  · rw [exit 2 st (hneg st c1)]
    exact hneg st c1

/-- C38: for `3 ≤ len ≤ 32` and `1 ≤ offset ≤ 4096` the length code (extra bits
included) and the offset code (extra bits included) take at most `9 + 15 = 24` bits
together; both codes fit their bit counts, so `length_and_offset` is below `2 ^ 32`
before the store and its top `length_valid_bits_num + offset_valid_bits_num` bits are the
two codes one after the other; loop `STATIC_INPUT` leaves at least 24 bits in
`proc_buffer` before a symbol is decoded unless the input is used up; and
`decoder_get_offset`, entered with `proc_bits_num = length_valid_bits_num ≤ 9`, computes
every shift amount `k - proc_bits_num` (`k = 27, 26, .., 17`) without going below zero
and returns the offset with all bits of the two codes counted. -/
theorem length_and_offset_fits_24_bits (len off : Nat) (h3 : 3 ≤ len) (h32 : len ≤ 32)
    (h1 : 1 ≤ off) (h4096 : off ≤ 4096) :
    (huffman_length_code len (0, 0)).2 + (huffman_offset_code off (0, 0)).2 ≤ 24 ∧
    (huffman_length_code len (0, 0)).1 < 2 ^ (huffman_length_code len (0, 0)).2 ∧
    (huffman_offset_code off (0, 0)).1 < 2 ^ (huffman_offset_code off (0, 0)).2 ∧
    ((huffman_length_code len (0, 0)).1 <<< (32 - (huffman_length_code len (0, 0)).2)) |||
      ((huffman_offset_code off (0, 0)).1 <<<
        (32 - ((huffman_length_code len (0, 0)).2 + (huffman_offset_code off (0, 0)).2)))
      < 2 ^ 32 ∧
    ((((huffman_length_code len (0, 0)).1 <<< (32 - (huffman_length_code len (0, 0)).2)) |||
      ((huffman_offset_code off (0, 0)).1 <<<
        (32 - ((huffman_length_code len (0, 0)).2 + (huffman_offset_code off (0, 0)).2))))
      % 2 ^ 32) >>>
        (32 - ((huffman_length_code len (0, 0)).2 + (huffman_offset_code off (0, 0)).2)) =
      (huffman_length_code len (0, 0)).1 * 2 ^ (huffman_offset_code off (0, 0)).2 +
        (huffman_offset_code off (0, 0)).1 ∧
    (∀ st : DecState,
      24 ≤ (STATIC_INPUT 3 st).buffer_bits_num ∨ (STATIC_INPUT 3 st).done_input = true) ∧
    (∀ k, k ∈ decoder_get_offset_shifts → (huffman_length_code len (0, 0)).2 ≤ k) ∧
    (∀ pb, pb < 2 ^ 32 →
      pb / 2 ^ (32 - ((huffman_length_code len (0, 0)).2 +
          (huffman_offset_code off (0, 0)).2)) =
        (huffman_length_code len (0, 0)).1 * 2 ^ (huffman_offset_code off (0, 0)).2 +
          (huffman_offset_code off (0, 0)).1 →
      decoder_get_offset (huffman_length_code len (0, 0)).2 pb =
        (off, (huffman_length_code len (0, 0)).2 + (huffman_offset_code off (0, 0)).2)) := by
  obtain ⟨_, a2, a3, a4, _⟩ := length_code_spec len (0, 0) h3 h32
  obtain ⟨_, b2, b3, b4, _⟩ := offset_code_spec off (0, 0) h1 h4096
  have hrec := fun (pb : Nat) (hpb : pb < 2 ^ 32) =>
    static_decode_record (DecState.mk [] pb 0 0 0 false false 0 []) len off h3 (by omega) h1
      h4096 hpb
  generalize huffman_length_code len (0, 0) = L at *
  generalize huffman_offset_code off (0, 0) = O at *
  have hsh : L.1 <<< (32 - L.2) < 2 ^ 32 := by
    rw [Nat.shiftLeft_eq]
    calc L.1 * 2 ^ (32 - L.2) < 2 ^ L.2 * 2 ^ (32 - L.2) :=
          Nat.mul_lt_mul_of_pos_right a4 (Nat.two_pow_pos _)
      _ = 2 ^ 32 := by rw [← Nat.pow_add]; congr 1; omega
  have hso : O.1 <<< (32 - (L.2 + O.2)) < 2 ^ 32 := by
    rw [Nat.shiftLeft_eq]
    calc O.1 * 2 ^ (32 - (L.2 + O.2)) < 2 ^ O.2 * 2 ^ (32 - (L.2 + O.2)) :=
          Nat.mul_lt_mul_of_pos_right b4 (Nat.two_pow_pos _)
      _ = 2 ^ (O.2 + (32 - (L.2 + O.2))) := by rw [← Nat.pow_add]
      _ ≤ 2 ^ 32 := Nat.pow_le_pow_right (by norm_num) (by omega)
  refine ⟨by omega, a4, b4, Nat.or_lt_two_pow hsh hso,
    length_and_offset_shift L.1 L.2 O.1 O.2 a4 b4 (by omega), STATIC_INPUT_fills, ?_, ?_⟩
  · intro k hk
    simp only [decoder_get_offset_shifts, List.mem_cons, List.mem_singleton, List.not_mem_nil,
      or_false] at hk
    omega
  · intro pb hpb h
    exact (hrec pb hpb h).1

theorem length_and_offset_fits_24_bits_witness :
    3 ≤ 32 ∧ 32 ≤ 32 ∧ 1 ≤ 4096 ∧ 4096 ≤ 4096 ∧
    (huffman_length_code 32 (0, 0)).2 + (huffman_offset_code 4096 (0, 0)).2 ≤ 24 :=
  ⟨by decide, by decide, by decide, by decide,
    (length_and_offset_fits_24_bits 32 4096 (by decide) (by decide) (by decide)
      (by decide)).1⟩

/-! ## The codes of `get_huffman_table_*` and the first-level tables -/

theorem next_code_succ (lengths : Nat → Nat) (n L : Nat) (h : 0 < L) :
    next_code lengths n (L + 1) = (next_code lengths n L + bl_count lengths n L) * 2 := by
  rw [next_code, if_neg (by omega), Nat.shiftLeft_eq, Nat.pow_one]

/-- The base of a longer length lies behind all codes of a shorter length, extended to
the longer length. -/
theorem next_code_chain (lengths : Nat → Nat) (n L1 d : Nat) (h : 0 < L1) :
    (next_code lengths n L1 + bl_count lengths n L1) * 2 ^ (d + 1) ≤
      next_code lengths n (L1 + d + 1) := by
  induction d with
  | zero =>
    rw [Nat.add_zero, next_code_succ _ _ _ h, Nat.pow_one]
  | succ d ih =>
    rw [show L1 + (d + 1) + 1 = (L1 + d + 1) + 1 by omega, next_code_succ _ _ _ (by omega),
      Nat.pow_succ, ← Nat.mul_assoc]
    apply Nat.mul_le_mul_right
    omega

/-- The code of a symbol is its base plus its rank, when the lengths satisfy the
inequality of Kraft: nothing is cut by the width of the field. -/
theorem table_code_exact (table : (Nat → Nat) → (Nat → Nat) → Nat → Nat) (n M cw : Nat)
    (htab : (table = get_huffman_table_1 ∧ n = 286 ∧ M = 15 ∧ cw = 16) ∨
      (table = get_huffman_table_2 ∧ n = 30 ∧ M = 15 ∧ cw = 16) ∨
      (table = get_huffman_table_3 ∧ n = 19 ∧ M = 7 ∧ cw = 8))
    (lengths code0 : Nat → Nat) (hb : ∀ i, i < n → lengths i ≤ M)
    (hk : kraft_sum lengths M n ≤ 2 ^ M)
    (j : Nat) (hj : j < n) (hL : lengths j ≠ 0) :
    table lengths code0 j =
      next_code lengths n (lengths j) + bl_count lengths j (lengths j) := by
  obtain ⟨c, hM, hc32, _⟩ := table_code table n M cw htab lengths code0 hb j hj hL
  have r := rank_code_lt lengths n M j hj hL (hb j hj) hk
  have hp : 2 ^ lengths j ≤ 2 ^ cw :=
    Nat.pow_le_pow_right (by norm_num) (by have := hb j hj; omega)
  rw [c, mod_mod_pow_le _ _ _ hc32, Nat.mod_eq_of_lt (by omega)]

/-- The codes of the three table builders are prefix-free under the inequality of
Kraft. -/
theorem canonical_codes_PrefixFree
    (table : (Nat → Nat) → (Nat → Nat) → Nat → Nat) (n M cw : Nat)
    (htab : (table = get_huffman_table_1 ∧ n = 286 ∧ M = 15 ∧ cw = 16) ∨
      (table = get_huffman_table_2 ∧ n = 30 ∧ M = 15 ∧ cw = 16) ∨
      (table = get_huffman_table_3 ∧ n = 19 ∧ M = 7 ∧ cw = 8))
    (lengths code0 : Nat → Nat) (hb : ∀ i, i < n → lengths i ≤ M)
    (hk : kraft_sum lengths M n ≤ 2 ^ M) :
    PrefixFree lengths (table lengths code0) n := by
  intro i hi j hj hne hLi hLj hle
  rw [table_code_exact table n M cw htab lengths code0 hb hk i hi hLi,
    table_code_exact table n M cw htab lengths code0 hb hk j hj hLj]
  rcases Nat.eq_or_lt_of_le hle with heq | hlt
  · rw [← heq, Nat.sub_self, Nat.shiftRight_zero]
    intro h
    rcases Nat.lt_or_gt_of_ne hne with hij | hji
    · have := bl_count_lt lengths i j hij
      omega
    · have := bl_count_lt lengths j i hji
      rw [← heq] at this
      omega
  · intro h
    have hch := next_code_chain lengths n (lengths i) (lengths j - lengths i - 1) (by omega)
    rw [show lengths i + (lengths j - lengths i - 1) + 1 = lengths j by omega,
      show lengths j - lengths i - 1 + 1 = lengths j - lengths i by omega] at hch
    have hcnt := bl_count_lt lengths i n hi
    rw [Nat.shiftRight_eq_div_pow] at h
    have h2 : next_code lengths n (lengths i) + bl_count lengths n (lengths i) ≤
        (next_code lengths n (lengths j) + bl_count lengths j (lengths j)) /
          2 ^ (lengths j - lengths i) := by
      rw [Nat.le_div_iff_mul_le (Nat.two_pow_pos _)]
      omega
    omega

/-- C40: for code lengths within the table's range (at most 15, at most 7 for
`get_huffman_table_3`) that satisfy the inequality of Kraft, the codes assigned by
`get_huffman_table_1` (likewise `_2` and `_3`) form a prefix-free set: for two distinct
symbols with non-zero lengths `L1 ≤ L2`, the top `L1` bits of the `L2`-bit code of the
second differ from the code of the first. -/
theorem table_codes_are_free_of_prefixes
    (table : (Nat → Nat) → (Nat → Nat) → Nat → Nat) (n M cw : Nat)
    (htab : (table = get_huffman_table_1 ∧ n = 286 ∧ M = 15 ∧ cw = 16) ∨
      (table = get_huffman_table_2 ∧ n = 30 ∧ M = 15 ∧ cw = 16) ∨
      (table = get_huffman_table_3 ∧ n = 19 ∧ M = 7 ∧ cw = 8))
    (lengths code0 : Nat → Nat) (hb : ∀ i, i < n → lengths i ≤ M)
    (hk : kraft_sum lengths M n ≤ 2 ^ M) :
    PrefixFree lengths (table lengths code0) n :=
  canonical_codes_PrefixFree table n M cw htab lengths code0 hb hk

theorem table_codes_are_free_of_prefixes_witness :
    (∀ i, i < 19 → (fun i => if i = 0 then 1 else if i = 17 then 2 else if i = 18 then 2
      else 0) i ≤ 7) ∧
    kraft_sum (fun i => if i = 0 then 1 else if i = 17 then 2 else if i = 18 then 2 else 0)
      7 19 ≤ 2 ^ 7 ∧
    PrefixFree (fun i => if i = 0 then 1 else if i = 17 then 2 else if i = 18 then 2 else 0)
      (get_huffman_table_3
        (fun i => if i = 0 then 1 else if i = 17 then 2 else if i = 18 then 2 else 0)
        (fun _ => 0)) 19 :=
  ⟨by decide, by decide,
    table_codes_are_free_of_prefixes get_huffman_table_3 19 7 8
      (Or.inr (Or.inr ⟨rfl, rfl, rfl, rfl⟩))
      (fun i => if i = 0 then 1 else if i = 17 then 2 else if i = 18 then 2 else 0)
      (fun _ => 0) (by decide) (by decide)⟩

/-- The index range that `BUILD_LOOKUP_TABLE_*` fills for a code `c` of `len` bits holds
exactly the `K`-bit indices whose top `len` bits are `c`. -/
theorem index_range_iff (c len K idx : Nat) :
    (c * 2 ^ (K - len) ≤ idx ∧ idx < c * 2 ^ (K - len) + 2 ^ (K - len)) ↔
      idx / 2 ^ (K - len) = c := by
  have hp : 0 < 2 ^ (K - len) := Nat.two_pow_pos _
  constructor
  · rintro ⟨h1, h2⟩
    apply Nat.div_eq_of_lt_le
    · exact h1
    · rw [Nat.succ_mul]
      exact h2
  · intro h
    subst h
    have h1 := Nat.div_mul_le_self idx (2 ^ (K - len))
    have h2 := Nat.lt_div_mul_add hp (a := idx)
    exact ⟨h1, h2⟩

/-- Taking the top bits of the top bits. -/
theorem div_pow_div_pow (idx K a b : Nat) (hab : a ≤ b) (hb : b ≤ K) :
    idx / 2 ^ (K - b) / 2 ^ (b - a) = idx / 2 ^ (K - a) := by
  rw [Nat.div_div_eq_div_mul, ← Nat.pow_add]
  congr 2
  omega

/-- C35: for a code table that is prefix-free and whose codes fit their lengths, a
first level of `K ≤ 32` bits (`K = 7` for the code-length table, `9` for literal/length,
`6` for distance) and at most 512 symbols, and every symbol `i` with non-zero length
`len ≤ K`: after the loop `BUILD_LOOKUP_TABLE_*` every index whose top `len` bits (the
bits above the `K - len` low ones) are the code of `i`, which is then a `K`-bit index,
holds `symbol = i` and `valid_bits = len`. -/
theorem lookup_table_entry_of_code (length code : Nat → Nat) (K n i idx : Nat)
    (hK : K ≤ 32) (hn : n ≤ 512) (hpf : PrefixFree length code n)
    (hfit : ∀ k, k < n → length k ≠ 0 → code k < 2 ^ length k)
    (hi : i < n) (h0 : length i ≠ 0) (hlen : length i ≤ K)
    (htop : idx >>> (K - length i) = code i) :
    BUILD_LOOKUP_TABLE length code K n idx = (i, length i) := by
  rw [Nat.shiftRight_eq_div_pow] at htop
  have hval : ∀ k, k < n → length k ≠ 0 → length k ≤ K →
      (code k <<< (K - length k)) % 2 ^ 32 = code k * 2 ^ (K - length k) ∧
      (1 <<< (K - length k)) % 2 ^ 32 = 2 ^ (K - length k) := by
    intro k hk hk0 hkK
    have h1 : code k * 2 ^ (K - length k) < 2 ^ 32 := by
      calc code k * 2 ^ (K - length k) < 2 ^ length k * 2 ^ (K - length k) :=
            Nat.mul_lt_mul_of_pos_right (hfit k hk hk0) (Nat.two_pow_pos _)
        _ = 2 ^ K := by rw [← Nat.pow_add]; congr 1; omega
        _ ≤ 2 ^ 32 := Nat.pow_le_pow_right (by norm_num) hK
    have h2 : 2 ^ (K - length k) < 2 ^ 32 :=
      Nat.pow_lt_pow_right (by norm_num) (by omega)
    rw [Nat.shiftLeft_eq, Nat.shiftLeft_eq, Nat.one_mul, Nat.mod_eq_of_lt h1,
      Nat.mod_eq_of_lt h2]
    exact ⟨rfl, rfl⟩
  have key : ∀ d, i + 1 + d ≤ n →
      BUILD_LOOKUP_TABLE length code K (i + 1 + d) idx = (i, length i) := by
    intro d
    induction d with
    | zero =>
      intro _
      obtain ⟨e1, e2⟩ := hval i hi h0 hlen
      have hr := (index_range_iff (code i) (length i) K idx).2 htop
      rw [Nat.add_zero, BUILD_LOOKUP_TABLE]
      simp only [e1, e2]
      rw [if_pos ⟨h0, hlen, hr.1, hr.2⟩, Nat.mod_eq_of_lt (by omega)]
    | succ d ih =>
      intro hd
      rw [show i + 1 + (d + 1) = (i + 1 + d) + 1 by omega, BUILD_LOOKUP_TABLE]
      rw [if_neg, ih (by omega)]
      rintro ⟨k0, kK, kr1, kr2⟩
      obtain ⟨e1, e2⟩ := hval (i + 1 + d) (by omega) k0 kK
      rw [e1] at kr1
      rw [e1, e2] at kr2
      have hk := (index_range_iff _ _ K idx).1 ⟨kr1, kr2⟩
      rcases Nat.le_total (length i) (length (i + 1 + d)) with hle | hle
      · apply hpf i hi (i + 1 + d) (by omega) (by omega) h0 k0 hle
        rw [Nat.shiftRight_eq_div_pow, ← hk, div_pow_div_pow idx K _ _ hle kK, htop]
      · apply hpf (i + 1 + d) (by omega) i hi (by omega) k0 h0 hle
        rw [Nat.shiftRight_eq_div_pow, ← htop, div_pow_div_pow idx K _ _ hle hlen, hk]
  have := key (n - (i + 1)) (by omega)
  rw [show i + 1 + (n - (i + 1)) = n by omega] at this
  exact this

theorem lookup_table_entry_of_code_witness :
    7 ≤ 32 ∧ 19 ≤ 512 ∧
    PrefixFree (fun i => if i = 0 then 1 else if i = 17 then 2 else if i = 18 then 2 else 0)
      (get_huffman_table_3
        (fun i => if i = 0 then 1 else if i = 17 then 2 else if i = 18 then 2 else 0)
        (fun _ => 0)) 19 ∧
    (∀ k, k < 19 →
      (fun i => if i = 0 then 1 else if i = 17 then 2 else if i = 18 then 2 else 0) k ≠ 0 →
      get_huffman_table_3
        (fun i => if i = 0 then 1 else if i = 17 then 2 else if i = 18 then 2 else 0)
        (fun _ => 0) k <
        2 ^ (fun i => if i = 0 then 1 else if i = 17 then 2 else if i = 18 then 2 else 0) k) ∧
    18 < 19 ∧
    (fun i => if i = 0 then 1 else if i = 17 then 2 else if i = 18 then 2 else 0) 18 ≠ 0 ∧
    (fun i => if i = 0 then 1 else if i = 17 then 2 else if i = 18 then 2 else 0) 18 ≤ 7 ∧
    0x7F >>> (7 -
        (fun i => if i = 0 then 1 else if i = 17 then 2 else if i = 18 then 2 else 0) 18) =
      get_huffman_table_3
        (fun i => if i = 0 then 1 else if i = 17 then 2 else if i = 18 then 2 else 0)
        (fun _ => 0) 18 ∧
    BUILD_LOOKUP_TABLE
      (fun i => if i = 0 then 1 else if i = 17 then 2 else if i = 18 then 2 else 0)
      (get_huffman_table_3
        (fun i => if i = 0 then 1 else if i = 17 then 2 else if i = 18 then 2 else 0)
        (fun _ => 0)) 7 19 0x7F =
      (18, (fun i => if i = 0 then 1 else if i = 17 then 2 else if i = 18 then 2 else 0) 18) :=
  ⟨by decide, by decide,
    canonical_codes_PrefixFree get_huffman_table_3 19 7 8
      (Or.inr (Or.inr ⟨rfl, rfl, rfl, rfl⟩)) _ _ (by decide) (by decide),
    by decide, by decide, by decide, by decide, by decide,
    lookup_table_entry_of_code _ _ 7 19 18 0x7F (by decide) (by decide)
      (canonical_codes_PrefixFree get_huffman_table_3 19 7 8
        (Or.inr (Or.inr ⟨rfl, rfl, rfl, rfl⟩)) _ _ (by decide) (by decide)) (by decide) (by decide) (by decide) (by decide)
      (by decide)⟩

/-! ## The reader in `GET_CCL` -/

/-- Bits of a header field of `k` bits cut at bit `s` of `pb` and passed through
`reverse`: bit `i` of the value is bit `s + k - 1 - i` of `pb`. -/
theorem testBit_header_field (pb mask s k i : Nat) (hmask : mask = (2 ^ k - 1) <<< s)
    (hi : i < k) :
    (reverse k ((pb &&& mask) >>> s) k).testBit i = pb.testBit (s + (k - 1 - i)) := by
  rw [hmask, and_mask_shiftRight_pow, testBit_reverse k _ k (le_refl _),
    Nat.testBit_mod_two_pow, Nat.testBit_shiftRight]
  have h1 : decide (i < k) = true := by simp [hi]
  have h2 : decide (k - 1 - i < k) = true := by simp; omega
  rw [h1, h2, Bool.true_and, Bool.true_and]

/-- A code-length-code length: the top three bits of `proc_buffer`, the first one
lowest. -/
theorem testBit_CCL_field (pb j : Nat) (hj : j < 3) :
    (reverse 3 ((pb &&& 0xE0000000) >>> 29) 3).testBit j = pb.testBit (31 - j) := by
  rw [testBit_header_field pb _ 29 3 j (by decide) hj]
  congr 1
  omega

/-- A round of `GET_CCL` that meets neither `buffer_bits_num == 2` nor
`buffer_bits_num == 0`. -/
theorem GET_CCL_plain (n idx : Nat) (st : DecState) (C : Nat → Nat)
    (h2 : st.buffer_bits_num ≠ 2) (h3 : st.buffer_bits_num - 3 ≠ 0) :
    GET_CCL (n + 1) idx st C =
      GET_CCL n (idx + 1)
        { st with proc_buffer := (st.proc_buffer <<< 3) % 2 ^ 32
                  buffer_bits_num := st.buffer_bits_num - 3 }
        (upd C idx (reverse 3 ((st.proc_buffer &&& 0xE0000000) >>> 29) 3)) := by
  rw [GET_CCL]
  simp only [if_neg h2, if_neg h3]

/-- The round of `GET_CCL` that uses up `proc_buffer`: `next_word` takes its place. -/
theorem GET_CCL_refill (n idx : Nat) (st : DecState) (C : Nat → Nat)
    (h : st.buffer_bits_num = 3) :
    GET_CCL (n + 1) idx st C =
      GET_CCL n (idx + 1)
        { st with proc_buffer := st.next_word
                  buffer_bits_num := 32
                  next_word := changeToLittleEndian (stream_read st.input).1
                  input := (stream_read st.input).2 }
        (upd C idx (reverse 3 ((st.proc_buffer &&& 0xE0000000) >>> 29) 3)) := by
  rw [GET_CCL]
  simp only [h, if_neg (by decide : ¬ (3 : Nat) = 2)]
  rw [if_pos trivial]

/-- The round of `GET_CCL` that starts with two bits: `next_word` joins them. -/
theorem GET_CCL_merge (n idx : Nat) (st : DecState) (C : Nat → Nat)
    (h : st.buffer_bits_num = 2) :
    GET_CCL (n + 1) idx st C =
      GET_CCL n (idx + 1)
        { st with proc_buffer := ((st.proc_buffer ||| (st.next_word >>> 2)) <<< 3) % 2 ^ 32
                  buffer_bits_num := 29
                  next_word := (st.next_word <<< 30) % 2 ^ 32
                  next_word_bits := 2 }
        (upd C idx
          (reverse 3 (((st.proc_buffer ||| (st.next_word >>> 2)) &&& 0xE0000000) >>> 29) 3)) := by
  rw [GET_CCL]
  simp only [h, if_pos trivial, if_neg (by decide : ¬ (32 : Nat) - 3 = 0)]

theorem GET_CCL_bits_step (k : Nat)
    (hk : k < 4 ∨ (5 ≤ k ∧ k < 15) ∨ (16 ≤ k ∧ k < 19)) :
    GET_CCL_bits (k + 1) + 3 = GET_CCL_bits k ∧ 4 ≤ GET_CCL_bits k ∧ GET_CCL_bits k ≤ 32 := by
  unfold GET_CCL_bits
  split_ifs <;> omega

/-- The reader's state is kept by a round that meets no refill. -/
theorem GetCCLInv_plain (ws : List Nat) (k : Nat) (st : DecState) (inv : GetCCLInv ws k st)
    (hk : k < 4 ∨ (5 ≤ k ∧ k < 15) ∨ (16 ≤ k ∧ k < 19)) :
    GetCCLInv ws (k + 1)
      { st with proc_buffer := (st.proc_buffer <<< 3) % 2 ^ 32
                buffer_bits_num := st.buffer_bits_num - 3 } := by
  obtain ⟨hb1, hb2, hb3⟩ := GET_CCL_bits_step k hk
  refine ⟨?_, Nat.mod_lt _ (by norm_num), fun t ht => ?_, inv.nw_lt, fun h15 t ht => ?_,
    fun h4 => inv.input (by omega)⟩
  · show st.buffer_bits_num - 3 = GET_CCL_bits (k + 1)
    rw [inv.bbn]
    omega
  · show ((st.proc_buffer <<< 3) % 2 ^ 32).testBit (31 - t) = _
    rw [testBit_shiftLeft_mod32]
    by_cases c : t < 29
    · have e : 31 - t - 3 = 31 - (t + 3) := by omega
      have e2 : 17 + 3 * k + (t + 3) = 17 + 3 * (k + 1) + t := by omega
      have d1 : decide (31 - t < 32) = true := decide_eq_true (by omega)
      have d2 : decide (3 ≤ 31 - t) = true := decide_eq_true (by omega)
      have d3 : decide (t + 3 < GET_CCL_bits k) = decide (t < GET_CCL_bits (k + 1)) := by
        by_cases c2 : t < GET_CCL_bits (k + 1)
        · rw [decide_eq_true c2, decide_eq_true (by omega)]
        · rw [decide_eq_false c2, decide_eq_false (by omega)]
      rw [e, inv.pb_bits (t + 3) (by omega), e2, d1, d2, d3, Bool.true_and, Bool.true_and]
    · rw [decide_eq_false (by omega : ¬ 3 ≤ 31 - t),
        decide_eq_false (by omega : ¬ t < GET_CCL_bits (k + 1))]
      simp
  · show st.next_word.testBit (31 - t) = _
    rw [inv.nw_bits (by omega) t ht]
    congr 1
    omega

/-- The reader's state after the round that takes `next_word` for `proc_buffer`. -/
theorem GetCCLInv_refill (ws : List Nat) (st : DecState) (inv : GetCCLInv ws 4 st) :
    GetCCLInv ws 5
      { st with proc_buffer := st.next_word
                buffer_bits_num := 32
                next_word := changeToLittleEndian (stream_read st.input).1
                input := (stream_read st.input).2 } := by
  have b4 : GET_CCL_bits 4 = 3 := by decide
  have b5 : GET_CCL_bits 5 = 32 := by decide
  refine ⟨b5.symm, inv.nw_lt, fun t ht => ?_, changeToLittleEndian_lt _, fun _ t ht => ?_,
    fun h => absurd h (by decide)⟩
  · show st.next_word.testBit (31 - t) = _
    rw [inv.nw_bits (by decide) t ht, b4, b5, decide_eq_true ht, Bool.true_and]
  · show (changeToLittleEndian (stream_read st.input).1).testBit (31 - t) = _
    rw [inv.input (by decide), getD_drop_zero ws 2, b5, word_bit]
    have e1 : (17 + 3 * 5 + 32 + t) / 32 = 2 := by omega
    have e2 : (17 + 3 * 5 + 32 + t) % 32 = t := by omega
    rw [e1, e2]

/-- The bits of `proc_buffer` after `proc_buffer |= (next_word >> 2)` in round 16. -/
theorem GetCCLInv_merge_bits (ws : List Nat) (st : DecState) (inv : GetCCLInv ws 15 st)
    (t : Nat) (ht : t < 32) :
    (st.proc_buffer ||| (st.next_word >>> 2)).testBit (31 - t) = word_bit ws (62 + t) := by
  have b15 : GET_CCL_bits 15 = 2 := by decide
  rw [Nat.testBit_or, Nat.testBit_shiftRight, inv.pb_bits t ht, b15]
  by_cases c : t < 2
  · rw [decide_eq_true c, Bool.true_and, testBit_ge_32 _ _ inv.nw_lt (by omega), Bool.or_false]
  · have e : 2 + (31 - t) = 31 - (t - 2) := by omega
    rw [decide_eq_false c, Bool.false_and, Bool.false_or, e,
      inv.nw_bits (le_refl _) (t - 2) (by omega), b15]
    congr 1
    omega

/-- The reader's state after the round that starts with two bits. -/
theorem GetCCLInv_merge (ws : List Nat) (st : DecState) (inv : GetCCLInv ws 15 st) :
    GetCCLInv ws 16
      { st with proc_buffer := ((st.proc_buffer ||| (st.next_word >>> 2)) <<< 3) % 2 ^ 32
                buffer_bits_num := 29
                next_word := (st.next_word <<< 30) % 2 ^ 32
                next_word_bits := 2 } := by
  have b16 : GET_CCL_bits 16 = 29 := by decide
  refine ⟨b16.symm, Nat.mod_lt _ (by norm_num), fun t ht => ?_, Nat.mod_lt _ (by norm_num),
    fun h => absurd h (by decide), fun h => absurd h (by decide)⟩
  show (((st.proc_buffer ||| (st.next_word >>> 2)) <<< 3) % 2 ^ 32).testBit (31 - t) = _
  rw [testBit_shiftLeft_mod32, b16]
  by_cases c : t < 29
  · have e : 31 - t - 3 = 31 - (t + 3) := by omega
    rw [e, GetCCLInv_merge_bits ws st inv (t + 3) (by omega),
      decide_eq_true (by omega : 31 - t < 32), decide_eq_true (by omega : 3 ≤ 31 - t),
      decide_eq_true c, Bool.true_and, Bool.true_and, Bool.true_and]
    congr 1
    omega
  · rw [decide_eq_false (by omega : ¬ 3 ≤ 31 - t), decide_eq_false c]
    simp

/-- One round of `GET_CCL` at a reader in the state of round `k`: the value stored is
made of the next three stream bits, the first one lowest, and the reader is in the
state of round `k + 1`. -/
theorem GetCCLInv_step (ws : List Nat) (k : Nat) (st : DecState) (inv : GetCCLInv ws k st)
    (hk : k < 19) :
    ∃ st2 c, (∀ n idx C, GET_CCL (n + 1) idx st C = GET_CCL n (idx + 1) st2 (upd C idx c)) ∧
      GetCCLInv ws (k + 1) st2 ∧
      ∀ j, j < 3 → c.testBit j = word_bit ws (17 + 3 * k + j) := by
  by_cases k4 : k = 4
  · subst k4
    have b4 : GET_CCL_bits 4 = 3 := by decide
    refine ⟨_, _, fun n idx C => GET_CCL_refill n idx st C (by rw [inv.bbn, b4]),
      GetCCLInv_refill ws st inv, fun j hj => ?_⟩
    rw [testBit_CCL_field _ j hj, inv.pb_bits j (by omega), b4, decide_eq_true hj,
      Bool.true_and]
  by_cases k15 : k = 15
  · subst k15
    have b15 : GET_CCL_bits 15 = 2 := by decide
    refine ⟨_, _, fun n idx C => GET_CCL_merge n idx st C (by rw [inv.bbn, b15]),
      GetCCLInv_merge ws st inv, fun j hj => ?_⟩
    rw [testBit_CCL_field _ j hj, GetCCLInv_merge_bits ws st inv j (by omega)]
  · have hp : k < 4 ∨ (5 ≤ k ∧ k < 15) ∨ (16 ≤ k ∧ k < 19) := by omega
    obtain ⟨hb1, hb2, hb3⟩ := GET_CCL_bits_step k hp
    refine ⟨_, _, fun n idx C => GET_CCL_plain n idx st C (by rw [inv.bbn]; omega)
      (by rw [inv.bbn]; omega), GetCCLInv_plain ws k st inv hp, fun j hj => ?_⟩
    rw [testBit_CCL_field _ j hj, inv.pb_bits j (by omega),
      decide_eq_true (by omega : j < GET_CCL_bits k), Bool.true_and]

/-- Loop `GET_CCL` from the reader behind the 17 header bits: after `k ≤ 19` rounds the
entries `CCL[0 .. k-1]` hold the `k` three-bit fields that follow the header in the
stream, each with its first bit lowest, and the other entries are untouched. -/
theorem GET_CCL_rounds (ws : List Nat) (st0 : DecState) (inv0 : GetCCLInv ws 0 st0)
    (C : Nat → Nat) :
    ∀ k, k ≤ 19 → ∃ st2 C2, (∀ n, GET_CCL (k + n) 0 st0 C = GET_CCL n k st2 C2) ∧
      GetCCLInv ws k st2 ∧
      (∀ i, i < k → ∀ j, j < 3 → (C2 i).testBit j = word_bit ws (17 + 3 * i + j)) ∧
      (∀ i, k ≤ i → C2 i = C i) := by
  intro k
  induction k with
  | zero =>
    intro _
    exact ⟨st0, C, fun n => by rw [Nat.zero_add], inv0, fun i hi => absurd hi (by omega),
      fun _ _ => rfl⟩
  | succ k ih =>
    intro hk
    obtain ⟨st2, C2, h1, h2, h3, h4⟩ := ih (by omega)
    obtain ⟨st3, c, g1, g2, g3⟩ := GetCCLInv_step ws k st2 h2 (by omega)
    refine ⟨st3, upd C2 k c, fun n => ?_, g2, fun i hi j hj => ?_, fun i hi => ?_⟩
    · rw [show k + 1 + n = k + (n + 1) by omega, h1 (n + 1), g1 n k C2]
    · rw [upd]
      by_cases e : i = k
      · rw [if_pos e, e]
        exact g3 j hj
      · rw [if_neg e]
        exact h3 i (by omega) j hj
    · rw [upd, if_neg (by omega)]
      exact h4 i (by omega)

/-- The reader of `huffman_decoder` behind the 17 header bits of a dynamic block is in
the state of round 0 of `GET_CCL`. -/
theorem GetCCLInv_start (input : List Nat) :
    GetCCLInv input 0
      { decoder_start input with
          proc_buffer := ((decoder_start input).proc_buffer <<< 17) % 2 ^ 32
          buffer_bits_num := 15 } := by
  have b0 : GET_CCL_bits 0 = 15 := by decide
  have hpb : (decoder_start input).proc_buffer = changeToLittleEndian (input.getD 0 0) := by
    show changeToLittleEndian (stream_read input).1 = _
    rw [stream_read_eq]
  have hnw : (decoder_start input).next_word = changeToLittleEndian (input.getD 1 0) := by
    show changeToLittleEndian (stream_read (stream_read input).2).1 = _
    rw [stream_read_eq input]
    exact congrArg changeToLittleEndian (getD_drop_zero input 1)
  refine ⟨b0.symm, Nat.mod_lt _ (by norm_num), fun t ht => ?_, ?_, fun _ t ht => ?_,
    fun _ => ?_⟩
  · show (((decoder_start input).proc_buffer <<< 17) % 2 ^ 32).testBit (31 - t) = _
    rw [testBit_shiftLeft_mod32, b0, hpb]
    by_cases c : t < 15
    · have e1 : (17 + 3 * 0 + t) / 32 = 0 := by omega
      have e2 : 31 - (17 + 3 * 0 + t) % 32 = 31 - t - 17 := by omega
      rw [word_bit, e1, e2, decide_eq_true (by omega : 31 - t < 32),
        decide_eq_true (by omega : 17 ≤ 31 - t), decide_eq_true c, Bool.true_and,
        Bool.true_and]
    · rw [decide_eq_false (by omega : ¬ 17 ≤ 31 - t), decide_eq_false c]
      simp
  · show (decoder_start input).next_word < 2 ^ 32
    rw [hnw]
    exact changeToLittleEndian_lt _
  · show (decoder_start input).next_word.testBit (31 - t) = _
    have e1 : (17 + 3 * 0 + 15 + t) / 32 = 1 := by omega
    have e2 : (17 + 3 * 0 + 15 + t) % 32 = t := by omega
    rw [hnw, b0, word_bit, e1, e2]
  · show (stream_read (stream_read input).2).2 = input.drop 2
    rw [stream_read_eq input]
    exact stream_read_snd input 1

/-! ## The header of a dynamic block and the code-length loops -/

/-- Bits of a field of `e` bits cut at bit `s` of `pb` and passed through `reverse`. -/
theorem testBit_reverse_field (W pb s m e i : Nat) (hm : m = 2 ^ e - 1) (he : e ≤ W)
    (hi : i < e) :
    (reverse W ((pb >>> s) &&& m) e).testBit i = pb.testBit (s + (e - 1 - i)) := by
  rw [testBit_reverse W _ e he, hm, Nat.testBit_and, Nat.testBit_shiftRight,
    Nat.testBit_two_pow_sub_one]
  have h1 : decide (i < e) = true := by simp [hi]
  have h2 : decide (e - 1 - i < e) = true := by simp; omega
  rw [h1, h2, Bool.true_and, Bool.and_true]

/-- One iteration of `DECODE_CL1` / `DECODE_CL2`: the refill loop, then the round that
`DECODE_CL_step` describes. -/
theorem DECODE_CL_succ (T : Nat → Nat × Nat) (num fuel : Nat) (st : DecState)
    (vl : Nat → Nat) (c : Nat) :
    DECODE_CL T num (fuel + 1) st vl c =
      if c < num then
        match DECODE_CL_INPUT 3 st with
        | none => none
        | some st1 =>
          DECODE_CL T num fuel (DECODE_CL_step T st1 vl c).1 (DECODE_CL_step T st1 vl c).2.1
            (DECODE_CL_step T st1 vl c).2.2
      else some (st, vl, c) := by
  rw [DECODE_CL]
  by_cases hc : c < num
  · rw [if_pos hc, if_pos hc]
    cases DECODE_CL_INPUT 3 st with
    | none => rfl
    | some st1 =>
      simp only [DECODE_CL_step]
      split_ifs <;> rfl
  · rw [if_neg hc, if_neg hc]

/-- The round `DECODE_CL_step` by the decoded symbol: the extra bits `r` (`e` of them,
the stream bits behind the `v` bits of the code, the first one lowest, as long as the
shift amount `25 - v` is not negative), the advance of the reader, and the lengths
appended. -/
theorem DECODE_CL_step_cases (T : Nat → Nat × Nat) (st1 : DecState) (vl : Nat → Nat)
    (c : Nat) :
    ∃ e r, r < 2 ^ e ∧
      ((T ((st1.proc_buffer &&& 0xFE000000) >>> 25)).2 ≤ 25 →
        ∀ i, i < e → r.testBit i = st1.proc_buffer.testBit
          (31 - (T ((st1.proc_buffer &&& 0xFE000000) >>> 25)).2 - i)) ∧
      (DECODE_CL_step T st1 vl c).1 =
        { st1 with
            proc_buffer := (st1.proc_buffer <<<
              ((T ((st1.proc_buffer &&& 0xFE000000) >>> 25)).2 + e)) % 2 ^ 32
            buffer_bits_num := st1.buffer_bits_num -
              ((T ((st1.proc_buffer &&& 0xFE000000) >>> 25)).2 + e) } ∧
      (((T ((st1.proc_buffer &&& 0xFE000000) >>> 25)).1 = 16 ∧ e = 2 ∧
          (DECODE_CL_step T st1 vl c).2 = (fill_range vl c (3 + r) (vl (c - 1)), c + (3 + r))) ∨
        ((T ((st1.proc_buffer &&& 0xFE000000) >>> 25)).1 = 17 ∧ e = 3 ∧
          (DECODE_CL_step T st1 vl c).2 = (fill_range vl c (3 + r) 0, c + (3 + r))) ∨
        ((T ((st1.proc_buffer &&& 0xFE000000) >>> 25)).1 = 18 ∧ e = 7 ∧
          (DECODE_CL_step T st1 vl c).2 = (fill_range vl c (11 + r) 0, c + (11 + r))) ∨
        ((T ((st1.proc_buffer &&& 0xFE000000) >>> 25)).1 ≠ 16 ∧
          (T ((st1.proc_buffer &&& 0xFE000000) >>> 25)).1 ≠ 17 ∧
          (T ((st1.proc_buffer &&& 0xFE000000) >>> 25)).1 ≠ 18 ∧ e = 0 ∧
          (DECODE_CL_step T st1 vl c).2 =
            (upd vl c (T ((st1.proc_buffer &&& 0xFE000000) >>> 25)).1, c + 1))) := by
  generalize hs : (T ((st1.proc_buffer &&& 0xFE000000) >>> 25)).1 = s
  generalize hvv : (T ((st1.proc_buffer &&& 0xFE000000) >>> 25)).2 = v
  by_cases c16 : s = 16
  · have hr := reverse_lt 2 ((st1.proc_buffer >>> (30 - v)) &&& 0x03) 2 (le_refl _)
    refine ⟨2, reverse 2 ((st1.proc_buffer >>> (30 - v)) &&& 0x03) 2, hr, fun hv i hi => ?_, ?_,
      Or.inl ⟨c16, rfl, ?_⟩⟩
    · rw [testBit_reverse_field 2 _ _ _ 2 i (by norm_num) (le_refl _) hi]
      congr 1
      omega
    · simp only [DECODE_CL_step, hs, hvv]
      rw [if_pos c16]
    · simp only [DECODE_CL_step, hs, hvv]
      have e : (reverse 2 ((st1.proc_buffer >>> (30 - v)) &&& 0x03) 2 + 3) % 2 ^ 8 =
          3 + reverse 2 ((st1.proc_buffer >>> (30 - v)) &&& 0x03) 2 := by
        norm_num at hr
        omega
      rw [if_pos c16, e]
  by_cases c17 : s = 17
  · have hr := reverse_lt 3 ((st1.proc_buffer >>> (29 - v)) &&& 0x07) 3 (le_refl _)
    refine ⟨3, reverse 3 ((st1.proc_buffer >>> (29 - v)) &&& 0x07) 3, hr, fun hv i hi => ?_, ?_,
      Or.inr (Or.inl ⟨c17, rfl, ?_⟩)⟩
    · rw [testBit_reverse_field 3 _ _ _ 3 i (by norm_num) (le_refl _) hi]
      congr 1
      omega
    · simp only [DECODE_CL_step, hs, hvv]
      rw [if_neg c16, if_pos c17]
    · simp only [DECODE_CL_step, hs, hvv]
      have e : (reverse 3 ((st1.proc_buffer >>> (29 - v)) &&& 0x07) 3 + 3) % 2 ^ 8 =
          3 + reverse 3 ((st1.proc_buffer >>> (29 - v)) &&& 0x07) 3 := by
        norm_num at hr
        omega
      rw [if_neg c16, if_pos c17, e]
  by_cases c18 : s = 18
  · have hr := reverse_lt 7 ((st1.proc_buffer >>> (25 - v)) &&& 0x07F) 7 (le_refl _)
    refine ⟨7, reverse 7 ((st1.proc_buffer >>> (25 - v)) &&& 0x07F) 7, hr, fun hv i hi => ?_, ?_,
      Or.inr (Or.inr (Or.inl ⟨c18, rfl, ?_⟩))⟩
    · rw [testBit_reverse_field 7 _ _ _ 7 i (by norm_num) (le_refl _) hi]
      congr 1
      omega
    · simp only [DECODE_CL_step, hs, hvv]
      rw [if_neg c16, if_neg c17, if_pos c18]
    · simp only [DECODE_CL_step, hs, hvv]
      have e : (reverse 7 ((st1.proc_buffer >>> (25 - v)) &&& 0x07F) 7 + 11) % 2 ^ 8 =
          11 + reverse 7 ((st1.proc_buffer >>> (25 - v)) &&& 0x07F) 7 := by
        norm_num at hr
        omega
      rw [if_neg c16, if_neg c17, if_pos c18, e]
  · refine ⟨0, 0, by norm_num, fun _ i hi => absurd hi (by omega), ?_,
      Or.inr (Or.inr (Or.inr ⟨c16, c17, c18, rfl, ?_⟩))⟩
    · simp only [DECODE_CL_step, hs, hvv]
      rw [if_neg c16, if_neg c17, if_neg c18]
      rfl
    · simp only [DECODE_CL_step, hs, hvv]
      rw [if_neg c16, if_neg c17, if_neg c18]

/-- One round appends at least one and at most 138 lengths, touches no other entry and
reads no word. -/
theorem DECODE_CL_step_count (T : Nat → Nat × Nat) (st1 : DecState) (vl : Nat → Nat)
    (c : Nat) :
    c + 1 ≤ (DECODE_CL_step T st1 vl c).2.2 ∧ (DECODE_CL_step T st1 vl c).2.2 ≤ c + 138 ∧
    (∀ j, j < c → (DECODE_CL_step T st1 vl c).2.1 j = vl j) ∧
    (∀ j, (DECODE_CL_step T st1 vl c).2.2 ≤ j → (DECODE_CL_step T st1 vl c).2.1 j = vl j) ∧
    (DECODE_CL_step T st1 vl c).1.input = st1.input := by
  obtain ⟨e, r, hr, _, hst, h⟩ := DECODE_CL_step_cases T st1 vl c
  have hfill : ∀ (n x j : Nat), (j < c ∨ c + n ≤ j) → fill_range vl c n x j = vl j := by
    intro n x j hj
    rw [fill_range, if_neg (by omega)]
  have hin : (DECODE_CL_step T st1 vl c).1.input = st1.input := by rw [hst]
  rcases h with ⟨_, he, h2⟩ | ⟨_, he, h2⟩ | ⟨_, he, h2⟩ | ⟨_, _, _, he, h2⟩
  · subst he
    norm_num at hr
    rw [h2]
    exact ⟨by simp only; omega, by simp only; omega, fun j hj => hfill _ _ j (Or.inl hj),
      fun j hj => hfill _ _ j (Or.inr hj), hin⟩
  · subst he
    norm_num at hr
    rw [h2]
    exact ⟨by simp only; omega, by simp only; omega, fun j hj => hfill _ _ j (Or.inl hj),
      fun j hj => hfill _ _ j (Or.inr hj), hin⟩
  · subst he
    norm_num at hr
    rw [h2]
    exact ⟨by simp only; omega, by simp only; omega, fun j hj => hfill _ _ j (Or.inl hj),
      fun j hj => hfill _ _ j (Or.inr hj), hin⟩
  · rw [h2]
    refine ⟨by simp only; omega, by simp only; omega, fun j hj => ?_, fun j hj => ?_, hin⟩
    · simp only [upd]
      rw [if_neg (by omega)]
    · simp only [upd]
      rw [if_neg (by simp only at hj; omega)]

theorem stream_read_length (l : List Nat) :
    l.length ≤ (stream_read l).2.length + 1 ∧ (stream_read l).2.length ≤ l.length := by
  cases l with
  | nil => exact ⟨by simp [stream_read], by simp [stream_read]⟩
  | cons w rest => exact ⟨by simp [stream_read], by simp [stream_read]⟩

/-- One round of the refill loop `DECODE_CL*_INPUT`: it reads at most one word; it fills
the buffer when `next_word` holds enough bits, and otherwise leaves a full `next_word`
unless the stream is empty. -/
theorem DECODE_CL_INPUT_round (f : Nat) (st : DecState) (h : st.buffer_bits_num < 16) :
    ∃ st2, DECODE_CL_INPUT (f + 1) st = DECODE_CL_INPUT f st2 ∧
      st.input.length ≤ st2.input.length + 1 ∧ st2.input.length ≤ st.input.length ∧
      (st2.buffer_bits_num = 32 ∨ (st.input ≠ [] → st2.next_word_bits = 32)) ∧
      (32 - st.buffer_bits_num ≤ st.next_word_bits → st2.buffer_bits_num = 32) ∧
      (st2.input ≠ [] → st.input ≠ []) := by
  obtain ⟨l1, l2⟩ := stream_read_length st.input
  rw [DECODE_CL_INPUT, if_pos h]
  by_cases h1 : 32 - st.buffer_bits_num ≤ st.next_word_bits
  · simp only [if_pos h1]
    split_ifs with h2
    · exact ⟨_, rfl, l1, l2, Or.inl rfl, fun _ => rfl, fun _ hn => by
        rw [hn] at h2
        simp at h2⟩
    · exact ⟨_, rfl, by simp, le_refl _, Or.inl rfl, fun _ => rfl, fun hn => hn⟩
  · simp only [if_neg h1]
    split_ifs with h2
    · exact ⟨_, rfl, l1, l2, Or.inr (fun _ => rfl), fun hc => absurd hc h1, fun _ hn => by
        rw [hn] at h2
        simp at h2⟩
    · refine ⟨_, rfl, by simp, le_refl _, Or.inr (fun hn => ?_), fun hc => absurd hc h1,
        fun hn => hn⟩
      exfalso
      apply h2
      refine ⟨trivial, ?_⟩
      cases hl : st.input with
      | nil => exact absurd hl hn
      | cons w rest => simp

/-- The refill loop comes back when the stream is not empty: it reads at most two
words and leaves at least 16 bits in `proc_buffer`. -/
theorem DECODE_CL_INPUT_returns (st : DecState) (h : st.input ≠ []) :
    ∃ st1, DECODE_CL_INPUT 3 st = some st1 ∧ st.input.length ≤ st1.input.length + 2 ∧
      16 ≤ st1.buffer_bits_num := by
  have exit : ∀ (f : Nat) (s : DecState), 16 ≤ s.buffer_bits_num →
      DECODE_CL_INPUT (f + 1) s = some s := by
    intro f s hs
    rw [DECODE_CL_INPUT, if_neg (by omega)]
  by_cases c1 : st.buffer_bits_num < 16
  · obtain ⟨s2, e2, a1, _, a3, _, _⟩ := DECODE_CL_INPUT_round 2 st c1
    rw [e2]
    by_cases c2 : s2.buffer_bits_num < 16
    · obtain ⟨s3, e3, b1, _, _, b4, _⟩ := DECODE_CL_INPUT_round 1 s2 c2
      rw [e3]
      have hn : s2.next_word_bits = 32 := by
        rcases a3 with a3 | a3
        · omega
        · exact a3 h
      have h32 : s3.buffer_bits_num = 32 := b4 (by omega)
      exact ⟨s3, exit 0 s3 (by omega), by omega, by omega⟩
    · exact ⟨s2, exit 1 s2 (by omega), by omega, by omega⟩
  · exact ⟨st, exit 2 st (by omega), by omega, by omega⟩

/-- What the loops `DECODE_CL1` / `DECODE_CL2` have done when they come back: at least
`CL_num` lengths are collected, at most 137 more, and no entry from the final count on
(and none below the first count) is written. -/
theorem DECODE_CL_result (T : Nat → Nat × Nat) (num : Nat) :
    ∀ (fuel : Nat) (st : DecState) (vl : Nat → Nat) (c : Nat) (r : DecState × (Nat → Nat) × Nat),
    DECODE_CL T num fuel st vl c = some r →
      c ≤ r.2.2 ∧ num ≤ r.2.2 ∧ (c < num → r.2.2 ≤ num + 137) ∧ (num ≤ c → r = (st, vl, c)) ∧
      (∀ j, j < c → r.2.1 j = vl j) ∧ (∀ j, r.2.2 ≤ j → r.2.1 j = vl j) := by
  intro fuel
  induction fuel with
  | zero =>
    intro st vl c r h
    rw [DECODE_CL] at h
    exact Option.noConfusion h
  | succ f ih =>
    intro st vl c r h
    rw [DECODE_CL_succ] at h
    by_cases hc : c < num
    · rw [if_pos hc] at h
      cases hI : DECODE_CL_INPUT 3 st with
      | none =>
        rw [hI] at h
        exact Option.noConfusion h
      | some st1 =>
        rw [hI] at h
        simp only at h
        obtain ⟨s1, s2, s3, s4, _⟩ := DECODE_CL_step_count T st1 vl c
        obtain ⟨i1, i2, i3, i4, i5, i6⟩ := ih _ _ _ r h
        refine ⟨by omega, i2, fun _ => ?_, fun hn => absurd hn (by omega), fun j hj => ?_,
          fun j hj => ?_⟩
        · by_cases hc2 : (DECODE_CL_step T st1 vl c).2.2 < num
          · exact i3 hc2
          · have := i4 (by omega)
            rw [this]
            simp only
            omega
        · rw [i5 j (by omega), s3 j hj]
        · rw [i6 j hj, s4 j (by omega)]
    · rw [if_neg hc] at h
      injection h with h
      subst h
      exact ⟨le_refl _, by simp only; omega, fun h => absurd h hc, fun _ => rfl,
        fun _ _ => rfl, fun _ _ => rfl⟩

/-- The loops `DECODE_CL1` / `DECODE_CL2` come back when the stream holds two words for
every length still to collect; they read at most that many words. -/
theorem DECODE_CL_returns (T : Nat → Nat × Nat) (num : Nat) :
    ∀ (fuel : Nat) (st : DecState) (vl : Nat → Nat) (c : Nat),
    num - c + 1 ≤ fuel → 2 * (num - c) ≤ st.input.length →
      ∃ r, DECODE_CL T num fuel st vl c = some r ∧
        st.input.length ≤ r.1.input.length + 2 * (num - c) := by
  intro fuel
  induction fuel with
  | zero =>
    intro st vl c hf
    omega
  | succ f ih =>
    intro st vl c hf hin
    rw [DECODE_CL_succ]
    by_cases hc : c < num
    · rw [if_pos hc]
      have hne : st.input ≠ [] := by
        intro h
        rw [h] at hin
        simp at hin
        omega
      obtain ⟨st1, e1, l1, _⟩ := DECODE_CL_INPUT_returns st hne
      rw [e1]
      simp only
      obtain ⟨s1, s2, s3, s4, s5⟩ := DECODE_CL_step_count T st1 vl c
      obtain ⟨r, hr, hl⟩ := ih (DECODE_CL_step T st1 vl c).1 (DECODE_CL_step T st1 vl c).2.1
        (DECODE_CL_step T st1 vl c).2.2 (by omega) (by rw [s5]; omega)
      refine ⟨r, hr, ?_⟩
      rw [s5] at hl
      omega
    · rw [if_neg hc]
      exact ⟨_, rfl, by simp only; omega⟩

/-- The refill loop `DECODE_CL*_INPUT` fails to come back exactly when the stream is
empty and `proc_buffer` and `next_word` together hold fewer than 16 bits. -/
theorem DECODE_CL_INPUT_none (st : DecState) :
    DECODE_CL_INPUT 3 st = none ↔
      st.input = [] ∧ st.buffer_bits_num + st.next_word_bits < 16 := by
  have exit : ∀ (f : Nat) (s : DecState), 16 ≤ s.buffer_bits_num →
      DECODE_CL_INPUT (f + 1) s = some s := by
    intro f s hs
    rw [DECODE_CL_INPUT, if_neg (by omega)]
  constructor
  · intro h
    have hin : st.input = [] := by
      by_contra hne
      obtain ⟨s, hs, _⟩ := DECODE_CL_INPUT_returns st hne
      rw [hs] at h
      exact Option.noConfusion h
    refine ⟨hin, ?_⟩
    by_contra hb
    by_cases c1 : st.buffer_bits_num < 16
    · obtain ⟨s2, e2, _, _, _, a4, _⟩ := DECODE_CL_INPUT_round 2 st c1
      by_cases h1 : 32 - st.buffer_bits_num ≤ st.next_word_bits
      · rw [e2, exit 1 s2 (by have := a4 h1; omega)] at h
        exact Option.noConfusion h
      · rw [DECODE_CL_INPUT, if_pos c1] at h
        simp only [if_neg h1, hin, List.isEmpty_nil, not_true_eq_false, and_false, if_false] at h
        rw [exit 1 _ (by simp only; omega)] at h
        exact Option.noConfusion h
    · rw [exit 2 st (by omega)] at h
      exact Option.noConfusion h
  · intro ⟨hin, hb⟩
    have key : ∀ (s : DecState), s.input = [] → s.buffer_bits_num + s.next_word_bits < 16 →
        ∀ f, ∃ s2 : DecState, DECODE_CL_INPUT (f + 1) s = DECODE_CL_INPUT f s2 ∧ s2.input = [] ∧
          s2.buffer_bits_num + s2.next_word_bits < 16 := by
      intro s hs hsb f
      rw [DECODE_CL_INPUT, if_pos (by omega)]
      simp only [if_neg (by omega : ¬ (32 - s.buffer_bits_num ≤ s.next_word_bits)), hs,
        List.isEmpty_nil, not_true_eq_false, and_false, if_false]
      exact ⟨_, rfl, rfl, by simp only; omega⟩
    obtain ⟨s2, e2, i2, b2⟩ := key st hin hb 2
    obtain ⟨s3, e3, i3, b3⟩ := key s2 i2 b2 1
    obtain ⟨s4, e4, _, _⟩ := key s3 i3 b3 0
    rw [e2, e3, e4, DECODE_CL_INPUT]

/-- The loops `DECODE_CL1` / `DECODE_CL2` fail to come back only through their refill
loop: every iteration collects at least one length, so `CL_num` iterations are enough. -/
theorem DECODE_CL_none (T : Nat → Nat × Nat) (num : Nat) :
    ∀ (fuel : Nat) (st : DecState) (vl : Nat → Nat) (c : Nat), num - c + 1 ≤ fuel →
      (DECODE_CL T num fuel st vl c = none ↔ DECODE_CL_starves T num fuel st vl c = true) := by
  intro fuel
  induction fuel with
  | zero =>
    intro st vl c hf
    omega
  | succ f ih =>
    intro st vl c hf
    rw [DECODE_CL_succ, DECODE_CL_starves]
    by_cases hc : c < num
    · rw [if_pos hc, if_pos hc]
      cases hI : DECODE_CL_INPUT 3 st with
      | none => simp
      | some st1 =>
        simp only
        obtain ⟨s1, _⟩ := DECODE_CL_step_count T st1 vl c
        exact ih _ _ _ (by omega)
    · rw [if_neg hc, if_neg hc]
      simp

/-- Loop `GET_CCL`: it reads at most one word per round, stores three-bit values, and
stores nothing outside `CCL[CCL_index .. CCL_index + n - 1]`. -/
theorem GET_CCL_spec : ∀ (n idx : Nat) (st : DecState) (CCL : Nat → Nat),
    st.input.length ≤ (GET_CCL n idx st CCL).1.input.length + n ∧
    ((∀ i, CCL i < 8) → ∀ i, (GET_CCL n idx st CCL).2 i < 8) ∧
    (∀ i, i < idx ∨ idx + n ≤ i → (GET_CCL n idx st CCL).2 i = CCL i) := by
  intro n
  induction n with
  | zero =>
    intro idx st CCL
    exact ⟨by rw [GET_CCL]; exact Nat.le_add_right _ _, fun h i => by rw [GET_CCL]; exact h i,
      fun i _ => by rw [GET_CCL]⟩
  | succ n ih =>
    intro idx st CCL
    rw [GET_CCL]
    simp only
    generalize hst1 : (if st.buffer_bits_num = 2 then
        ({ st with proc_buffer := st.proc_buffer ||| (st.next_word >>> 2)
                   buffer_bits_num := 32
                   next_word := (st.next_word <<< 30) % 2 ^ 32
                   next_word_bits := 2 } : DecState)
      else st) = st1
    have hin1 : st1.input = st.input := by
      rw [← hst1]
      split_ifs <;> rfl
    generalize hc : reverse 3 ((st1.proc_buffer &&& 0xE0000000) >>> 29) 3 = cv
    have hcv : cv < 8 := by
      rw [← hc]
      exact reverse_lt 3 _ 3 (le_refl _)
    generalize hst3 : (if st1.buffer_bits_num - 3 = 0 then
        ({ input := (stream_read st1.input).2, proc_buffer := st1.next_word,
           buffer_bits_num := 32,
           next_word := changeToLittleEndian (stream_read st1.input).1,
           next_word_bits := st1.next_word_bits, done_decoding := st1.done_decoding,
           done_input := st1.done_input, length := st1.length, output := st1.output } : DecState)
      else
        { input := st1.input, proc_buffer := (st1.proc_buffer <<< 3) % 2 ^ 32,
          buffer_bits_num := st1.buffer_bits_num - 3,
          next_word := st1.next_word, next_word_bits := st1.next_word_bits,
          done_decoding := st1.done_decoding, done_input := st1.done_input,
          length := st1.length, output := st1.output }) = st3
    have hin3 : st.input.length ≤ st3.input.length + 1 := by
      rw [← hst3, ← hin1]
      obtain ⟨l1, _⟩ := stream_read_length st1.input
      split_ifs
      · exact l1
      · simp
    obtain ⟨i1, i2, i3⟩ := ih (idx + 1) st3 (upd CCL idx cv)
    refine ⟨by omega, fun h i => ?_, fun i hi => ?_⟩
    · apply i2
      intro k
      rw [upd]
      split_ifs
      · exact hcv
      · exact h k
    · rw [i3 i (by omega), upd, if_neg (by omega)]

/-- The branch `block_header == 5` by its stages: the two code-length loops, the two
paddings, the two code tables, the two first-level tables and the main loop. -/
theorem dynamic_huffman_decoder_stages (st : DecState) :
    dynamic_huffman_decoder st =
      match dynamic_CL1 st with
      | none => none
      | some (st1, vl1, CL1_count) =>
        match dynamic_CL2 st st1 with
        | none => none
        | some (st2, vl2, CL2_count) =>
          DYNAMIC_MAIN_LOOP
            (BUILD_LOOKUP_TABLE (fun i => if CL1_count ≤ i ∧ i < 286 then 0 else vl1 i)
              (get_huffman_table_1 (fun i => if CL1_count ≤ i ∧ i < 286 then 0 else vl1 i)
                (fun _ => 0)) 9 286)
            (BUILD_LOOKUP_TABLE (fun i => if CL2_count ≤ i ∧ i < 30 then 0 else vl2 i)
              (get_huffman_table_2 (fun i => if CL2_count ≤ i ∧ i < 30 then 0 else vl2 i)
                (fun _ => 0)) 6 30)
            (st2.buffer_bits_num + st2.next_word_bits + 32 * st2.input.length + 1) st2 := rfl

/-- The array `CCL` behind `GET_CCL` and `FILL_REMAINING_CCL`: three-bit values, zero
from `HCLEN + 4` on; `GET_CCL` reads at most one word per round. -/
theorem dynamic_CCL_spec (st : DecState) :
    st.input.length ≤ (dynamic_CCL st).1.input.length + (dynamic_HCLEN st.proc_buffer + 4) ∧
    (∀ i, (dynamic_CCL st).2 i < 8) ∧
    (∀ i, dynamic_HCLEN st.proc_buffer + 4 ≤ i → (dynamic_CCL st).2 i = 0) := by
  have hg := GET_CCL_spec (dynamic_HCLEN st.proc_buffer + 4) 0
    { st with proc_buffer := (st.proc_buffer <<< 17) % 2 ^ 32, buffer_bits_num := 15 }
    (fun _ => 0)
  refine ⟨hg.1, fun i => ?_, fun i hi => ?_⟩
  · simp only [dynamic_CCL]
    split_ifs
    · exact hg.2.1 (fun _ => by norm_num) i
    · norm_num
  · simp only [dynamic_CCL]
    rw [if_neg (by omega)]

/-- The entries of `CCL` that `GET_CCL` stores are the three-bit fields that follow the
17 header bits in the stream, each with its first bit lowest. -/
theorem dynamic_CCL_bits (input : List Nat) (i : Nat)
    (hi : i < dynamic_HCLEN (decoder_start input).proc_buffer + 4) (j : Nat) (hj : j < 3) :
    ((dynamic_CCL (decoder_start input)).2 i).testBit j = word_bit input (17 + 3 * i + j) := by
  have h4 : dynamic_HCLEN (decoder_start input).proc_buffer < 16 := reverse_lt 4 _ 4 (le_refl _)
  obtain ⟨st2, C2, h1, _, h3, _⟩ := GET_CCL_rounds input _ (GetCCLInv_start input) (fun _ => 0)
    (dynamic_HCLEN (decoder_start input).proc_buffer + 4) (by omega)
  have e := h1 0
  rw [Nat.add_zero, GET_CCL] at e
  simp only [dynamic_CCL]
  rw [if_pos hi, e]
  exact h3 i hi j hj

/-- C32: for an input whose first word, after `changeToLittleEndian`, has the top three
bits `101` (`block_header = 5`), `huffman_decoder` runs the dynamic branch on that word;
`HLIT` is taken from bits 28..24, `HDIST` from bits 23..19 and `HCLEN` from bits 18..15,
each bit-reversed over its width (bit `i` of `HLIT` is bit `28 - i` of the word, and so
on); `GET_CCL` stores `HCLEN + 4` three-bit code-length-code lengths, the fields of
three bits that follow the 17 header bits in the word stream (`word_bit`), each with its
first bit lowest, and the rest of `CCL` is zero; `DECODE_CL1` comes back only with at least `HLIT + 257` lengths collected
and `DECODE_CL2` only with at least `HDIST + 1`, and both stop at once when as many are
already there. -/
theorem dynamic_header_counts (input : List Nat) (h : block_header input = 5) :
    (huffman_decoder input =
      match dynamic_huffman_decoder (decoder_start input) with
      | none => none
      | some st1 => some (st1.output ++ [0])) ∧
    (decoder_start input).proc_buffer = changeToLittleEndian (stream_read input).1 ∧
    (∀ i, i < 5 → (dynamic_HLIT (decoder_start input).proc_buffer).testBit i =
      (decoder_start input).proc_buffer.testBit (28 - i)) ∧
    (∀ i, i < 5 → (dynamic_HDIST (decoder_start input).proc_buffer).testBit i =
      (decoder_start input).proc_buffer.testBit (23 - i)) ∧
    (∀ i, i < 4 → (dynamic_HCLEN (decoder_start input).proc_buffer).testBit i =
      (decoder_start input).proc_buffer.testBit (18 - i)) ∧
    dynamic_HLIT (decoder_start input).proc_buffer < 32 ∧
    dynamic_HDIST (decoder_start input).proc_buffer < 32 ∧
    dynamic_HCLEN (decoder_start input).proc_buffer < 16 ∧
    (∀ i, (dynamic_CCL (decoder_start input)).2 i < 8) ∧
    (∀ i, i < dynamic_HCLEN (decoder_start input).proc_buffer + 4 → ∀ j, j < 3 →
      ((dynamic_CCL (decoder_start input)).2 i).testBit j = word_bit input (17 + 3 * i + j)) ∧
    (∀ i, dynamic_HCLEN (decoder_start input).proc_buffer + 4 ≤ i →
      (dynamic_CCL (decoder_start input)).2 i = 0) ∧
    (∀ r, dynamic_CL1 (decoder_start input) = some r →
      dynamic_HLIT (decoder_start input).proc_buffer + 257 ≤ r.2.2) ∧
    (∀ st1 r, dynamic_CL2 (decoder_start input) st1 = some r →
      dynamic_HDIST (decoder_start input).proc_buffer + 1 ≤ r.2.2) ∧
    (∀ (T : Nat → Nat × Nat) (num fuel : Nat) (st : DecState) (vl : Nat → Nat) (c : Nat),
      num ≤ c → DECODE_CL T num (fuel + 1) st vl c = some (st, vl, c)) := by
  refine ⟨?_, rfl, fun i hi => ?_, fun i hi => ?_, fun i hi => ?_,
    reverse_lt 5 _ 5 (le_refl _), reverse_lt 5 _ 5 (le_refl _), reverse_lt 4 _ 4 (le_refl _),
    fun i => ?_, dynamic_CCL_bits input, fun i hi => ?_, fun r hr => ?_, fun st1 r hr => ?_,
    fun T num fuel st vl c hc => ?_⟩
  · rw [huffman_decoder_start, h]
    rfl
  · rw [dynamic_HLIT, testBit_header_field _ _ 24 5 i (by decide) hi]
    congr 1
    omega
  · rw [dynamic_HDIST, testBit_header_field _ _ 19 5 i (by decide) hi]
    congr 1
    omega
  · rw [dynamic_HCLEN, testBit_header_field _ _ 15 4 i (by decide) hi]
    congr 1
    omega
  · exact (dynamic_CCL_spec _).2.1 i
  · exact (dynamic_CCL_spec _).2.2 i hi
  · exact (DECODE_CL_result _ _ _ _ _ _ r hr).2.1
  · exact (DECODE_CL_result _ _ _ _ _ _ r hr).2.1
  · rw [DECODE_CL_succ, if_neg (by omega)]

theorem dynamic_header_counts_witness :
    block_header [0xED0080E4, 0xFFFF1F00] = 5 ∧
    dynamic_HLIT (decoder_start [0xED0080E4, 0xFFFF1F00]).proc_buffer < 32 :=
  ⟨by decide, (dynamic_header_counts [0xED0080E4, 0xFFFF1F00] (by decide)).2.2.2.2.2.1⟩

/-- C33: one iteration of `DECODE_CL1` / `DECODE_CL2` whose refill loop comes back with
the reader `st1`, for the symbol `s` and its bit count `v ≤ 25` found in
`lookup_table_CCL` (for a table built by `BUILD_LOOKUP_TABLE_3`, `v ≤ 7`): the loop goes
on from the round `DECODE_CL_step`, in which, with `r` the value of the next `e` stream
bits behind the code (bit `i` of `r` is bit `31 - v - i` of `proc_buffer`, the first bit
lowest), `s = 16` appends `3 + r` copies of `valid_length[CL_count - 1]` (`e = 2`),
`s = 17` appends `3 + r` zeros (`e = 3`), `s = 18` appends `11 + r` zeros (`e = 7`), any
other `s` appends the single length `s` (`e = 0`); `proc_buffer` is shifted and
`buffer_bits_num` lowered by `v + e`.  Appending `n` copies of `x` at `CL_count` stores
`x` in the entries `CL_count .. CL_count + n - 1` and nothing else. -/
theorem code_length_symbol_appends (T : Nat → Nat × Nat) (num fuel : Nat)
    (st st1 : DecState) (vl : Nat → Nat) (c : Nat)
    (hc : c < num) (hin : DECODE_CL_INPUT 3 st = some st1)
    (hv : (T ((st1.proc_buffer &&& 0xFE000000) >>> 25)).2 ≤ 25) :
    DECODE_CL T num (fuel + 1) st vl c =
      DECODE_CL T num fuel (DECODE_CL_step T st1 vl c).1 (DECODE_CL_step T st1 vl c).2.1
        (DECODE_CL_step T st1 vl c).2.2 ∧
    (∃ e r, r < 2 ^ e ∧
      (∀ i, i < e → r.testBit i = st1.proc_buffer.testBit
        (31 - (T ((st1.proc_buffer &&& 0xFE000000) >>> 25)).2 - i)) ∧
      (DECODE_CL_step T st1 vl c).1 =
        { st1 with
            proc_buffer := (st1.proc_buffer <<<
              ((T ((st1.proc_buffer &&& 0xFE000000) >>> 25)).2 + e)) % 2 ^ 32
            buffer_bits_num := st1.buffer_bits_num -
              ((T ((st1.proc_buffer &&& 0xFE000000) >>> 25)).2 + e) } ∧
      (((T ((st1.proc_buffer &&& 0xFE000000) >>> 25)).1 = 16 ∧ e = 2 ∧
          (DECODE_CL_step T st1 vl c).2 = (fill_range vl c (3 + r) (vl (c - 1)), c + (3 + r))) ∨
        ((T ((st1.proc_buffer &&& 0xFE000000) >>> 25)).1 = 17 ∧ e = 3 ∧
          (DECODE_CL_step T st1 vl c).2 = (fill_range vl c (3 + r) 0, c + (3 + r))) ∨
        ((T ((st1.proc_buffer &&& 0xFE000000) >>> 25)).1 = 18 ∧ e = 7 ∧
          (DECODE_CL_step T st1 vl c).2 = (fill_range vl c (11 + r) 0, c + (11 + r))) ∨
        ((T ((st1.proc_buffer &&& 0xFE000000) >>> 25)).1 ≠ 16 ∧
          (T ((st1.proc_buffer &&& 0xFE000000) >>> 25)).1 ≠ 17 ∧
          (T ((st1.proc_buffer &&& 0xFE000000) >>> 25)).1 ≠ 18 ∧ e = 0 ∧
          (DECODE_CL_step T st1 vl c).2 =
            (upd vl c (T ((st1.proc_buffer &&& 0xFE000000) >>> 25)).1, c + 1)))) ∧
    (∀ n x j, fill_range vl c n x j = if c ≤ j ∧ j < c + n then x else vl j) ∧
    (∀ x j, upd vl c x j = if j = c then x else vl j) := by
  refine ⟨?_, ?_, fun _ _ _ => rfl, fun _ _ => rfl⟩
  · rw [DECODE_CL_succ, if_pos hc, hin]
  · obtain ⟨e, r, h1, h2, h3, h4⟩ := DECODE_CL_step_cases T st1 vl c
    exact ⟨e, r, h1, h2 hv, h3, h4⟩

theorem code_length_symbol_appends_witness :
    1 < 286 ∧
    DECODE_CL_INPUT 3 (DecState.mk [] 0xFFFFFFFF 32 0 0 false false 0 []) =
      some (DecState.mk [] 0xFFFFFFFF 32 0 0 false false 0 []) ∧
    (((fun _ => (18, 1)) : Nat → Nat × Nat)
      (((DecState.mk [] 0xFFFFFFFF 32 0 0 false false 0 []).proc_buffer &&& 0xFE000000)
        >>> 25)).2 ≤ 25 ∧
    DECODE_CL (fun _ => (18, 1)) 286 (5 + 1) (DecState.mk [] 0xFFFFFFFF 32 0 0 false false 0 [])
        (fun _ => 7) 1 =
      DECODE_CL (fun _ => (18, 1)) 286 5
        (DECODE_CL_step (fun _ => (18, 1))
          (DecState.mk [] 0xFFFFFFFF 32 0 0 false false 0 []) (fun _ => 7) 1).1
        (DECODE_CL_step (fun _ => (18, 1))
          (DecState.mk [] 0xFFFFFFFF 32 0 0 false false 0 []) (fun _ => 7) 1).2.1
        (DECODE_CL_step (fun _ => (18, 1))
          (DecState.mk [] 0xFFFFFFFF 32 0 0 false false 0 []) (fun _ => 7) 1).2.2 :=
  ⟨by decide, rfl, by decide,
    (code_length_symbol_appends (fun _ => (18, 1)) 286 5
      (DecState.mk [] 0xFFFFFFFF 32 0 0 false false 0 [])
      (DecState.mk [] 0xFFFFFFFF 32 0 0 false false 0 []) (fun _ => 7) 1 (by decide) rfl
      (by decide)).1⟩

set_option maxRecDepth 100000 in
/-- C34 (counterexample): the two input words `0xED0080E4 0xFFFF1F00` are a dynamic
block header with `HLIT = 29` (`HLIT + 257 = 286` lengths), `HCLEN = 0`, code-length
codes of one bit for the symbols `0` and `18`, followed by three times the symbol `18`
with the extra bits `1111111` (138 zeros each).  The third run starts at count `276`
and `DECODE_CL1` ends with `CL1_count = 414`, not `286`: the loop has stored the entries
`276 .. 413` of `hTable1`, which has 286 entries (run on an array that holds `7`
everywhere, entry `413` has become `0` and entry `414` is still `7`). -/
theorem code_length_run_overshoots_table :
    block_header [0xED0080E4, 0xFFFF1F00] = 5 ∧
    dynamic_HLIT (decoder_start [0xED0080E4, 0xFFFF1F00]).proc_buffer + 257 = 286 ∧
    (dynamic_CL1 (decoder_start [0xED0080E4, 0xFFFF1F00])).map (fun r => r.2.2) = some 414 ∧
    (DECODE_CL (dynamic_lookup_table_CCL (decoder_start [0xED0080E4, 0xFFFF1F00]))
      286 287 (dynamic_CCL (decoder_start [0xED0080E4, 0xFFFF1F00])).1 (fun _ => 7) 0).map
        (fun r => (r.2.1 285, r.2.1 286, r.2.1 413, r.2.1 414)) = some (0, 0, 0, 7) := by
  decide

/-- C34 (amended): a code-length loop `DECODE_CL1` / `DECODE_CL2` (lookup table `T`,
`num` lengths to collect: `HLIT + 257` for `hTable1`, `HDIST + 1` for `hTable2`), run on
an array that holds anything.  When its refill loop once finds the stream used up with
fewer than 16 bits left, the loop never comes back.  Otherwise it comes back with at
least `num` and at most `num + 137` lengths collected (a run that starts below `num` is
stored whole), and every entry from the final count on still holds what it held before:
the entries written are those below the final count.  The refill loop is never starved
when the stream holds two words for every length to collect. -/
theorem code_length_loop_stores_below_count (T : Nat → Nat × Nat) (num : Nat) (st : DecState)
    (vl : Nat → Nat) :
    (DECODE_CL_starves T num (num + 1) st vl 0 = true →
      DECODE_CL T num (num + 1) st vl 0 = none) ∧
    (DECODE_CL_starves T num (num + 1) st vl 0 = false →
      ∃ r, DECODE_CL T num (num + 1) st vl 0 = some r ∧ num ≤ r.2.2 ∧ r.2.2 ≤ num + 137 ∧
        ∀ j, r.2.2 ≤ j → r.2.1 j = vl j) ∧
    (2 * num ≤ st.input.length → DECODE_CL_starves T num (num + 1) st vl 0 = false) := by
  have hiff := DECODE_CL_none T num (num + 1) st vl 0 (by omega)
  refine ⟨hiff.2, fun h => ?_, fun hin => ?_⟩
  · cases hr : DECODE_CL T num (num + 1) st vl 0 with
    | none =>
      rw [hiff.1 hr] at h
      exact Bool.noConfusion h
    | some r =>
      obtain ⟨_, a2, a3, a4, _, a6⟩ := DECODE_CL_result T num _ st vl 0 r hr
      refine ⟨r, rfl, a2, ?_, a6⟩
      by_cases h0 : 0 < num
      · exact a3 h0
      · rw [a4 (by omega)]
        simp
  · obtain ⟨r, hr, _⟩ := DECODE_CL_returns T num (num + 1) st vl 0 (by omega) (by omega)
    cases hs : DECODE_CL_starves T num (num + 1) st vl 0 with
    | false => rfl
    | true =>
      rw [hiff.2 hs] at hr
      exact Option.noConfusion hr

set_option maxRecDepth 100000 in
theorem code_length_loop_stores_below_count_witness :
    DECODE_CL_starves (dynamic_lookup_table_CCL (decoder_start [0xED0080E4, 0xFFFF1F00]))
      (dynamic_HLIT (decoder_start [0xED0080E4, 0xFFFF1F00]).proc_buffer + 257)
      (dynamic_HLIT (decoder_start [0xED0080E4, 0xFFFF1F00]).proc_buffer + 257 + 1)
      (dynamic_CCL (decoder_start [0xED0080E4, 0xFFFF1F00])).1 (fun _ => 7) 0 = false ∧
    ∃ r, DECODE_CL (dynamic_lookup_table_CCL (decoder_start [0xED0080E4, 0xFFFF1F00]))
      (dynamic_HLIT (decoder_start [0xED0080E4, 0xFFFF1F00]).proc_buffer + 257)
      (dynamic_HLIT (decoder_start [0xED0080E4, 0xFFFF1F00]).proc_buffer + 257 + 1)
      (dynamic_CCL (decoder_start [0xED0080E4, 0xFFFF1F00])).1 (fun _ => 7) 0 = some r ∧
      dynamic_HLIT (decoder_start [0xED0080E4, 0xFFFF1F00]).proc_buffer + 257 ≤ r.2.2 ∧
      r.2.2 ≤ dynamic_HLIT (decoder_start [0xED0080E4, 0xFFFF1F00]).proc_buffer + 257 + 137 ∧
      ∀ j, r.2.2 ≤ j → r.2.1 j = (fun _ => 7) j :=
  ⟨by decide,
    (code_length_loop_stores_below_count
      (dynamic_lookup_table_CCL (decoder_start [0xED0080E4, 0xFFFF1F00]))
      (dynamic_HLIT (decoder_start [0xED0080E4, 0xFFFF1F00]).proc_buffer + 257)
      (dynamic_CCL (decoder_start [0xED0080E4, 0xFFFF1F00])).1 (fun _ => 7)).2.1 (by decide)⟩

/-! ## The length/distance pairs of the dynamic main loop -/

theorem testBit_and_one_shift (pb s i : Nat) (hi : i < 1) :
    ((pb >>> s) &&& 0x1).testBit i = pb.testBit (s + i) := by
  have h0 : i = 0 := by omega
  subst h0
  rw [Nat.testBit_and, Nat.testBit_shiftRight]
  simp

/-- Function `dynamic_decoder_get_offset` by the rows of the distance table of RFC 1951:
for the symbol `d` with `e` extra bits and base distance `base`, the result is `base`
plus the value `x` of the extra bits and `proc_bits_num` grows by the code's bit count
`v` and by `e`; the shift amount for the extra bits is
`dynamic_offset_shift d - (proc_bits_num + v)` with `dynamic_offset_shift d = 32 - e`,
and where it is not negative bit `i` of `x` is the stream bit `i` behind the code. -/
theorem dynamic_decoder_get_offset_rows (pbn pb : Nat) (T : Nat → Nat × Nat) (d e base : Nat)
    (hrow : (d, e, base) ∈ rfc_distance_table)
    (hd : (T ((pb >>> (26 - pbn)) &&& 0x3F)).1 = d) :
    ∃ x, x < 2 ^ e ∧
      (pbn + (T ((pb >>> (26 - pbn)) &&& 0x3F)).2 + e ≤ 32 → ∀ i, i < e →
        x.testBit i = pb.testBit (31 - (pbn + (T ((pb >>> (26 - pbn)) &&& 0x3F)).2) - i)) ∧
      dynamic_decoder_get_offset pbn pb T =
        (base + x, pbn + (T ((pb >>> (26 - pbn)) &&& 0x3F)).2 + e) ∧
      dynamic_offset_shift d = 32 - e := by
  generalize hv : (T ((pb >>> (26 - pbn)) &&& 0x3F)).2 = v
  simp only [rfc_distance_table, List.mem_cons, List.mem_singleton, Prod.mk.injEq,
    List.not_mem_nil, or_false] at hrow
  rcases hrow with ⟨hd0, he0, hb0⟩ |
    ⟨hd1, he1, hb1⟩ |
    ⟨hd2, he2, hb2⟩ |
    ⟨hd3, he3, hb3⟩ |
    ⟨hd4, he4, hb4⟩ |
    ⟨hd5, he5, hb5⟩ |
    ⟨hd6, he6, hb6⟩ |
    ⟨hd7, he7, hb7⟩ |
    ⟨hd8, he8, hb8⟩ |
    ⟨hd9, he9, hb9⟩ |
    ⟨hd10, he10, hb10⟩ |
    ⟨hd11, he11, hb11⟩ |
    ⟨hd12, he12, hb12⟩ |
    ⟨hd13, he13, hb13⟩ |
    ⟨hd14, he14, hb14⟩ |
    ⟨hd15, he15, hb15⟩ |
    ⟨hd16, he16, hb16⟩ |
    ⟨hd17, he17, hb17⟩ |
    ⟨hd18, he18, hb18⟩ |
    ⟨hd19, he19, hb19⟩ |
    ⟨hd20, he20, hb20⟩ |
    ⟨hd21, he21, hb21⟩ |
    ⟨hd22, he22, hb22⟩ |
    ⟨hd23, he23, hb23⟩ |
    ⟨hd24, he24, hb24⟩ |
    ⟨hd25, he25, hb25⟩ |
    ⟨hd26, he26, hb26⟩ |
    ⟨hd27, he27, hb27⟩ |
    ⟨hd28, he28, hb28⟩ |
    ⟨hd29, he29, hb29⟩
  · subst hd0 he0 hb0
    refine ⟨0, by norm_num, fun _ i hi => absurd hi (by omega), ?_, by decide⟩
    simp only [dynamic_decoder_get_offset, hd, hv]
    rw [if_pos (by decide)]
    rfl
  · subst hd1 he1 hb1
    refine ⟨0, by norm_num, fun _ i hi => absurd hi (by omega), ?_, by decide⟩
    simp only [dynamic_decoder_get_offset, hd, hv]
    rw [if_pos (by decide)]
    rfl
  · subst hd2 he2 hb2
    refine ⟨0, by norm_num, fun _ i hi => absurd hi (by omega), ?_, by decide⟩
    simp only [dynamic_decoder_get_offset, hd, hv]
    rw [if_pos (by decide)]
    rfl
  · subst hd3 he3 hb3
    refine ⟨0, by norm_num, fun _ i hi => absurd hi (by omega), ?_, by decide⟩
    simp only [dynamic_decoder_get_offset, hd, hv]
    rw [if_pos (by decide)]
    rfl
  · subst hd4 he4 hb4
    refine ⟨(pb >>> (31 - (pbn + v))) &&& 0x1, ?_, fun hp i hi => ?_, ?_, by decide⟩
    · exact Nat.lt_of_le_of_lt Nat.and_le_right (by norm_num)
    · rw [testBit_and_one_shift pb _ i hi]
      congr 1
      omega
    · simp only [dynamic_decoder_get_offset, hd, hv]
      rw [if_neg (by decide), if_pos (by decide)]
  · subst hd5 he5 hb5
    refine ⟨(pb >>> (31 - (pbn + v))) &&& 0x1, ?_, fun hp i hi => ?_, ?_, by decide⟩
    · exact Nat.lt_of_le_of_lt Nat.and_le_right (by norm_num)
    · rw [testBit_and_one_shift pb _ i hi]
      congr 1
      omega
    · simp only [dynamic_decoder_get_offset, hd, hv]
      rw [if_neg (by decide), if_pos (by decide)]
  · subst hd6 he6 hb6
    refine ⟨reverse 32 ((pb >>> (30 - (pbn + v))) &&& 0x3) 2,
      reverse_lt 32 _ 2 (by norm_num), fun hp i hi => ?_, ?_, by decide⟩
    · rw [testBit_reverse_field 32 pb _ _ 2 i (by norm_num) (by norm_num) hi]
      congr 1
      omega
    · simp only [dynamic_decoder_get_offset, hd, hv]
      rw [if_neg (by decide), if_neg (by decide), if_pos (by decide)]
  · subst hd7 he7 hb7
    refine ⟨reverse 32 ((pb >>> (30 - (pbn + v))) &&& 0x3) 2,
      reverse_lt 32 _ 2 (by norm_num), fun hp i hi => ?_, ?_, by decide⟩
    · rw [testBit_reverse_field 32 pb _ _ 2 i (by norm_num) (by norm_num) hi]
      congr 1
      omega
    · simp only [dynamic_decoder_get_offset, hd, hv]
      rw [if_neg (by decide), if_neg (by decide), if_pos (by decide)]
  · subst hd8 he8 hb8
    refine ⟨reverse 32 ((pb >>> (29 - (pbn + v))) &&& 0x7) 3,
      reverse_lt 32 _ 3 (by norm_num), fun hp i hi => ?_, ?_, by decide⟩
    · rw [testBit_reverse_field 32 pb _ _ 3 i (by norm_num) (by norm_num) hi]
      congr 1
      omega
    · simp only [dynamic_decoder_get_offset, hd, hv]
      rw [if_neg (by decide), if_neg (by decide), if_neg (by decide), if_pos (by decide)]
  · subst hd9 he9 hb9
    refine ⟨reverse 32 ((pb >>> (29 - (pbn + v))) &&& 0x7) 3,
      reverse_lt 32 _ 3 (by norm_num), fun hp i hi => ?_, ?_, by decide⟩
    · rw [testBit_reverse_field 32 pb _ _ 3 i (by norm_num) (by norm_num) hi]
      congr 1
      omega
    · simp only [dynamic_decoder_get_offset, hd, hv]
      rw [if_neg (by decide), if_neg (by decide), if_neg (by decide), if_pos (by decide)]
  · subst hd10 he10 hb10
    refine ⟨reverse 32 ((pb >>> (28 - (pbn + v))) &&& 0x0F) 4,
      reverse_lt 32 _ 4 (by norm_num), fun hp i hi => ?_, ?_, by decide⟩
    · rw [testBit_reverse_field 32 pb _ _ 4 i (by norm_num) (by norm_num) hi]
      congr 1
      omega
    · simp only [dynamic_decoder_get_offset, hd, hv]
      rw [if_neg (by decide), if_neg (by decide), if_neg (by decide), if_neg (by decide), if_pos (by decide)]
  · subst hd11 he11 hb11
    refine ⟨reverse 32 ((pb >>> (28 - (pbn + v))) &&& 0x0F) 4,
      reverse_lt 32 _ 4 (by norm_num), fun hp i hi => ?_, ?_, by decide⟩
    · rw [testBit_reverse_field 32 pb _ _ 4 i (by norm_num) (by norm_num) hi]
      congr 1
      omega
    · simp only [dynamic_decoder_get_offset, hd, hv]
      rw [if_neg (by decide), if_neg (by decide), if_neg (by decide), if_neg (by decide), if_pos (by decide)]
  · subst hd12 he12 hb12
    refine ⟨reverse 32 ((pb >>> (27 - (pbn + v))) &&& 0x1F) 5,
      reverse_lt 32 _ 5 (by norm_num), fun hp i hi => ?_, ?_, by decide⟩
    · rw [testBit_reverse_field 32 pb _ _ 5 i (by norm_num) (by norm_num) hi]
      congr 1
      omega
    · simp only [dynamic_decoder_get_offset, hd, hv]
      rw [if_neg (by decide), if_neg (by decide), if_neg (by decide), if_neg (by decide), if_neg (by decide), if_pos (by decide)]
  · subst hd13 he13 hb13
    refine ⟨reverse 32 ((pb >>> (27 - (pbn + v))) &&& 0x1F) 5,
      reverse_lt 32 _ 5 (by norm_num), fun hp i hi => ?_, ?_, by decide⟩
    · rw [testBit_reverse_field 32 pb _ _ 5 i (by norm_num) (by norm_num) hi]
      congr 1
      omega
    · simp only [dynamic_decoder_get_offset, hd, hv]
      rw [if_neg (by decide), if_neg (by decide), if_neg (by decide), if_neg (by decide), if_neg (by decide), if_pos (by decide)]
  · subst hd14 he14 hb14
    refine ⟨reverse 32 ((pb >>> (26 - (pbn + v))) &&& 0x3F) 6,
      reverse_lt 32 _ 6 (by norm_num), fun hp i hi => ?_, ?_, by decide⟩
    · rw [testBit_reverse_field 32 pb _ _ 6 i (by norm_num) (by norm_num) hi]
      congr 1
      omega
    · simp only [dynamic_decoder_get_offset, hd, hv]
      rw [if_neg (by decide), if_neg (by decide), if_neg (by decide), if_neg (by decide), if_neg (by decide), if_neg (by decide), if_pos (by decide)]
  · subst hd15 he15 hb15
    refine ⟨reverse 32 ((pb >>> (26 - (pbn + v))) &&& 0x3F) 6,
      reverse_lt 32 _ 6 (by norm_num), fun hp i hi => ?_, ?_, by decide⟩
    · rw [testBit_reverse_field 32 pb _ _ 6 i (by norm_num) (by norm_num) hi]
      congr 1
      omega
    · simp only [dynamic_decoder_get_offset, hd, hv]
      rw [if_neg (by decide), if_neg (by decide), if_neg (by decide), if_neg (by decide), if_neg (by decide), if_neg (by decide), if_pos (by decide)]
  · subst hd16 he16 hb16
    refine ⟨reverse 32 ((pb >>> (25 - (pbn + v))) &&& 0x7F) 7,
      reverse_lt 32 _ 7 (by norm_num), fun hp i hi => ?_, ?_, by decide⟩
    · rw [testBit_reverse_field 32 pb _ _ 7 i (by norm_num) (by norm_num) hi]
      congr 1
      omega
    · simp only [dynamic_decoder_get_offset, hd, hv]
      rw [if_neg (by decide), if_neg (by decide), if_neg (by decide), if_neg (by decide), if_neg (by decide), if_neg (by decide), if_neg (by decide), if_pos (by decide)]
  · subst hd17 he17 hb17
    refine ⟨reverse 32 ((pb >>> (25 - (pbn + v))) &&& 0x7F) 7,
      reverse_lt 32 _ 7 (by norm_num), fun hp i hi => ?_, ?_, by decide⟩
    · rw [testBit_reverse_field 32 pb _ _ 7 i (by norm_num) (by norm_num) hi]
      congr 1
      omega
    · simp only [dynamic_decoder_get_offset, hd, hv]
      rw [if_neg (by decide), if_neg (by decide), if_neg (by decide), if_neg (by decide), if_neg (by decide), if_neg (by decide), if_neg (by decide), if_pos (by decide)]
  · subst hd18 he18 hb18
    refine ⟨reverse 32 ((pb >>> (24 - (pbn + v))) &&& 0x0FF) 8,
      reverse_lt 32 _ 8 (by norm_num), fun hp i hi => ?_, ?_, by decide⟩
    · rw [testBit_reverse_field 32 pb _ _ 8 i (by norm_num) (by norm_num) hi]
      congr 1
      omega
    · simp only [dynamic_decoder_get_offset, hd, hv]
      rw [if_neg (by decide), if_neg (by decide), if_neg (by decide), if_neg (by decide), if_neg (by decide), if_neg (by decide), if_neg (by decide), if_neg (by decide), if_pos (by decide)]
  · subst hd19 he19 hb19
    refine ⟨reverse 32 ((pb >>> (24 - (pbn + v))) &&& 0x0FF) 8,
      reverse_lt 32 _ 8 (by norm_num), fun hp i hi => ?_, ?_, by decide⟩
    · rw [testBit_reverse_field 32 pb _ _ 8 i (by norm_num) (by norm_num) hi]
      congr 1
      omega
    · simp only [dynamic_decoder_get_offset, hd, hv]
      rw [if_neg (by decide), if_neg (by decide), if_neg (by decide), if_neg (by decide), if_neg (by decide), if_neg (by decide), if_neg (by decide), if_neg (by decide), if_pos (by decide)]
  · subst hd20 he20 hb20
    refine ⟨reverse 32 ((pb >>> (23 - (pbn + v))) &&& 0x1FF) 9,
      reverse_lt 32 _ 9 (by norm_num), fun hp i hi => ?_, ?_, by decide⟩
    · rw [testBit_reverse_field 32 pb _ _ 9 i (by norm_num) (by norm_num) hi]
      congr 1
      omega
    · simp only [dynamic_decoder_get_offset, hd, hv]
      rw [if_neg (by decide), if_neg (by decide), if_neg (by decide), if_neg (by decide), if_neg (by decide), if_neg (by decide), if_neg (by decide), if_neg (by decide), if_neg (by decide), if_pos (by decide)]
  · subst hd21 he21 hb21
    refine ⟨reverse 32 ((pb >>> (23 - (pbn + v))) &&& 0x1FF) 9,
      reverse_lt 32 _ 9 (by norm_num), fun hp i hi => ?_, ?_, by decide⟩
    · rw [testBit_reverse_field 32 pb _ _ 9 i (by norm_num) (by norm_num) hi]
      congr 1
      omega
    · simp only [dynamic_decoder_get_offset, hd, hv]
      rw [if_neg (by decide), if_neg (by decide), if_neg (by decide), if_neg (by decide), if_neg (by decide), if_neg (by decide), if_neg (by decide), if_neg (by decide), if_neg (by decide), if_pos (by decide)]
  · subst hd22 he22 hb22
    refine ⟨reverse 32 ((pb >>> (22 - (pbn + v))) &&& 0x3FF) 10,
      reverse_lt 32 _ 10 (by norm_num), fun hp i hi => ?_, ?_, by decide⟩
    · rw [testBit_reverse_field 32 pb _ _ 10 i (by norm_num) (by norm_num) hi]
      congr 1
      omega
    · simp only [dynamic_decoder_get_offset, hd, hv]
      rw [if_neg (by decide), if_neg (by decide), if_neg (by decide), if_neg (by decide), if_neg (by decide), if_neg (by decide), if_neg (by decide), if_neg (by decide), if_neg (by decide), if_neg (by decide), if_pos (by decide)]
  · subst hd23 he23 hb23
    refine ⟨reverse 32 ((pb >>> (22 - (pbn + v))) &&& 0x3FF) 10,
      reverse_lt 32 _ 10 (by norm_num), fun hp i hi => ?_, ?_, by decide⟩
    · rw [testBit_reverse_field 32 pb _ _ 10 i (by norm_num) (by norm_num) hi]
      congr 1
      omega
    · simp only [dynamic_decoder_get_offset, hd, hv]
      rw [if_neg (by decide), if_neg (by decide), if_neg (by decide), if_neg (by decide), if_neg (by decide), if_neg (by decide), if_neg (by decide), if_neg (by decide), if_neg (by decide), if_neg (by decide), if_pos (by decide)]
  · subst hd24 he24 hb24
    refine ⟨reverse 32 ((pb >>> (21 - (pbn + v))) &&& 0x7FF) 11,
      reverse_lt 32 _ 11 (by norm_num), fun hp i hi => ?_, ?_, by decide⟩
    · rw [testBit_reverse_field 32 pb _ _ 11 i (by norm_num) (by norm_num) hi]
      congr 1
      omega
    · simp only [dynamic_decoder_get_offset, hd, hv]
      rw [if_neg (by decide), if_neg (by decide), if_neg (by decide), if_neg (by decide), if_neg (by decide), if_neg (by decide), if_neg (by decide), if_neg (by decide), if_neg (by decide), if_neg (by decide), if_neg (by decide), if_pos (by decide)]
  · subst hd25 he25 hb25
    refine ⟨reverse 32 ((pb >>> (21 - (pbn + v))) &&& 0x7FF) 11,
      reverse_lt 32 _ 11 (by norm_num), fun hp i hi => ?_, ?_, by decide⟩
    · rw [testBit_reverse_field 32 pb _ _ 11 i (by norm_num) (by norm_num) hi]
      congr 1
      omega
    · simp only [dynamic_decoder_get_offset, hd, hv]
      rw [if_neg (by decide), if_neg (by decide), if_neg (by decide), if_neg (by decide), if_neg (by decide), if_neg (by decide), if_neg (by decide), if_neg (by decide), if_neg (by decide), if_neg (by decide), if_neg (by decide), if_pos (by decide)]
  · subst hd26 he26 hb26
    refine ⟨reverse 32 ((pb >>> (20 - (pbn + v))) &&& 0x0FFF) 12,
      reverse_lt 32 _ 12 (by norm_num), fun hp i hi => ?_, ?_, by decide⟩
    · rw [testBit_reverse_field 32 pb _ _ 12 i (by norm_num) (by norm_num) hi]
      congr 1
      omega
    · simp only [dynamic_decoder_get_offset, hd, hv]
      rw [if_neg (by decide), if_neg (by decide), if_neg (by decide), if_neg (by decide), if_neg (by decide), if_neg (by decide), if_neg (by decide), if_neg (by decide), if_neg (by decide), if_neg (by decide), if_neg (by decide), if_neg (by decide), if_pos (by decide)]
  · subst hd27 he27 hb27
    refine ⟨reverse 32 ((pb >>> (20 - (pbn + v))) &&& 0x0FFF) 12,
      reverse_lt 32 _ 12 (by norm_num), fun hp i hi => ?_, ?_, by decide⟩
    · rw [testBit_reverse_field 32 pb _ _ 12 i (by norm_num) (by norm_num) hi]
      congr 1
      omega
    · simp only [dynamic_decoder_get_offset, hd, hv]
      rw [if_neg (by decide), if_neg (by decide), if_neg (by decide), if_neg (by decide), if_neg (by decide), if_neg (by decide), if_neg (by decide), if_neg (by decide), if_neg (by decide), if_neg (by decide), if_neg (by decide), if_neg (by decide), if_pos (by decide)]
  · subst hd28 he28 hb28
    refine ⟨reverse 32 ((pb >>> (19 - (pbn + v))) &&& 0x1FFF) 13,
      reverse_lt 32 _ 13 (by norm_num), fun hp i hi => ?_, ?_, by decide⟩
    · rw [testBit_reverse_field 32 pb _ _ 13 i (by norm_num) (by norm_num) hi]
      congr 1
      omega
    · simp only [dynamic_decoder_get_offset, hd, hv]
      rw [if_neg (by decide), if_neg (by decide), if_neg (by decide), if_neg (by decide), if_neg (by decide), if_neg (by decide), if_neg (by decide), if_neg (by decide), if_neg (by decide), if_neg (by decide), if_neg (by decide), if_neg (by decide), if_neg (by decide), if_pos (by decide)]
  · subst hd29 he29 hb29
    refine ⟨reverse 32 ((pb >>> (19 - (pbn + v))) &&& 0x1FFF) 13,
      reverse_lt 32 _ 13 (by norm_num), fun hp i hi => ?_, ?_, by decide⟩
    · rw [testBit_reverse_field 32 pb _ _ 13 i (by norm_num) (by norm_num) hi]
      congr 1
      omega
    · simp only [dynamic_decoder_get_offset, hd, hv]
      rw [if_neg (by decide), if_neg (by decide), if_neg (by decide), if_neg (by decide), if_neg (by decide), if_neg (by decide), if_neg (by decide), if_neg (by decide), if_neg (by decide), if_neg (by decide), if_neg (by decide), if_neg (by decide), if_neg (by decide), if_pos (by decide)]

/-- C36: for a distance symbol `d` in `0 .. 29` found in the first-level distance table
with the bit count `v`, `e` and `base` being the extra-bit count and the base distance
of `d` in RFC 1951, and a buffer that holds the code and its extra bits
(`proc_bits_num + v + e ≤ 32`): `dynamic_decoder_get_offset` returns `base + x`, where
`x < 2 ^ e` is the value of the `e` stream bits behind the code with the first bit
lowest (bit `i` of `x` is bit `31 - (proc_bits_num + v) - i` of `proc_buffer`, the bits
read from the top down and then reversed over `e` bits), and `proc_bits_num` grows by
`v + e`. -/
theorem dynamic_decoder_get_offset_reads_rfc_distance (pbn pb : Nat) (T : Nat → Nat × Nat)
    (d e base : Nat) (hrow : (d, e, base) ∈ rfc_distance_table)
    (hd : (T ((pb >>> (26 - pbn)) &&& 0x3F)).1 = d)
    (hp : pbn + (T ((pb >>> (26 - pbn)) &&& 0x3F)).2 + e ≤ 32) :
    ∃ x, x < 2 ^ e ∧
      (∀ i, i < e →
        x.testBit i = pb.testBit (31 - (pbn + (T ((pb >>> (26 - pbn)) &&& 0x3F)).2) - i)) ∧
      dynamic_decoder_get_offset pbn pb T =
        (base + x, pbn + (T ((pb >>> (26 - pbn)) &&& 0x3F)).2 + e) := by
  obtain ⟨x, h1, h2, h3, _⟩ := dynamic_decoder_get_offset_rows pbn pb T d e base hrow hd
  exact ⟨x, h1, h2 hp, h3⟩

theorem dynamic_decoder_get_offset_reads_rfc_distance_witness :
    (7, 2, 13) ∈ rfc_distance_table ∧
    (((fun _ => (7, 5)) : Nat → Nat × Nat) ((0x00F00000 >>> (26 - 7)) &&& 0x3F)).1 = 7 ∧
    7 + (((fun _ => (7, 5)) : Nat → Nat × Nat) ((0x00F00000 >>> (26 - 7)) &&& 0x3F)).2 + 2
      ≤ 32 ∧
    ∃ x, x < 2 ^ 2 ∧
      (∀ i, i < 2 → x.testBit i = Nat.testBit 0x00F00000
        (31 - (7 + (((fun _ => (7, 5)) : Nat → Nat × Nat)
          ((0x00F00000 >>> (26 - 7)) &&& 0x3F)).2) - i)) ∧
      dynamic_decoder_get_offset 7 0x00F00000 (fun _ => (7, 5)) =
        (13 + x, 7 + (((fun _ => (7, 5)) : Nat → Nat × Nat)
          ((0x00F00000 >>> (26 - 7)) &&& 0x3F)).2 + 2) :=
  ⟨by decide, by decide, by decide,
    dynamic_decoder_get_offset_reads_rfc_distance 7 0x00F00000 (fun _ => (7, 5)) 7 2 13
      (by decide) (by decide) (by decide)⟩

/-- The bits that `dynamic_decoder_get_offset` counts, whatever the table holds: the
code's bit count and `32 - dynamic_offset_shift` extra bits. -/
theorem dynamic_decoder_get_offset_bits (pbn pb : Nat) (T : Nat → Nat × Nat) :
    (dynamic_decoder_get_offset pbn pb T).2 =
      pbn + (T ((pb >>> (26 - pbn)) &&& 0x3F)).2 +
        (32 - dynamic_offset_shift (T ((pb >>> (26 - pbn)) &&& 0x3F)).1) ∧
    19 ≤ dynamic_offset_shift (T ((pb >>> (26 - pbn)) &&& 0x3F)).1 ∧
    dynamic_offset_shift (T ((pb >>> (26 - pbn)) &&& 0x3F)).1 ≤ 32 := by
  generalize hv : (T ((pb >>> (26 - pbn)) &&& 0x3F)).2 = v
  generalize hd : (T ((pb >>> (26 - pbn)) &&& 0x3F)).1 = d
  simp only [dynamic_decoder_get_offset, dynamic_offset_shift, hd, hv]
  by_cases c0 : d ≥ 0 ∧ d ≤ 3
  · simp only [if_pos c0]
    exact ⟨rfl, by norm_num, by norm_num⟩
  simp only [if_neg c0]
  by_cases c1 : d = 4 ∨ d = 5
  · simp only [if_pos c1]
    exact ⟨trivial, by norm_num, by norm_num⟩
  simp only [if_neg c1]
  by_cases c2 : d = 6 ∨ d = 7
  · simp only [if_pos c2]
    exact ⟨trivial, by norm_num, by norm_num⟩
  simp only [if_neg c2]
  by_cases c3 : d = 8 ∨ d = 9
  · simp only [if_pos c3]
    exact ⟨trivial, by norm_num, by norm_num⟩
  simp only [if_neg c3]
  by_cases c4 : d = 10 ∨ d = 11
  · simp only [if_pos c4]
    exact ⟨trivial, by norm_num, by norm_num⟩
  simp only [if_neg c4]
  by_cases c5 : d = 12 ∨ d = 13
  · simp only [if_pos c5]
    exact ⟨trivial, by norm_num, by norm_num⟩
  simp only [if_neg c5]
  by_cases c6 : d = 14 ∨ d = 15
  · simp only [if_pos c6]
    exact ⟨trivial, by norm_num, by norm_num⟩
  simp only [if_neg c6]
  by_cases c7 : d = 16 ∨ d = 17
  · simp only [if_pos c7]
    exact ⟨trivial, by norm_num, by norm_num⟩
  simp only [if_neg c7]
  by_cases c8 : d = 18 ∨ d = 19
  · simp only [if_pos c8]
    exact ⟨trivial, by norm_num, by norm_num⟩
  simp only [if_neg c8]
  by_cases c9 : d = 20 ∨ d = 21
  · simp only [if_pos c9]
    exact ⟨trivial, by norm_num, by norm_num⟩
  simp only [if_neg c9]
  by_cases c10 : d = 22 ∨ d = 23
  · simp only [if_pos c10]
    exact ⟨trivial, by norm_num, by norm_num⟩
  simp only [if_neg c10]
  by_cases c11 : d = 24 ∨ d = 25
  · simp only [if_pos c11]
    exact ⟨trivial, by norm_num, by norm_num⟩
  simp only [if_neg c11]
  by_cases c12 : d = 26 ∨ d = 27
  · simp only [if_pos c12]
    exact ⟨trivial, by norm_num, by norm_num⟩
  simp only [if_neg c12]
  by_cases c13 : d = 28 ∨ d = 29
  · simp only [if_pos c13]
    exact ⟨trivial, by norm_num, by norm_num⟩
  simp only [if_neg c13]
  exact ⟨rfl, by norm_num, by norm_num⟩

/-- The length branch of `DYNAMIC_MAIN_LOOP` counts the code's bits and at most five
extra bits. -/
theorem dynamic_length_bits (edoc v pb : Nat) :
    v ≤ (dynamic_length edoc v pb).2 ∧ (dynamic_length edoc v pb).2 ≤ v + 5 := by
  unfold dynamic_length
  split_ifs <;> exact ⟨by simp only; omega, by simp only; omega⟩

/-- A symbol `edoc ≥ 257` of the literal/length table is decoded as a pair: the length
branch, then `dynamic_decoder_get_offset`. -/
theorem dynamic_decode_pair (T1 T2 : Nat → Nat × Nat) (st : DecState)
    (h : 257 ≤ (T1 ((st.proc_buffer &&& 0xFF800000) >>> 23)).1) :
    dynamic_decode_symbol T1 T2 st =
      ({ st with
          length := (dynamic_length (T1 ((st.proc_buffer &&& 0xFF800000) >>> 23)).1
            (T1 ((st.proc_buffer &&& 0xFF800000) >>> 23)).2 st.proc_buffer).1
          output := st.output ++
            [0x40,
              ((dynamic_decoder_get_offset
                (dynamic_length (T1 ((st.proc_buffer &&& 0xFF800000) >>> 23)).1
                  (T1 ((st.proc_buffer &&& 0xFF800000) >>> 23)).2 st.proc_buffer).2
                st.proc_buffer T2).1 >>> 7) % 2 ^ 8,
              ((dynamic_decoder_get_offset
                (dynamic_length (T1 ((st.proc_buffer &&& 0xFF800000) >>> 23)).1
                  (T1 ((st.proc_buffer &&& 0xFF800000) >>> 23)).2 st.proc_buffer).2
                st.proc_buffer T2).1 &&& 0x07F) % 2 ^ 8,
              (dynamic_length (T1 ((st.proc_buffer &&& 0xFF800000) >>> 23)).1
                (T1 ((st.proc_buffer &&& 0xFF800000) >>> 23)).2 st.proc_buffer).1 % 2 ^ 8] },
        (dynamic_decoder_get_offset
          (dynamic_length (T1 ((st.proc_buffer &&& 0xFF800000) >>> 23)).1
            (T1 ((st.proc_buffer &&& 0xFF800000) >>> 23)).2 st.proc_buffer).2
          st.proc_buffer T2).2) := by
  rw [dynamic_decode_symbol]
  simp only
  rw [if_neg (by omega), if_neg (by omega)]
  rfl

/-- A first-level table built by `BUILD_LOOKUP_TABLE_*` holds bit counts of at most `K`. -/
theorem BUILD_LOOKUP_TABLE_bits (length code : Nat → Nat) (K : Nat) :
    ∀ k idx, (BUILD_LOOKUP_TABLE length code K k idx).2 ≤ K := by
  intro k
  induction k with
  | zero =>
    intro idx
    rw [BUILD_LOOKUP_TABLE]
    exact Nat.zero_le _
  | succ k ih =>
    intro idx
    rw [BUILD_LOOKUP_TABLE]
    split_ifs with h
    · exact h.2.1
    · exact ih idx

set_option maxRecDepth 100000 in
/-- C39 (counterexample): the literal/length table built for the single code of 9 bits
of the symbol 284 (5 extra bits) and the distance table built for the single code of
6 bits of the symbol 29 (13 extra bits), with `proc_buffer = 0`: the pair is decoded as
length 227 and distance 24577 and takes `9 + 5 + 6 + 13 = 33` bits, more than the 24 bits
guaranteed and more than the 32 bits of `proc_buffer`; in `dynamic_decoder_get_offset`
the shift amount for the extra bits is `19 - proc_bits_num` with `proc_bits_num = 20`. -/
theorem dynamic_pair_of_33_bits :
    (∀ i, (BUILD_LOOKUP_TABLE (fun i => if i = 284 then 9 else 0)
      (get_huffman_table_1 (fun i => if i = 284 then 9 else 0) (fun _ => 0)) 9 286 i).2 ≤ 9) ∧
    (∀ i, (BUILD_LOOKUP_TABLE (fun i => if i = 29 then 6 else 0)
      (get_huffman_table_2 (fun i => if i = 29 then 6 else 0) (fun _ => 0)) 6 30 i).2 ≤ 6) ∧
    (dynamic_decode_symbol
      (BUILD_LOOKUP_TABLE (fun i => if i = 284 then 9 else 0)
        (get_huffman_table_1 (fun i => if i = 284 then 9 else 0) (fun _ => 0)) 9 286)
      (BUILD_LOOKUP_TABLE (fun i => if i = 29 then 6 else 0)
        (get_huffman_table_2 (fun i => if i = 29 then 6 else 0) (fun _ => 0)) 6 30)
      (DecState.mk [] 0 32 0 0 false false 0 [])).2 = 33 ∧
    (dynamic_decode_symbol
      (BUILD_LOOKUP_TABLE (fun i => if i = 284 then 9 else 0)
        (get_huffman_table_1 (fun i => if i = 284 then 9 else 0) (fun _ => 0)) 9 286)
      (BUILD_LOOKUP_TABLE (fun i => if i = 29 then 6 else 0)
        (get_huffman_table_2 (fun i => if i = 29 then 6 else 0) (fun _ => 0)) 6 30)
      (DecState.mk [] 0 32 0 0 false false 0 [])).1.output = [0x40, 192, 1, 227] ∧
    (dynamic_length 284 9 0).2 + 6 = 20 ∧ dynamic_offset_shift 29 = 19 :=
  ⟨BUILD_LOOKUP_TABLE_bits _ _ 9 286, BUILD_LOOKUP_TABLE_bits _ _ 6 30, by decide, by decide,
    by decide, by decide⟩

/-- C39 (amended): in the dynamic main loop, for first-level tables with literal/length
bit counts of at most 9 and distance bit counts of at most 6 (as `BUILD_LOOKUP_TABLE_1`
and `_2` build them), one length/distance pair takes at most `9 + 5 + 6 + 13 = 33` bits.
The shift amounts of the length branch (`k - edoc_valid_bits`, `k = 31 .. 27`) are not
negative, `proc_bits_num ≤ 14` on entry of `dynamic_decoder_get_offset`, so `26 -
proc_bits_num` is not negative, and the shift amount for the extra bits of the distance
is not negative exactly when the pair takes at most 32 bits, in particular when it lies
inside the 24 bits that the refill loop leaves unless the input is used up. -/
theorem dynamic_pair_takes_at_most_33_bits (T1 T2 : Nat → Nat × Nat) (st : DecState)
    (h1 : ∀ i, (T1 i).2 ≤ 9) (h2 : ∀ i, (T2 i).2 ≤ 6)
    (h : 257 ≤ (T1 ((st.proc_buffer &&& 0xFF800000) >>> 23)).1) :
    (dynamic_decode_symbol T1 T2 st).2 ≤ 33 ∧
    (∀ k, k ∈ dynamic_length_shifts → (T1 ((st.proc_buffer &&& 0xFF800000) >>> 23)).2 ≤ k) ∧
    (dynamic_length (T1 ((st.proc_buffer &&& 0xFF800000) >>> 23)).1
      (T1 ((st.proc_buffer &&& 0xFF800000) >>> 23)).2 st.proc_buffer).2 ≤ 14 ∧
    ((dynamic_decode_symbol T1 T2 st).2 ≤ 32 ↔
      (dynamic_length (T1 ((st.proc_buffer &&& 0xFF800000) >>> 23)).1
          (T1 ((st.proc_buffer &&& 0xFF800000) >>> 23)).2 st.proc_buffer).2 +
        (T2 ((st.proc_buffer >>> (26 -
          (dynamic_length (T1 ((st.proc_buffer &&& 0xFF800000) >>> 23)).1
            (T1 ((st.proc_buffer &&& 0xFF800000) >>> 23)).2 st.proc_buffer).2)) &&& 0x3F)).2 ≤
      dynamic_offset_shift
        (T2 ((st.proc_buffer >>> (26 -
          (dynamic_length (T1 ((st.proc_buffer &&& 0xFF800000) >>> 23)).1
            (T1 ((st.proc_buffer &&& 0xFF800000) >>> 23)).2 st.proc_buffer).2)) &&& 0x3F)).1) ∧
    (∀ s : DecState,
      24 ≤ (STATIC_INPUT 3 s).buffer_bits_num ∨ (STATIC_INPUT 3 s).done_input = true) := by
  have hv1 := h1 ((st.proc_buffer &&& 0xFF800000) >>> 23)
  obtain ⟨l1, l2⟩ := dynamic_length_bits (T1 ((st.proc_buffer &&& 0xFF800000) >>> 23)).1
    (T1 ((st.proc_buffer &&& 0xFF800000) >>> 23)).2 st.proc_buffer
  rw [dynamic_decode_pair T1 T2 st h]
  simp only
  generalize (dynamic_length (T1 ((st.proc_buffer &&& 0xFF800000) >>> 23)).1
    (T1 ((st.proc_buffer &&& 0xFF800000) >>> 23)).2 st.proc_buffer).2 = p at *
  obtain ⟨b1, b2, b3⟩ := dynamic_decoder_get_offset_bits p st.proc_buffer T2
  have hv2 := h2 ((st.proc_buffer >>> (26 - p)) &&& 0x3F)
  rw [b1]
  refine ⟨by omega, ?_, by omega, by omega, STATIC_INPUT_fills⟩
  intro k hk
  simp only [dynamic_length_shifts, List.mem_cons, List.mem_singleton, List.not_mem_nil,
    or_false] at hk
  omega

theorem dynamic_pair_takes_at_most_33_bits_witness :
    (∀ i, (((fun _ => (284, 9)) : Nat → Nat × Nat) i).2 ≤ 9) ∧
    (∀ i, (((fun _ => (29, 6)) : Nat → Nat × Nat) i).2 ≤ 6) ∧
    257 ≤ (((fun _ => (284, 9)) : Nat → Nat × Nat)
      (((DecState.mk [] 0 32 0 0 false false 0 []).proc_buffer &&& 0xFF800000) >>> 23)).1 ∧
    (dynamic_decode_symbol (fun _ => (284, 9)) (fun _ => (29, 6))
      (DecState.mk [] 0 32 0 0 false false 0 [])).2 ≤ 33 :=
  ⟨fun _ => Nat.le_refl 9, fun _ => Nat.le_refl 6, by decide,
    (dynamic_pair_takes_at_most_33_bits (fun _ => (284, 9)) (fun _ => (29, 6))
      (DecState.mk [] 0 32 0 0 false false 0 []) (fun _ => Nat.le_refl 9)
      (fun _ => Nat.le_refl 6) (by decide)).1⟩

end HlsDeflate
